import Mathlib

set_option linter.unusedVariables false


namespace EigenGebp

/-- Memory addressed relative to a base pointer: `b q` is the scalar at `base[q]`. -/
abbrev Buf (α : Type) := Int → α

/-- The values taken by the counter of `for(int i=lo; i<hi; i+=step)` (with `step > 0`), in order. -/
def forRange (lo hi step : Int) : List Int :=
  (List.range ((hi - lo + step - 1) / step).toNat).map (fun (t : Nat) => lo + (t : Int) * step)

/-- Functor `ei_conj_if<b>`: conjugation when `b`, identity otherwise. -/
def ei_conj_if {α : Type} [Star α] (b : Bool) (x : α) : α := if b then star x else x

/-- One store event of a packer: destination index, then the two source coordinates read. -/
abbrev PackEvent := Int × Int × Int

/-- State of a packing routine: destination buffer, write cursor `count`, and the
ghost record of every store executed so far, in program order. -/
structure PackState (α : Type) where
  block : Buf α
  count : Int
  log : List PackEvent

/-- Statement `block[count+off] = v`, where `v` was read from source coordinates `(r, c)`. -/
def PackState.store {α : Type} (s : PackState α) (off : Int) (v : α) (r c : Int) : PackState α :=
  { block := Function.update s.block (s.count + off) v
    count := s.count
    log := s.log ++ [(s.count + off, r, c)] }

/-- Statement `count += n`. -/
def PackState.advance {α : Type} (s : PackState α) (n : Int) : PackState α :=
  { s with count := s.count + n }

/-- The debug assertion shared by the three packers. -/
def pack_assert ( PanelMode : Bool) (stride offset depth : Int) : Bool :=
  ((!PanelMode) && stride == 0 && offset == 0) || (PanelMode && decide (stride ≥ depth) && decide (offset ≤ stride))

/-- Body shared by the first two row bands of `ei_gemm_pack_lhs`: a tile of `W` rows starting at row `i`
(`W = mr` in the loop over full tiles, `W = PacketSize` for the partial tile). -/
def pack_lhs_tile {α : Type} (cj : α → α) (lhs : Int → Int → α) ( PanelMode : Bool)
    (W depth stride offset : Int) (s : PackState α) (i : Int) : PackState α :=
  let s := if PanelMode then s.advance (W * offset) else s
  let s := (forRange 0 depth 1).foldl (fun s k =>
    (forRange 0 W 1).foldl (fun s w => (s.store 0 (cj (lhs (i + w) k)) (i + w) k).advance 1) s) s
  if PanelMode then s.advance (W * (stride - offset - depth)) else s

/-- Body of the last loop of `ei_gemm_pack_lhs`: one row stored contiguously. -/
def pack_lhs_row {α : Type} (cj : α → α) (lhs : Int → Int → α) ( PanelMode : Bool)
    (depth stride offset : Int) (s : PackState α) (i : Int) : PackState α :=
  let s := if PanelMode then s.advance offset else s
  let s := (forRange 0 depth 1).foldl (fun s k => (s.store 0 (cj (lhs i k)) i k).advance 1) s
  if PanelMode then s.advance (stride - offset - depth) else s

/-- `ei_gemm_pack_lhs<Scalar, mr, StorageOrder, Conjugate, PanelMode>::operator()`.
`lhs i k` is the data mapper `lhs(i,k)` built from `_lhs`, `lhsStride` and the storage order;
`IsComplex` is `NumTraits<Scalar>::IsComplex`. -/
def ei_gemm_pack_lhs {α : Type} [Star α] (mr PacketSize : Int) ( IsComplex Conjugate PanelMode : Bool)
    (blockA : Buf α) (lhs : Int → Int → α) (depth rows stride offset : Int) : PackState α :=
  let cj : α → α := ei_conj_if (IsComplex && Conjugate)
  let s : PackState α := { block := blockA, count := 0, log := [] }
  let peeled_mc := rows.tdiv mr * mr
  let s := (forRange 0 peeled_mc mr).foldl (pack_lhs_tile cj lhs PanelMode mr depth stride offset) s
  let sp : PackState α × Int :=
    if rows - peeled_mc ≥ PacketSize then
      (pack_lhs_tile cj lhs PanelMode PacketSize depth stride offset s peeled_mc, peeled_mc + PacketSize)
    else (s, peeled_mc)
  (forRange sp.2 rows 1).foldl (pack_lhs_row cj lhs PanelMode depth stride offset) sp.1

/-- Replaying a store log on a buffer, writing `val r c` for the event read from `(r, c)`. -/
def replay {α : Type} (val : Int → Int → α) (L : List PackEvent) (b : Buf α) : Buf α :=
  L.foldl (fun b e => Function.update b e.1 (val e.2.1 e.2.2)) b

/-- Store events of one tile of width `W`: `depth` groups of `W` consecutive slots from `base`. -/
def tileLog (base : Int) (W depth : Nat) (i : Int) : List PackEvent :=
  (List.range depth).flatMap (fun (k : Nat) => (List.range W).map (fun (w : Nat) => (base + (k : Int) * W + w, i + w, (k : Int))))

/-- Store events of one contiguously stored row. -/
def rowLog (base : Int) (depth : Nat) (i : Int) : List PackEvent :=
  (List.range depth).map (fun (k : Nat) => (base + (k : Int), i, (k : Int)))

/-- Closed form of the store log of the left packer, for an effective stride `es` and offset `eo`. -/
def lhsLog (mr PS rows depth : Nat) (es eo : Int) : List PackEvent :=
  let P := rows / mr * mr
  let P2 := if rows - P ≥ PS then P + PS else P
  (List.range (rows / mr)).flatMap (fun (t : Nat) => tileLog (((t * mr : Nat) : Int) * es + mr * eo) mr depth ((t * mr : Nat) : Int))
  ++ (if rows - P ≥ PS then tileLog ((P : Int) * es + PS * eo) PS depth P else [])
  ++ (List.range (rows - P2)).flatMap (fun (t : Nat) => rowLog (((P2 + t : Nat) : Int) * es + eo) depth ((P2 + t : Nat) : Int))

/-- Cursor discipline of a packing state: the cursor is non-negative, the stores so far went to
strictly increasing indices, all of them in `[0, count)`. -/
def PackState.Increasing {α : Type} (s : PackState α) : Prop :=
  0 ≤ s.count ∧ (s.log.map (fun e => e.1)).Pairwise (fun a b => a < b) ∧ ∀ e ∈ s.log, 0 ≤ e.1 ∧ e.1 < s.count

/-- A packing state whose stores so far filled exactly the indices `0, 1, ..., count-1`, in that order. -/
def PackState.Sequential {α : Type} (s : PackState α) : Prop :=
  0 ≤ s.count ∧ s.log.map (fun e => e.1) = (List.range s.count.toNat).map (fun (n : Nat) => (n : Int))

/-- The five statements repeated in every full-tile loop body of the right packers:
`blockB[count+0] = v0; blockB[count+1] = v1; if(nr==4) blockB[count+2] = v2; if(nr==4) blockB[count+3] = v3; count += nr;`
where the values were read at depth index `k` from the columns `j2+0 .. j2+3`. -/
def pack_rhs_group {α : Type} (nr : Int) (s : PackState α) (v0 v1 v2 v3 : α) (k j2 : Int) : PackState α :=
  let s := s.store 0 v0 k (j2 + 0)
  let s := s.store 1 v1 k (j2 + 1)
  let s := if nr = 4 then s.store 2 v2 k (j2 + 2) else s
  let s := if nr = 4 then s.store 3 v3 k (j2 + 3) else s
  s.advance nr

/-- `ei_gemm_pack_rhs<Scalar, nr, ColMajor, PanelMode>::operator()`. -/
def ei_gemm_pack_rhs_ColMajor {α : Type} [Mul α] [One α] [DecidableEq α] (nr : Int) ( PanelMode : Bool)
    (blockB : Buf α) (rhs : Buf α) (rhsStride : Int) (alpha : α) (depth cols stride offset : Int) :
    PackState α :=
  let hasAlpha : Bool := decide (alpha ≠ 1)
  let packet_cols := cols.tdiv nr * nr
  let s : PackState α := { block := blockB, count := 0, log := [] }
  let s := (forRange 0 packet_cols nr).foldl (fun s j2 =>
    let s := if PanelMode then s.advance (nr * offset) else s
    let b0 : Int → α := fun k => rhs ((j2 + 0) * rhsStride + k)
    let b1 : Int → α := fun k => rhs ((j2 + 1) * rhsStride + k)
    let b2 : Int → α := fun k => rhs ((j2 + 2) * rhsStride + k)
    let b3 : Int → α := fun k => rhs ((j2 + 3) * rhsStride + k)
    let s :=
      if hasAlpha then
        (forRange 0 depth 1).foldl (fun s k =>
          pack_rhs_group nr s (alpha * b0 k) (alpha * b1 k) (alpha * b2 k) (alpha * b3 k) k j2) s
      else
        (forRange 0 depth 1).foldl (fun s k => pack_rhs_group nr s (b0 k) (b1 k) (b2 k) (b3 k) k j2) s
    if PanelMode then s.advance (nr * (stride - offset - depth)) else s) s
  (forRange packet_cols cols 1).foldl (fun s j2 =>
    let s := if PanelMode then s.advance offset else s
    let b0 : Int → α := fun k => rhs ((j2 + 0) * rhsStride + k)
    let s :=
      if hasAlpha then
        (forRange 0 depth 1).foldl (fun s k => (s.store 0 (alpha * b0 k) k j2).advance 1) s
      else
        (forRange 0 depth 1).foldl (fun s k => (s.store 0 (b0 k) k j2).advance 1) s
    if PanelMode then s.advance (stride - offset - depth) else s) s

/-- `ei_gemm_pack_rhs<Scalar, nr, RowMajor, PanelMode>::operator()`. -/
def ei_gemm_pack_rhs_RowMajor {α : Type} [Mul α] [One α] [DecidableEq α] (nr : Int) ( PanelMode : Bool)
    (blockB : Buf α) (rhs : Buf α) (rhsStride : Int) (alpha : α) (depth cols stride offset : Int) :
    PackState α :=
  let hasAlpha : Bool := decide (alpha ≠ 1)
  let packet_cols := cols.tdiv nr * nr
  let s : PackState α := { block := blockB, count := 0, log := [] }
  let s := (forRange 0 packet_cols nr).foldl (fun s j2 =>
    let s := if PanelMode then s.advance (nr * offset) else s
    let s :=
      if hasAlpha then
        (forRange 0 depth 1).foldl (fun s k =>
          let b0 : Int → α := fun c => rhs (k * rhsStride + j2 + c)
          pack_rhs_group nr s (alpha * b0 0) (alpha * b0 1) (alpha * b0 2) (alpha * b0 3) k j2) s
      else
        (forRange 0 depth 1).foldl (fun s k =>
          let b0 : Int → α := fun c => rhs (k * rhsStride + j2 + c)
          pack_rhs_group nr s (b0 0) (b0 1) (b0 2) (b0 3) k j2) s
    if PanelMode then s.advance (nr * (stride - offset - depth)) else s) s
  (forRange packet_cols cols 1).foldl (fun s j2 =>
    let s := if PanelMode then s.advance offset else s
    let b0 : Int → α := fun q => rhs (j2 + q)
    let s := (forRange 0 depth 1).foldl (fun s k => (s.store 0 (alpha * b0 (k * rhsStride)) k j2).advance 1) s
    if PanelMode then s.advance (stride - offset - depth) else s) s

/-- Store events of one depth index of a full column tile of the right packers. -/
def groupLog (nr : Int) (c k j2 : Int) : List PackEvent :=
  [(c + 0, k, j2 + 0), (c + 1, k, j2 + 1)] ++
    (if nr = 4 then [(c + 2, k, j2 + 2)] else []) ++ (if nr = 4 then [(c + 3, k, j2 + 3)] else [])

/-- Closed form of the store log of the right packers, for an effective stride `es` and offset `eo`. -/
def rhsLog (nr cols depth : Nat) (es eo : Int) : List PackEvent :=
  (List.range (cols / nr)).flatMap (fun (t : Nat) =>
    (List.range depth).flatMap (fun (k : Nat) =>
      groupLog nr (((t * nr : Nat) : Int) * es + nr * eo + (k : Int) * nr) k ((t * nr : Nat) : Int)))
  ++ (List.range (cols - cols / nr * nr)).flatMap (fun (t : Nat) =>
    (List.range depth).map (fun (k : Nat) =>
      ((((cols / nr * nr + t : Nat) : Int) * es + eo + (k : Int), (k : Int), ((cols / nr * nr + t : Nat) : Int)))))

/-- Re-reading a packed left buffer tile by tile: the walk of the three row bands of the packer (its store
log in non-panel mode) is repeated, and the statement `blockA[count++] = cj(lhs(i,k))` is replaced by
`view(i,k) = cj(blockA[count++])`, which undoes the conjugation. -/
def unpack_lhs {α : Type} [Star α] (mr PS rows depth : Nat) ( IsComplex Conjugate : Bool)
    (blockA : Buf α) (init : Int → Int → α) : Int → Int → α :=
  (lhsLog mr PS rows depth depth 0).foldl
    (fun view e => fun i k =>
      if i = e.2.1 ∧ k = e.2.2 then ei_conj_if (IsComplex && Conjugate) (blockA e.1) else view i k) init

/-- A SIMD register: lane `l` (for `0 ≤ l < PacketSize`) holds the scalar `p l`. -/
abbrev Packet (α : Type) := Int → α

/-- `ei_pset1(x)`: all lanes equal to `x`. -/
def ei_pset1 {α : Type} (x : α) : Packet α := fun _ => x

/-- `ei_pload(&m[p])` and `ei_ploadu(&m[p])`: lane `l` is `m[p+l]`. -/
def ei_pload {α : Type} (m : Buf α) (p : Int) : Packet α := fun l => m (p + l)

/-- `ei_pstore(&m[p], v)` and `ei_pstoreu(&m[p], v)`: the `PacketSize` lanes of `v` go to `m[p .. p+PacketSize)`. -/
def ei_pstore {α : Type} (PacketSize : Int) (m : Buf α) (p : Int) (v : Packet α) : Buf α :=
  fun q => if p ≤ q ∧ q < p + PacketSize then v (q - p) else m q

/-- `ei_padd(a, b)` on packets. -/
def ei_padd {α : Type} [Add α] (a b : Packet α) : Packet α := fun l => a l + b l

/-- Modelled from the spec: the conjugate-aware multiply-add policy `Conj` of the kernel (its declaration,
`ei_conj_helper<ConjLhs, ConjRhs>`, is not among the sources): the two flags are fixed per instantiation. -/
structure ei_conj_helper where
  ConjLhs : Bool
  ConjRhs : Bool

/-- Modelled from the spec: `cj.pmul(x, y)` multiplies after conjugating the flagged operands. -/
def ei_conj_helper.pmul {α : Type} [Mul α] [Star α] (cj : ei_conj_helper) (x y : α) : α :=
  ei_conj_if cj.ConjLhs x * ei_conj_if cj.ConjRhs y

/-- Modelled from the spec: `cj.pmadd(x, y, c)` is `pmul(x, y)` added to `c`. -/
def ei_conj_helper.pmadd {α : Type} [Add α] [Mul α] [Star α] (cj : ei_conj_helper) (x y c : α) : α :=
  cj.pmul x y + c

/-- `cj.pmul` on packets, lane by lane. -/
def ei_conj_helper.pmulP {α : Type} [Mul α] [Star α] (cj : ei_conj_helper) (x y : Packet α) : Packet α :=
  fun l => cj.pmul (x l) (y l)

/-- `cj.pmadd` on packets, lane by lane. -/
def ei_conj_helper.pmaddP {α : Type} [Add α] [Mul α] [Star α] (cj : ei_conj_helper) (x y c : Packet α) :
    Packet α :=
  fun l => cj.pmadd (x l) (y l) (c l)

/-- Macro `CJMADD(A,B,C,T)` (the variant without `EIGEN_HAS_FUSE_CJMADD`) on packets:
`T = B; T = cj.pmul(A,T); C = ei_padd(C,T);`. Returns the new `(C, T)`. -/
def CJMADD {α : Type} [Add α] [Mul α] [Star α] (cj : ei_conj_helper) (A B C : Packet α) :
    Packet α × Packet α :=
  let T := B
  let T := cj.pmulP A T
  (ei_padd C T, T)

/-- Macro `CJMADD(A,B,C,T)` on scalars. Returns the new `(C, T)`. -/
def CJMADDs {α : Type} [Add α] [Mul α] [Star α] (cj : ei_conj_helper) (A B C : α) : α × α :=
  let T := B
  let T := cj.pmul A T
  (C + T, T)

/-- Accumulator registers `C0 .. C7` of a full row tile. -/
structure Acc8 (β : Type) where
  C0 : β
  C1 : β
  C2 : β
  C3 : β
  C4 : β
  C5 : β
  C6 : β
  C7 : β

/-- Accumulator registers `C0 .. C3` of a partial row tile or of a scalar row. -/
structure Acc4 (β : Type) where
  C0 : β
  C1 : β
  C2 : β
  C3 : β

/-- State of an inner product loop: the accumulators and the running pointers `blA`, `blB`. -/
structure InnerState (R : Type) where
  C : R
  blA : Int
  blB : Int

/-- The `unpack B` loop: `for(k<n) ei_pstore(&unpackedB[k*PacketSize], ei_pset1(blB[k]))`, where `blB` and
`unpackedB` are positions in the same memory `mem` (the one `blockB` points into). -/
def gebp_unpackB {α : Type} (PacketSize : Int) (mem : Buf α) (unpackedB blB n : Int) : Buf α :=
  (forRange 0 n 1).foldl
    (fun m k => ei_pstore PacketSize m (unpackedB + k * PacketSize) (ei_pset1 (m (blB + k)))) mem

/-- Full row tile, peeled depth loop body, branch `nr == 2` (source lines 153-189). -/
def gebp_full_peeled2 {α : Type} [Add α] [Mul α] [Star α] (cj : ei_conj_helper) (PacketSize : Int)
    (blockA U : Buf α) (blA blB : Int) (C : Acc8 (Packet α)) : Acc8 (Packet α) :=
  let C0 := C.C0
  let C1 := C.C1
  let C4 := C.C4
  let C5 := C.C5
  let A0 := ei_pload blockA (blA + 0 * PacketSize)
  let A1 := ei_pload blockA (blA + 1 * PacketSize)
  let B0 := ei_pload U (blB + 0 * PacketSize)
  let (C0, T0) := CJMADD cj A0 B0 C0
  let (C4, B0) := CJMADD cj A1 B0 C4
  let B0 := ei_pload U (blB + 1 * PacketSize)
  let (C1, T0) := CJMADD cj A0 B0 C1
  let (C5, B0) := CJMADD cj A1 B0 C5
  let A0 := ei_pload blockA (blA + 2 * PacketSize)
  let A1 := ei_pload blockA (blA + 3 * PacketSize)
  let B0 := ei_pload U (blB + 2 * PacketSize)
  let (C0, T0) := CJMADD cj A0 B0 C0
  let (C4, B0) := CJMADD cj A1 B0 C4
  let B0 := ei_pload U (blB + 3 * PacketSize)
  let (C1, T0) := CJMADD cj A0 B0 C1
  let (C5, B0) := CJMADD cj A1 B0 C5
  let A0 := ei_pload blockA (blA + 4 * PacketSize)
  let A1 := ei_pload blockA (blA + 5 * PacketSize)
  let B0 := ei_pload U (blB + 4 * PacketSize)
  let (C0, T0) := CJMADD cj A0 B0 C0
  let (C4, B0) := CJMADD cj A1 B0 C4
  let B0 := ei_pload U (blB + 5 * PacketSize)
  let (C1, T0) := CJMADD cj A0 B0 C1
  let (C5, B0) := CJMADD cj A1 B0 C5
  let A0 := ei_pload blockA (blA + 6 * PacketSize)
  let A1 := ei_pload blockA (blA + 7 * PacketSize)
  let B0 := ei_pload U (blB + 6 * PacketSize)
  let (C0, T0) := CJMADD cj A0 B0 C0
  let (C4, B0) := CJMADD cj A1 B0 C4
  let B0 := ei_pload U (blB + 7 * PacketSize)
  let (C1, T0) := CJMADD cj A0 B0 C1
  let (C5, B0) := CJMADD cj A1 B0 C5
  { C with C0 := C0, C1 := C1, C4 := C4, C5 := C5 }

/-- Full row tile, peeled depth loop body, branch `nr != 2` (source lines 193-253). -/
def gebp_full_peeled4 {α : Type} [Add α] [Mul α] [Star α] (cj : ei_conj_helper) (PacketSize : Int)
    (blockA U : Buf α) (blA blB : Int) (C : Acc8 (Packet α)) : Acc8 (Packet α) :=
  let C0 := C.C0
  let C1 := C.C1
  let C2 := C.C2
  let C3 := C.C3
  let C4 := C.C4
  let C5 := C.C5
  let C6 := C.C6
  let C7 := C.C7
  let A0 := ei_pload blockA (blA + 0 * PacketSize)
  let A1 := ei_pload blockA (blA + 1 * PacketSize)
  let B0 := ei_pload U (blB + 0 * PacketSize)
  let B1 := ei_pload U (blB + 1 * PacketSize)
  let (C0, T0) := CJMADD cj A0 B0 C0
  let B2 := ei_pload U (blB + 2 * PacketSize)
  let (C4, B0) := CJMADD cj A1 B0 C4
  let B3 := ei_pload U (blB + 3 * PacketSize)
  let B0 := ei_pload U (blB + 4 * PacketSize)
  let (C1, T0) := CJMADD cj A0 B1 C1
  let (C5, B1) := CJMADD cj A1 B1 C5
  let B1 := ei_pload U (blB + 5 * PacketSize)
  let (C2, T0) := CJMADD cj A0 B2 C2
  let (C6, B2) := CJMADD cj A1 B2 C6
  let B2 := ei_pload U (blB + 6 * PacketSize)
  let (C3, T0) := CJMADD cj A0 B3 C3
  let A0 := ei_pload blockA (blA + 2 * PacketSize)
  let (C7, B3) := CJMADD cj A1 B3 C7
  let A1 := ei_pload blockA (blA + 3 * PacketSize)
  let B3 := ei_pload U (blB + 7 * PacketSize)
  let (C0, T0) := CJMADD cj A0 B0 C0
  let (C4, B0) := CJMADD cj A1 B0 C4
  let B0 := ei_pload U (blB + 8 * PacketSize)
  let (C1, T0) := CJMADD cj A0 B1 C1
  let (C5, B1) := CJMADD cj A1 B1 C5
  let B1 := ei_pload U (blB + 9 * PacketSize)
  let (C2, T0) := CJMADD cj A0 B2 C2
  let (C6, B2) := CJMADD cj A1 B2 C6
  let B2 := ei_pload U (blB + 10 * PacketSize)
  let (C3, T0) := CJMADD cj A0 B3 C3
  let A0 := ei_pload blockA (blA + 4 * PacketSize)
  let (C7, B3) := CJMADD cj A1 B3 C7
  let A1 := ei_pload blockA (blA + 5 * PacketSize)
  let B3 := ei_pload U (blB + 11 * PacketSize)
  let (C0, T0) := CJMADD cj A0 B0 C0
  let (C4, B0) := CJMADD cj A1 B0 C4
  let B0 := ei_pload U (blB + 12 * PacketSize)
  let (C1, T0) := CJMADD cj A0 B1 C1
  let (C5, B1) := CJMADD cj A1 B1 C5
  let B1 := ei_pload U (blB + 13 * PacketSize)
  let (C2, T0) := CJMADD cj A0 B2 C2
  let (C6, B2) := CJMADD cj A1 B2 C6
  let B2 := ei_pload U (blB + 14 * PacketSize)
  let (C3, T0) := CJMADD cj A0 B3 C3
  let A0 := ei_pload blockA (blA + 6 * PacketSize)
  let (C7, B3) := CJMADD cj A1 B3 C7
  let A1 := ei_pload blockA (blA + 7 * PacketSize)
  let B3 := ei_pload U (blB + 15 * PacketSize)
  let (C0, T0) := CJMADD cj A0 B0 C0
  let (C4, B0) := CJMADD cj A1 B0 C4
  let (C1, T0) := CJMADD cj A0 B1 C1
  let (C5, B1) := CJMADD cj A1 B1 C5
  let (C2, T0) := CJMADD cj A0 B2 C2
  let (C6, B2) := CJMADD cj A1 B2 C6
  let (C3, T0) := CJMADD cj A0 B3 C3
  let (C7, B3) := CJMADD cj A1 B3 C7
  { C0 := C0, C1 := C1, C2 := C2, C3 := C3, C4 := C4, C5 := C5, C6 := C6, C7 := C7 }

/-- Full row tile, remaining depth loop body, branch `nr == 2` (source lines 264-273). -/
def gebp_full_rem2 {α : Type} [Add α] [Mul α] [Star α] (cj : ei_conj_helper) (PacketSize : Int)
    (blockA U : Buf α) (blA blB : Int) (C : Acc8 (Packet α)) : Acc8 (Packet α) :=
  let C0 := C.C0
  let C1 := C.C1
  let C4 := C.C4
  let C5 := C.C5
  let A0 := ei_pload blockA (blA + 0 * PacketSize)
  let A1 := ei_pload blockA (blA + 1 * PacketSize)
  let B0 := ei_pload U (blB + 0 * PacketSize)
  let (C0, T0) := CJMADD cj A0 B0 C0
  let (C4, B0) := CJMADD cj A1 B0 C4
  let B0 := ei_pload U (blB + 1 * PacketSize)
  let (C1, T0) := CJMADD cj A0 B0 C1
  let (C5, B0) := CJMADD cj A1 B0 C5
  { C with C0 := C0, C1 := C1, C4 := C4, C5 := C5 }

/-- Full row tile, remaining depth loop body, branch `nr != 2` (source lines 277-293). -/
def gebp_full_rem4 {α : Type} [Add α] [Mul α] [Star α] (cj : ei_conj_helper) (PacketSize : Int)
    (blockA U : Buf α) (blA blB : Int) (C : Acc8 (Packet α)) : Acc8 (Packet α) :=
  let C0 := C.C0
  let C1 := C.C1
  let C2 := C.C2
  let C3 := C.C3
  let C4 := C.C4
  let C5 := C.C5
  let C6 := C.C6
  let C7 := C.C7
  let A0 := ei_pload blockA (blA + 0 * PacketSize)
  let A1 := ei_pload blockA (blA + 1 * PacketSize)
  let B0 := ei_pload U (blB + 0 * PacketSize)
  let B1 := ei_pload U (blB + 1 * PacketSize)
  let (C0, T0) := CJMADD cj A0 B0 C0
  let B2 := ei_pload U (blB + 2 * PacketSize)
  let (C4, B0) := CJMADD cj A1 B0 C4
  let B3 := ei_pload U (blB + 3 * PacketSize)
  let (C1, T0) := CJMADD cj A0 B1 C1
  let (C5, B1) := CJMADD cj A1 B1 C5
  let (C2, T0) := CJMADD cj A0 B2 C2
  let (C6, B2) := CJMADD cj A1 B2 C6
  let (C3, T0) := CJMADD cj A0 B3 C3
  let (C7, B3) := CJMADD cj A1 B3 C7
  { C0 := C0, C1 := C1, C2 := C2, C3 := C3, C4 := C4, C5 := C5, C6 := C6, C7 := C7 }

/-- The two depth loops of a full row tile (source lines 148-298): blocks of 4 depth steps, then the rest. -/
def gebp_full_inner {α : Type} [Add α] [Mul α] [Star α] (cj : ei_conj_helper) (mr nr PacketSize : Int)
    (blockA U : Buf α) (depth peeled_kc : Int) (s : InnerState (Acc8 (Packet α))) :
    InnerState (Acc8 (Packet α)) :=
  let s := (forRange 0 peeled_kc 4).foldl (fun s _ =>
    { C := if nr = 2 then gebp_full_peeled2 cj PacketSize blockA U s.blA s.blB s.C
           else gebp_full_peeled4 cj PacketSize blockA U s.blA s.blB s.C
      blB := s.blB + 4 * nr * PacketSize
      blA := s.blA + 4 * mr }) s
  (forRange peeled_kc depth 1).foldl (fun s _ =>
    { C := if nr = 2 then gebp_full_rem2 cj PacketSize blockA U s.blA s.blB s.C
           else gebp_full_rem4 cj PacketSize blockA U s.blA s.blB s.C
      blB := s.blB + nr * PacketSize
      blA := s.blA + mr }) s

/-- One full row tile of `mr` rows against a column tile (source lines 117-328). The registers the source
leaves uninitialised when `nr != 4` are zero here; they are never stored in that case. -/
def gebp_full_tile {α : Type} [Zero α] [Add α] [Mul α] [Star α] (cj : ei_conj_helper) (mr nr PacketSize : Int)
    (resStride : Int) (blockA U : Buf α) (unpackedB depth peeled_kc strideA offsetA j2 : Int)
    (res : Buf α) (i : Int) : Buf α :=
  let blA := i * strideA + offsetA * mr
  let C : Acc8 (Packet α) :=
    { C0 := ei_pset1 0, C1 := ei_pset1 0, C2 := ei_pset1 0, C3 := ei_pset1 0,
      C4 := ei_pset1 0, C5 := ei_pset1 0, C6 := ei_pset1 0, C7 := ei_pset1 0 }
  let r0 := (j2 + 0) * resStride + i
  let r1 := r0 + resStride
  let r2 := r1 + resStride
  let r3 := r2 + resStride
  let blB := unpackedB
  let C := (gebp_full_inner cj mr nr PacketSize blockA U depth peeled_kc { C := C, blA := blA, blB := blB }).C
  let R0 := ei_pload res r0
  let R1 := ei_pload res r1
  let R2 := if nr = 4 then ei_pload res r2 else ei_pset1 0
  let R3 := if nr = 4 then ei_pload res r3 else ei_pset1 0
  let R4 := ei_pload res (r0 + PacketSize)
  let R5 := ei_pload res (r1 + PacketSize)
  let R6 := if nr = 4 then ei_pload res (r2 + PacketSize) else ei_pset1 0
  let R7 := if nr = 4 then ei_pload res (r3 + PacketSize) else ei_pset1 0
  let C0 := ei_padd R0 C.C0
  let C1 := ei_padd R1 C.C1
  let C2 := if nr = 4 then ei_padd R2 C.C2 else C.C2
  let C3 := if nr = 4 then ei_padd R3 C.C3 else C.C3
  let C4 := ei_padd R4 C.C4
  let C5 := ei_padd R5 C.C5
  let C6 := if nr = 4 then ei_padd R6 C.C6 else C.C6
  let C7 := if nr = 4 then ei_padd R7 C.C7 else C.C7
  let res := ei_pstore PacketSize res r0 C0
  let res := ei_pstore PacketSize res r1 C1
  let res := if nr = 4 then ei_pstore PacketSize res r2 C2 else res
  let res := if nr = 4 then ei_pstore PacketSize res r3 C3 else res
  let res := ei_pstore PacketSize res (r0 + PacketSize) C4
  let res := ei_pstore PacketSize res (r1 + PacketSize) C5
  let res := if nr = 4 then ei_pstore PacketSize res (r2 + PacketSize) C6 else res
  let res := if nr = 4 then ei_pstore PacketSize res (r3 + PacketSize) C7 else res
  res

/-- Partial row tile, peeled depth loop body, branch `nr == 2` (source lines 348-369). -/
def gebp_partial_peeled2 {α : Type} [Add α] [Mul α] [Star α] (cj : ei_conj_helper) (PacketSize : Int)
    (blockA U : Buf α) (blA blB : Int) (C : Acc4 (Packet α)) : Acc4 (Packet α) :=
  let C0 := C.C0
  let C1 := C.C1
  let A0 := ei_pload blockA (blA + 0 * PacketSize)
  let B0 := ei_pload U (blB + 0 * PacketSize)
  let B1 := ei_pload U (blB + 1 * PacketSize)
  let (C0, B0) := CJMADD cj A0 B0 C0
  let B0 := ei_pload U (blB + 2 * PacketSize)
  let (C1, B1) := CJMADD cj A0 B1 C1
  let A0 := ei_pload blockA (blA + 1 * PacketSize)
  let B1 := ei_pload U (blB + 3 * PacketSize)
  let (C0, B0) := CJMADD cj A0 B0 C0
  let B0 := ei_pload U (blB + 4 * PacketSize)
  let (C1, B1) := CJMADD cj A0 B1 C1
  let A0 := ei_pload blockA (blA + 2 * PacketSize)
  let B1 := ei_pload U (blB + 5 * PacketSize)
  let (C0, B0) := CJMADD cj A0 B0 C0
  let B0 := ei_pload U (blB + 6 * PacketSize)
  let (C1, B1) := CJMADD cj A0 B1 C1
  let A0 := ei_pload blockA (blA + 3 * PacketSize)
  let B1 := ei_pload U (blB + 7 * PacketSize)
  let (C0, B0) := CJMADD cj A0 B0 C0
  let (C1, B1) := CJMADD cj A0 B1 C1
  { C with C0 := C0, C1 := C1 }

/-- Partial row tile, peeled depth loop body, branch `nr != 2` (source lines 373-413). -/
def gebp_partial_peeled4 {α : Type} [Add α] [Mul α] [Star α] (cj : ei_conj_helper) (PacketSize : Int)
    (blockA U : Buf α) (blA blB : Int) (C : Acc4 (Packet α)) : Acc4 (Packet α) :=
  let C0 := C.C0
  let C1 := C.C1
  let C2 := C.C2
  let C3 := C.C3
  let A0 := ei_pload blockA (blA + 0 * PacketSize)
  let B0 := ei_pload U (blB + 0 * PacketSize)
  let B1 := ei_pload U (blB + 1 * PacketSize)
  let (C0, B0) := CJMADD cj A0 B0 C0
  let B2 := ei_pload U (blB + 2 * PacketSize)
  let B3 := ei_pload U (blB + 3 * PacketSize)
  let B0 := ei_pload U (blB + 4 * PacketSize)
  let (C1, B1) := CJMADD cj A0 B1 C1
  let B1 := ei_pload U (blB + 5 * PacketSize)
  let (C2, B2) := CJMADD cj A0 B2 C2
  let B2 := ei_pload U (blB + 6 * PacketSize)
  let (C3, B3) := CJMADD cj A0 B3 C3
  let A0 := ei_pload blockA (blA + 1 * PacketSize)
  let B3 := ei_pload U (blB + 7 * PacketSize)
  let (C0, B0) := CJMADD cj A0 B0 C0
  let B0 := ei_pload U (blB + 8 * PacketSize)
  let (C1, B1) := CJMADD cj A0 B1 C1
  let B1 := ei_pload U (blB + 9 * PacketSize)
  let (C2, B2) := CJMADD cj A0 B2 C2
  let B2 := ei_pload U (blB + 10 * PacketSize)
  let (C3, B3) := CJMADD cj A0 B3 C3
  let A0 := ei_pload blockA (blA + 2 * PacketSize)
  let B3 := ei_pload U (blB + 11 * PacketSize)
  let (C0, B0) := CJMADD cj A0 B0 C0
  let B0 := ei_pload U (blB + 12 * PacketSize)
  let (C1, B1) := CJMADD cj A0 B1 C1
  let B1 := ei_pload U (blB + 13 * PacketSize)
  let (C2, B2) := CJMADD cj A0 B2 C2
  let B2 := ei_pload U (blB + 14 * PacketSize)
  let (C3, B3) := CJMADD cj A0 B3 C3
  let A0 := ei_pload blockA (blA + 3 * PacketSize)
  let B3 := ei_pload U (blB + 15 * PacketSize)
  let (C0, B0) := CJMADD cj A0 B0 C0
  let (C1, B1) := CJMADD cj A0 B1 C1
  let (C2, B2) := CJMADD cj A0 B2 C2
  let (C3, B3) := CJMADD cj A0 B3 C3
  { C0 := C0, C1 := C1, C2 := C2, C3 := C3 }

/-- Partial row tile, remaining depth loop body, branch `nr == 2` (source lines 424-430). -/
def gebp_partial_rem2 {α : Type} [Add α] [Mul α] [Star α] (cj : ei_conj_helper) (PacketSize : Int)
    (blockA U : Buf α) (blA blB : Int) (C : Acc4 (Packet α)) : Acc4 (Packet α) :=
  let C0 := C.C0
  let C1 := C.C1
  let A0 := ei_pload blockA (blA + 0 * PacketSize)
  let B0 := ei_pload U (blB + 0 * PacketSize)
  let (C0, T0) := CJMADD cj A0 B0 C0
  let B0 := ei_pload U (blB + 1 * PacketSize)
  let (C1, T0) := CJMADD cj A0 B0 C1
  { C with C0 := C0, C1 := C1 }

/-- Partial row tile, remaining depth loop body, branch `nr != 2` (source lines 434-446). -/
def gebp_partial_rem4 {α : Type} [Add α] [Mul α] [Star α] (cj : ei_conj_helper) (PacketSize : Int)
    (blockA U : Buf α) (blA blB : Int) (C : Acc4 (Packet α)) : Acc4 (Packet α) :=
  let C0 := C.C0
  let C1 := C.C1
  let C2 := C.C2
  let C3 := C.C3
  let A0 := ei_pload blockA (blA + 0 * PacketSize)
  let B0 := ei_pload U (blB + 0 * PacketSize)
  let B1 := ei_pload U (blB + 1 * PacketSize)
  let B2 := ei_pload U (blB + 2 * PacketSize)
  let B3 := ei_pload U (blB + 3 * PacketSize)
  let (C0, T0) := CJMADD cj A0 B0 C0
  let (C1, T1) := CJMADD cj A0 B1 C1
  let (C2, T0) := CJMADD cj A0 B2 C2
  let (C3, T1) := CJMADD cj A0 B3 C3
  { C0 := C0, C1 := C1, C2 := C2, C3 := C3 }

/-- The two depth loops of the partial row tile (source lines 343-451). -/
def gebp_partial_inner {α : Type} [Add α] [Mul α] [Star α] (cj : ei_conj_helper) (nr PacketSize : Int)
    (blockA U : Buf α) (depth peeled_kc : Int) (s : InnerState (Acc4 (Packet α))) :
    InnerState (Acc4 (Packet α)) :=
  let s := (forRange 0 peeled_kc 4).foldl (fun s _ =>
    { C := if nr = 2 then gebp_partial_peeled2 cj PacketSize blockA U s.blA s.blB s.C
           else gebp_partial_peeled4 cj PacketSize blockA U s.blA s.blB s.C
      blB := s.blB + 4 * nr * PacketSize
      blA := s.blA + 4 * PacketSize }) s
  (forRange peeled_kc depth 1).foldl (fun s _ =>
    { C := if nr = 2 then gebp_partial_rem2 cj PacketSize blockA U s.blA s.blB s.C
           else gebp_partial_rem4 cj PacketSize blockA U s.blA s.blB s.C
      blB := s.blB + nr * PacketSize
      blA := s.blA + PacketSize }) s

/-- The partial row tile of `PacketSize` rows against a column tile (source lines 329-457); the
accumulators start from the result entries. Registers not loaded when `nr != 4` are zero here. -/
def gebp_partial_tile {α : Type} [Zero α] [Add α] [Mul α] [Star α] (cj : ei_conj_helper) (nr PacketSize : Int)
    (resStride : Int) (blockA U : Buf α) (unpackedB depth peeled_kc strideA offsetA j2 : Int)
    (res : Buf α) (i : Int) : Buf α :=
  let blA := i * strideA + offsetA * PacketSize
  let C0 := ei_pload res ((j2 + 0) * resStride + i)
  let C1 := ei_pload res ((j2 + 1) * resStride + i)
  let C2 := if nr = 4 then ei_pload res ((j2 + 2) * resStride + i) else ei_pset1 0
  let C3 := if nr = 4 then ei_pload res ((j2 + 3) * resStride + i) else ei_pset1 0
  let blB := unpackedB
  let C := (gebp_partial_inner cj nr PacketSize blockA U depth peeled_kc
    { C := { C0 := C0, C1 := C1, C2 := C2, C3 := C3 }, blA := blA, blB := blB }).C
  let res := ei_pstore PacketSize res ((j2 + 0) * resStride + i) C.C0
  let res := ei_pstore PacketSize res ((j2 + 1) * resStride + i) C.C1
  let res := if nr = 4 then ei_pstore PacketSize res ((j2 + 2) * resStride + i) C.C2 else res
  let res := if nr = 4 then ei_pstore PacketSize res ((j2 + 3) * resStride + i) C.C3 else res
  res

/-- Scalar row, depth loop body, branch `nr == 2` (source lines 471-477). -/
def gebp_scalar_step2 {α : Type} [Add α] [Mul α] [Star α] (cj : ei_conj_helper) (PacketSize : Int)
    (blockA U : Buf α) (blA blB k : Int) (C : Acc4 α) : Acc4 α :=
  let C0 := C.C0
  let C1 := C.C1
  let A0 := blockA (blA + k)
  let B0 := U (blB + 0 * PacketSize)
  let (C0, T0) := CJMADDs cj A0 B0 C0
  let B0 := U (blB + 1 * PacketSize)
  let (C1, T0) := CJMADDs cj A0 B0 C1
  { C with C0 := C0, C1 := C1 }

/-- Scalar row, depth loop body, branch `nr != 2` (source lines 481-493). -/
def gebp_scalar_step4 {α : Type} [Add α] [Mul α] [Star α] (cj : ei_conj_helper) (PacketSize : Int)
    (blockA U : Buf α) (blA blB k : Int) (C : Acc4 α) : Acc4 α :=
  let C0 := C.C0
  let C1 := C.C1
  let C2 := C.C2
  let C3 := C.C3
  let A0 := blockA (blA + k)
  let B0 := U (blB + 0 * PacketSize)
  let B1 := U (blB + 1 * PacketSize)
  let B2 := U (blB + 2 * PacketSize)
  let B3 := U (blB + 3 * PacketSize)
  let (C0, T0) := CJMADDs cj A0 B0 C0
  let (C1, T1) := CJMADDs cj A0 B1 C1
  let (C2, T0) := CJMADDs cj A0 B2 C2
  let (C3, T1) := CJMADDs cj A0 B3 C3
  { C0 := C0, C1 := C1, C2 := C2, C3 := C3 }

/-- One remaining row against a column tile (source lines 458-502). -/
def gebp_scalar_row {α : Type} [Zero α] [Add α] [Mul α] [Star α] (cj : ei_conj_helper) (nr PacketSize : Int)
    (resStride : Int) (blockA U : Buf α) (unpackedB depth strideA offsetA j2 : Int)
    (res : Buf α) (i : Int) : Buf α :=
  let blA := i * strideA + offsetA
  let C : Acc4 α := { C0 := 0, C1 := 0, C2 := 0, C3 := 0 }
  let blB := unpackedB
  let s := (forRange 0 depth 1).foldl (fun (s : InnerState (Acc4 α)) k =>
    { C := if nr = 2 then gebp_scalar_step2 cj PacketSize blockA U s.blA s.blB k s.C
           else gebp_scalar_step4 cj PacketSize blockA U s.blA s.blB k s.C
      blB := s.blB + nr * PacketSize
      blA := s.blA }) { C := C, blA := blA, blB := blB }
  let C := s.C
  let res := Function.update res ((j2 + 0) * resStride + i) (res ((j2 + 0) * resStride + i) + C.C0)
  let res := Function.update res ((j2 + 1) * resStride + i) (res ((j2 + 1) * resStride + i) + C.C1)
  let res := if nr = 4 then
    Function.update res ((j2 + 2) * resStride + i) (res ((j2 + 2) * resStride + i) + C.C2) else res
  let res := if nr = 4 then
    Function.update res ((j2 + 3) * resStride + i) (res ((j2 + 3) * resStride + i) + C.C3) else res
  res

/-- Full row tile against one remainder column (source lines 516-545). -/
def gebp_col_full_tile {α : Type} [Add α] [Mul α] [Star α] (cj : ei_conj_helper) (mr PacketSize : Int)
    (resStride : Int) (blockA U : Buf α) (unpackedB depth strideA offsetA j2 : Int)
    (res : Buf α) (i : Int) : Buf α :=
  let blA := i * strideA + offsetA * mr
  let C0 := ei_pload res ((j2 + 0) * resStride + i)
  let C4 := ei_pload res ((j2 + 0) * resStride + i + PacketSize)
  let blB := unpackedB
  let s := (forRange 0 depth 1).foldl (fun (s : InnerState (Packet α × Packet α)) _ =>
    let C0 := s.C.1
    let C4 := s.C.2
    let A0 := ei_pload blockA (s.blA + 0 * PacketSize)
    let A1 := ei_pload blockA (s.blA + 1 * PacketSize)
    let B0 := ei_pload U (s.blB + 0 * PacketSize)
    let (C0, T0) := CJMADD cj A0 B0 C0
    let (C4, T1) := CJMADD cj A1 B0 C4
    { C := (C0, C4), blB := s.blB + PacketSize, blA := s.blA + mr }) { C := (C0, C4), blA := blA, blB := blB }
  let res := ei_pstore PacketSize res ((j2 + 0) * resStride + i) s.C.1
  let res := ei_pstore PacketSize res ((j2 + 0) * resStride + i + PacketSize) s.C.2
  res

/-- Partial row tile against one remainder column (source lines 546-563). -/
def gebp_col_partial_tile {α : Type} [Add α] [Mul α] [Star α] (cj : ei_conj_helper) (PacketSize : Int)
    (resStride : Int) (blockA U : Buf α) (unpackedB depth strideA offsetA j2 : Int)
    (res : Buf α) (i : Int) : Buf α :=
  let blA := i * strideA + offsetA * PacketSize
  let C0 := ei_pload res ((j2 + 0) * resStride + i)
  let blB := unpackedB
  let s := (forRange 0 depth 1).foldl (fun (s : InnerState (Packet α)) _ =>
    { C := cj.pmaddP (ei_pload blockA s.blA) (ei_pload U s.blB) s.C
      blB := s.blB + PacketSize
      blA := s.blA + PacketSize }) { C := C0, blA := blA, blB := blB }
  ei_pstore PacketSize res ((j2 + 0) * resStride + i) s.C

/-- One remaining row against one remainder column (source lines 564-576). -/
def gebp_col_scalar_row {α : Type} [Zero α] [Add α] [Mul α] [Star α] (cj : ei_conj_helper) (PacketSize : Int)
    (resStride : Int) (blockA U : Buf α) (unpackedB depth strideA offsetA j2 : Int)
    (res : Buf α) (i : Int) : Buf α :=
  let blA := i * strideA + offsetA
  let C0 : α := 0
  let blB := unpackedB
  let C0 := (forRange 0 depth 1).foldl (fun C0 k =>
    cj.pmadd (blockA (blA + k)) (U (blB + k * PacketSize)) C0) C0
  Function.update res ((j2 + 0) * resStride + i) (res ((j2 + 0) * resStride + i) + C0)

/-- Body of the loop over the micro vertical panels of `nr` columns (source lines 58-503): unpack the panel
of `blockB` into the scratch area, then the three row bands. The state is the result buffer and the memory
holding `blockB` and the scratch area. -/
def gebp_col_tile {α : Type} [Zero α] [Add α] [Mul α] [Star α] (cj : ei_conj_helper) (mr nr PacketSize : Int)
    (resStride : Int) (blockA : Buf α) (rows depth strideA strideB offsetA offsetB : Int)
    (peeled_mc peeled_mc2 peeled_kc unpackedB : Int) (st : Buf α × Buf α) (j2 : Int) : Buf α × Buf α :=
  let U := gebp_unpackB PacketSize st.2 unpackedB (j2 * strideB + offsetB * nr) (depth * nr)
  let res := (forRange 0 peeled_mc mr).foldl
    (gebp_full_tile cj mr nr PacketSize resStride blockA U unpackedB depth peeled_kc strideA offsetA j2) st.1
  let res :=
    if rows - peeled_mc ≥ PacketSize then
      gebp_partial_tile cj nr PacketSize resStride blockA U unpackedB depth peeled_kc strideA offsetA j2
        res peeled_mc
    else res
  let res := (forRange peeled_mc2 rows 1).foldl
    (gebp_scalar_row cj nr PacketSize resStride blockA U unpackedB depth strideA offsetA j2) res
  (res, U)

/-- Body of the loop over the remaining columns, one at a time (source lines 507-577). -/
def gebp_col_single {α : Type} [Zero α] [Add α] [Mul α] [Star α] (cj : ei_conj_helper) (mr PacketSize : Int)
    (resStride : Int) (blockA : Buf α) (rows depth strideA strideB offsetA offsetB : Int)
    (peeled_mc peeled_mc2 unpackedB : Int) (st : Buf α × Buf α) (j2 : Int) : Buf α × Buf α :=
  let U := gebp_unpackB PacketSize st.2 unpackedB (j2 * strideB + offsetB) depth
  let res := (forRange 0 peeled_mc mr).foldl
    (gebp_col_full_tile cj mr PacketSize resStride blockA U unpackedB depth strideA offsetA j2) st.1
  let res :=
    if rows - peeled_mc ≥ PacketSize then
      gebp_col_partial_tile cj PacketSize resStride blockA U unpackedB depth strideA offsetA j2
        res peeled_mc
    else res
  let res := (forRange peeled_mc2 rows 1).foldl
    (gebp_col_scalar_row cj PacketSize resStride blockA U unpackedB depth strideA offsetA j2) res
  (res, U)

/-- `ei_gebp_kernel<Scalar, mr, nr, Conj>::operator()`. `blockB` is index `0` of the memory `memB`; the
scratch pointer `unpackedB` is a position in the same memory (`none` is the null default, which selects
`blockB - strideB * nr * PacketSize`). Returns the result buffer and the memory `memB` after the call. -/
def ei_gebp_kernel {α : Type} [Zero α] [Add α] [Mul α] [Star α] (mr nr PacketSize : Int)
    (cj : ei_conj_helper) (res : Buf α) (resStride : Int) (blockA memB : Buf α)
    (rows depth cols strideA strideB offsetA offsetB : Int) (unpackedB : Option Int) : Buf α × Buf α :=
  let strideA := if strideA = -1 then depth else strideA
  let strideB := if strideB = -1 then depth else strideB
  let packet_cols := cols.tdiv nr * nr
  let peeled_mc := rows.tdiv mr * mr
  let peeled_mc2 := peeled_mc + (if rows - peeled_mc ≥ PacketSize then PacketSize else 0)
  let peeled_kc := depth.tdiv 4 * 4
  let unpackedB : Int :=
    match unpackedB with
    | none => 0 - strideB * nr * PacketSize
    | some p => p
  let st := (forRange 0 packet_cols nr).foldl
    (gebp_col_tile cj mr nr PacketSize resStride blockA rows depth strideA strideB offsetA offsetB
      peeled_mc peeled_mc2 peeled_kc unpackedB) (res, memB)
  (forRange packet_cols cols 1).foldl
    (gebp_col_single cj mr PacketSize resStride blockA rows depth strideA strideB offsetA offsetB
      peeled_mc peeled_mc2 unpackedB) st

/-- Index of the packed left buffer from which the kernel reads the entry of row `i` at depth `k`:
inside a full tile, inside the partial tile, or in a contiguous single row. -/
def lhsAddr (mr PacketSize rows strideA offsetA i k : Int) : Int :=
  let peeled_mc := rows.tdiv mr * mr
  if i < peeled_mc then (i / mr * mr) * strideA + offsetA * mr + k * mr + i % mr
  else if rows - peeled_mc ≥ PacketSize ∧ i < peeled_mc + PacketSize then
    peeled_mc * strideA + offsetA * PacketSize + k * PacketSize + (i - peeled_mc)
  else i * strideA + offsetA + k

/-- Index of `blockB` from which the kernel takes the entry at depth `k` of column `j`:
inside a full column tile, or in a remainder column. -/
def rhsAddr (nr cols strideB offsetB k j : Int) : Int :=
  let packet_cols := cols.tdiv nr * nr
  if j < packet_cols then (j / nr * nr) * strideB + offsetB * nr + k * nr + j % nr
  else j * strideB + offsetB + k

/-- One depth step of a full row tile: the body of the remaining loop with its pointer increments. -/
def fullStep {α : Type} [Add α] [Mul α] [Star α] (cj : ei_conj_helper) (mr nr PS : Int) (A U : Buf α)
    (s : InnerState (Acc8 (Packet α))) : InnerState (Acc8 (Packet α)) :=
  { C := if nr = 2 then gebp_full_rem2 cj PS A U s.blA s.blB s.C
         else gebp_full_rem4 cj PS A U s.blA s.blB s.C
    blB := s.blB + nr * PS
    blA := s.blA + mr }

/-- One depth step of the partial row tile: the body of the remaining loop with its pointer increments. -/
def partialStep {α : Type} [Add α] [Mul α] [Star α] (cj : ei_conj_helper) (nr PS : Int) (A U : Buf α)
    (s : InnerState (Acc4 (Packet α))) : InnerState (Acc4 (Packet α)) :=
  { C := if nr = 2 then gebp_partial_rem2 cj PS A U s.blA s.blB s.C
         else gebp_partial_rem4 cj PS A U s.blA s.blB s.C
    blB := s.blB + nr * PS
    blA := s.blA + PS }

/-- Specification of a kernel step on the result: `f i j` is added to the entry of row `i`, column `j`
(stored at index `j * rs + i`) for every cell of the rectangle `[i0,i1) × [j0,j1)`; nothing else changes. -/
def addRect {α : Type} [Add α] (rs : Int) (f : Int → Int → α) (i0 i1 j0 j1 : Int) (res : Buf α) : Buf α :=
  fun q => if i0 ≤ q % rs ∧ q % rs < i1 ∧ j0 ≤ q / rs ∧ q / rs < j1 then res q + f (q % rs) (q / rs) else res q

/-- The stride the kernel works with: `-1` stands for `depth`. -/
def gebp_stride (stride depth : Int) : Int := if stride = -1 then depth else stride

/-- The position of the scratch area the kernel works with, relative to `blockB`. -/
def gebp_scratch (unpackedB : Option Int) (strideB nr PacketSize : Int) : Int :=
  match unpackedB with
  | none => 0 - strideB * nr * PacketSize
  | some p => p

/-- Entry `(i,j)` of the product of the two packed operands, as the kernel addresses them. -/
def gebpDot {α : Type} [CommRing α] [Star α] (cj : ei_conj_helper) (mr PacketSize nr rows depth cols : Int)
    (strideA strideB offsetA offsetB : Int) (blockA memB : Buf α) (i j : Int) : α :=
  ∑ k in Finset.range depth.toNat,
    cj.pmul (blockA (lhsAddr mr PacketSize rows strideA offsetA i k))
      (memB (rhsAddr nr cols strideB offsetB k j))

/-- The storage order of the right operand, the template argument that selects the specialization of
`ei_gemm_pack_rhs`. -/
inductive StorageOrder where
  | ColMajor
  | RowMajor
deriving DecidableEq

/-- The right packer `ei_gemm_pack_rhs<Scalar, nr, StorageOrder, PanelMode>`: one of the two specializations. -/
def ei_gemm_pack_rhs {α : Type} [Mul α] [One α] [DecidableEq α] (order : StorageOrder) (nr : Int)
    ( PanelMode : Bool) (blockB rhs : Buf α) (rhsStride : Int) (alpha : α) (depth cols stride offset : Int) :
    PackState α :=
  match order with
  | StorageOrder.ColMajor =>
    ei_gemm_pack_rhs_ColMajor nr PanelMode blockB rhs rhsStride alpha depth cols stride offset
  | StorageOrder.RowMajor =>
    ei_gemm_pack_rhs_RowMajor nr PanelMode blockB rhs rhsStride alpha depth cols stride offset

/-- Entry at depth `k` of column `j` of the right operand stored in `rhs` with leading dimension
`rhsStride`, in the given storage order. -/
def rhsCoeff {α : Type} (order : StorageOrder) (rhs : Buf α) (rhsStride : Int) (k j : Int) : α :=
  match order with
  | StorageOrder.ColMajor => rhs (j * rhsStride + k)
  | StorageOrder.RowMajor => rhs (k * rhsStride + j)

/-- The right operand from depth `k0` on: the buffer that starts at the entry `(k0, 0)` of `rhs`. -/
def rhs_from {α : Type} (order : StorageOrder) (rhs : Buf α) (rhsStride : Int) (k0 : Int) : Buf α :=
  match order with
  | StorageOrder.ColMajor => fun q => rhs (q + k0)
  | StorageOrder.RowMajor => fun q => rhs (q + k0 * rhsStride)

/-- History of the write cursor `count` of a packer: its current value and, oldest first, the values it
had before each of its updates. -/
structure CursorTrace where
  count : Int
  past : List Int

/-- Statement `count += n` (`count++` is `count += 1`), with the value left behind added to the history. -/
def CursorTrace.advance (c : CursorTrace) (n : Int) : CursorTrace :=
  { count := c.count + n, past := c.past ++ [c.count] }

/-- All the values the cursor has taken, in program order, the current one last. -/
def CursorTrace.values (c : CursorTrace) : List Int := c.past ++ [c.count]

/-- The updates of `count` in the tile body of `ei_gemm_pack_lhs` (see `pack_lhs_tile`): the skip before,
one `count++` per store, the skip after. -/
def pack_lhs_tile_cursor ( PanelMode : Bool) (W depth stride offset : Int) (c : CursorTrace) (i : Int) :
    CursorTrace :=
  let c := if PanelMode then c.advance (W * offset) else c
  let c := (forRange 0 depth 1).foldl (fun c k => (forRange 0 W 1).foldl (fun c w => c.advance 1) c) c
  if PanelMode then c.advance (W * (stride - offset - depth)) else c

/-- The updates of `count` in the last loop of `ei_gemm_pack_lhs` (see `pack_lhs_row`). -/
def pack_lhs_row_cursor ( PanelMode : Bool) (depth stride offset : Int) (c : CursorTrace) (i : Int) :
    CursorTrace :=
  let c := if PanelMode then c.advance offset else c
  let c := (forRange 0 depth 1).foldl (fun c k => c.advance 1) c
  if PanelMode then c.advance (stride - offset - depth) else c

/-- The walk of the write cursor of `ei_gemm_pack_lhs`: the statements of the packer that update `count`,
in program order, starting from `int count = 0`. -/
def ei_gemm_pack_lhs_cursor (mr PacketSize : Int) ( PanelMode : Bool) (depth rows stride offset : Int) :
    CursorTrace :=
  let c : CursorTrace := { count := 0, past := [] }
  let peeled_mc := rows.tdiv mr * mr
  let c := (forRange 0 peeled_mc mr).foldl (pack_lhs_tile_cursor PanelMode mr depth stride offset) c
  let cp : CursorTrace × Int :=
    if rows - peeled_mc ≥ PacketSize then
      (pack_lhs_tile_cursor PanelMode PacketSize depth stride offset c peeled_mc, peeled_mc + PacketSize)
    else (c, peeled_mc)
  (forRange cp.2 rows 1).foldl (pack_lhs_row_cursor PanelMode depth stride offset) cp.1

/-- The walk of the write cursor of `ei_gemm_pack_rhs`, the same statements in both specializations and
in both branches of `hasAlpha`: `count += nr * offset`, one `count += nr` per depth index,
`count += nr * (stride-offset-depth)` for a full tile; `count += offset`, `count += 1` per depth index,
`count += stride-offset-depth` for a remaining column. -/
def ei_gemm_pack_rhs_cursor (nr : Int) ( PanelMode : Bool) (depth cols stride offset : Int) : CursorTrace :=
  let packet_cols := cols.tdiv nr * nr
  let c : CursorTrace := { count := 0, past := [] }
  let c := (forRange 0 packet_cols nr).foldl (fun c j2 =>
    let c := if PanelMode then c.advance (nr * offset) else c
    let c := (forRange 0 depth 1).foldl (fun c k => c.advance nr) c
    if PanelMode then c.advance (nr * (stride - offset - depth)) else c) c
  (forRange packet_cols cols 1).foldl (fun c j2 =>
    let c := if PanelMode then c.advance offset else c
    let c := (forRange 0 depth 1).foldl (fun c k => c.advance 1) c
    if PanelMode then c.advance (stride - offset - depth) else c) c

/-- The cursor has never moved backwards: every value it took is at most every later one. -/
def CursorTrace.Monotone (c : CursorTrace) : Prop := c.values.Pairwise (fun a b => a ≤ b)

instance (c : CursorTrace) : Decidable c.Monotone := by
  unfold CursorTrace.Monotone
  infer_instance

/-- Scalars with an uninterpreted multiplication: opaque values, the constant one, and formal products
(`1 * x` and `x` are different terms). -/
inductive SymScalar where
  | atom : Int → SymScalar
  | one : SymScalar
  | mul : SymScalar → SymScalar → SymScalar
deriving DecidableEq

instance : Mul SymScalar := ⟨SymScalar.mul⟩

instance : One SymScalar := ⟨SymScalar.one⟩

/-- The constant `peeled_mc = (rows/mr)*mr` of `ei_gebp_kernel::operator()` (source line 50): the end of the
band of full row tiles. -/
def gebp_peeled_mc (mr rows : Int) : Int := rows.tdiv mr * mr

/-- The constant `peeled_mc2` of `ei_gebp_kernel::operator()` (source line 51): the end of the partial
row tile, where the band of single rows starts. -/
def gebp_peeled_mc2 (mr PacketSize rows : Int) : Int :=
  gebp_peeled_mc mr rows + (if rows - gebp_peeled_mc mr rows ≥ PacketSize then PacketSize else 0)

/-- The row band boundaries of `ei_gemm_pack_lhs::operator()`: `peeled_mc` as first computed (the bound of
the loop over full tiles) and `peeled_mc` when the last loop starts (`PacketSize` more when the partial
tile was packed). -/
def pack_lhs_bands (mr PacketSize rows : Int) : Int × Int :=
  let peeled_mc := rows.tdiv mr * mr
  (peeled_mc, if rows - peeled_mc ≥ PacketSize then peeled_mc + PacketSize else peeled_mc)

/-- The tiles of `ei_gemm_pack_lhs::operator()` in packing order, each given by its first row and its
width: the full tiles of width `mr` of the first loop, the partial tile of width `PacketSize` when
`rows - peeled_mc >= PacketSize`, then the single rows of the last loop. -/
def pack_lhs_tiles (mr PacketSize rows : Int) : List (Int × Int) :=
  let peeled_mc := rows.tdiv mr * mr
  (forRange 0 peeled_mc mr).map (fun i => (i, mr)) ++
    (if rows - peeled_mc ≥ PacketSize then [(peeled_mc, PacketSize)] else []) ++
    (forRange (if rows - peeled_mc ≥ PacketSize then peeled_mc + PacketSize else peeled_mc) rows 1).map
      (fun i => (i, 1))

/-- The tiles of `ei_gemm_pack_rhs::operator()` in packing order, each given by its first column and its
width: the full tiles of width `nr` of the first loop, then the single columns of the last loop. -/
def pack_rhs_tiles (nr cols : Int) : List (Int × Int) :=
  let packet_cols := cols.tdiv nr * nr
  (forRange 0 packet_cols nr).map (fun j2 => (j2, nr)) ++ (forRange packet_cols cols 1).map (fun j2 => (j2, 1))

end EigenGebp

namespace EigenGeometry

/-- The fixed-size vector `Matrix<Scalar,3,1>` (`Vector3`): its three coefficients. -/
structure Vector3 (α : Type) where
  x : α
  y : α
  z : α

/-- The fixed-size matrix `Matrix<Scalar,3,3>` (`Matrix3`): `mij` is the coefficient `res(i,j)`. -/
structure Matrix3 (α : Type) where
  m00 : α
  m01 : α
  m02 : α
  m10 : α
  m11 : α
  m12 : α
  m20 : α
  m21 : α
  m22 : α

/-- Class `Quaternion<Scalar>`: the storage `m_data[4]`, in the order `x, y, z, w`. -/
structure Quaternion (α : Type) where
  x : α
  y : α
  z : α
  w : α

/-- Constructor `Quaternion(Scalar w, Scalar x, Scalar y, Scalar z)`. -/
def Quaternion.ctor {α : Type} (w x y z : α) : Quaternion α := { x := x, y := y, z := z, w := w }

/-- `Quaternion::identity()`: `Quaternion(1, 0, 0, 0)`. -/
def Quaternion.identity {α : Type} [Zero α] [One α] : Quaternion α := Quaternion.ctor 1 0 0 0

/-- `Quaternion::operator*(const Quaternion&)`: the quaternion product. -/
def Quaternion.mul {α : Type} [Add α] [Sub α] [Mul α] (a b : Quaternion α) : Quaternion α :=
  Quaternion.ctor
    (a.w * b.w - a.x * b.x - a.y * b.y - a.z * b.z)
    (a.w * b.x + a.x * b.w + a.y * b.z - a.z * b.y)
    (a.w * b.y + a.y * b.w + a.z * b.x - a.x * b.z)
    (a.w * b.z + a.z * b.w + a.x * b.y - a.y * b.x)

/-- Modelled from the spec: `MatrixBase::cross` is not among the sources; the cross product of two
3-vectors. -/
def Vector3.cross {α : Type} [Sub α] [Mul α] (a b : Vector3 α) : Vector3 α :=
  { x := a.y * b.z - a.z * b.y, y := a.z * b.x - a.x * b.z, z := a.x * b.y - a.y * b.x }

/-- Modelled from the spec: the coefficient-wise sum of two vectors (`MatrixBase::operator+`, not among the
sources). -/
def Vector3.add {α : Type} [Add α] (a b : Vector3 α) : Vector3 α :=
  { x := a.x + b.x, y := a.y + b.y, z := a.z + b.z }

/-- Modelled from the spec: the product of a scalar and a vector (`operator*(Scalar, MatrixBase)`, not among
the sources). -/
def Vector3.smul {α : Type} [Mul α] (s : α) (a : Vector3 α) : Vector3 α :=
  { x := s * a.x, y := s * a.y, z := s * a.z }

/-- Modelled from the spec: the product of a 3x3 matrix and a 3-vector (`MatrixBase::operator*`, not among
the sources). -/
def Matrix3.mulVec {α : Type} [Add α] [Mul α] (m : Matrix3 α) (v : Vector3 α) : Vector3 α :=
  { x := m.m00 * v.x + m.m01 * v.y + m.m02 * v.z
    y := m.m10 * v.x + m.m11 * v.y + m.m12 * v.z
    z := m.m20 * v.x + m.m21 * v.y + m.m22 * v.z }

/-- The vector part `this->template start<3>()` of a quaternion: its coefficients `x, y, z`. -/
def Quaternion.start3 {α : Type} (q : Quaternion α) : Vector3 α := { x := q.x, y := q.y, z := q.z }

/-- `Quaternion::operator*(const MatrixBase<Derived>& v)`: rotation of a vector by a quaternion,
`uv = 2 * start<3>().cross(v); return v + w() * uv + start<3>().cross(uv)`. -/
def Quaternion.rotate {α : Type} [Add α] [Sub α] [Mul α] [OfNat α 2] (q : Quaternion α) (v : Vector3 α) :
    Vector3 α :=
  let uv := Vector3.smul 2 (q.start3.cross v)
  (v.add (Vector3.smul q.w uv)).add (q.start3.cross uv)

/-- `Quaternion::toRotationMatrix()`. -/
def Quaternion.toRotationMatrix {α : Type} [Add α] [Sub α] [Mul α] [One α] [OfNat α 2] (q : Quaternion α) :
    Matrix3 α :=
  let tx := 2 * q.x
  let ty := 2 * q.y
  let tz := 2 * q.z
  let twx := tx * q.w
  let twy := ty * q.w
  let twz := tz * q.w
  let txx := tx * q.x
  let txy := ty * q.x
  let txz := tz * q.x
  let tyy := ty * q.y
  let tyz := tz * q.y
  let tzz := tz * q.z
  { m00 := 1 - (tyy + tzz)
    m01 := txy - twz
    m02 := txz + twy
    m10 := txy + twz
    m11 := 1 - (txx + tzz)
    m12 := tyz - twx
    m20 := txz - twy
    m21 := tyz + twx
    m22 := 1 - (txx + tyy) }

/-- Modelled from the spec: `MatrixBase::norm2` is not among the sources; the squared norm, the sum of the
squares of the four coefficients. -/
def Quaternion.norm2 {α : Type} [Add α] [Mul α] (q : Quaternion α) : α :=
  q.x * q.x + q.y * q.y + q.z * q.z + q.w * q.w

/-- Modelled from the spec: the coefficient-wise quotient of a quaternion by a scalar
(`MatrixBase::operator/(Scalar)`, not among the sources). -/
def Quaternion.divScalar {α : Type} [Div α] (q : Quaternion α) (s : α) : Quaternion α :=
  { x := q.x / s, y := q.y / s, z := q.z / s, w := q.w / s }

/-- Modelled from the spec: `MatrixBase::zero()` is not among the sources; the quaternion with four zero
coefficients. -/
def Quaternion.zero {α : Type} [Zero α] : Quaternion α := { x := 0, y := 0, z := 0, w := 0 }

/-- `Quaternion::conjugate()`: `Quaternion(w(), -x(), -y(), -z())`. -/
def Quaternion.conjugate {α : Type} [Neg α] (q : Quaternion α) : Quaternion α :=
  Quaternion.ctor q.w (-q.x) (-q.y) (-q.z)

/-- `Quaternion::inverse()`: `conjugate() / n2` when `n2 = norm2()` is positive, the zero quaternion
(an invalid result that flags the error) otherwise. -/
def Quaternion.inverse {α : Type} [LinearOrderedField α] (q : Quaternion α) : Quaternion α :=
  let n2 := q.norm2
  if n2 > 0 then q.conjugate.divScalar n2 else Quaternion.zero

/-- Modelled from the spec: the transpose of a 3x3 matrix (`MatrixBase::transpose` is not among the
sources). -/
def Matrix3.transpose {α : Type} (m : Matrix3 α) : Matrix3 α :=
  { m00 := m.m00, m01 := m.m10, m02 := m.m20
    m10 := m.m01, m11 := m.m11, m12 := m.m21
    m20 := m.m02, m21 := m.m12, m22 := m.m22 }

/-- Modelled from the spec: the product of two 3x3 matrices, row by column. -/
def Matrix3.mul {α : Type} [Add α] [Mul α] (a b : Matrix3 α) : Matrix3 α :=
  { m00 := a.m00 * b.m00 + a.m01 * b.m10 + a.m02 * b.m20
    m01 := a.m00 * b.m01 + a.m01 * b.m11 + a.m02 * b.m21
    m02 := a.m00 * b.m02 + a.m01 * b.m12 + a.m02 * b.m22
    m10 := a.m10 * b.m00 + a.m11 * b.m10 + a.m12 * b.m20
    m11 := a.m10 * b.m01 + a.m11 * b.m11 + a.m12 * b.m21
    m12 := a.m10 * b.m02 + a.m11 * b.m12 + a.m12 * b.m22
    m20 := a.m20 * b.m00 + a.m21 * b.m10 + a.m22 * b.m20
    m21 := a.m20 * b.m01 + a.m21 * b.m11 + a.m22 * b.m21
    m22 := a.m20 * b.m02 + a.m21 * b.m12 + a.m22 * b.m22 }

/-- Modelled from the spec: the 3x3 identity matrix. -/
def Matrix3.identity {α : Type} [Zero α] [One α] : Matrix3 α :=
  { m00 := 1, m01 := 0, m02 := 0
    m10 := 0, m11 := 1, m12 := 0
    m20 := 0, m21 := 0, m22 := 1 }

/-- Modelled from the spec: the determinant of a 3x3 matrix, expanded along the first row. -/
def Matrix3.determinant {α : Type} [Add α] [Sub α] [Mul α] (m : Matrix3 α) : α :=
  m.m00 * (m.m11 * m.m22 - m.m12 * m.m21) - m.m01 * (m.m10 * m.m22 - m.m12 * m.m20)
    + m.m02 * (m.m10 * m.m21 - m.m11 * m.m20)

end EigenGeometry

namespace EigenSchur

/-- A dense matrix of complex scalars (`ComplexMatrixType`), as its coefficient function `m i j`; the
sizes are carried by the code that uses it. -/
abbrev Mat (C : Type) := Int → Int → C

/-- Statement `m.coeffRef(i,j) = v`. -/
def Mat.set {C : Type} (m : Mat C) (i j : Int) (v : C) : Mat C :=
  fun a b => if a = i ∧ b = j then v else m a b

/-- Modelled from the spec: the operations that `ComplexSchur` uses and whose declarations are not among the
sources. `R` is `RealScalar` (its arithmetic and order come with the type), `C` is `ComplexScalar` (its
arithmetic operators come with the type), `Rot` is `PlanarRotation<ComplexScalar>`, `MatIn` is `MatrixType`.
`cast` is `matrix.template cast<ComplexScalar>()`; `hessH` and `hessQ` are `m_hess.compute(matrix)` followed
by `m_hess.matrixH()` resp. `m_hess.matrixQ()`, cast to complex; `ofReal`, `rmul` and `divr` are the
conversion of a real to a complex, the product real times complex and the quotient complex by real;
`makeGivens p q` gives the rotation and the value written through the optional third argument;
`applyOnTheLeft m r0 c0 nr nc p q rot` is the matrix `m` after
`m.block(r0,c0,nr,nc).applyOnTheLeft(p,q,rot)`, and likewise on the right. -/
structure SchurEnv (R C Rot MatIn : Type) where
  rows : MatIn → Int
  cols : MatIn → Int
  cast : MatIn → Mat C
  hessH : MatIn → Mat C
  hessQ : MatIn → Mat C
  ei_real : C → R
  ei_imag : C → R
  complex : R → R → C
  ofReal : R → C
  rmul : R → C → C
  divr : C → R → C
  ei_abs : C → R
  ei_norm1 : C → R
  ei_sqrt_real : R → R
  epsilon : R
  ei_isMuchSmallerThan : R → R → R → Bool
  makeGivens : C → C → Rot × C
  adjoint : Rot → Rot
  applyOnTheLeft : Mat C → Int → Int → Int → Int → Int → Int → Rot → Mat C
  applyOnTheRight : Mat C → Int → Int → Int → Int → Int → Int → Rot → Mat C

/-- `ei_sqrt(const std::complex<RealScalar>& z)`: the principal value of the square root of `z`. -/
def ei_sqrt {R C Rot MatIn : Type} [LinearOrderedField R] (env : SchurEnv R C Rot MatIn) (z : C) : C :=
  let t := env.ei_abs z
  let p : R × R :=
    if |env.ei_real z| ≤ |env.ei_imag z| then
      (env.ei_sqrt_real ((1 / 2) * (t + env.ei_real z)), env.ei_sqrt_real ((1 / 2) * (t - env.ei_real z)))
    else if env.ei_real z > 0 then
      let tre := t + env.ei_real z
      let tim := |env.ei_imag z| * env.ei_sqrt_real ((1 / 2) / tre)
      (env.ei_sqrt_real ((1 / 2) * tre), tim)
    else
      let tim := t - env.ei_real z
      let tre := |env.ei_imag z| * env.ei_sqrt_real ((1 / 2) / tim)
      (tre, env.ei_sqrt_real ((1 / 2) * tim))
  let tim := if env.ei_imag z < 0 then - p.2 else p.2
  env.complex p.1 tim

/-- `ComplexSchur::subdiagonalEntryIsNeglegible(i)` on `m_matT`: the returned flag and `m_matT` after the
call (the entry `(i+1,i)` is set to zero when it is negligible). -/
def subdiagonalEntryIsNeglegible {R C Rot MatIn : Type} [LinearOrderedField R] [Zero C]
    (env : SchurEnv R C Rot MatIn) (T : Mat C) (i : Int) : Bool × Mat C :=
  let d := env.ei_norm1 (T i i) + env.ei_norm1 (T (i + 1) (i + 1))
  let sd := env.ei_norm1 (T (i + 1) i)
  if env.ei_isMuchSmallerThan sd d env.epsilon then (true, T.set (i + 1) i 0) else (false, T)

/-- `ComplexSchur::computeShift(iu, iter)` on `m_matT`. -/
def computeShift {R C Rot MatIn : Type} [LinearOrderedField R] [Add C] [Sub C] [Mul C] [Div C]
    (env : SchurEnv R C Rot MatIn) (T : Mat C) (iu iter : Int) : C :=
  if iter = 10 ∨ iter = 20 then
    env.ofReal (|env.ei_real (T iu (iu - 1))| + |env.ei_real (T (iu - 1) (iu - 2))|)
  else
    let normt := env.ei_abs (T (iu - 1) (iu - 1)) + env.ei_abs (T iu (iu - 1))
      + env.ei_abs (T (iu - 1) iu) + env.ei_abs (T iu iu)
    let t00 := env.divr (T (iu - 1) (iu - 1)) normt
    let t10 := env.divr (T iu (iu - 1)) normt
    let t01 := env.divr (T (iu - 1) iu) normt
    let t11 := env.divr (T iu iu) normt
    let b := t01 * t10
    let c := t00 - t11
    let disc := ei_sqrt env (c * c + env.rmul 4 b)
    let det := t00 * t11 - b
    let trace := t00 + t11
    let eival1 := env.divr (trace + disc) 2
    let eival2 := env.divr (trace - disc) 2
    let e : C × C :=
      if env.ei_norm1 eival1 > env.ei_norm1 eival2 then (eival1, det / eival1) else (det / eival2, eival2)
    if env.ei_norm1 (e.1 - t11) < env.ei_norm1 (e.2 - t11) then env.rmul normt e.1 else env.rmul normt e.2

/-- The object state of `ComplexSchur`: the members `m_matT`, `m_matU`, `m_isInitialized` and
`m_matUisUptodate` (the workspace `m_hess` is left to `SchurEnv`). -/
structure ComplexSchur (C : Type) where
  m_matT : Mat C
  m_matU : Mat C
  m_isInitialized : Bool
  m_matUisUptodate : Bool

/-- The constructor `ComplexSchur(int size)`: both flags false; `T0` and `U0` stand for the contents of the
freshly allocated `m_matT(size,size)` and `m_matU(size,size)`, which the constructor does not set. -/
def ComplexSchur.ctor {C : Type} (T0 U0 : Mat C) : ComplexSchur C :=
  { m_matT := T0, m_matU := U0, m_isInitialized := false, m_matUisUptodate := false }

/-- `ComplexSchur::matrixU()`: the two assertions, then `m_matU`. -/
def ComplexSchur.matrixU {C : Type} (s : ComplexSchur C) : Except String (Mat C) :=
  if !s.m_isInitialized then Except.error "ComplexSchur is not initialized."
  else if !s.m_matUisUptodate then
    Except.error "The matrix U has not been computed during the ComplexSchur decomposition."
  else Except.ok s.m_matU

/-- `ComplexSchur::matrixT()`: the assertion, then `m_matT`. -/
def ComplexSchur.matrixT {C : Type} (s : ComplexSchur C) : Except String (Mat C) :=
  if !s.m_isInitialized then Except.error "ComplexSchur is not initialized."
  else Except.ok s.m_matT

/-- The loop `while(iu > 0) { if(!subdiagonalEntryIsNeglegible(iu-1)) break; iter = 0; --iu; }` of
`compute`, for `iu` given as a natural number: `m_matT`, `iu` and `iter` after the loop. -/
def findBottom {R C Rot MatIn : Type} [LinearOrderedField R] [Zero C] (env : SchurEnv R C Rot MatIn) :
    Mat C → Nat → Int → Mat C × Nat × Int
  | T, 0, iter => (T, 0, iter)
  | T, iu + 1, iter =>
    let r := subdiagonalEntryIsNeglegible env T (iu : Int)
    if !r.1 then (r.2, iu + 1, iter) else findBottom env r.2 iu 0

/-- The loop `while(il > 0 && !subdiagonalEntryIsNeglegible(il-1)) --il;` of `compute`, for `il` given as
a natural number: `m_matT` and `il` after the loop. -/
def findTop {R C Rot MatIn : Type} [LinearOrderedField R] [Zero C] (env : SchurEnv R C Rot MatIn) :
    Mat C → Nat → Mat C × Nat
  | T, 0 => (T, 0)
  | T, il + 1 =>
    let r := subdiagonalEntryIsNeglegible env T (il : Int)
    if !r.1 then findTop env r.2 il else (r.2, il + 1)

/-- The QR step of `compute` with Givens rotations (source lines 341-361): the first rotation, built from
the shift, then the chase of the bulge for `i` from `il+1` to `iu-1`. Gives `m_matT` and `m_matU`. -/
def qrStep {R C Rot MatIn : Type} [LinearOrderedField R] [Zero C] [Add C] [Sub C] [Mul C] [Div C]
    (env : SchurEnv R C Rot MatIn) (skipU : Bool) (n : Int) (T U : Mat C) (il iu iter : Int) :
    Mat C × Mat C :=
  let shift := computeShift env T iu iter
  let rot := (env.makeGivens (T il il - shift) (T (il + 1) il)).1
  let T := env.applyOnTheLeft T 0 il n (n - il) il (il + 1) (env.adjoint rot)
  let T := env.applyOnTheRight T 0 0 (min (il + 2) iu + 1) n il (il + 1) rot
  let U := if !skipU then env.applyOnTheRight U 0 0 n n il (il + 1) rot else U
  (EigenGebp.forRange (il + 1) iu 1).foldl (fun (TU : Mat C × Mat C) i =>
    let g := env.makeGivens (TU.1 i (i - 1)) (TU.1 (i + 1) (i - 1))
    let T := TU.1.set i (i - 1) g.2
    let T := T.set (i + 1) (i - 1) 0
    let T := env.applyOnTheLeft T 0 i n (n - i) i (i + 1) (env.adjoint g.1)
    let T := env.applyOnTheRight T 0 0 (min (i + 2) iu + 1) n i (i + 1) g.1
    let U := if !skipU then env.applyOnTheRight TU.2 0 0 n n i (i + 1) g.1 else TU.2
    (T, U)) (T, U)

/-- The variables of the QR iteration of `compute`: `m_matT`, `m_matU`, `iu` and `iter`. -/
structure SchurLoop (C : Type) where
  T : Mat C
  U : Mat C
  iu : Int
  iter : Int

/-- The loop `while(true)` of `compute` (source lines 324-362), with a bound on the number of passes:
`none` when the bound is used up, otherwise the variables at the `break`. -/
def schur_loop {R C Rot MatIn : Type} [LinearOrderedField R] [Zero C] [Add C] [Sub C] [Mul C] [Div C]
    (env : SchurEnv R C Rot MatIn) (skipU : Bool) (n : Int) : Nat → SchurLoop C → Option (SchurLoop C)
  | 0, _ => none
  | fuel + 1, st =>
    let b := findBottom env st.T st.iu.toNat st.iter
    let iu : Int := if 0 < st.iu then (b.2.1 : Int) else st.iu
    if iu = 0 then some { T := b.1, U := st.U, iu := iu, iter := b.2.2 }
    else
      let iter := b.2.2 + 1
      if iter ≥ 30 then some { T := b.1, U := st.U, iu := iu, iter := iter }
      else
        let t := findTop env b.1 (iu - 1).toNat
        let il : Int := if 0 < iu - 1 then (t.2 : Int) else iu - 1
        let TU := qrStep env skipU n t.1 st.U il iu iter
        schur_loop env skipU n fuel { T := TU.1, U := TU.2, iu := iu, iter := iter }

/-- The part of `compute` for `n ≠ 1` up to the end of the loop: reduction to Hessenberg form, then the QR
iteration from `iu = m_matT.cols() - 1`, `iter = 0`, with `30 * n + 30` passes allowed; `matU` is `m_matU`
before the call. -/
def schur_iterate {R C Rot MatIn : Type} [LinearOrderedField R] [Zero C] [Add C] [Sub C] [Mul C] [Div C]
    (env : SchurEnv R C Rot MatIn) (matU : Mat C) (matrix : MatIn) (skipU : Bool) :
    Option (SchurLoop C) :=
  let n := env.cols matrix
  let T := env.hessH matrix
  let U := if !skipU then env.hessQ matrix else matU
  schur_loop env skipU n (30 * n.toNat + 30) { T := T, U := U, iu := n - 1, iter := 0 }

/-- `ComplexSchur::compute(matrix, skipU)`: the object after the call; `none` when the assertion
`matrix.cols() == matrix.rows()` fails (or the bound on the passes of the loop is used up). -/
def ComplexSchur.compute {R C Rot MatIn : Type} [LinearOrderedField R] [Zero C] [One C] [Add C] [Sub C]
    [Mul C] [Div C] (env : SchurEnv R C Rot MatIn) (s : ComplexSchur C) (matrix : MatIn) (skipU : Bool) :
    Option (ComplexSchur C) :=
  let s : ComplexSchur C := { s with m_matUisUptodate := false }
  if env.cols matrix ≠ env.rows matrix then none
  else
    let n := env.cols matrix
    if n = 1 then
      some { m_matU := fun i j => if i = j then 1 else 0
             m_matT := if !skipU then env.cast matrix else s.m_matT
             m_isInitialized := true
             m_matUisUptodate := !skipU }
    else
      match schur_iterate env s.m_matU matrix skipU with
      | none => none
      | some r =>
        if r.iter ≥ 30 then
          some { m_matT := r.T, m_matU := r.U, m_isInitialized := s.m_isInitialized,
                 m_matUisUptodate := s.m_matUisUptodate }
        else
          some { m_matT := r.T, m_matU := r.U, m_isInitialized := true, m_matUisUptodate := !skipU }

/-- An instance of the operations of `SchurEnv` over the rationals in which no subdiagonal entry is ever found
negligible, as for a matrix with NaN entries, every comparison with a NaN being false. An input matrix is
given by its size and the value of all its entries. -/
def stuckEnv : SchurEnv ℚ ℚ Unit (Int × ℚ) where
  rows := fun m => m.1
  cols := fun m => m.1
  cast := fun m _ _ => m.2
  hessH := fun m _ _ => m.2
  hessQ := fun _ i j => if i = j then 1 else 0
  ei_real := fun z => z
  ei_imag := fun _ => 0
  complex := fun re _ => re
  ofReal := fun x => x
  rmul := fun x z => x * z
  divr := fun z x => z / x
  ei_abs := fun z => |z|
  ei_norm1 := fun z => |z|
  ei_sqrt_real := fun x => x
  epsilon := 0
  ei_isMuchSmallerThan := fun _ _ _ => false
  makeGivens := fun p _ => ((), p)
  adjoint := fun r => r
  applyOnTheLeft := fun m _ _ _ _ _ _ _ => m
  applyOnTheRight := fun m _ _ _ _ _ _ _ => m

/-- Modelled from the spec: the operations of `std::complex<RealScalar>` over an ordered field `R`, a complex
number being the pair of its real and imaginary parts, `ei_abs` the square root of the sum of their squares,
and the real square root `rsqrt` given. The matrix operations, which `ei_sqrt` does not use, are trivial. -/
def complexEnv (R : Type) [LinearOrderedField R] (rsqrt : R → R) : SchurEnv R (R × R) Unit Unit where
  rows := fun _ => 0
  cols := fun _ => 0
  cast := fun _ _ _ => (0, 0)
  hessH := fun _ _ _ => (0, 0)
  hessQ := fun _ _ _ => (0, 0)
  ei_real := fun z => z.1
  ei_imag := fun z => z.2
  complex := fun re im => (re, im)
  ofReal := fun x => (x, 0)
  rmul := fun x z => (x * z.1, x * z.2)
  divr := fun z x => (z.1 / x, z.2 / x)
  ei_abs := fun z => rsqrt (z.1 * z.1 + z.2 * z.2)
  ei_norm1 := fun z => |z.1| + |z.2|
  ei_sqrt_real := rsqrt
  epsilon := 0
  ei_isMuchSmallerThan := fun _ _ _ => false
  makeGivens := fun p _ => ((), p)
  adjoint := fun r => r
  applyOnTheLeft := fun m _ _ _ _ _ _ _ => m
  applyOnTheRight := fun m _ _ _ _ _ _ _ => m

/-- The constructor `ComplexSchur(const MatrixType& matrix, bool skipU)`: both flags false, then
`compute(matrix, skipU)`; `T0` and `U0` stand for the contents of the freshly allocated `m_matT` and
`m_matU`. -/
def ComplexSchur.ctorCompute {R C Rot MatIn : Type} [LinearOrderedField R] [Zero C] [One C] [Add C] [Sub C]
    [Mul C] [Div C] (env : SchurEnv R C Rot MatIn) (T0 U0 : Mat C) (matrix : MatIn) (skipU : Bool) :
    Option (ComplexSchur C) :=
  (ComplexSchur.ctor T0 U0).compute env matrix skipU

/-- A sequence of `compute()` calls on one object, each call given by its matrix and its `skipU`: the
object after the last call, `none` when one of the calls does not return an object. -/
def ComplexSchur.computeAll {R C Rot MatIn : Type} [LinearOrderedField R] [Zero C] [One C] [Add C] [Sub C]
    [Mul C] [Div C] (env : SchurEnv R C Rot MatIn) (s : ComplexSchur C) :
    List (MatIn × Bool) → Option (ComplexSchur C)
  | [] => some s
  | c :: cs =>
    match s.compute env c.1 c.2 with
    | none => none
    | some s2 => ComplexSchur.computeAll env s2 cs

/-- One pass of the loop `while(true)` of `compute` (source lines 324-362): `Sum.inl` holds the variables
at a `break`, `Sum.inr` the variables at the end of a pass that goes on. -/
def schur_pass {R C Rot MatIn : Type} [LinearOrderedField R] [Zero C] [Add C] [Sub C] [Mul C] [Div C]
    (env : SchurEnv R C Rot MatIn) (skipU : Bool) (n : Int) (st : SchurLoop C) :
    SchurLoop C ⊕ SchurLoop C :=
  let b := findBottom env st.T st.iu.toNat st.iter
  let iu : Int := if 0 < st.iu then (b.2.1 : Int) else st.iu
  if iu = 0 then Sum.inl { T := b.1, U := st.U, iu := iu, iter := b.2.2 }
  else
    let iter := b.2.2 + 1
    if iter ≥ 30 then Sum.inl { T := b.1, U := st.U, iu := iu, iter := iter }
    else
      let t := findTop env b.1 (iu - 1).toNat
      let il : Int := if 0 < iu - 1 then (t.2 : Int) else iu - 1
      let TU := qrStep env skipU n t.1 st.U il iu iter
      Sum.inr { T := TU.1, U := TU.2, iu := iu, iter := iter }

/-- The entries of `m_matT` that `computeShift(iu, iter)` reads, as (row, column) pairs in the order of the
source: `coeff(iu,iu-1)` and `coeff(iu-1,iu-2)` for the exceptional shift, the four entries of
`block<2,2>(iu-1,iu-1)` otherwise. -/
def computeShift_reads (iu iter : Int) : List (Int × Int) :=
  if iter = 10 ∨ iter = 20 then [(iu, iu - 1), (iu - 1, iu - 2)]
  else [(iu - 1, iu - 1), (iu, iu - 1), (iu - 1, iu), (iu, iu)]

/-- The loop `while(true)` of `compute` as in `schur_loop`, with the list of the calls
`computeShift(iu, iter)` that it makes, each given by its arguments, in the order of the calls. -/
def schur_loop_traced {R C Rot MatIn : Type} [LinearOrderedField R] [Zero C] [Add C] [Sub C] [Mul C]
    [Div C] (env : SchurEnv R C Rot MatIn) (skipU : Bool) (n : Int) :
    Nat → SchurLoop C → Option (SchurLoop C) × List (Int × Int)
  | 0, _ => (none, [])
  | fuel + 1, st =>
    let b := findBottom env st.T st.iu.toNat st.iter
    let iu : Int := if 0 < st.iu then (b.2.1 : Int) else st.iu
    if iu = 0 then (some { T := b.1, U := st.U, iu := iu, iter := b.2.2 }, [])
    else
      let iter := b.2.2 + 1
      if iter ≥ 30 then (some { T := b.1, U := st.U, iu := iu, iter := iter }, [])
      else
        let t := findTop env b.1 (iu - 1).toNat
        let il : Int := if 0 < iu - 1 then (t.2 : Int) else iu - 1
        let TU := qrStep env skipU n t.1 st.U il iu iter
        let r := schur_loop_traced env skipU n fuel { T := TU.1, U := TU.2, iu := iu, iter := iter }
        (r.1, (iu, iter) :: r.2)

/-- The calls `computeShift(iu, iter)` that `compute(matrix, skipU)` makes for `n ≠ 1`, from the start
of the QR iteration as in `schur_iterate`. -/
def schur_iterate_calls {R C Rot MatIn : Type} [LinearOrderedField R] [Zero C] [Add C] [Sub C] [Mul C]
    [Div C] (env : SchurEnv R C Rot MatIn) (matU : Mat C) (matrix : MatIn) (skipU : Bool) :
    List (Int × Int) :=
  let n := env.cols matrix
  let T := env.hessH matrix
  let U := if !skipU then env.hessQ matrix else matU
  (schur_loop_traced env skipU n (30 * n.toNat + 30) { T := T, U := U, iu := n - 1, iter := 0 }).2

end EigenSchur

namespace EigenProduct

/-- Modelled from the spec: the value of the integer `x` in an integer type of `w` bits, that is its
representative modulo `2^w`, in `[0, 2^w)` for an unsigned type and in `[-2^(w-1), 2^(w-1))` for a signed
type. -/
def wrap (signed : Bool) (w : Nat) (x : Int) : Int :=
  if signed then Int.bmod x (2 ^ w) else x % ((2 ^ w : Nat) : Int)

/-- Modelled from the spec: `a + b` in the integer type of `w` bits. -/
def scalarAdd (signed : Bool) (w : Nat) (a b : Int) : Int := wrap signed w (a + b)

/-- Modelled from the spec: `a * b` in the integer type of `w` bits. -/
def scalarMul (signed : Bool) (w : Nat) (a b : Int) : Int := wrap signed w (a * b)

/-- Modelled from the spec: the matrix `Identity(n, n)` over the integer type of `w` bits. -/
def Identity (signed : Bool) (w : Nat) : Int → Int → Int :=
  fun i j => if i = j then wrap signed w 1 else wrap signed w 0

/-- `ProductUnroller<Index, Size, Lhs, Rhs>::run(row, col, lhs, rhs, res)` for `Size != Dynamic`: the value
of `res` after the call. `add` and `mul` are the operators `+` and `*` of `Scalar`. -/
def ProductUnroller_run {α : Type} (add mul : α → α → α) (lhs rhs : Int → Int → α) (row col : Int) :
    Nat → α
  | 0 => mul (lhs row 0) (rhs 0 col)
  | Index + 1 =>
    add (ProductUnroller_run add mul lhs rhs row col Index)
      (mul (lhs row ((Index + 1 : Nat) : Int)) (rhs ((Index + 1 : Nat) : Int) col))

/-- `Product::_read(row, col)`. `ColsAtCompileTime` is `Lhs::ColsAtCompileTime` (`none` for `Dynamic`, and
at least 1 otherwise, `ProductUnroller<-1, 0, ..>` having no base case), `cols` is `m_lhs.cols()`. -/
def Product_read {α : Type} (add mul : α → α → α) (ColsAtCompileTime : Option Nat)
    (m_lhs m_rhs : Int → Int → α) (cols : Int) (row col : Int) : α :=
  let loop : α :=
    (EigenGebp.forRange 1 cols 1).foldl (fun res i => add res (mul (m_lhs row i) (m_rhs i col)))
      (mul (m_lhs row 0) (m_rhs 0 col))
  match ColsAtCompileTime with
  | some N => if N ≤ 16 then ProductUnroller_run add mul m_lhs m_rhs row col (N - 1) else loop
  | none => loop

/-- The sum of the claim for an inner dimension `n ≥ 1`: `lhs(row,0)*rhs(0,col)`, to which the terms
`lhs(row,i)*rhs(i,col)` for `i = 1, ..., n-1` are added one after the other, in increasing `i`. -/
def sum_increasing {α : Type} (add mul : α → α → α) (lhs rhs : Int → Int → α) (row col : Int) (n : Nat) : α :=
  ((List.range (n - 1)).map (fun (t : Nat) => ((t + 1 : Nat) : Int))).foldl
    (fun res i => add res (mul (lhs row i) (rhs i col))) (mul (lhs row 0) (rhs 0 col))

end EigenProduct

namespace EigenMap

/-- `MapBase::checkSanity()`: its two assertions, in order; an assertion that fails gives its message.
`Flags` is `ei_traits<Derived>::Flags`, `m_data` the address `size_t(m_data)`, `innerStride` the value of
`innerStride()`. The masks `AlignedBit` and `PacketAccessBit` are defined outside the sources at hand and
are parameters. -/
def checkSanity (AlignedBit PacketAccessBit Flags : Nat) (m_data : Nat) (innerStride : Int) :
    Except String Unit :=
  if !((Flags &&& AlignedBit == 0) || (m_data &&& 0xf == 0)) then
    Except.error "data is not aligned"
  else if !((Flags &&& PacketAccessBit == 0) || innerStride == 1) then
    Except.error "packet access incompatible with inner stride greater than 1"
  else Except.ok ()

/-- The data members of `MapBase`: the address `m_data` and the sizes `m_rows`, `m_cols`. -/
structure MapBase where
  m_data : Nat
  m_rows : Int
  m_cols : Int
deriving DecidableEq

/-- The constructor `MapBase(const Scalar* data, int size)` for vectors: its two assertions, then
`checkSanity()`. A compile-time size is `none` when it is `Dynamic`. -/
def MapBase.ctorVector (AlignedBit PacketAccessBit Flags : Nat)
    (RowsAtCompileTime ColsAtCompileTime SizeAtCompileTime : Option Int) (innerStride : Int)
    (data : Nat) (size : Int) : Except String MapBase :=
  if !(decide (size ≥ 0)) then Except.error "size >= 0"
  else if !((data == 0) || (SizeAtCompileTime == none) || (SizeAtCompileTime == some size)) then
    Except.error "data == 0 || SizeAtCompileTime == Dynamic || SizeAtCompileTime == size"
  else
    match checkSanity AlignedBit PacketAccessBit Flags data innerStride with
    | Except.error e => Except.error e
    | Except.ok _ =>
      Except.ok { m_data := data, m_rows := RowsAtCompileTime.getD size,
                  m_cols := ColsAtCompileTime.getD size }

/-- The constructor `MapBase(const Scalar* data, int rows, int cols)`: its assertion, then
`checkSanity()`. The members `m_rows` and `m_cols` are `ei_int_if_dynamic<RowsAtCompileTime>` and
`ei_int_if_dynamic<ColsAtCompileTime>` (declared outside the sources at hand): initialised with `rows` and
`cols`, they hold the compile-time size unless it is `Dynamic`. -/
def MapBase.ctorMatrix (AlignedBit PacketAccessBit Flags : Nat)
    (RowsAtCompileTime ColsAtCompileTime : Option Int) (innerStride : Int)
    (data : Nat) (rows cols : Int) : Except String MapBase :=
  if !((data == 0) ||
      (decide (rows ≥ 0) && ((RowsAtCompileTime == none) || (RowsAtCompileTime == some rows)) &&
        decide (cols ≥ 0) && ((ColsAtCompileTime == none) || (ColsAtCompileTime == some cols)))) then
    Except.error ("(data == 0) || (rows >= 0 && (RowsAtCompileTime == Dynamic || RowsAtCompileTime == rows)" ++
      " && cols >= 0 && (ColsAtCompileTime == Dynamic || ColsAtCompileTime == cols))")
  else
    match checkSanity AlignedBit PacketAccessBit Flags data innerStride with
    | Except.error e => Except.error e
    | Except.ok _ =>
      Except.ok { m_data := data, m_rows := RowsAtCompileTime.getD rows,
                  m_cols := ColsAtCompileTime.getD cols }

end EigenMap

namespace EigenSparse

/-- Modelled from the spec: `SparseArray<Scalar>` is not among the sources; the array of values and the
array of indices, addressed from 0, and the number `size` of stored entries. -/
structure SparseArray (α : Type) where
  index : Int → Int
  value : Int → α
  size : Int

/-- Modelled from the spec: `SparseArray::resize(size)`: the stored entries stay where they are, a new
slot holds what its memory held. -/
def SparseArray.resize {α : Type} (d : SparseArray α) (size : Int) : SparseArray α :=
  { d with size := size }

/-- The data members of `SparseVector`: the storage `m_data` and the dimension `m_size`. -/
structure SparseVector (α : Type) where
  m_data : SparseArray α
  m_size : Int

/-- Modelled from the spec: `std::lower_bound` on the indices, as a position: for `len` elements from
position `first` on, the first position whose index is not less than `i`, or `first + len` when there is
none. On a sorted range this is the result that the C++ standard specifies. -/
def lower_bound_from (index : Int → Int) (i : Int) : Nat → Int → Int
  | 0, first => first
  | len + 1, first => if index first < i then lower_bound_from index i len (first + 1) else first

/-- Modelled from the spec: `std::lower_bound(&index(first), &index(last), i) - &index(0)`. -/
def lower_bound (index : Int → Int) (first last i : Int) : Int :=
  lower_bound_from index i (last - first).toNat first

/-- `SparseVector::coeff(int i)`; `stop` is the local variable `end`. -/
def SparseVector.coeff {α : Type} [Zero α] (v : SparseVector α) (i : Int) : α :=
  let start : Int := 0
  let stop : Int := v.m_data.size
  if start = stop then 0
  else if stop > 0 ∧ i = v.m_data.index (stop - 1) then v.m_data.value (stop - 1)
  else
    let r := lower_bound v.m_data.index start (stop - 1) i
    let id := r - 0
    if v.m_data.index r = i ∧ id < stop then v.m_data.value id else 0

/-- The loop of `fillrand`, `while ((id >= startId) && (m_data.index(id) > i)) { m_data.index(id+1) =
m_data.index(id); m_data.value(id+1) = m_data.value(id); --id; }`, for `id + 1` given as a natural number:
`m_data` and `id` after the loop. -/
def fillrand_loop {α : Type} (i : Int) : Nat → SparseArray α → SparseArray α × Int
  | 0, d => (d, -1)
  | id + 1, d =>
    if d.index (id : Int) > i then
      let d := { d with index := Function.update d.index ((id : Int) + 1) (d.index (id : Int)) }
      let d := { d with value := Function.update d.value ((id : Int) + 1) (d.value (id : Int)) }
      fillrand_loop i id d
    else (d, (id : Int))

/-- `SparseVector::fillrand(int i)`: the vector after the call and the position of the element that the
returned reference designates. -/
def SparseVector.fillrand {α : Type} [Zero α] (v : SparseVector α) (i : Int) : SparseVector α × Int :=
  let startId : Int := 0
  let id : Int := v.m_data.size - 1
  let d := v.m_data.resize (id + 2)
  let r := fillrand_loop i (id + 1 - startId).toNat d
  let id := r.2
  let d := { r.1 with index := Function.update r.1.index (id + 1) i }
  let d := { d with value := Function.update d.value (id + 1) 0 }
  ({ v with m_data := d }, id + 1)

/-- `SparseVector::nonZeros()`. -/
def SparseVector.nonZeros {α : Type} (v : SparseVector α) : Int := v.m_data.size

end EigenSparse

namespace EigenGebp

theorem forRange_zero_one (n : Nat) : forRange 0 n 1 = (List.range n).map (fun (t : Nat) => (t : Int)) := by
  simp [forRange]

theorem forRange_one (a : Int) (n : Nat) : forRange a (a + n) 1 = (List.range n).map (fun (t : Nat) => a + (t : Int)) := by
  simp [forRange]

theorem forRange_tiles (T : Nat) (m : Int) (hm : 0 < m) :
    forRange 0 (T * m) m = (List.range T).map (fun (t : Nat) => (t : Int) * m) := by
  have h : ((T : Int) * m - 0 + m - 1) / m = T := by
    have : (T : Int) * m - 0 + m - 1 = (m - 1) + m * T := by ring
    rw [this, Int.add_mul_ediv_left _ _ (ne_of_gt hm), Int.ediv_eq_zero_of_lt (by omega) (by omega)]
    simp
  unfold forRange
  rw [h]
  simp

theorem flatMap_single {β γ : Type} (l : List β) (f : β → γ) : l.flatMap (fun x => [f x]) = l.map f := by
  induction l with
  | nil => rfl
  | cons a l ih => simp [List.flatMap_cons, ih]

theorem replay_append {α : Type} (val : Int → Int → α) (L1 L2 : List PackEvent) (b : Buf α) :
    replay val (L1 ++ L2) b = replay val L2 (replay val L1 b) := by
  simp [replay, List.foldl_append]

theorem foldl_uniform {α : Type} (val : Int → Int → α) (f : PackState α → Int → PackState α) (d : Int)
    (E : Int → Int → List PackEvent)
    (hf : ∀ s x, f s x = ⟨replay val (E x s.count) s.block, s.count + d, s.log ++ E x s.count⟩)
    (φ : Nat → Int) (n : Nat) (s : PackState α) :
    ((List.range n).map φ).foldl f s =
      ⟨replay val ((List.range n).flatMap (fun (t : Nat) => E (φ t) (s.count + t * d))) s.block,
       s.count + n * d,
       s.log ++ (List.range n).flatMap (fun (t : Nat) => E (φ t) (s.count + t * d))⟩ := by
  induction n with
  | zero => simp [replay]
  | succ n ih =>
    rw [List.range_succ, List.map_append, List.foldl_append, ih]
    simp only [List.map_cons, List.map_nil, List.foldl_cons, List.foldl_nil, hf, List.flatMap_append,
      List.flatMap_cons, List.flatMap_nil, List.append_nil, replay_append, List.append_assoc]
    congr 1
    push_cast; ring

theorem pack_lhs_tile_eq {α : Type} (cj : α → α) (lhs : Int → Int → α) (pm : Bool) (W depth : Nat)
    (stride offset : Int) (s : PackState α) (i : Int) :
    pack_lhs_tile cj lhs pm W depth stride offset s i =
      ⟨replay (fun r c => cj (lhs r c)) (tileLog (s.count + W * (if pm then offset else 0)) W depth i) s.block,
       s.count + W * (if pm then stride else depth),
       s.log ++ tileLog (s.count + W * (if pm then offset else 0)) W depth i⟩ := by
  have hw : ∀ (k : Int) (s : PackState α),
      (forRange 0 W 1).foldl (fun s w => (s.store 0 (cj (lhs (i + w) k)) (i + w) k).advance 1) s =
      ⟨replay (fun r c => cj (lhs r c)) ((List.range W).map (fun (w : Nat) => (s.count + (w : Int), i + w, k))) s.block,
       s.count + W, s.log ++ (List.range W).map (fun (w : Nat) => (s.count + (w : Int), i + w, k))⟩ := by
    intro k s
    rw [forRange_zero_one]
    rw [foldl_uniform (fun r c => cj (lhs r c)) _ 1 (fun w c => [(c, i + w, k)])]
    · simp [flatMap_single]
    · intro s x
      simp [PackState.store, PackState.advance, replay]
  have hk : ∀ (s : PackState α),
      (forRange 0 depth 1).foldl (fun s k =>
        (forRange 0 W 1).foldl (fun s w => (s.store 0 (cj (lhs (i + w) k)) (i + w) k).advance 1) s) s =
      ⟨replay (fun r c => cj (lhs r c)) (tileLog s.count W depth i) s.block,
       s.count + W * depth, s.log ++ tileLog s.count W depth i⟩ := by
    intro s
    rw [forRange_zero_one depth]
    rw [foldl_uniform (fun r c => cj (lhs r c)) _ W
      (fun k c => (List.range W).map (fun (w : Nat) => (c + (w : Int), i + w, k)))]
    · simp [tileLog, mul_comm]
    · intro s x
      rw [hw]
  unfold pack_lhs_tile
  cases pm
  · simp only [Bool.false_eq_true, if_false]
    rw [hk]
    simp
  · simp only [if_true]
    rw [hk]
    simp only [PackState.advance]
    congr 1
    ring

theorem pack_lhs_row_eq {α : Type} (cj : α → α) (lhs : Int → Int → α) (pm : Bool) (depth : Nat)
    (stride offset : Int) (s : PackState α) (i : Int) :
    pack_lhs_row cj lhs pm depth stride offset s i =
      ⟨replay (fun r c => cj (lhs r c)) (rowLog (s.count + (if pm then offset else 0)) depth i) s.block,
       s.count + (if pm then stride else depth),
       s.log ++ rowLog (s.count + (if pm then offset else 0)) depth i⟩ := by
  have hk : ∀ (s : PackState α),
      (forRange 0 depth 1).foldl (fun s k => (s.store 0 (cj (lhs i k)) i k).advance 1) s =
      ⟨replay (fun r c => cj (lhs r c)) (rowLog s.count depth i) s.block,
       s.count + depth, s.log ++ rowLog s.count depth i⟩ := by
    intro s
    rw [forRange_zero_one]
    rw [foldl_uniform (fun r c => cj (lhs r c)) _ 1 (fun k c => [(c, i, k)])]
    · simp [rowLog, flatMap_single]
    · intro s x
      simp [PackState.store, PackState.advance, replay]
  unfold pack_lhs_row
  cases pm
  · simp only [Bool.false_eq_true, if_false]
    rw [hk]
    simp
  · simp only [if_true]
    rw [hk]
    simp only [PackState.advance]
    congr 1
    ring

theorem tdiv_mul_cast (rows mr : Nat) : (rows : Int).tdiv mr * mr = ((rows / mr * mr : Nat) : Int) := by
  rw [Int.tdiv_eq_ediv (by positivity) (by positivity)]
  push_cast
  rfl

theorem pack_lhs_closed {α : Type} [Star α] (mr PS rows depth : Nat) (hmr : 0 < mr)
    (ic cjf pm : Bool) (blockA : Buf α) (lhs : Int → Int → α) (stride offset : Int) :
    ei_gemm_pack_lhs (mr : Int) (PS : Int) ic cjf pm blockA lhs depth rows stride offset =
      ⟨replay (fun r c => ei_conj_if (ic && cjf) (lhs r c))
          (lhsLog mr PS rows depth (if pm then stride else depth) (if pm then offset else 0)) blockA,
       rows * (if pm then stride else depth),
       lhsLog mr PS rows depth (if pm then stride else depth) (if pm then offset else 0)⟩ := by
  have hle : rows / mr * mr ≤ rows := Nat.div_mul_le_self rows mr
  unfold ei_gemm_pack_lhs
  simp only []
  rw [tdiv_mul_cast]
  have h1 : ∀ s : PackState α,
      (forRange 0 ((rows / mr * mr : Nat) : Int) mr).foldl
        (pack_lhs_tile (ei_conj_if (ic && cjf)) lhs pm mr depth stride offset) s =
      ⟨replay (fun r c => ei_conj_if (ic && cjf) (lhs r c))
        ((List.range (rows / mr)).flatMap (fun (t : Nat) =>
          tileLog (s.count + ((t * mr : Nat) : Int) * (if pm then stride else depth) + mr * (if pm then offset else 0))
            mr depth ((t * mr : Nat) : Int))) s.block,
       s.count + ((rows / mr * mr : Nat) : Int) * (if pm then stride else depth),
       s.log ++ (List.range (rows / mr)).flatMap (fun (t : Nat) =>
          tileLog (s.count + ((t * mr : Nat) : Int) * (if pm then stride else depth) + mr * (if pm then offset else 0))
            mr depth ((t * mr : Nat) : Int))⟩ := by
    intro s
    have : ((rows / mr * mr : Nat) : Int) = ((rows / mr : Nat) : Int) * (mr : Int) := by push_cast; rfl
    rw [this, forRange_tiles _ _ (by exact_mod_cast hmr)]
    rw [foldl_uniform (fun r c => ei_conj_if (ic && cjf) (lhs r c)) _ (mr * (if pm then stride else depth))
      (fun i c => tileLog (c + mr * (if pm then offset else 0)) mr depth i)]
    · have e : ∀ t : Nat, s.count + (t : Int) * ((mr : Int) * (if pm then stride else depth))
          = s.count + ((t * mr : Nat) : Int) * (if pm then stride else depth) := by
        intro t; push_cast; ring
      simp only [e]
      congr 1
    · intro s x
      rw [pack_lhs_tile_eq]
  have h3 : ∀ (P2 : Nat) (hP2 : P2 ≤ rows) (s : PackState α),
      (forRange (P2 : Int) (rows : Int) 1).foldl
        (pack_lhs_row (ei_conj_if (ic && cjf)) lhs pm depth stride offset) s =
      ⟨replay (fun r c => ei_conj_if (ic && cjf) (lhs r c))
        ((List.range (rows - P2)).flatMap (fun (t : Nat) =>
          rowLog (s.count + (t : Int) * (if pm then stride else depth) + (if pm then offset else 0))
            depth ((P2 + t : Nat) : Int))) s.block,
       s.count + ((rows - P2 : Nat) : Int) * (if pm then stride else depth),
       s.log ++ (List.range (rows - P2)).flatMap (fun (t : Nat) =>
          rowLog (s.count + (t : Int) * (if pm then stride else depth) + (if pm then offset else 0))
            depth ((P2 + t : Nat) : Int))⟩ := by
    intro P2 hP2 s
    have : (rows : Int) = (P2 : Int) + ((rows - P2 : Nat) : Int) := by omega
    rw [this, forRange_one]
    rw [foldl_uniform (fun r c => ei_conj_if (ic && cjf) (lhs r c)) _ (if pm then stride else depth)
      (fun i c => rowLog (c + (if pm then offset else 0)) depth i)]
    · have : (P2 : Int) + ((rows - P2 : Nat) : Int) - P2 = ((rows - P2 : Nat) : Int) := by ring
      simp only [Nat.cast_add]
      try rfl
    · intro s x
      rw [pack_lhs_row_eq]
  by_cases hc : rows - rows / mr * mr ≥ PS
  · have hc' : (rows : Int) - ((rows / mr * mr : Nat) : Int) ≥ (PS : Int) := by omega
    rw [if_pos hc']
    simp only []
    have : ((rows / mr * mr : Nat) : Int) + (PS : Int) = ((rows / mr * mr + PS : Nat) : Int) := by push_cast; rfl
    rw [this, h3 _ (by omega), pack_lhs_tile_eq, h1]
    simp only [lhsLog, if_pos hc, replay_append, List.nil_append, zero_add, List.append_assoc]
    have e3 : ∀ t : Nat, ((((rows / mr * mr : Nat) : Int) * (if pm then stride else depth) +
        (PS : Int) * (if pm then stride else depth)) + (t : Int) * (if pm then stride else depth)) +
        (if pm then offset else 0) =
        ((rows / mr * mr + PS + t : Nat) : Int) * (if pm then stride else depth) + (if pm then offset else 0) := by
      intro t; push_cast; ring
    have hr : ((rows - (rows / mr * mr + PS) : Nat) : Int) = rows - ((rows / mr * mr : Nat) : Int) - PS := by omega
    simp only [e3]
    congr 1
    rw [hr]; ring
  · have hc' : ¬ ((rows : Int) - ((rows / mr * mr : Nat) : Int) ≥ (PS : Int)) := by omega
    rw [if_neg hc']
    simp only []
    rw [h3 _ (by omega), h1]
    simp only [lhsLog, if_neg hc, replay_append, List.nil_append, zero_add, List.append_assoc, List.append_nil]
    have e3 : ∀ t : Nat, ((((rows / mr * mr : Nat) : Int) * (if pm then stride else depth)) +
        (t : Int) * (if pm then stride else depth)) + (if pm then offset else 0) =
        ((rows / mr * mr + t : Nat) : Int) * (if pm then stride else depth) + (if pm then offset else 0) := by
      intro t; push_cast; ring
    have hr : ((rows - (rows / mr * mr) : Nat) : Int) = rows - ((rows / mr * mr : Nat) : Int) := by omega
    simp only [e3]
    congr 1
    rw [hr]; ring

theorem replay_of_not_mem {α : Type} (val : Int → Int → α) (L : List PackEvent) (b : Buf α) (q : Int)
    (h : ∀ e ∈ L, e.1 ≠ q) : replay val L b q = b q := by
  induction L generalizing b with
  | nil => rfl
  | cons e L ih =>
    have : replay val (e :: L) b = replay val L (Function.update b e.1 (val e.2.1 e.2.2)) := rfl
    rw [this, ih _ (fun e' he' => h e' (List.mem_cons_of_mem _ he'))]
    exact Function.update_noteq (Ne.symm (h e (List.mem_cons_self _ _))) _ _

theorem replay_of_mem {α : Type} (val : Int → Int → α) (L : List PackEvent) (b : Buf α) (q : Int) (v : α)
    (hex : ∃ e ∈ L, e.1 = q) (hv : ∀ e ∈ L, e.1 = q → val e.2.1 e.2.2 = v) : replay val L b q = v := by
  induction L generalizing b with
  | nil => simp at hex
  | cons e L ih =>
    have hr : replay val (e :: L) b = replay val L (Function.update b e.1 (val e.2.1 e.2.2)) := rfl
    rw [hr]
    by_cases hL : ∃ e' ∈ L, e'.1 = q
    · exact ih _ hL (fun e' he' => hv e' (List.mem_cons_of_mem _ he'))
    · have hq : e.1 = q := by
        obtain ⟨e', he', hq'⟩ := hex
        rcases List.mem_cons.1 he' with rfl | h'
        · exact hq'
        · exact absurd ⟨e', h', hq'⟩ hL
      rw [replay_of_not_mem _ _ _ _ (fun e' he' hq' => hL ⟨e', he', hq'⟩), ← hq, Function.update_same]
      exact hv e (List.mem_cons_self _ _) hq

theorem increasing_store_advance {α : Type} (s : PackState α) (h : s.Increasing) (v : α) (r c : Int) :
    ((s.store 0 v r c).advance 1).Increasing := by
  obtain ⟨h0, hp, hb⟩ := h
  refine ⟨?_, ?_, ?_⟩
  · simp only [PackState.advance, PackState.store]; omega
  · simp only [PackState.advance, PackState.store, List.map_append, List.map_cons, List.map_nil, add_zero]
    rw [List.pairwise_append]
    refine ⟨hp, List.pairwise_singleton _ _, ?_⟩
    intro a ha b hb'
    simp only [List.mem_singleton] at hb'
    obtain ⟨e, he, rfl⟩ := List.mem_map.1 ha
    rw [hb']
    exact (hb e he).2
  · intro e he
    simp only [PackState.advance, PackState.store, List.mem_append, List.mem_singleton, add_zero] at he ⊢
    rcases he with he | rfl
    · have := hb e he
      omega
    · simp only; omega

theorem increasing_advance {α : Type} (s : PackState α) (h : s.Increasing) (n : Int) (hn : 0 ≤ n) :
    (s.advance n).Increasing := by
  obtain ⟨h0, hp, hb⟩ := h
  refine ⟨?_, hp, ?_⟩
  · simp only [PackState.advance]; omega
  · intro e he
    have := hb e he
    simp only [PackState.advance]
    omega

theorem increasing_tile {α : Type} (cj : α → α) (lhs : Int → Int → α) (pm : Bool) (W depth stride offset : Int)
    (hW : 0 ≤ W) (hpm : pm = true → 0 ≤ offset ∧ offset + depth ≤ stride)
    (s : PackState α) (h : s.Increasing) (i : Int) :
    (pack_lhs_tile cj lhs pm W depth stride offset s i).Increasing := by
  unfold pack_lhs_tile
  have hk : ∀ s : PackState α, s.Increasing → ((forRange 0 depth 1).foldl (fun s k =>
      (forRange 0 W 1).foldl (fun s w => (s.store 0 (cj (lhs (i + w) k)) (i + w) k).advance 1) s) s).Increasing := by
    intro s hs
    refine List.foldlRecOn _ _ s hs ?_
    intro s hs k _
    refine List.foldlRecOn _ _ s hs ?_
    intro s hs w _
    exact increasing_store_advance s hs _ _ _
  cases pm
  · simpa using hk s h
  · obtain ⟨ho, hs⟩ := hpm rfl
    simp only [if_true]
    exact increasing_advance _ (hk _ (increasing_advance _ h _ (mul_nonneg hW ho))) _
      (mul_nonneg hW (by omega))

theorem increasing_row {α : Type} (cj : α → α) (lhs : Int → Int → α) (pm : Bool) (depth stride offset : Int)
    (hpm : pm = true → 0 ≤ offset ∧ offset + depth ≤ stride)
    (s : PackState α) (h : s.Increasing) (i : Int) :
    (pack_lhs_row cj lhs pm depth stride offset s i).Increasing := by
  unfold pack_lhs_row
  have hk : ∀ s : PackState α, s.Increasing → ((forRange 0 depth 1).foldl (fun s k =>
      (s.store 0 (cj (lhs i k)) i k).advance 1) s).Increasing := by
    intro s hs
    refine List.foldlRecOn _ _ s hs ?_
    intro s hs k _
    exact increasing_store_advance s hs _ _ _
  cases pm
  · simpa using hk s h
  · obtain ⟨ho, hs⟩ := hpm rfl
    simp only [if_true]
    exact increasing_advance _ (hk _ (increasing_advance _ h _ ho)) _ (by omega)

theorem pack_lhs_increasing {α : Type} [Star α] (mr PS : Int) (hmr : 0 ≤ mr) (hPS : 0 ≤ PS)
    (ic cjf pm : Bool) (blockA : Buf α) (lhs : Int → Int → α) (depth rows stride offset : Int)
    (hpm : pm = true → 0 ≤ offset ∧ offset + depth ≤ stride) :
    (ei_gemm_pack_lhs mr PS ic cjf pm blockA lhs depth rows stride offset).Increasing := by
  unfold ei_gemm_pack_lhs
  simp only []
  have h0 : (⟨blockA, 0, []⟩ : PackState α).Increasing := ⟨le_refl _, List.Pairwise.nil, by simp⟩
  have h1 : ((forRange 0 (rows.tdiv mr * mr) mr).foldl
      (pack_lhs_tile (ei_conj_if (ic && cjf)) lhs pm mr depth stride offset) ⟨blockA, 0, []⟩).Increasing := by
    refine List.foldlRecOn _ _ _ h0 ?_
    intro s hs i _
    exact increasing_tile _ _ _ _ _ _ _ hmr hpm s hs i
  refine List.foldlRecOn _ _ _ ?_ ?_
  · split
    · exact increasing_tile _ _ _ _ _ _ _ hPS hpm _ h1 _
    · exact h1
  · intro s hs i _
    exact increasing_row _ _ _ _ _ _ hpm s hs i

theorem lhsLog_increasing (mr PS rows depth : Nat) (hmr : 0 < mr) (es eo : Int)
    (h0 : 0 ≤ eo) (h1 : eo + depth ≤ es) :
    ((lhsLog mr PS rows depth es eo).map (fun e => e.1)).Pairwise (fun a b => a < b) ∧
    ∀ e ∈ lhsLog mr PS rows depth es eo, 0 ≤ e.1 ∧ e.1 < rows * es := by
  have h := pack_lhs_increasing (α := Int) mr PS (by positivity) (by positivity) false false true
    (fun _ => 0) (fun _ _ => 0) depth rows es eo (fun _ => ⟨h0, h1⟩)
  rw [pack_lhs_closed mr PS rows depth hmr] at h
  simpa [PackState.Increasing] using h.2

theorem lhsLog_functional (mr PS rows depth : Nat) (hmr : 0 < mr) (es eo : Int)
    (h0 : 0 ≤ eo) (h1 : eo + depth ≤ es) (e e' : PackEvent)
    (he : e ∈ lhsLog mr PS rows depth es eo) (he' : e' ∈ lhsLog mr PS rows depth es eo)
    (hq : e.1 = e'.1) : e = e' := by
  have hp := (lhsLog_increasing mr PS rows depth hmr es eo h0 h1).1
  have hn : ((lhsLog mr PS rows depth es eo).map (fun e => e.1)).Nodup :=
    hp.imp (fun h => ne_of_lt h)
  exact List.inj_on_of_nodup_map hn he he' hq

theorem mem_tileLog (base : Int) (W depth : Nat) (i : Int) (e : PackEvent) :
    e ∈ tileLog base W depth i ↔
      ∃ k : Nat, k < depth ∧ ∃ w : Nat, w < W ∧ e = (base + (k : Int) * W + w, i + w, (k : Int)) := by
  simp only [tileLog, List.mem_flatMap, List.mem_range, List.mem_map]
  constructor
  · rintro ⟨k, hk, w, hw, rfl⟩
    exact ⟨k, hk, w, hw, rfl⟩
  · rintro ⟨k, hk, w, hw, rfl⟩
    exact ⟨k, hk, w, hw, rfl⟩

theorem mem_rowLog (base : Int) (depth : Nat) (i : Int) (e : PackEvent) :
    e ∈ rowLog base depth i ↔ ∃ k : Nat, k < depth ∧ e = (base + (k : Int), i, (k : Int)) := by
  simp only [rowLog, List.mem_map, List.mem_range]
  constructor
  · rintro ⟨k, hk, rfl⟩
    exact ⟨k, hk, rfl⟩
  · rintro ⟨k, hk, rfl⟩
    exact ⟨k, hk, rfl⟩

theorem mem_lhsLog (mr PS rows depth : Nat) (es eo : Int) (e : PackEvent) :
    e ∈ lhsLog mr PS rows depth es eo ↔
      (∃ t : Nat, t < rows / mr ∧ ∃ k : Nat, k < depth ∧ ∃ w : Nat, w < mr ∧
        e = (((t * mr : Nat) : Int) * es + mr * eo + (k : Int) * mr + w, ((t * mr : Nat) : Int) + w, (k : Int))) ∨
      (rows - rows / mr * mr ≥ PS ∧ ∃ k : Nat, k < depth ∧ ∃ w : Nat, w < PS ∧
        e = (((rows / mr * mr : Nat) : Int) * es + PS * eo + (k : Int) * PS + w,
             ((rows / mr * mr : Nat) : Int) + w, (k : Int))) ∨
      (∃ t : Nat, t < rows - (if rows - rows / mr * mr ≥ PS then rows / mr * mr + PS else rows / mr * mr) ∧
        ∃ k : Nat, k < depth ∧
        e = ((((if rows - rows / mr * mr ≥ PS then rows / mr * mr + PS else rows / mr * mr) + t : Nat) : Int) * es
              + eo + (k : Int),
             (((if rows - rows / mr * mr ≥ PS then rows / mr * mr + PS else rows / mr * mr) + t : Nat) : Int),
             (k : Int))) := by
  simp only [lhsLog, List.mem_append, List.mem_flatMap, List.mem_range, mem_tileLog, mem_rowLog]
  by_cases hc : rows - rows / mr * mr ≥ PS
  · simp only [if_pos hc, mem_tileLog, or_assoc]
    simp only [ge_iff_le] at hc ⊢
    simp only [hc, true_and]
  · simp only [if_neg hc, List.not_mem_nil, false_and, or_false, false_or, or_assoc]
    simp only [ge_iff_le] at hc ⊢
    simp only [hc, false_and, false_or]

/-- Value found in the packed left buffer at the index of any store event, under the cursor discipline. -/
theorem pack_lhs_block_at {α : Type} [Star α] (mr PS rows depth : Nat) (hmr : 0 < mr)
    (ic cjf pm : Bool) (blockA : Buf α) (lhs : Int → Int → α) (stride offset : Int)
    (hpm : pm = true → 0 ≤ offset ∧ offset + depth ≤ stride) (e : PackEvent)
    (he : e ∈ lhsLog mr PS rows depth (if pm then stride else depth) (if pm then offset else 0)) :
    (ei_gemm_pack_lhs (mr : Int) (PS : Int) ic cjf pm blockA lhs depth rows stride offset).block e.1
      = ei_conj_if (ic && cjf) (lhs e.2.1 e.2.2) := by
  rw [pack_lhs_closed mr PS rows depth hmr]
  simp only []
  have h0 : 0 ≤ (if pm then offset else 0) := by
    cases pm
    · simp
    · simpa using (hpm rfl).1
  have h1 : (if pm then offset else 0) + (depth : Int) ≤ (if pm then stride else depth) := by
    cases pm
    · simp
    · simpa using (hpm rfl).2
  apply replay_of_mem
  · exact ⟨e, he, rfl⟩
  · intro e' he' hq
    rw [lhsLog_functional mr PS rows depth hmr _ _ h0 h1 e' e he' he hq]

/-- C2. Layout of the left packer in non-panel mode: full tiles are stored depth-major in groups of `mr`,
the partial tile (when the remainder holds a whole packet) in groups of `PacketSize`, every later row contiguously,
each entry conjugated when `Conjugate` is set on a complex scalar. -/
theorem pack_lhs_layout {α : Type} [Star α] (mr PS rows depth : Nat) (hmr : 0 < mr)
    (ic cjf : Bool) (blockA : Buf α) (lhs : Int → Int → α) :
    (∀ i k w : Nat, i < rows / mr * mr → mr ∣ i → k < depth → w < mr →
      (ei_gemm_pack_lhs (mr : Int) (PS : Int) ic cjf false blockA lhs depth rows 0 0).block
        ((i : Int) * depth + (k : Int) * mr + w) = ei_conj_if (ic && cjf) (lhs ((i : Int) + w) k)) ∧
    (rows - rows / mr * mr ≥ PS → ∀ k w : Nat, k < depth → w < PS →
      (ei_gemm_pack_lhs (mr : Int) (PS : Int) ic cjf false blockA lhs depth rows 0 0).block
        (((rows / mr * mr : Nat) : Int) * depth + (k : Int) * PS + w)
        = ei_conj_if (ic && cjf) (lhs (((rows / mr * mr : Nat) : Int) + w) k)) ∧
    (∀ i k : Nat, (if rows - rows / mr * mr ≥ PS then rows / mr * mr + PS else rows / mr * mr) ≤ i →
      i < rows → k < depth →
      (ei_gemm_pack_lhs (mr : Int) (PS : Int) ic cjf false blockA lhs depth rows 0 0).block
        ((i : Int) * depth + k) = ei_conj_if (ic && cjf) (lhs i k)) := by
  have key := fun e he => pack_lhs_block_at (α := α) mr PS rows depth hmr ic cjf false blockA lhs 0 0
    (by simp) e he
  simp only [Bool.false_eq_true, if_false] at key
  refine ⟨?_, ?_, ?_⟩
  · intro i k w hi hdvd hk hw
    obtain ⟨t, rfl⟩ := hdvd
    have ht : t < rows / mr := by
      by_contra hcon
      have : rows / mr * mr ≤ mr * t := by
        rw [Nat.mul_comm mr t]; exact Nat.mul_le_mul_right _ (by omega)
      omega
    have h := key (((t * mr : Nat) : Int) * depth + mr * 0 + (k : Int) * mr + w, ((t * mr : Nat) : Int) + w, (k : Int))
      ((mem_lhsLog _ _ _ _ _ _ _).2 (Or.inl ⟨t, ht, k, hk, w, hw, rfl⟩))
    simp only [] at h
    rw [Nat.mul_comm mr t]
    convert h using 2
  · intro hc k w hk hw
    have h := key (((rows / mr * mr : Nat) : Int) * depth + PS * 0 + (k : Int) * PS + w,
      ((rows / mr * mr : Nat) : Int) + w, (k : Int))
      ((mem_lhsLog _ _ _ _ _ _ _).2 (Or.inr (Or.inl ⟨hc, k, hk, w, hw, rfl⟩)))
    simp only [] at h
    convert h using 2
  · intro i k hi hir hk
    have h := key ((((if rows - rows / mr * mr ≥ PS then rows / mr * mr + PS else rows / mr * mr) +
        (i - (if rows - rows / mr * mr ≥ PS then rows / mr * mr + PS else rows / mr * mr)) : Nat) : Int) * depth
          + 0 + (k : Int),
        (((if rows - rows / mr * mr ≥ PS then rows / mr * mr + PS else rows / mr * mr) +
        (i - (if rows - rows / mr * mr ≥ PS then rows / mr * mr + PS else rows / mr * mr)) : Nat) : Int), (k : Int))
      ((mem_lhsLog _ _ _ _ _ _ _).2 (Or.inr (Or.inr ⟨_, by omega, k, hk, rfl⟩)))
    simp only [] at h
    have e : (if rows - rows / mr * mr ≥ PS then rows / mr * mr + PS else rows / mr * mr) +
        (i - (if rows - rows / mr * mr ≥ PS then rows / mr * mr + PS else rows / mr * mr)) = i := by omega
    rw [e] at h
    convert h using 2

theorem sequential_store_advance {α : Type} (s : PackState α) (h : s.Sequential) (v : α) (r c : Int) :
    ((s.store 0 v r c).advance 1).Sequential := by
  obtain ⟨h0, hl⟩ := h
  refine ⟨?_, ?_⟩
  · simp only [PackState.advance, PackState.store]; omega
  · simp only [PackState.advance, PackState.store, List.map_append, List.map_cons, List.map_nil, add_zero]
    have : (s.count + 1).toNat = s.count.toNat + 1 := by omega
    rw [this, List.range_succ, List.map_append, hl]
    simp [Int.toNat_of_nonneg h0]

theorem pack_lhs_sequential {α : Type} [Star α] (mr PS : Int)
    (ic cjf : Bool) (blockA : Buf α) (lhs : Int → Int → α) (depth rows stride offset : Int) :
    (ei_gemm_pack_lhs mr PS ic cjf false blockA lhs depth rows stride offset).Sequential := by
  unfold ei_gemm_pack_lhs
  simp only []
  have h0 : (⟨blockA, 0, []⟩ : PackState α).Sequential := ⟨le_refl _, by simp⟩
  have ht : ∀ (W : Int) (s : PackState α) (i : Int), s.Sequential →
      (pack_lhs_tile (ei_conj_if (ic && cjf)) lhs false W depth stride offset s i).Sequential := by
    intro W s i hs
    unfold pack_lhs_tile
    simp only [Bool.false_eq_true, if_false]
    refine List.foldlRecOn _ _ s hs ?_
    intro s hs k _
    refine List.foldlRecOn _ _ s hs ?_
    intro s hs w _
    exact sequential_store_advance s hs _ _ _
  have h1 : ((forRange 0 (rows.tdiv mr * mr) mr).foldl
      (pack_lhs_tile (ei_conj_if (ic && cjf)) lhs false mr depth stride offset) ⟨blockA, 0, []⟩).Sequential := by
    refine List.foldlRecOn _ _ _ h0 ?_
    intro s hs i _
    exact ht _ s i hs
  refine List.foldlRecOn _ _ _ ?_ ?_
  · split
    · exact ht _ _ _ h1
    · exact h1
  · intro s hs i _
    unfold pack_lhs_row
    simp only [Bool.false_eq_true, if_false]
    refine List.foldlRecOn _ _ s hs ?_
    intro s hs k _
    exact sequential_store_advance s hs _ _ _

theorem lhsLog_pos_mem (mr PS rows depth : Nat) (hmr : 0 < mr) (es eo : Int) (i k : Nat)
    (hi : i < rows) (hk : k < depth) :
    ((i : Int), (k : Int)) ∈ (lhsLog mr PS rows depth es eo).map (fun e => e.2) := by
  have hle : rows / mr * mr ≤ rows := Nat.div_mul_le_self rows mr
  rw [List.mem_map]
  by_cases h1 : i < rows / mr * mr
  · have ht : i / mr < rows / mr := by
      rw [Nat.div_lt_iff_lt_mul hmr]; exact h1
    have hi' : i / mr * mr + i % mr = i := by
      rw [Nat.mul_comm]; exact Nat.div_add_mod i mr
    refine ⟨(((i / mr * mr : Nat) : Int) * es + mr * eo + (k : Int) * mr + ((i % mr : Nat) : Int),
      ((i / mr * mr : Nat) : Int) + ((i % mr : Nat) : Int), (k : Int)),
      (mem_lhsLog _ _ _ _ _ _ _).2 (Or.inl ⟨i / mr, ht, k, hk, i % mr, Nat.mod_lt _ hmr, rfl⟩), ?_⟩
    refine Prod.ext ?_ rfl
    simp only
    exact_mod_cast hi'
  · by_cases hc : rows - rows / mr * mr ≥ PS
    · by_cases h2 : i < rows / mr * mr + PS
      · refine ⟨(((rows / mr * mr : Nat) : Int) * es + PS * eo + (k : Int) * PS + ((i - rows / mr * mr : Nat) : Int),
          ((rows / mr * mr : Nat) : Int) + ((i - rows / mr * mr : Nat) : Int), (k : Int)),
          (mem_lhsLog _ _ _ _ _ _ _).2 (Or.inr (Or.inl ⟨hc, k, hk, i - rows / mr * mr, by omega, rfl⟩)), ?_⟩
        refine Prod.ext ?_ rfl
        simp only
        omega
      · refine ⟨(((((if rows - rows / mr * mr ≥ PS then rows / mr * mr + PS else rows / mr * mr) +
            (i - (rows / mr * mr + PS)) : Nat) : Int)) * es + eo + (k : Int),
          ((((if rows - rows / mr * mr ≥ PS then rows / mr * mr + PS else rows / mr * mr) +
            (i - (rows / mr * mr + PS)) : Nat) : Int)), (k : Int)),
          (mem_lhsLog _ _ _ _ _ _ _).2 (Or.inr (Or.inr ⟨i - (rows / mr * mr + PS), ?_, k, hk, rfl⟩)), ?_⟩
        · rw [if_pos hc]; omega
        · refine Prod.ext ?_ rfl
          simp only [if_pos hc]
          omega
    · refine ⟨(((((if rows - rows / mr * mr ≥ PS then rows / mr * mr + PS else rows / mr * mr) +
          (i - rows / mr * mr) : Nat) : Int)) * es + eo + (k : Int),
        ((((if rows - rows / mr * mr ≥ PS then rows / mr * mr + PS else rows / mr * mr) +
          (i - rows / mr * mr) : Nat) : Int)), (k : Int)),
        (mem_lhsLog _ _ _ _ _ _ _).2 (Or.inr (Or.inr ⟨i - rows / mr * mr, ?_, k, hk, rfl⟩)), ?_⟩
      · rw [if_neg hc]; omega
      · refine Prod.ext ?_ rfl
        simp only [if_neg hc]
        omega

theorem lhsLog_pos_range (mr PS rows depth : Nat) (es eo : Int) (e : PackEvent)
    (he : e ∈ lhsLog mr PS rows depth es eo) :
    0 ≤ e.2.1 ∧ e.2.1 < rows ∧ 0 ≤ e.2.2 ∧ e.2.2 < depth := by
  have hle : rows / mr * mr ≤ rows := Nat.div_mul_le_self rows mr
  rcases (mem_lhsLog _ _ _ _ _ _ _).1 he with ⟨t, ht, k, hk, w, hw, rfl⟩ | ⟨hc, k, hk, w, hw, rfl⟩ |
    ⟨t, ht, k, hk, rfl⟩
  · have : (t + 1) * mr ≤ rows / mr * mr := Nat.mul_le_mul_right _ ht
    have h2 : (t + 1) * mr = t * mr + mr := by ring
    simp only
    omega
  · simp only
    omega
  · simp only
    split_ifs at ht ⊢ <;> omega

theorem nodup_of_covering (L : List (Int × Int)) (rows depth : Nat) (hlen : L.length = rows * depth)
    (hcov : ∀ i k : Nat, i < rows → k < depth → ((i : Int), (k : Int)) ∈ L) : L.Nodup := by
  classical
  let S : Finset (Int × Int) :=
    ((Finset.range rows) ×ˢ (Finset.range depth)).image (fun p => ((p.1 : Int), (p.2 : Int)))
  have hS : S.card = rows * depth := by
    rw [Finset.card_image_of_injective]
    · simp
    · intro p q h
      simp only [Prod.mk.injEq, Nat.cast_inj] at h
      exact Prod.ext h.1 h.2
  have hsub : S ⊆ L.toFinset := by
    intro x hx
    obtain ⟨p, hp, rfl⟩ := Finset.mem_image.1 hx
    simp only [Finset.mem_product, Finset.mem_range] at hp
    exact List.mem_toFinset.2 (hcov p.1 p.2 hp.1 hp.2)
  have h1 : rows * depth ≤ L.toFinset.card := hS ▸ Finset.card_le_card hsub
  have h2 : L.toFinset.card ≤ L.length := List.toFinset_card_le L
  have h3 : (L : Multiset (Int × Int)).toFinset.card = Multiset.card (L : Multiset (Int × Int)) := by
    simp only [Multiset.coe_card]
    have : (L : Multiset (Int × Int)).toFinset = L.toFinset := rfl
    rw [this]
    omega
  exact Multiset.coe_nodup.1 (Multiset.toFinset_card_eq_card_iff_nodup.1 h3)

/-- C4. In non-panel mode the left packer writes exactly `rows*depth` scalars. It stores to the indices
`0, 1, ..., rows*depth-1` in this order (no index is written twice, none is skipped) and ends with the
cursor at `rows*depth`; the source positions it stores are exactly the pairs `(i,k)` with `i < rows`,
`k < depth`, each one once. In the buffer after the call every index `q` of `[0, rows*depth)` holds the
(conjugated) source element of the one position `(i,k)` stored there, every position `(i,k)` is found at
one index of `[0, rows*depth)` and at no other, and every index outside `[0, rows*depth)` holds what the
buffer held before the call. -/
theorem pack_lhs_bijection {α : Type} [Star α] (mr PS rows depth : Nat) (hmr : 1 ≤ mr)
    (ic cjf : Bool) (blockA : Buf α) (lhs : Int → Int → α) :
    (ei_gemm_pack_lhs (mr : Int) (PS : Int) ic cjf false blockA lhs depth rows 0 0).log.map (fun e => e.1)
        = (List.range (rows * depth)).map (fun (n : Nat) => (n : Int)) ∧
    (ei_gemm_pack_lhs (mr : Int) (PS : Int) ic cjf false blockA lhs depth rows 0 0).count
        = ((rows * depth : Nat) : Int) ∧
    ((ei_gemm_pack_lhs (mr : Int) (PS : Int) ic cjf false blockA lhs depth rows 0 0).log.map
        (fun e => e.2)).Nodup ∧
    (∀ i k : Int,
      (i, k) ∈ (ei_gemm_pack_lhs (mr : Int) (PS : Int) ic cjf false blockA lhs depth rows 0 0).log.map
        (fun e => e.2) ↔ (0 ≤ i ∧ i < rows ∧ 0 ≤ k ∧ k < depth)) ∧
    (∀ e ∈ (ei_gemm_pack_lhs (mr : Int) (PS : Int) ic cjf false blockA lhs depth rows 0 0).log,
      (ei_gemm_pack_lhs (mr : Int) (PS : Int) ic cjf false blockA lhs depth rows 0 0).block e.1
        = ei_conj_if (ic && cjf) (lhs e.2.1 e.2.2)) ∧
    (∀ q : Int, 0 ≤ q → q < ((rows * depth : Nat) : Int) →
      ∃ i k : Int, 0 ≤ i ∧ i < rows ∧ 0 ≤ k ∧ k < depth ∧
        ((q, i, k) : PackEvent) ∈
          (ei_gemm_pack_lhs (mr : Int) (PS : Int) ic cjf false blockA lhs depth rows 0 0).log ∧
        (ei_gemm_pack_lhs (mr : Int) (PS : Int) ic cjf false blockA lhs depth rows 0 0).block q
          = ei_conj_if (ic && cjf) (lhs i k)) ∧
    (∀ i k : Nat, i < rows → k < depth →
      ∃ q : Int, 0 ≤ q ∧ q < ((rows * depth : Nat) : Int) ∧
        ((q, (i : Int), (k : Int)) : PackEvent) ∈
          (ei_gemm_pack_lhs (mr : Int) (PS : Int) ic cjf false blockA lhs depth rows 0 0).log ∧
        (ei_gemm_pack_lhs (mr : Int) (PS : Int) ic cjf false blockA lhs depth rows 0 0).block q
          = ei_conj_if (ic && cjf) (lhs i k) ∧
        (∀ q2 : Int, ((q2, (i : Int), (k : Int)) : PackEvent) ∈
          (ei_gemm_pack_lhs (mr : Int) (PS : Int) ic cjf false blockA lhs depth rows 0 0).log → q2 = q)) ∧
    (∀ q : Int, (q < 0 ∨ ((rows * depth : Nat) : Int) ≤ q) →
      (ei_gemm_pack_lhs (mr : Int) (PS : Int) ic cjf false blockA lhs depth rows 0 0).block q = blockA q) := by
  have hseq := pack_lhs_sequential (α := α) mr PS ic cjf blockA lhs depth rows 0 0
  have hcl := pack_lhs_closed (α := α) mr PS rows depth hmr ic cjf false blockA lhs 0 0
  simp only [Bool.false_eq_true, if_false] at hcl
  have hcount : (ei_gemm_pack_lhs (mr : Int) (PS : Int) ic cjf false blockA lhs depth rows 0 0).count
      = ((rows * depth : Nat) : Int) := by
    rw [hcl]; push_cast; rfl
  have hidx : (ei_gemm_pack_lhs (mr : Int) (PS : Int) ic cjf false blockA lhs depth rows 0 0).log.map
      (fun e => e.1) = (List.range (rows * depth)).map (fun (n : Nat) => (n : Int)) := by
    have := hseq.2
    rw [hcount, Int.toNat_ofNat] at this
    exact this
  have hlog : (ei_gemm_pack_lhs (mr : Int) (PS : Int) ic cjf false blockA lhs depth rows 0 0).log
      = lhsLog mr PS rows depth depth 0 := by
    rw [hcl]
  have hblock : (ei_gemm_pack_lhs (mr : Int) (PS : Int) ic cjf false blockA lhs depth rows 0 0).block
      = replay (fun r c => ei_conj_if (ic && cjf) (lhs r c)) (lhsLog mr PS rows depth depth 0) blockA := by
    rw [hcl]
  have hval : ∀ e ∈ (ei_gemm_pack_lhs (mr : Int) (PS : Int) ic cjf false blockA lhs depth rows 0 0).log,
      (ei_gemm_pack_lhs (mr : Int) (PS : Int) ic cjf false blockA lhs depth rows 0 0).block e.1
        = ei_conj_if (ic && cjf) (lhs e.2.1 e.2.2) := by
    intro e he
    rw [hlog] at he
    have := pack_lhs_block_at (α := α) mr PS rows depth hmr ic cjf false blockA lhs 0 0 (by simp) e
      (by simpa using he)
    exact this
  have hfst : ∀ e ∈ (ei_gemm_pack_lhs (mr : Int) (PS : Int) ic cjf false blockA lhs depth rows 0 0).log,
      0 ≤ e.1 ∧ e.1 < ((rows * depth : Nat) : Int) := by
    intro e he
    have h1 : e.1 ∈ (ei_gemm_pack_lhs (mr : Int) (PS : Int) ic cjf false blockA lhs depth rows 0 0).log.map
        (fun e => e.1) := List.mem_map.2 ⟨e, he, rfl⟩
    rw [hidx] at h1
    obtain ⟨n, hn, hne⟩ := List.mem_map.1 h1
    have hn' := List.mem_range.1 hn
    rw [← hne]
    exact ⟨by positivity, by exact_mod_cast hn'⟩
  have hnd : ((ei_gemm_pack_lhs (mr : Int) (PS : Int) ic cjf false blockA lhs depth rows 0 0).log.map
      (fun e => e.2)).Nodup := by
    apply nodup_of_covering _ rows depth
    · have := congrArg List.length hidx
      simpa using this
    · intro i k hi hk
      rw [hlog]
      exact lhsLog_pos_mem mr PS rows depth hmr _ _ i k hi hk
  refine ⟨hidx, hcount, hnd, ?_, hval, ?_, ?_, ?_⟩
  · intro i k
    rw [hlog]
    constructor
    · intro h
      obtain ⟨e, he, heq⟩ := List.mem_map.1 h
      have := lhsLog_pos_range mr PS rows depth _ _ e he
      rw [heq] at this
      exact this
    · rintro ⟨hi0, hi, hk0, hk⟩
      have := lhsLog_pos_mem mr PS rows depth hmr depth 0 i.toNat k.toNat (by omega) (by omega)
      rwa [Int.toNat_of_nonneg hi0, Int.toNat_of_nonneg hk0] at this
  · intro q hq0 hq
    have h1 : q ∈ (ei_gemm_pack_lhs (mr : Int) (PS : Int) ic cjf false blockA lhs depth rows 0 0).log.map
        (fun e => e.1) := by
      rw [hidx]
      exact List.mem_map.2 ⟨q.toNat, List.mem_range.2 (by omega), by omega⟩
    obtain ⟨e, he, heq⟩ := List.mem_map.1 h1
    have hr := lhsLog_pos_range mr PS rows depth _ _ e (by rw [← hlog]; exact he)
    have hv := hval e he
    have heq2 : e.1 = q := heq
    rw [heq2] at hv
    refine ⟨e.2.1, e.2.2, hr.1, hr.2.1, hr.2.2.1, hr.2.2.2, ?_, hv⟩
    rw [← heq2]
    exact he
  · intro i k hi hk
    have hm := lhsLog_pos_mem mr PS rows depth hmr depth 0 i k hi hk
    rw [← hlog] at hm
    obtain ⟨e, he, heq⟩ := List.mem_map.1 hm
    have hv := hval e he
    have heq2 : e.2 = ((i : Int), (k : Int)) := heq
    rw [heq2] at hv
    refine ⟨e.1, (hfst e he).1, (hfst e he).2, ?_, hv, ?_⟩
    · have : e = (e.1, (i : Int), (k : Int)) := by rw [← heq2]
      rw [← this]
      exact he
    · intro q2 hq2
      have := List.inj_on_of_nodup_map hnd hq2 he heq2.symm
      rw [← this]
  · intro q hq
    rw [hblock]
    apply replay_of_not_mem
    intro e he hne
    have := hfst e (by rw [hlog]; exact he)
    omega

theorem pack_lhs_bijection_witness :
    1 ≤ 4 ∧
    (ei_gemm_pack_lhs ((4 : Nat) : Int) ((2 : Nat) : Int) false false false (fun _ => (-1 : Int))
        (fun i k => 10 * i + k) ((3 : Nat) : Int) ((7 : Nat) : Int) 0 0).count = ((7 * 3 : Nat) : Int) ∧
    (ei_gemm_pack_lhs ((4 : Nat) : Int) ((2 : Nat) : Int) false false false (fun _ => (-1 : Int))
        (fun i k => 10 * i + k) ((3 : Nat) : Int) ((7 : Nat) : Int) 0 0).block 13 = 50 ∧
    (List.range 22).map (fun (n : Nat) =>
      (ei_gemm_pack_lhs ((4 : Nat) : Int) ((2 : Nat) : Int) false false false (fun _ => (-1 : Int))
        (fun i k => 10 * i + k) ((3 : Nat) : Int) ((7 : Nat) : Int) 0 0).block n) =
      [0, 10, 20, 30, 1, 11, 21, 31, 2, 12, 22, 32, 40, 50, 41, 51, 42, 52, 60, 61, 62, -1] :=
  ⟨by decide,
    (pack_lhs_bijection 4 2 7 3 (by decide) false false (fun _ => (-1 : Int)) (fun i k => 10 * i + k)).2.1,
    ((pack_lhs_bijection 4 2 7 3 (by decide) false false (fun _ => (-1 : Int))
      (fun i k => 10 * i + k)).2.2.2.2.1 (13, 5, 0) (by decide)).trans (by decide),
    by decide⟩

theorem pack_rhs_group_eq {α : Type} (val : Int → Int → α) (nr : Int) (s : PackState α)
    (k j2 : Int) :
    pack_rhs_group nr s (val k (j2 + 0)) (val k (j2 + 1)) (val k (j2 + 2)) (val k (j2 + 3)) k j2 =
      ⟨replay val (groupLog nr s.count k j2) s.block, s.count + nr, s.log ++ groupLog nr s.count k j2⟩ := by
  unfold pack_rhs_group groupLog
  by_cases h : nr = 4
  · simp [h, PackState.store, PackState.advance, replay]
  · simp [h, PackState.store, PackState.advance, replay]

/-- Closed form of either right packer, given the value `val k j` it stores for source entry `(k,j)`
in a full tile and `valr k j` in a remainder column. -/
theorem pack_rhs_fold_closed {α : Type} (val : Int → Int → α) (nr cols depth : Nat) (hnr : 0 < nr)
    (pm : Bool) (stride offset : Int)
    (ftile : PackState α → Int → PackState α) (fcol : PackState α → Int → PackState α)
    (htile : ∀ s j2, ftile s j2 =
      (fun s : PackState α => if pm then s.advance ((nr : Int) * (stride - offset - depth)) else s)
        ((forRange 0 depth 1).foldl (fun s k =>
          pack_rhs_group nr s (val k (j2 + 0)) (val k (j2 + 1)) (val k (j2 + 2)) (val k (j2 + 3)) k j2)
          (if pm then s.advance ((nr : Int) * offset) else s)))
    (hcol : ∀ s j2, fcol s j2 =
      (fun s : PackState α => if pm then s.advance (stride - offset - depth) else s)
        ((forRange 0 depth 1).foldl (fun s k => (s.store 0 (val k j2) k j2).advance 1)
          (if pm then s.advance offset else s)))
    (blockB : Buf α) :
    (forRange ((cols : Int).tdiv nr * nr) cols 1).foldl fcol
      ((forRange 0 ((cols : Int).tdiv nr * nr) nr).foldl ftile ⟨blockB, 0, []⟩) =
      ⟨replay val (rhsLog nr cols depth (if pm then stride else depth) (if pm then offset else 0)) blockB,
       cols * (if pm then stride else depth),
       rhsLog nr cols depth (if pm then stride else depth) (if pm then offset else 0)⟩ := by
  have hle : cols / nr * nr ≤ cols := Nat.div_mul_le_self cols nr
  have hk : ∀ (j2 : Int) (s : PackState α),
      (forRange 0 depth 1).foldl (fun s k =>
          pack_rhs_group nr s (val k (j2 + 0)) (val k (j2 + 1)) (val k (j2 + 2)) (val k (j2 + 3)) k j2) s =
      ⟨replay val ((List.range depth).flatMap (fun (k : Nat) => groupLog nr (s.count + (k : Int) * nr) k j2)) s.block,
       s.count + depth * nr,
       s.log ++ (List.range depth).flatMap (fun (k : Nat) => groupLog nr (s.count + (k : Int) * nr) k j2)⟩ := by
    intro j2 s
    rw [forRange_zero_one depth]
    rw [foldl_uniform val _ nr (fun k c => groupLog nr c k j2)]
    intro s x
    rw [pack_rhs_group_eq]
  have hk1 : ∀ (j2 : Int) (s : PackState α),
      (forRange 0 depth 1).foldl (fun s k => (s.store 0 (val k j2) k j2).advance 1) s =
      ⟨replay val ((List.range depth).map (fun (k : Nat) => (s.count + (k : Int), (k : Int), j2))) s.block,
       s.count + depth,
       s.log ++ (List.range depth).map (fun (k : Nat) => (s.count + (k : Int), (k : Int), j2))⟩ := by
    intro j2 s
    rw [forRange_zero_one depth]
    rw [foldl_uniform val _ 1 (fun k c => [(c, k, j2)])]
    · simp [flatMap_single]
    · intro s x
      simp [PackState.store, PackState.advance, replay]
  have ht : ∀ s j2, ftile s j2 =
      ⟨replay val ((List.range depth).flatMap (fun (k : Nat) =>
          groupLog nr (s.count + nr * (if pm then offset else 0) + (k : Int) * nr) k j2)) s.block,
        s.count + nr * (if pm then stride else depth),
        s.log ++ (List.range depth).flatMap (fun (k : Nat) =>
          groupLog nr (s.count + nr * (if pm then offset else 0) + (k : Int) * nr) k j2)⟩ := by
    intro s j2
    rw [htile, hk]
    cases pm
    · simp only [Bool.false_eq_true, if_false, mul_zero, add_zero]
      congr 1
      ring
    · simp only [if_true, PackState.advance]
      congr 1
      ring
  have hc : ∀ s j2, fcol s j2 =
      ⟨replay val ((List.range depth).map (fun (k : Nat) =>
          (s.count + (if pm then offset else 0) + (k : Int), (k : Int), j2))) s.block,
        s.count + (if pm then stride else depth),
        s.log ++ (List.range depth).map (fun (k : Nat) =>
          (s.count + (if pm then offset else 0) + (k : Int), (k : Int), j2))⟩ := by
    intro s j2
    rw [hcol, hk1]
    cases pm
    · simp only [Bool.false_eq_true, if_false, add_zero]
    · simp only [if_true, PackState.advance]
      congr 1
      ring
  rw [tdiv_mul_cast]
  have e1 : ((cols / nr * nr : Nat) : Int) = ((cols / nr : Nat) : Int) * (nr : Int) := by push_cast; rfl
  have e2 : (cols : Int) = ((cols / nr * nr : Nat) : Int) + ((cols - cols / nr * nr : Nat) : Int) := by omega
  rw [e1, forRange_tiles _ _ (by exact_mod_cast hnr), ← e1]
  rw [foldl_uniform val ftile (nr * (if pm then stride else depth))
    (fun j2 c => (List.range depth).flatMap (fun (k : Nat) =>
          groupLog nr (c + nr * (if pm then offset else 0) + (k : Int) * nr) k j2)) ht]
  conv_lhs => rw [e2]
  rw [forRange_one]
  rw [foldl_uniform val fcol (if pm then stride else depth)
    (fun j2 c => (List.range depth).map (fun (k : Nat) =>
          (c + (if pm then offset else 0) + (k : Int), (k : Int), j2))) hc]
  simp only [rhsLog, replay_append, List.nil_append, zero_add, List.append_assoc]
  have e3 : ∀ t : Nat, (t : Int) * ((nr : Int) * (if pm then stride else depth))
      = ((t * nr : Nat) : Int) * (if pm then stride else depth) := by
    intro t; push_cast; ring
  have e4 : ∀ t : Nat, ((cols / nr * nr : Nat) : Int) * (if pm then stride else depth) +
      (t : Int) * (if pm then stride else depth)
      = ((cols / nr * nr + t : Nat) : Int) * (if pm then stride else depth) := by
    intro t; push_cast; ring
  have e5 : ∀ t : Nat, ((t : Int) * (nr : Int)) = ((t * nr : Nat) : Int) := by
    intro t; push_cast; ring
  have e6 : ∀ t : Nat, ((cols / nr * nr : Nat) : Int) + (t : Int) = ((cols / nr * nr + t : Nat) : Int) := by
    intro t; push_cast; ring
  simp only [e3, e4, e5, e6]
  congr 1
  have hr : cols / nr * nr + (cols - cols / nr * nr) = cols := by omega
  rw [hr]

theorem pack_rhs_ColMajor_closed {α : Type} [MulOneClass α] [DecidableEq α] (nr cols depth : Nat) (hnr : 0 < nr)
    (pm : Bool) (blockB rhs : Buf α) (rhsStride : Int) (alpha : α) (stride offset : Int) :
    ei_gemm_pack_rhs_ColMajor (nr : Int) pm blockB rhs rhsStride alpha depth cols stride offset =
      ⟨replay (fun k j => alpha * rhs (j * rhsStride + k))
          (rhsLog nr cols depth (if pm then stride else depth) (if pm then offset else 0)) blockB,
       cols * (if pm then stride else depth),
       rhsLog nr cols depth (if pm then stride else depth) (if pm then offset else 0)⟩ := by
  unfold ei_gemm_pack_rhs_ColMajor
  simp only []
  apply pack_rhs_fold_closed (fun k j => alpha * rhs (j * rhsStride + k)) nr cols depth hnr pm stride offset
  · intro s j2
    by_cases ha : alpha = 1
    · simp [ha]
    · simp [ha]
  · intro s j2
    by_cases ha : alpha = 1
    · simp [ha]
    · simp [ha]

theorem pack_rhs_RowMajor_closed {α : Type} [MulOneClass α] [DecidableEq α] (nr cols depth : Nat) (hnr : 0 < nr)
    (pm : Bool) (blockB rhs : Buf α) (rhsStride : Int) (alpha : α) (stride offset : Int) :
    ei_gemm_pack_rhs_RowMajor (nr : Int) pm blockB rhs rhsStride alpha depth cols stride offset =
      ⟨replay (fun k j => alpha * rhs (k * rhsStride + j))
          (rhsLog nr cols depth (if pm then stride else depth) (if pm then offset else 0)) blockB,
       cols * (if pm then stride else depth),
       rhsLog nr cols depth (if pm then stride else depth) (if pm then offset else 0)⟩ := by
  unfold ei_gemm_pack_rhs_RowMajor
  simp only []
  apply pack_rhs_fold_closed (fun k j => alpha * rhs (k * rhsStride + j)) nr cols depth hnr pm stride offset
  · intro s j2
    by_cases ha : alpha = 1
    · simp [ha, add_assoc]
    · simp [ha, add_assoc]
  · intro s j2
    simp [add_comm]

theorem increasing_append {α : Type} (s : PackState α) (h : s.Increasing) (E : List PackEvent) (d : Int)
    (hE : (E.map (fun e => e.1)).Pairwise (fun a b => a < b))
    (hb : ∀ e ∈ E, s.count ≤ e.1 ∧ e.1 < s.count + d) (hd : 0 ≤ d) (b : Buf α) :
    (⟨b, s.count + d, s.log ++ E⟩ : PackState α).Increasing := by
  obtain ⟨h0, hp, hlt⟩ := h
  refine ⟨by simp only; omega, ?_, ?_⟩
  · simp only [List.map_append]
    rw [List.pairwise_append]
    refine ⟨hp, hE, ?_⟩
    intro a ha c hc
    obtain ⟨e, he, rfl⟩ := List.mem_map.1 ha
    obtain ⟨e', he', rfl⟩ := List.mem_map.1 hc
    have := hlt e he
    have := hb e' he'
    omega
  · intro e he
    simp only [List.mem_append] at he
    simp only
    rcases he with he | he
    · have := hlt e he
      omega
    · have := hb e he
      omega

theorem increasing_group {α : Type} (nr : Int) (hnr : 2 ≤ nr) (s : PackState α) (h : s.Increasing)
    (v0 v1 v2 v3 : α) (k j2 : Int) : (pack_rhs_group nr s v0 v1 v2 v3 k j2).Increasing := by
  have e : pack_rhs_group nr s v0 v1 v2 v3 k j2 =
      ⟨(pack_rhs_group nr s v0 v1 v2 v3 k j2).block, s.count + nr, s.log ++ groupLog nr s.count k j2⟩ := by
    unfold pack_rhs_group groupLog
    by_cases h4 : nr = 4
    · simp [h4, PackState.store, PackState.advance]
    · simp [h4, PackState.store, PackState.advance]
  rw [e]
  apply increasing_append s h
  · unfold groupLog
    by_cases h4 : nr = 4
    · simp [h4]
    · simp [h4]
  · intro e' he'
    unfold groupLog at he'
    by_cases h4 : nr = 4
    · simp only [h4, if_true, List.mem_append, List.mem_cons, List.mem_singleton, List.not_mem_nil, or_false] at he'
      rcases he' with ((rfl | rfl) | rfl) | rfl <;> simp only <;> omega
    · simp only [h4, if_false, List.mem_append, List.mem_cons, List.mem_singleton, List.not_mem_nil, or_false] at he'
      rcases he' with rfl | rfl <;> simp only <;> omega
  · omega

theorem pack_rhs_ColMajor_increasing {α : Type} [Mul α] [One α] [DecidableEq α] (nr : Int) (hnr : 2 ≤ nr)
    (pm : Bool) (blockB rhs : Buf α) (rhsStride : Int) (alpha : α) (depth cols stride offset : Int)
    (hpm : pm = true → 0 ≤ offset ∧ offset + depth ≤ stride) :
    (ei_gemm_pack_rhs_ColMajor nr pm blockB rhs rhsStride alpha depth cols stride offset).Increasing := by
  unfold ei_gemm_pack_rhs_ColMajor
  simp only []
  have h0 : (⟨blockB, 0, []⟩ : PackState α).Increasing := ⟨le_refl _, List.Pairwise.nil, by simp⟩
  have hpre : ∀ (n : Int) (s : PackState α), 0 ≤ n → s.Increasing →
      (if pm then s.advance (n * offset) else s).Increasing := by
    intro n s hn hs
    cases pm
    · simpa using hs
    · simp only [if_true]
      exact increasing_advance _ hs _ (mul_nonneg hn (hpm rfl).1)
  have hpost : ∀ (n : Int) (s : PackState α), 0 ≤ n → s.Increasing →
      (if pm then s.advance (n * (stride - offset - depth)) else s).Increasing := by
    intro n s hn hs
    cases pm
    · simpa using hs
    · simp only [if_true]
      exact increasing_advance _ hs _ (mul_nonneg hn (by have := (hpm rfl).2; omega))
  refine List.foldlRecOn _ _ _ ?_ ?_
  · refine List.foldlRecOn _ _ _ h0 ?_
    intro s hs j2 _
    apply hpost nr _ (by omega)
    split
    · refine List.foldlRecOn _ _ _ (hpre nr s (by omega) hs) ?_
      intro s hs k _
      exact increasing_group nr hnr s hs _ _ _ _ _ _
    · refine List.foldlRecOn _ _ _ (hpre nr s (by omega) hs) ?_
      intro s hs k _
      exact increasing_group nr hnr s hs _ _ _ _ _ _
  · intro s hs j2 _
    have h1 := hpre 1 s (by omega) hs
    rw [one_mul] at h1
    have h2 := fun s' hs' => hpost 1 s' (by omega) hs'
    simp only [one_mul] at h2
    apply h2
    split
    · refine List.foldlRecOn _ _ _ h1 ?_
      intro s hs k _
      exact increasing_store_advance s hs _ _ _
    · refine List.foldlRecOn _ _ _ h1 ?_
      intro s hs k _
      exact increasing_store_advance s hs _ _ _

theorem rhsLog_increasing (nr cols depth : Nat) (hnr : 2 ≤ nr) (es eo : Int)
    (h0 : 0 ≤ eo) (h1 : eo + depth ≤ es) :
    ((rhsLog nr cols depth es eo).map (fun e => e.1)).Pairwise (fun a b => a < b) ∧
    ∀ e ∈ rhsLog nr cols depth es eo, 0 ≤ e.1 ∧ e.1 < cols * es := by
  have h := pack_rhs_ColMajor_increasing (α := Int) nr (by exact_mod_cast hnr) true
    (fun _ => 0) (fun _ => 0) 0 0 depth cols es eo (fun _ => ⟨h0, h1⟩)
  rw [pack_rhs_ColMajor_closed nr cols depth (by omega)] at h
  simpa [PackState.Increasing] using h.2

theorem rhsLog_functional (nr cols depth : Nat) (hnr : 2 ≤ nr) (es eo : Int)
    (h0 : 0 ≤ eo) (h1 : eo + depth ≤ es) (e e' : PackEvent)
    (he : e ∈ rhsLog nr cols depth es eo) (he' : e' ∈ rhsLog nr cols depth es eo)
    (hq : e.1 = e'.1) : e = e' := by
  have hp := (rhsLog_increasing nr cols depth hnr es eo h0 h1).1
  have hn : ((rhsLog nr cols depth es eo).map (fun e => e.1)).Nodup :=
    hp.imp (fun h => ne_of_lt h)
  exact List.inj_on_of_nodup_map hn he he' hq

/-- Value left by replaying the right packers' log, at the index of any of its events. -/
theorem replay_rhsLog_at {α : Type} (val : Int → Int → α) (nr cols depth : Nat) (hnr : 2 ≤ nr) (es eo : Int)
    (h0 : 0 ≤ eo) (h1 : eo + depth ≤ es) (b : Buf α) (e : PackEvent)
    (he : e ∈ rhsLog nr cols depth es eo) :
    replay val (rhsLog nr cols depth es eo) b e.1 = val e.2.1 e.2.2 := by
  apply replay_of_mem
  · exact ⟨e, he, rfl⟩
  · intro e' he' hq
    rw [rhsLog_functional nr cols depth hnr _ _ h0 h1 e' e he' he hq]

theorem mem_rhsLog_tile (nr cols depth : Nat) (es eo : Int) (t k c : Nat)
    (ht : t < cols / nr) (hk : k < depth) (hc : c < 2 ∨ ((nr : Int) = 4 ∧ c < 4)) :
    ((((t * nr : Nat) : Int) * es + nr * eo + (k : Int) * nr + c, (k : Int), ((t * nr : Nat) : Int) + c) : PackEvent)
      ∈ rhsLog nr cols depth es eo := by
  unfold rhsLog
  refine List.mem_append_left _ (List.mem_flatMap.2 ⟨t, List.mem_range.2 ht,
    List.mem_flatMap.2 ⟨k, List.mem_range.2 hk, ?_⟩⟩)
  unfold groupLog
  rcases hc with hc | ⟨h4, hc⟩
  · have : c = 0 ∨ c = 1 := by omega
    rcases this with rfl | rfl <;> simp
  · have : c = 0 ∨ c = 1 ∨ c = 2 ∨ c = 3 := by omega
    rcases this with rfl | rfl | rfl | rfl <;> simp [h4]

theorem mem_rhsLog_col (nr cols depth : Nat) (es eo : Int) (j k : Nat)
    (hj : cols / nr * nr ≤ j) (hj' : j < cols) (hk : k < depth) :
    ((((j : Nat) : Int) * es + eo + (k : Int), (k : Int), ((j : Nat) : Int)) : PackEvent)
      ∈ rhsLog nr cols depth es eo := by
  unfold rhsLog
  refine List.mem_append_right _ (List.mem_flatMap.2 ⟨j - cols / nr * nr, List.mem_range.2 (by omega),
    List.mem_map.2 ⟨k, List.mem_range.2 hk, ?_⟩⟩)
  have : cols / nr * nr + (j - cols / nr * nr) = j := by omega
  rw [this]

/-- C3. Layout of the column-major right packer in non-panel mode, `nr ∈ {2,4}`: full column tiles are
stored depth-major in groups of `nr`, every remainder column contiguously as a tile of width 1, each entry
multiplied by `alpha`. -/
theorem pack_rhs_layout {α : Type} [MulOneClass α] [DecidableEq α] (nr cols depth : Nat)
    (hnr : nr = 2 ∨ nr = 4) (blockB rhs : Buf α) (rhsStride : Int) (alpha : α) :
    (∀ j2 k c : Nat, j2 < cols / nr * nr → nr ∣ j2 → k < depth → c < nr →
      (ei_gemm_pack_rhs_ColMajor (nr : Int) false blockB rhs rhsStride alpha depth cols 0 0).block
        ((j2 : Int) * depth + (k : Int) * nr + c) = alpha * rhs (((j2 : Int) + c) * rhsStride + k)) ∧
    (∀ j k : Nat, cols / nr * nr ≤ j → j < cols → k < depth →
      (ei_gemm_pack_rhs_ColMajor (nr : Int) false blockB rhs rhsStride alpha depth cols 0 0).block
        ((j : Int) * depth + k) = alpha * rhs ((j : Int) * rhsStride + k)) := by
  have hnr2 : 2 ≤ nr := by omega
  have hcl := pack_rhs_ColMajor_closed (α := α) nr cols depth (by omega) false blockB rhs rhsStride alpha 0 0
  simp only [Bool.false_eq_true, if_false] at hcl
  have key := fun e he => replay_rhsLog_at (fun k j => alpha * rhs (j * rhsStride + k)) nr cols depth hnr2
    (depth : Int) 0 (le_refl _) (by omega) blockB e he
  rw [hcl]
  simp only []
  refine ⟨?_, ?_⟩
  · intro j2 k c hj hdvd hk hc
    obtain ⟨t, rfl⟩ := hdvd
    have ht : t < cols / nr := by
      by_contra hcon
      have : cols / nr * nr ≤ nr * t := by
        rw [Nat.mul_comm nr t]; exact Nat.mul_le_mul_right _ (by omega)
      omega
    have h := key _ (mem_rhsLog_tile nr cols depth depth 0 t k c ht hk (by
      rcases hnr with h | h
      · left; omega
      · right; exact ⟨by exact_mod_cast h, by omega⟩))
    simp only [] at h
    rw [Nat.mul_comm nr t]
    convert h using 2
  · intro j k hj hj' hk
    have h := key _ (mem_rhsLog_col nr cols depth depth 0 j k hj hj' hk)
    simp only [] at h
    convert h using 2

theorem pack_rhs_layout_witness :
    ((2 : Nat) = 2 ∨ (2 : Nat) = 4) ∧
    (∀ j k : Nat, 3 / 2 * 2 ≤ j → j < 3 → k < 3 →
      (ei_gemm_pack_rhs_ColMajor ((2 : Nat) : Int) false (fun _ => (0 : Int)) (fun q => q) 3 2
        ((3 : Nat) : Int) ((3 : Nat) : Int) 0 0).block ((j : Int) * (3 : Nat) + k)
        = 2 * (fun q : Int => q) ((j : Int) * 3 + k)) :=
  ⟨Or.inl rfl, (pack_rhs_layout 2 3 3 (Or.inl rfl) (fun _ => (0 : Int)) (fun q => q) 3 2).2⟩

theorem unpack_fold_of_mem {α : Type} (f : PackEvent → α) (L : List PackEvent) (init : Int → Int → α)
    (i k : Int) (v : α) (hex : ∃ e ∈ L, e.2.1 = i ∧ e.2.2 = k)
    (hv : ∀ e ∈ L, e.2.1 = i → e.2.2 = k → f e = v) :
    L.foldl (fun view e => fun i k => if i = e.2.1 ∧ k = e.2.2 then f e else view i k) init i k = v := by
  induction L using List.reverseRecOn with
  | nil => simp at hex
  | append_singleton L e ih =>
    rw [List.foldl_append]
    simp only [List.foldl_cons, List.foldl_nil]
    by_cases he : i = e.2.1 ∧ k = e.2.2
    · rw [if_pos he]
      exact hv e (by simp) he.1.symm he.2.symm
    · rw [if_neg he]
      apply ih
      · obtain ⟨e', he', h1, h2⟩ := hex
        rcases List.mem_append.1 he' with h | h
        · exact ⟨e', h, h1, h2⟩
        · simp only [List.mem_singleton] at h
          subst h
          exact absurd ⟨h1.symm, h2.symm⟩ he
      · intro e' he' h1 h2
        exact hv e' (List.mem_append_left _ he') h1 h2

/-- C5. Packing round trip for the left packer (non-panel mode): re-reading the packed buffer with the same
three-band walk, undoing the conjugation, gives back every source entry `lhs(i,k)`, `i < rows`, `k < depth`,
whatever the scalar kind and the conjugate flag; hence two sources with the same packed buffer agree on
all these entries. -/
theorem pack_lhs_roundtrip {α : Type} [InvolutiveStar α] (mr PS rows depth : Nat) (hmr : 0 < mr)
    (ic cjf : Bool) (blockA : Buf α) (lhs : Int → Int → α) (init : Int → Int → α) :
    (∀ i k : Nat, i < rows → k < depth →
      unpack_lhs mr PS rows depth ic cjf
        (ei_gemm_pack_lhs (mr : Int) (PS : Int) ic cjf false blockA lhs depth rows 0 0).block init i k = lhs i k) ∧
    (∀ lhs2 : Int → Int → α,
      (ei_gemm_pack_lhs (mr : Int) (PS : Int) ic cjf false blockA lhs depth rows 0 0).block =
      (ei_gemm_pack_lhs (mr : Int) (PS : Int) ic cjf false blockA lhs2 depth rows 0 0).block →
      ∀ i k : Nat, i < rows → k < depth → lhs i k = lhs2 i k) := by
  have hrt : ∀ (l : Int → Int → α) (i k : Nat), i < rows → k < depth →
      unpack_lhs mr PS rows depth ic cjf
        (ei_gemm_pack_lhs (mr : Int) (PS : Int) ic cjf false blockA l depth rows 0 0).block init i k = l i k := by
    intro l i k hi hk
    unfold unpack_lhs
    apply unpack_fold_of_mem
    · obtain ⟨e, he, heq⟩ := List.mem_map.1 (lhsLog_pos_mem mr PS rows depth hmr depth 0 i k hi hk)
      exact ⟨e, he, by rw [heq], by rw [heq]⟩
    · intro e he h1 h2
      have h := pack_lhs_block_at (α := α) mr PS rows depth hmr ic cjf false blockA l 0 0 (by simp) e
        (by simpa using he)
      rw [h, h1, h2]
      unfold ei_conj_if
      split <;> simp
  refine ⟨hrt lhs, ?_⟩
  intro lhs2 heq i k hi hk
  rw [← hrt lhs i k hi hk, heq, hrt lhs2 i k hi hk]

theorem pack_lhs_roundtrip_witness :
    0 < 2 ∧
    (∀ i k : Nat, i < 3 → k < 2 →
      unpack_lhs 2 1 3 2 true true
        (ei_gemm_pack_lhs ((2 : Nat) : Int) ((1 : Nat) : Int) true true false (fun _ => (0 : GaussianInt))
          (fun i k => ⟨i, k⟩) ((2 : Nat) : Int) ((3 : Nat) : Int) 0 0).block (fun _ _ => 0) i k
        = (fun i k : Int => (⟨i, k⟩ : GaussianInt)) i k) :=
  ⟨by decide, (pack_lhs_roundtrip 2 1 3 2 (by decide) true true (fun _ => (0 : GaussianInt))
    (fun i k => ⟨i, k⟩) (fun _ _ => 0)).1⟩

/-- Replaying the logs of two complementary slices one after the other is replaying the log of the whole,
when every event of a slice is (up to the relabelling `sh` of the second slice) an event of the whole log,
and the whole log never stores twice to an index. -/
theorem replay_slices {α : Type} (val val2 : Int → Int → α) (sh : PackEvent → PackEvent)
    (L1 L2 LF : List PackEvent) (b : Buf α)
    (h1 : ∀ e ∈ L1, e ∈ LF)
    (h2 : ∀ e ∈ L2, sh e ∈ LF ∧ (sh e).1 = e.1 ∧ val2 e.2.1 e.2.2 = val (sh e).2.1 (sh e).2.2)
    (h3 : ∀ e ∈ LF, e ∈ L1 ∨ ∃ e2 ∈ L2, sh e2 = e)
    (h4 : ∀ e ∈ LF, ∀ e' ∈ LF, e.1 = e'.1 → e = e')
    (h5 : ∀ e ∈ L1, ∀ e2 ∈ L2, sh e2 ≠ e) :
    replay val2 L2 (replay val L1 b) = replay val LF b := by
  funext q
  by_cases hq : ∃ e ∈ LF, e.1 = q
  · obtain ⟨e, he, rfl⟩ := hq
    rw [replay_of_mem val LF b e.1 (val e.2.1 e.2.2) ⟨e, he, rfl⟩
      (fun e' he' hq' => by rw [h4 e' he' e he hq'])]
    rcases h3 e he with hin | ⟨e2, he2, rfl⟩
    · rw [replay_of_not_mem]
      · exact replay_of_mem val L1 b e.1 _ ⟨e, hin, rfl⟩
          (fun e' he' hq' => by rw [h4 e' (h1 e' he') e he hq'])
      · intro e2 he2 hq'
        obtain ⟨ha, hb, _⟩ := h2 e2 he2
        exact h5 e hin e2 he2 (h4 _ ha e he (by rw [hb, hq']))
    · obtain ⟨_, hb, hc⟩ := h2 e2 he2
      apply replay_of_mem
      · exact ⟨e2, he2, hb.symm⟩
      · intro e' he' hq'
        obtain ⟨ha', hb', hc'⟩ := h2 e' he'
        rw [hc', h4 _ ha' _ he (by rw [hb', hq'])]
  · have hF : replay val LF b q = b q :=
      replay_of_not_mem val LF b q (fun e he hq' => hq ⟨e, he, hq'⟩)
    rw [hF, replay_of_not_mem, replay_of_not_mem]
    · intro e he hq'
      exact hq ⟨e, h1 e he, hq'⟩
    · intro e he hq'
      obtain ⟨ha, hb, _⟩ := h2 e he
      exact hq ⟨sh e, ha, by rw [hb, hq']⟩

theorem lhsLog_slice_left (mr PS rows d1 d2 : Nat) (es : Int) (e : PackEvent)
    (he : e ∈ lhsLog mr PS rows d1 es 0) : e ∈ lhsLog mr PS rows (d1 + d2) es 0 := by
  rw [mem_lhsLog] at he ⊢
  rcases he with ⟨t, ht, k, hk, w, hw, rfl⟩ | ⟨hc, k, hk, w, hw, rfl⟩ | ⟨t, ht, k, hk, rfl⟩
  · exact Or.inl ⟨t, ht, k, by omega, w, hw, rfl⟩
  · exact Or.inr (Or.inl ⟨hc, k, by omega, w, hw, rfl⟩)
  · exact Or.inr (Or.inr ⟨t, ht, k, by omega, rfl⟩)

theorem lhsLog_slice_right (mr PS rows d1 d2 : Nat) (es : Int) (e : PackEvent)
    (he : e ∈ lhsLog mr PS rows d2 es d1) :
    (e.1, e.2.1, e.2.2 + (d1 : Int)) ∈ lhsLog mr PS rows (d1 + d2) es 0 := by
  rw [mem_lhsLog] at he ⊢
  rcases he with ⟨t, ht, k, hk, w, hw, rfl⟩ | ⟨hc, k, hk, w, hw, rfl⟩ | ⟨t, ht, k, hk, rfl⟩
  · refine Or.inl ⟨t, ht, k + d1, by omega, w, hw, ?_⟩
    refine Prod.ext ?_ (Prod.ext rfl ?_)
    · simp only; push_cast; ring
    · simp only; push_cast; ring
  · refine Or.inr (Or.inl ⟨hc, k + d1, by omega, w, hw, ?_⟩)
    refine Prod.ext ?_ (Prod.ext rfl ?_)
    · simp only; push_cast; ring
    · simp only; push_cast; ring
  · refine Or.inr (Or.inr ⟨t, ht, k + d1, by omega, ?_⟩)
    refine Prod.ext ?_ (Prod.ext rfl ?_)
    · simp only; push_cast; ring
    · simp only; push_cast; ring

theorem lhsLog_slice_split (mr PS rows d1 d2 : Nat) (es : Int) (e : PackEvent)
    (he : e ∈ lhsLog mr PS rows (d1 + d2) es 0) :
    e ∈ lhsLog mr PS rows d1 es 0 ∨
      ∃ e2 ∈ lhsLog mr PS rows d2 es d1, (e2.1, e2.2.1, e2.2.2 + (d1 : Int)) = e := by
  rw [mem_lhsLog] at he
  rcases he with ⟨t, ht, k, hk, w, hw, rfl⟩ | ⟨hc, k, hk, w, hw, rfl⟩ | ⟨t, ht, k, hk, rfl⟩
  · by_cases hk1 : k < d1
    · exact Or.inl ((mem_lhsLog _ _ _ _ _ _ _).2 (Or.inl ⟨t, ht, k, hk1, w, hw, rfl⟩))
    · obtain ⟨k', rfl⟩ : ∃ k', k = d1 + k' := ⟨k - d1, by omega⟩
      refine Or.inr ⟨_, (mem_lhsLog _ _ _ _ _ _ _).2 (Or.inl ⟨t, ht, k', by omega, w, hw, rfl⟩), ?_⟩
      refine Prod.ext ?_ (Prod.ext rfl ?_)
      · simp only; push_cast; ring
      · simp only; push_cast; ring
  · by_cases hk1 : k < d1
    · exact Or.inl ((mem_lhsLog _ _ _ _ _ _ _).2 (Or.inr (Or.inl ⟨hc, k, hk1, w, hw, rfl⟩)))
    · obtain ⟨k', rfl⟩ : ∃ k', k = d1 + k' := ⟨k - d1, by omega⟩
      refine Or.inr ⟨_, (mem_lhsLog _ _ _ _ _ _ _).2 (Or.inr (Or.inl ⟨hc, k', by omega, w, hw, rfl⟩)), ?_⟩
      refine Prod.ext ?_ (Prod.ext rfl ?_)
      · simp only; push_cast; ring
      · simp only; push_cast; ring
  · by_cases hk1 : k < d1
    · exact Or.inl ((mem_lhsLog _ _ _ _ _ _ _).2 (Or.inr (Or.inr ⟨t, ht, k, hk1, rfl⟩)))
    · obtain ⟨k', rfl⟩ : ∃ k', k = d1 + k' := ⟨k - d1, by omega⟩
      refine Or.inr ⟨_, (mem_lhsLog _ _ _ _ _ _ _).2 (Or.inr (Or.inr ⟨t, ht, k', by omega, rfl⟩)), ?_⟩
      refine Prod.ext ?_ (Prod.ext rfl ?_)
      · simp only; push_cast; ring
      · simp only; push_cast; ring

/-- Panel-mode slicing of the left packer. -/
theorem pack_lhs_slices {α : Type} [Star α] (mr PS rows d1 d2 : Nat) (hmr : 0 < mr)
    (ic cjf : Bool) (blockA : Buf α) (lhs : Int → Int → α) :
    (ei_gemm_pack_lhs (mr : Int) (PS : Int) ic cjf true
        (ei_gemm_pack_lhs (mr : Int) (PS : Int) ic cjf true blockA lhs d1 rows ((d1 + d2 : Nat) : Int) 0).block
        (fun i k => lhs i (k + d1)) d2 rows ((d1 + d2 : Nat) : Int) d1).block
      = (ei_gemm_pack_lhs (mr : Int) (PS : Int) ic cjf true blockA lhs ((d1 + d2 : Nat) : Int) rows
          ((d1 + d2 : Nat) : Int) 0).block := by
  rw [pack_lhs_closed mr PS rows d1 hmr, pack_lhs_closed mr PS rows d2 hmr,
    pack_lhs_closed mr PS rows (d1 + d2) hmr]
  simp only [if_true]
  apply replay_slices _ _ (fun e => (e.1, e.2.1, e.2.2 + (d1 : Int)))
  · exact fun e he => lhsLog_slice_left mr PS rows d1 d2 _ e he
  · exact fun e he => ⟨lhsLog_slice_right mr PS rows d1 d2 _ e he, rfl, rfl⟩
  · exact fun e he => lhsLog_slice_split mr PS rows d1 d2 _ e he
  · exact fun e he e' he' hq => lhsLog_functional mr PS rows (d1 + d2) hmr _ 0 (le_refl _) (by omega) e e' he he' hq
  · intro e he e2 he2 heq
    have hA := lhsLog_pos_range mr PS rows d1 _ _ e he
    have hB := lhsLog_pos_range mr PS rows d2 _ _ e2 he2
    rw [← heq] at hA
    simp only at hA
    omega

theorem mem_groupLog (nr c k j2 : Int) (e : PackEvent) :
    e ∈ groupLog nr c k j2 ↔
      ∃ x : Nat, (x < 2 ∨ (nr = 4 ∧ x < 4)) ∧ e = (c + (x : Int), k, j2 + (x : Int)) := by
  unfold groupLog
  constructor
  · intro h
    by_cases h4 : nr = 4
    · simp only [h4, if_true, List.mem_append, List.mem_cons, List.mem_singleton, List.not_mem_nil, or_false] at h
      rcases h with ((rfl | rfl) | rfl) | rfl
      · exact ⟨0, Or.inl (by omega), by simp⟩
      · exact ⟨1, Or.inl (by omega), by simp⟩
      · exact ⟨2, Or.inr ⟨h4, by omega⟩, by simp⟩
      · exact ⟨3, Or.inr ⟨h4, by omega⟩, by simp⟩
    · simp only [h4, if_false, List.mem_append, List.mem_cons, List.mem_singleton, List.not_mem_nil, or_false] at h
      rcases h with rfl | rfl
      · exact ⟨0, Or.inl (by omega), by simp⟩
      · exact ⟨1, Or.inl (by omega), by simp⟩
  · rintro ⟨x, hx, rfl⟩
    rcases hx with hx | ⟨h4, hx⟩
    · have : x = 0 ∨ x = 1 := by omega
      rcases this with rfl | rfl <;> simp
    · have : x = 0 ∨ x = 1 ∨ x = 2 ∨ x = 3 := by omega
      rcases this with rfl | rfl | rfl | rfl <;> simp [h4]

theorem mem_rhsLog (nr cols depth : Nat) (es eo : Int) (e : PackEvent) :
    e ∈ rhsLog nr cols depth es eo ↔
      (∃ t : Nat, t < cols / nr ∧ ∃ k : Nat, k < depth ∧ ∃ x : Nat, (x < 2 ∨ ((nr : Int) = 4 ∧ x < 4)) ∧
        e = (((t * nr : Nat) : Int) * es + nr * eo + (k : Int) * nr + (x : Int), (k : Int),
             ((t * nr : Nat) : Int) + (x : Int))) ∨
      (∃ t : Nat, t < cols - cols / nr * nr ∧ ∃ k : Nat, k < depth ∧
        e = (((cols / nr * nr + t : Nat) : Int) * es + eo + (k : Int), (k : Int),
             ((cols / nr * nr + t : Nat) : Int))) := by
  simp only [rhsLog, List.mem_append, List.mem_flatMap, List.mem_range, List.mem_map, mem_groupLog]
  constructor
  · rintro (⟨t, ht, k, hk, x, hx, rfl⟩ | ⟨t, ht, k, hk, rfl⟩)
    · exact Or.inl ⟨t, ht, k, hk, x, hx, rfl⟩
    · exact Or.inr ⟨t, ht, k, hk, rfl⟩
  · rintro (⟨t, ht, k, hk, x, hx, rfl⟩ | ⟨t, ht, k, hk, rfl⟩)
    · exact Or.inl ⟨t, ht, k, hk, x, hx, rfl⟩
    · exact Or.inr ⟨t, ht, k, hk, rfl⟩

theorem rhsLog_depth_range (nr cols depth : Nat) (es eo : Int) (e : PackEvent)
    (he : e ∈ rhsLog nr cols depth es eo) : 0 ≤ e.2.1 ∧ e.2.1 < depth := by
  rcases (mem_rhsLog _ _ _ _ _ _).1 he with ⟨t, ht, k, hk, x, hx, rfl⟩ | ⟨t, ht, k, hk, rfl⟩
  · simp only; omega
  · simp only; omega

theorem rhsLog_slice_left (nr cols d1 d2 : Nat) (es : Int) (e : PackEvent)
    (he : e ∈ rhsLog nr cols d1 es 0) : e ∈ rhsLog nr cols (d1 + d2) es 0 := by
  rw [mem_rhsLog] at he ⊢
  rcases he with ⟨t, ht, k, hk, x, hx, rfl⟩ | ⟨t, ht, k, hk, rfl⟩
  · exact Or.inl ⟨t, ht, k, by omega, x, hx, rfl⟩
  · exact Or.inr ⟨t, ht, k, by omega, rfl⟩

theorem rhsLog_slice_right (nr cols d1 d2 : Nat) (es : Int) (e : PackEvent)
    (he : e ∈ rhsLog nr cols d2 es d1) :
    (e.1, e.2.1 + (d1 : Int), e.2.2) ∈ rhsLog nr cols (d1 + d2) es 0 := by
  rw [mem_rhsLog] at he ⊢
  rcases he with ⟨t, ht, k, hk, x, hx, rfl⟩ | ⟨t, ht, k, hk, rfl⟩
  · refine Or.inl ⟨t, ht, k + d1, by omega, x, hx, ?_⟩
    refine Prod.ext ?_ (Prod.ext ?_ rfl)
    · simp only; push_cast; ring
    · simp only; push_cast; ring
  · refine Or.inr ⟨t, ht, k + d1, by omega, ?_⟩
    refine Prod.ext ?_ (Prod.ext ?_ rfl)
    · simp only; push_cast; ring
    · simp only; push_cast; ring

theorem rhsLog_slice_split (nr cols d1 d2 : Nat) (es : Int) (e : PackEvent)
    (he : e ∈ rhsLog nr cols (d1 + d2) es 0) :
    e ∈ rhsLog nr cols d1 es 0 ∨
      ∃ e2 ∈ rhsLog nr cols d2 es d1, (e2.1, e2.2.1 + (d1 : Int), e2.2.2) = e := by
  rw [mem_rhsLog] at he
  rcases he with ⟨t, ht, k, hk, x, hx, rfl⟩ | ⟨t, ht, k, hk, rfl⟩
  · by_cases hk1 : k < d1
    · exact Or.inl ((mem_rhsLog _ _ _ _ _ _).2 (Or.inl ⟨t, ht, k, hk1, x, hx, rfl⟩))
    · obtain ⟨k', rfl⟩ : ∃ k', k = d1 + k' := ⟨k - d1, by omega⟩
      refine Or.inr ⟨_, (mem_rhsLog _ _ _ _ _ _).2 (Or.inl ⟨t, ht, k', by omega, x, hx, rfl⟩), ?_⟩
      refine Prod.ext ?_ (Prod.ext ?_ rfl)
      · simp only; push_cast; ring
      · simp only; push_cast; ring
  · by_cases hk1 : k < d1
    · exact Or.inl ((mem_rhsLog _ _ _ _ _ _).2 (Or.inr ⟨t, ht, k, hk1, rfl⟩))
    · obtain ⟨k', rfl⟩ : ∃ k', k = d1 + k' := ⟨k - d1, by omega⟩
      refine Or.inr ⟨_, (mem_rhsLog _ _ _ _ _ _).2 (Or.inr ⟨t, ht, k', by omega, rfl⟩), ?_⟩
      refine Prod.ext ?_ (Prod.ext ?_ rfl)
      · simp only; push_cast; ring
      · simp only; push_cast; ring

/-- Replay form of panel-mode slicing for the right packers' log. -/
theorem replay_rhs_slices {α : Type} (val val2 : Int → Int → α) (nr cols d1 d2 : Nat) (hnr : 2 ≤ nr)
    (hval : ∀ k j, val2 k j = val (k + (d1 : Int)) j) (b : Buf α) :
    replay val2 (rhsLog nr cols d2 ((d1 + d2 : Nat) : Int) d1)
        (replay val (rhsLog nr cols d1 ((d1 + d2 : Nat) : Int) 0) b)
      = replay val (rhsLog nr cols (d1 + d2) ((d1 + d2 : Nat) : Int) 0) b := by
  apply replay_slices _ _ (fun e => (e.1, e.2.1 + (d1 : Int), e.2.2))
  · exact fun e he => rhsLog_slice_left nr cols d1 d2 _ e he
  · exact fun e he => ⟨rhsLog_slice_right nr cols d1 d2 _ e he, rfl, hval _ _⟩
  · exact fun e he => rhsLog_slice_split nr cols d1 d2 _ e he
  · exact fun e he e' he' hq => rhsLog_functional nr cols (d1 + d2) hnr _ 0 (le_refl _) (by omega) e e' he he' hq
  · intro e he e2 he2 heq
    have hA := rhsLog_depth_range nr cols d1 _ _ e he
    have hB := rhsLog_depth_range nr cols d2 _ _ e2 he2
    rw [← heq] at hA
    simp only at hA
    omega

/-- C8. Panel-mode slicing: with `stride` the full depth `d1 + d2`, packing the depth range `[0,d1)` at
offset `0` and then the range `[d1,d1+d2)` at offset `d1` into the same buffer gives exactly the buffer of
one panel-mode call over the full depth; for the left packer and for the two right packers. -/
theorem pack_panel_slices {α : Type} [CommRing α] [Star α] [DecidableEq α] (mr PS nr rows cols d1 d2 : Nat)
    (hmr : 0 < mr) (hnr : 2 ≤ nr) (ic cjf : Bool) (blockA blockB rhs : Buf α) (lhs : Int → Int → α)
    (rhsStride : Int) (alpha : α) :
    (ei_gemm_pack_lhs (mr : Int) (PS : Int) ic cjf true
        (ei_gemm_pack_lhs (mr : Int) (PS : Int) ic cjf true blockA lhs d1 rows ((d1 + d2 : Nat) : Int) 0).block
        (fun i k => lhs i (k + d1)) d2 rows ((d1 + d2 : Nat) : Int) d1).block
      = (ei_gemm_pack_lhs (mr : Int) (PS : Int) ic cjf true blockA lhs ((d1 + d2 : Nat) : Int) rows
          ((d1 + d2 : Nat) : Int) 0).block ∧
    (ei_gemm_pack_rhs_ColMajor (nr : Int) true
        (ei_gemm_pack_rhs_ColMajor (nr : Int) true blockB rhs rhsStride alpha d1 cols ((d1 + d2 : Nat) : Int) 0).block
        (fun q => rhs (q + d1)) rhsStride alpha d2 cols ((d1 + d2 : Nat) : Int) d1).block
      = (ei_gemm_pack_rhs_ColMajor (nr : Int) true blockB rhs rhsStride alpha ((d1 + d2 : Nat) : Int) cols
          ((d1 + d2 : Nat) : Int) 0).block ∧
    (ei_gemm_pack_rhs_RowMajor (nr : Int) true
        (ei_gemm_pack_rhs_RowMajor (nr : Int) true blockB rhs rhsStride alpha d1 cols ((d1 + d2 : Nat) : Int) 0).block
        (fun q => rhs (q + d1 * rhsStride)) rhsStride alpha d2 cols ((d1 + d2 : Nat) : Int) d1).block
      = (ei_gemm_pack_rhs_RowMajor (nr : Int) true blockB rhs rhsStride alpha ((d1 + d2 : Nat) : Int) cols
          ((d1 + d2 : Nat) : Int) 0).block := by
  refine ⟨pack_lhs_slices mr PS rows d1 d2 hmr ic cjf blockA lhs, ?_, ?_⟩
  · rw [pack_rhs_ColMajor_closed nr cols d1 (by omega), pack_rhs_ColMajor_closed nr cols d2 (by omega),
      pack_rhs_ColMajor_closed nr cols (d1 + d2) (by omega)]
    simp only [if_true]
    apply replay_rhs_slices _ _ nr cols d1 d2 hnr
    intro k j
    congr 2
    ring
  · rw [pack_rhs_RowMajor_closed nr cols d1 (by omega), pack_rhs_RowMajor_closed nr cols d2 (by omega),
      pack_rhs_RowMajor_closed nr cols (d1 + d2) (by omega)]
    simp only [if_true]
    apply replay_rhs_slices _ _ nr cols d1 d2 hnr
    intro k j
    congr 2
    ring

theorem full_peeled2_eq {α : Type} [CommRing α] [Star α] (cj : ei_conj_helper) (PS : Int)
    (A U : Buf α) (blA blB : Int) (C : Acc8 (Packet α)) :
    gebp_full_peeled2 cj PS A U blA blB C =
      gebp_full_rem2 cj PS A U (blA + 3 * (2 * PS)) (blB + 3 * (2 * PS))
        (gebp_full_rem2 cj PS A U (blA + 2 * (2 * PS)) (blB + 2 * (2 * PS))
          (gebp_full_rem2 cj PS A U (blA + 1 * (2 * PS)) (blB + 1 * (2 * PS))
            (gebp_full_rem2 cj PS A U blA blB C))) := by
  simp only [gebp_full_peeled2, gebp_full_rem2, CJMADD, ei_pload, ei_padd, ei_conj_helper.pmulP]
  congr 1 <;> funext l <;> ring_nf

theorem full_peeled4_eq {α : Type} [CommRing α] [Star α] (cj : ei_conj_helper) (PS : Int)
    (A U : Buf α) (blA blB : Int) (C : Acc8 (Packet α)) :
    gebp_full_peeled4 cj PS A U blA blB C =
      gebp_full_rem4 cj PS A U (blA + 3 * (2 * PS)) (blB + 3 * (4 * PS))
        (gebp_full_rem4 cj PS A U (blA + 2 * (2 * PS)) (blB + 2 * (4 * PS))
          (gebp_full_rem4 cj PS A U (blA + 1 * (2 * PS)) (blB + 1 * (4 * PS))
            (gebp_full_rem4 cj PS A U blA blB C))) := by
  simp only [gebp_full_peeled4, gebp_full_rem4, CJMADD, ei_pload, ei_padd, ei_conj_helper.pmulP]
  congr 1 <;> funext l <;> ring_nf

theorem foldl_const_iterate {σ β : Type} (f : σ → σ) (L : List β) (s : σ) :
    L.foldl (fun s _ => f s) s = f^[L.length] s := by
  induction L generalizing s with
  | nil => rfl
  | cons a L ih => simp [List.foldl_cons, ih, Function.iterate_succ_apply]

theorem forRange_length_one (a : Int) (n : Nat) : (forRange a (a + n) 1).length = n := by
  simp [forRange_one]

theorem forRange_length_tiles (T : Nat) (m : Int) (hm : 0 < m) : (forRange 0 (T * m) m).length = T := by
  simp [forRange_tiles T m hm]


theorem full_inner_eq_iterate {α : Type} [CommRing α] [Star α] (cj : ei_conj_helper) (nr PS : Int)
    (hnr : nr = 2 ∨ nr = 4) (A U : Buf α) (depth : Nat) (s : InnerState (Acc8 (Packet α))) :
    gebp_full_inner cj (2 * PS) nr PS A U depth ((depth : Int).tdiv 4 * 4) s
      = (fullStep cj (2 * PS) nr PS A U)^[depth] s := by
  unfold gebp_full_inner
  simp only []
  have h4 : ((depth : Int).tdiv 4 * 4) = ((depth / 4 : Nat) : Int) * 4 := by
    have := tdiv_mul_cast depth 4
    push_cast at this ⊢
    exact this
  have hpeel : ∀ s : InnerState (Acc8 (Packet α)),
      ({ C := if nr = 2 then gebp_full_peeled2 cj PS A U s.blA s.blB s.C
              else gebp_full_peeled4 cj PS A U s.blA s.blB s.C
         blB := s.blB + 4 * nr * PS
         blA := s.blA + 4 * (2 * PS) } : InnerState (Acc8 (Packet α)))
        = (fullStep cj (2 * PS) nr PS A U)^[4] s := by
    intro s
    simp only [Function.iterate_succ, Function.iterate_zero, Function.comp, id, fullStep]
    rcases hnr with h | h
    · subst h
      simp only [if_true]
      rw [full_peeled2_eq]
      congr 1
      · ring_nf
      · ring
      · ring
    · subst h
      simp only [show ¬ ((4 : Int) = 2) by decide, if_false]
      rw [full_peeled4_eq]
      congr 1
      · ring_nf
      · ring
      · ring
  simp only [hpeel]
  rw [h4]
  have e2 : (depth : Int) = ((depth / 4 : Nat) : Int) * 4 + ((depth % 4 : Nat) : Int) := by omega
  conv_lhs => rw [e2]
  rw [foldl_const_iterate, foldl_const_iterate, forRange_length_one, forRange_length_tiles _ _ (by decide)]
  show (fullStep cj (2 * PS) nr PS A U)^[depth % 4] (((fullStep cj (2 * PS) nr PS A U)^[4])^[depth / 4] s) = _
  rw [← Function.iterate_mul, ← Function.iterate_add_apply]
  congr 1
  omega

theorem full_iterate2 {α : Type} [CommRing α] [Star α] (cj : ei_conj_helper) (mr PS : Int)
    (A U : Buf α) (n : Nat) (s : InnerState (Acc8 (Packet α))) :
    (fullStep cj mr 2 PS A U)^[n] s =
      { blA := s.blA + n * mr
        blB := s.blB + n * (2 * PS)
        C :=
          { C0 := fun l => s.C.C0 l + ∑ k in Finset.range n,
              cj.pmul (A (s.blA + k * mr + l)) (U (s.blB + k * (2 * PS) + l))
            C1 := fun l => s.C.C1 l + ∑ k in Finset.range n,
              cj.pmul (A (s.blA + k * mr + l)) (U (s.blB + k * (2 * PS) + PS + l))
            C2 := s.C.C2
            C3 := s.C.C3
            C4 := fun l => s.C.C4 l + ∑ k in Finset.range n,
              cj.pmul (A (s.blA + k * mr + PS + l)) (U (s.blB + k * (2 * PS) + l))
            C5 := fun l => s.C.C5 l + ∑ k in Finset.range n,
              cj.pmul (A (s.blA + k * mr + PS + l)) (U (s.blB + k * (2 * PS) + PS + l))
            C6 := s.C.C6
            C7 := s.C.C7 } } := by
  induction n with
  | zero => simp
  | succ n ih =>
    rw [Function.iterate_succ_apply', ih]
    simp only [fullStep, if_true, gebp_full_rem2, CJMADD, ei_pload, ei_padd, ei_conj_helper.pmulP,
      Finset.sum_range_succ]
    congr 1
    · congr 1 <;> funext l <;>
        simp only [ei_padd, ei_conj_helper.pmulP, ei_pload, add_assoc, zero_mul, add_zero, one_mul,
          Nat.cast_add, Nat.cast_one]
    · push_cast; ring
    · push_cast; ring

theorem full_iterate4 {α : Type} [CommRing α] [Star α] (cj : ei_conj_helper) (mr PS : Int)
    (A U : Buf α) (n : Nat) (s : InnerState (Acc8 (Packet α))) :
    (fullStep cj mr 4 PS A U)^[n] s =
      { blA := s.blA + n * mr
        blB := s.blB + n * (4 * PS)
        C :=
          { C0 := fun l => s.C.C0 l + ∑ k in Finset.range n,
              cj.pmul (A (s.blA + k * mr + l)) (U (s.blB + k * (4 * PS) + l))
            C1 := fun l => s.C.C1 l + ∑ k in Finset.range n,
              cj.pmul (A (s.blA + k * mr + l)) (U (s.blB + k * (4 * PS) + PS + l))
            C2 := fun l => s.C.C2 l + ∑ k in Finset.range n,
              cj.pmul (A (s.blA + k * mr + l)) (U (s.blB + k * (4 * PS) + 2 * PS + l))
            C3 := fun l => s.C.C3 l + ∑ k in Finset.range n,
              cj.pmul (A (s.blA + k * mr + l)) (U (s.blB + k * (4 * PS) + 3 * PS + l))
            C4 := fun l => s.C.C4 l + ∑ k in Finset.range n,
              cj.pmul (A (s.blA + k * mr + PS + l)) (U (s.blB + k * (4 * PS) + l))
            C5 := fun l => s.C.C5 l + ∑ k in Finset.range n,
              cj.pmul (A (s.blA + k * mr + PS + l)) (U (s.blB + k * (4 * PS) + PS + l))
            C6 := fun l => s.C.C6 l + ∑ k in Finset.range n,
              cj.pmul (A (s.blA + k * mr + PS + l)) (U (s.blB + k * (4 * PS) + 2 * PS + l))
            C7 := fun l => s.C.C7 l + ∑ k in Finset.range n,
              cj.pmul (A (s.blA + k * mr + PS + l)) (U (s.blB + k * (4 * PS) + 3 * PS + l)) } } := by
  induction n with
  | zero => simp
  | succ n ih =>
    rw [Function.iterate_succ_apply', ih]
    simp only [fullStep, show ¬ ((4 : Int) = 2) by decide, if_false, gebp_full_rem4, CJMADD, ei_pload,
      ei_padd, ei_conj_helper.pmulP, Finset.sum_range_succ]
    congr 1
    · congr 1 <;> funext l <;>
        simp only [ei_padd, ei_conj_helper.pmulP, ei_pload, add_assoc, zero_mul, add_zero, one_mul,
          Nat.cast_add, Nat.cast_one]
    · push_cast; ring
    · push_cast; ring


theorem cell_iff (rs q j a w p : Int) (hp : p = j * rs + a) (ha : 0 ≤ a) (hw : a + w ≤ rs) :
    (p ≤ q ∧ q < p + w) ↔ (q / rs = j ∧ a ≤ q % rs ∧ q % rs < a + w) := by
  subst hp
  by_cases hrs : 0 < rs
  · have h1 := Int.emod_add_ediv q rs
    have h2 := Int.emod_nonneg q (ne_of_gt hrs)
    have h3 := Int.emod_lt_of_pos q hrs
    constructor
    · rintro ⟨hlo, hhi⟩
      have hj : q / rs = j := by
        have := (Int.ediv_emod_unique (a := q) (r := q - j * rs) (q := j) hrs).2
          ⟨by ring, by omega, by omega⟩
        exact this.1
      rw [hj] at h1
      have hmul : rs * j = j * rs := mul_comm _ _
      refine ⟨hj, ?_, ?_⟩ <;> omega
    · rintro ⟨hj, hlo, hhi⟩
      rw [hj] at h1
      have hmul : rs * j = j * rs := mul_comm _ _
      constructor <;> omega
  · constructor
    · rintro ⟨hlo, hhi⟩
      omega
    · rintro ⟨hj, hlo, hhi⟩
      omega

theorem mul_succ_le (k n : Nat) (PS : Int) (h : k < n) (hPS : 0 ≤ PS) :
    (k : Int) * PS + PS ≤ (n : Int) * PS := by
  have : ((k : Int) + 1) * PS ≤ (n : Int) * PS :=
    mul_le_mul_of_nonneg_right (by exact_mod_cast h) hPS
  linarith

theorem unpackB_spec {α : Type} (PS : Int) (hPS : 0 ≤ PS) (mem : Buf α) (uB src : Int) (N : Nat)
    (hdisj : ∀ k : Nat, k < N → (src + k < uB ∨ uB + N * PS ≤ src + k)) (n : Nat) (hn : n ≤ N) :
    (∀ k : Nat, k < n → ∀ l : Int, 0 ≤ l → l < PS →
      gebp_unpackB PS mem uB src n (uB + k * PS + l) = mem (src + k)) ∧
    (∀ q : Int, (q < uB ∨ uB + n * PS ≤ q) → gebp_unpackB PS mem uB src n q = mem q) := by
  induction n with
  | zero =>
    refine ⟨fun k hk => absurd hk (Nat.not_lt_zero _), fun q _ => ?_⟩
    simp [gebp_unpackB, forRange]
  | succ n ih =>
    obtain ⟨ih1, ih2⟩ := ih (by omega)
    have hstep : gebp_unpackB PS mem uB src ((n + 1 : Nat) : Int) =
        ei_pstore PS (gebp_unpackB PS mem uB src n) (uB + n * PS)
          (ei_pset1 (gebp_unpackB PS mem uB src n (src + n))) := by
      unfold gebp_unpackB
      rw [forRange_zero_one, forRange_zero_one, List.range_succ, List.map_append, List.foldl_append]
      rfl
    have hle : (n : Int) * PS + PS ≤ (N : Int) * PS := mul_succ_le n N PS (by omega) hPS
    have hn0 : 0 ≤ (n : Int) * PS := mul_nonneg (by positivity) hPS
    have hsrc : gebp_unpackB PS mem uB src n (src + n) = mem (src + n) := by
      apply ih2
      rcases hdisj n (by omega) with h | h
      · left; exact h
      · right; omega
    rw [hstep, hsrc]
    refine ⟨?_, ?_⟩
    · intro k hk l hl0 hl
      unfold ei_pstore ei_pset1
      by_cases hkn : k = n
      · subst hkn
        rw [if_pos (by constructor <;> omega)]
      · have hk' : k < n := by omega
        have := mul_succ_le k n PS hk' hPS
        have hk0 : 0 ≤ (k : Int) * PS := mul_nonneg (by positivity) hPS
        rw [if_neg (by omega)]
        exact ih1 k hk' l hl0 hl
    · intro q hq
      unfold ei_pstore
      have e : ((n + 1 : Nat) : Int) * PS = (n : Int) * PS + PS := by push_cast; ring
      rw [e] at hq
      rw [if_neg (by omega)]
      apply ih2
      omega


theorem partial_peeled2_eq {α : Type} [CommRing α] [Star α] (cj : ei_conj_helper) (PS : Int)
    (A U : Buf α) (blA blB : Int) (C : Acc4 (Packet α)) :
    gebp_partial_peeled2 cj PS A U blA blB C =
      gebp_partial_rem2 cj PS A U (blA + 3 * PS) (blB + 3 * (2 * PS))
        (gebp_partial_rem2 cj PS A U (blA + 2 * PS) (blB + 2 * (2 * PS))
          (gebp_partial_rem2 cj PS A U (blA + 1 * PS) (blB + 1 * (2 * PS))
            (gebp_partial_rem2 cj PS A U blA blB C))) := by
  simp only [gebp_partial_peeled2, gebp_partial_rem2, CJMADD, ei_pload, ei_padd, ei_conj_helper.pmulP]
  congr 1 <;> funext l <;> ring_nf

theorem partial_peeled4_eq {α : Type} [CommRing α] [Star α] (cj : ei_conj_helper) (PS : Int)
    (A U : Buf α) (blA blB : Int) (C : Acc4 (Packet α)) :
    gebp_partial_peeled4 cj PS A U blA blB C =
      gebp_partial_rem4 cj PS A U (blA + 3 * PS) (blB + 3 * (4 * PS))
        (gebp_partial_rem4 cj PS A U (blA + 2 * PS) (blB + 2 * (4 * PS))
          (gebp_partial_rem4 cj PS A U (blA + 1 * PS) (blB + 1 * (4 * PS))
            (gebp_partial_rem4 cj PS A U blA blB C))) := by
  simp only [gebp_partial_peeled4, gebp_partial_rem4, CJMADD, ei_pload, ei_padd, ei_conj_helper.pmulP]
  congr 1 <;> funext l <;> ring_nf

theorem partial_inner_eq_iterate {α : Type} [CommRing α] [Star α] (cj : ei_conj_helper) (nr PS : Int)
    (hnr : nr = 2 ∨ nr = 4) (A U : Buf α) (depth : Nat) (s : InnerState (Acc4 (Packet α))) :
    gebp_partial_inner cj nr PS A U depth ((depth : Int).tdiv 4 * 4) s
      = (partialStep cj nr PS A U)^[depth] s := by
  unfold gebp_partial_inner
  simp only []
  have h4 : ((depth : Int).tdiv 4 * 4) = ((depth / 4 : Nat) : Int) * 4 := by
    have := tdiv_mul_cast depth 4
    push_cast at this ⊢
    exact this
  have hpeel : ∀ s : InnerState (Acc4 (Packet α)),
      ({ C := if nr = 2 then gebp_partial_peeled2 cj PS A U s.blA s.blB s.C
              else gebp_partial_peeled4 cj PS A U s.blA s.blB s.C
         blB := s.blB + 4 * nr * PS
         blA := s.blA + 4 * PS } : InnerState (Acc4 (Packet α)))
        = (partialStep cj nr PS A U)^[4] s := by
    intro s
    simp only [Function.iterate_succ, Function.iterate_zero, Function.comp, id, partialStep]
    rcases hnr with h | h
    · subst h
      simp only [if_true]
      rw [partial_peeled2_eq]
      congr 1
      · ring_nf
      · ring
      · ring
    · subst h
      simp only [show ¬ ((4 : Int) = 2) by decide, if_false]
      rw [partial_peeled4_eq]
      congr 1
      · ring_nf
      · ring
      · ring
  simp only [hpeel]
  rw [h4]
  have e2 : (depth : Int) = ((depth / 4 : Nat) : Int) * 4 + ((depth % 4 : Nat) : Int) := by omega
  conv_lhs => rw [e2]
  rw [foldl_const_iterate, foldl_const_iterate, forRange_length_one, forRange_length_tiles _ _ (by decide)]
  show (partialStep cj nr PS A U)^[depth % 4] (((partialStep cj nr PS A U)^[4])^[depth / 4] s) = _
  rw [← Function.iterate_mul, ← Function.iterate_add_apply]
  congr 1
  omega

theorem partial_iterate2 {α : Type} [CommRing α] [Star α] (cj : ei_conj_helper) (PS : Int)
    (A U : Buf α) (n : Nat) (s : InnerState (Acc4 (Packet α))) :
    (partialStep cj 2 PS A U)^[n] s =
      { blA := s.blA + n * PS
        blB := s.blB + n * (2 * PS)
        C :=
          { C0 := fun l => s.C.C0 l + ∑ k in Finset.range n,
              cj.pmul (A (s.blA + k * PS + l)) (U (s.blB + k * (2 * PS) + l))
            C1 := fun l => s.C.C1 l + ∑ k in Finset.range n,
              cj.pmul (A (s.blA + k * PS + l)) (U (s.blB + k * (2 * PS) + PS + l))
            C2 := s.C.C2
            C3 := s.C.C3 } } := by
  induction n with
  | zero => simp
  | succ n ih =>
    rw [Function.iterate_succ_apply', ih]
    simp only [partialStep, if_true, gebp_partial_rem2, CJMADD, ei_pload, ei_padd, ei_conj_helper.pmulP,
      Finset.sum_range_succ]
    congr 1
    · congr 1 <;> funext l <;>
        simp only [ei_padd, ei_conj_helper.pmulP, ei_pload, add_assoc, zero_mul, add_zero, one_mul,
          Nat.cast_add, Nat.cast_one]
    · push_cast; ring
    · push_cast; ring

theorem partial_iterate4 {α : Type} [CommRing α] [Star α] (cj : ei_conj_helper) (PS : Int)
    (A U : Buf α) (n : Nat) (s : InnerState (Acc4 (Packet α))) :
    (partialStep cj 4 PS A U)^[n] s =
      { blA := s.blA + n * PS
        blB := s.blB + n * (4 * PS)
        C :=
          { C0 := fun l => s.C.C0 l + ∑ k in Finset.range n,
              cj.pmul (A (s.blA + k * PS + l)) (U (s.blB + k * (4 * PS) + l))
            C1 := fun l => s.C.C1 l + ∑ k in Finset.range n,
              cj.pmul (A (s.blA + k * PS + l)) (U (s.blB + k * (4 * PS) + PS + l))
            C2 := fun l => s.C.C2 l + ∑ k in Finset.range n,
              cj.pmul (A (s.blA + k * PS + l)) (U (s.blB + k * (4 * PS) + 2 * PS + l))
            C3 := fun l => s.C.C3 l + ∑ k in Finset.range n,
              cj.pmul (A (s.blA + k * PS + l)) (U (s.blB + k * (4 * PS) + 3 * PS + l)) } } := by
  induction n with
  | zero => simp
  | succ n ih =>
    rw [Function.iterate_succ_apply', ih]
    simp only [partialStep, show ¬ ((4 : Int) = 2) by decide, if_false, gebp_partial_rem4, CJMADD, ei_pload,
      ei_padd, ei_conj_helper.pmulP, Finset.sum_range_succ]
    congr 1
    · congr 1 <;> funext l <;>
        simp only [ei_padd, ei_conj_helper.pmulP, ei_pload, add_assoc, zero_mul, add_zero, one_mul,
          Nat.cast_add, Nat.cast_one]
    · push_cast; ring
    · push_cast; ring

theorem tile_leaf {α : Type} [CommRing α] [Star α] (cj : ei_conj_helper) (A U : Buf α) (Bsrc : Int → α)
    (PS uB : Int) (depth : Nat) (nr : Int)
    (HU : ∀ m l : Int, 0 ≤ m → m < depth * nr → 0 ≤ l → l < PS → U (uB + m * PS + l) = Bsrc m)
    (res : Buf α) (q p : Int) (fa fu fa' fb' : Nat → Int) (hp : p ≤ q ∧ q < p + PS)
    (hu : ∀ k : Nat, fu k = uB + fb' k * PS + (q - p))
    (ha : ∀ k : Nat, fa k = fa' k)
    (hb : ∀ k : Nat, k < depth → 0 ≤ fb' k ∧ fb' k < depth * nr) :
    res (p + (q - p)) + (0 + ∑ k in Finset.range depth, cj.pmul (A (fa k)) (U (fu k)))
      = res q + ∑ k in Finset.range depth, cj.pmul (A (fa' k)) (Bsrc (fb' k)) := by
  rw [show p + (q - p) = q by ring, zero_add]
  congr 1
  apply Finset.sum_congr rfl
  intro k hk
  have hk' := Finset.mem_range.1 hk
  rw [hu k, ha k, HU _ _ (hb k hk').1 (hb k hk').2 (by omega) (by omega)]

theorem tile_leaf_acc {α : Type} [CommRing α] [Star α] (cj : ei_conj_helper) (A U : Buf α) (Bsrc : Int → α)
    (PS uB : Int) (depth : Nat) (nr : Int)
    (HU : ∀ m l : Int, 0 ≤ m → m < depth * nr → 0 ≤ l → l < PS → U (uB + m * PS + l) = Bsrc m)
    (res : Buf α) (q p : Int) (fa fu fa' fb' : Nat → Int) (hp : p ≤ q ∧ q < p + PS)
    (hu : ∀ k : Nat, fu k = uB + fb' k * PS + (q - p))
    (ha : ∀ k : Nat, fa k = fa' k)
    (hb : ∀ k : Nat, k < depth → 0 ≤ fb' k ∧ fb' k < depth * nr) :
    res (p + (q - p)) + ∑ k in Finset.range depth, cj.pmul (A (fa k)) (U (fu k))
      = res q + ∑ k in Finset.range depth, cj.pmul (A (fa' k)) (Bsrc (fb' k)) := by
  have := tile_leaf cj A U Bsrc PS uB depth nr HU res q p fa fu fa' fb' hp hu ha hb
  rwa [zero_add] at this

theorem full_tile_spec4 {α : Type} [CommRing α] [Star α] (cj : ei_conj_helper) (PS rs : Int) (hPS : 0 < PS)
    (A U : Buf α) (uB : Int) (depth : Nat) (strideA offsetA j2 : Int) (res : Buf α) (i : Int)
    (hi : 0 ≤ i) (hirs : i + 2 * PS ≤ rs) (Bsrc : Int → α)
    (HU : ∀ m l : Int, 0 ≤ m → m < depth * 4 → 0 ≤ l → l < PS → U (uB + m * PS + l) = Bsrc m) :
    gebp_full_tile cj (2 * PS) 4 PS rs A U uB depth ((depth : Int).tdiv 4 * 4) strideA offsetA j2 res i
      = addRect rs (fun i' j' => ∑ k in Finset.range depth,
          cj.pmul (A (i * strideA + offsetA * (2 * PS) + k * (2 * PS) + (i' - i))) (Bsrc (k * 4 + (j' - j2))))
          i (i + 2 * PS) j2 (j2 + 4) res := by
  funext q
  have hrs : 0 < rs := by omega
  have hq := Int.emod_add_ediv q rs
  have c0 := cell_iff rs q (j2 + 0) i PS ((j2 + 0) * rs + i) (by ring) hi (by omega)
  have c1 := cell_iff rs q (j2 + 1) i PS ((j2 + 0) * rs + i + rs) (by ring) hi (by omega)
  have c2 := cell_iff rs q (j2 + 2) i PS ((j2 + 0) * rs + i + rs + rs) (by ring) hi (by omega)
  have c3 := cell_iff rs q (j2 + 3) i PS ((j2 + 0) * rs + i + rs + rs + rs) (by ring) hi (by omega)
  have c4 := cell_iff rs q (j2 + 0) (i + PS) PS ((j2 + 0) * rs + i + PS) (by ring) (by omega) (by omega)
  have c5 := cell_iff rs q (j2 + 1) (i + PS) PS ((j2 + 0) * rs + i + rs + PS) (by ring) (by omega) (by omega)
  have c6 := cell_iff rs q (j2 + 2) (i + PS) PS ((j2 + 0) * rs + i + rs + rs + PS) (by ring) (by omega) (by omega)
  have c7 := cell_iff rs q (j2 + 3) (i + PS) PS ((j2 + 0) * rs + i + rs + rs + rs + PS) (by ring) (by omega) (by omega)
  unfold gebp_full_tile
  rw [full_inner_eq_iterate cj 4 PS (by decide), full_iterate4]
  simp only [ei_pstore, ei_padd, ei_pload, ei_pset1, if_true, addRect, show ¬ ((2 : Int) = 4) by decide, if_false]
  by_cases h7 : ((j2 + 0) * rs + i + rs + rs + rs + PS ≤ q ∧ q < (j2 + 0) * rs + i + rs + rs + rs + PS + PS)
  · rw [if_pos h7]
    obtain ⟨hJ, hI1, hI2⟩ := c7.1 h7
    rw [if_pos (by omega), hJ]
    rw [hJ] at hq
    refine tile_leaf cj A U Bsrc PS uB depth 4 HU res q _ _ _ _ _ h7 (fun k => ?_) (fun k => ?_) (fun k hk => ?_)
    · ring
    · linarith
    · constructor <;> omega
  rw [if_neg h7]
  by_cases h6 : ((j2 + 0) * rs + i + rs + rs + PS ≤ q ∧ q < (j2 + 0) * rs + i + rs + rs + PS + PS)
  · rw [if_pos h6]
    obtain ⟨hJ, hI1, hI2⟩ := c6.1 h6
    rw [if_pos (by omega), hJ]
    rw [hJ] at hq
    refine tile_leaf cj A U Bsrc PS uB depth 4 HU res q _ _ _ _ _ h6 (fun k => ?_) (fun k => ?_) (fun k hk => ?_)
    · ring
    · linarith
    · constructor <;> omega
  rw [if_neg h6]
  by_cases h5 : ((j2 + 0) * rs + i + rs + PS ≤ q ∧ q < (j2 + 0) * rs + i + rs + PS + PS)
  · rw [if_pos h5]
    obtain ⟨hJ, hI1, hI2⟩ := c5.1 h5
    rw [if_pos (by omega), hJ]
    rw [hJ] at hq
    refine tile_leaf cj A U Bsrc PS uB depth 4 HU res q _ _ _ _ _ h5 (fun k => ?_) (fun k => ?_) (fun k hk => ?_)
    · ring
    · linarith
    · constructor <;> omega
  rw [if_neg h5]
  by_cases h4 : ((j2 + 0) * rs + i + PS ≤ q ∧ q < (j2 + 0) * rs + i + PS + PS)
  · rw [if_pos h4]
    obtain ⟨hJ, hI1, hI2⟩ := c4.1 h4
    rw [if_pos (by omega), hJ]
    rw [hJ] at hq
    refine tile_leaf cj A U Bsrc PS uB depth 4 HU res q _ _ _ _ _ h4 (fun k => ?_) (fun k => ?_) (fun k hk => ?_)
    · ring
    · linarith
    · constructor <;> omega
  rw [if_neg h4]
  by_cases h3 : ((j2 + 0) * rs + i + rs + rs + rs ≤ q ∧ q < (j2 + 0) * rs + i + rs + rs + rs + PS)
  · rw [if_pos h3]
    obtain ⟨hJ, hI1, hI2⟩ := c3.1 h3
    rw [if_pos (by omega), hJ]
    rw [hJ] at hq
    refine tile_leaf cj A U Bsrc PS uB depth 4 HU res q _ _ _ _ _ h3 (fun k => ?_) (fun k => ?_) (fun k hk => ?_)
    · ring
    · linarith
    · constructor <;> omega
  rw [if_neg h3]
  by_cases h2 : ((j2 + 0) * rs + i + rs + rs ≤ q ∧ q < (j2 + 0) * rs + i + rs + rs + PS)
  · rw [if_pos h2]
    obtain ⟨hJ, hI1, hI2⟩ := c2.1 h2
    rw [if_pos (by omega), hJ]
    rw [hJ] at hq
    refine tile_leaf cj A U Bsrc PS uB depth 4 HU res q _ _ _ _ _ h2 (fun k => ?_) (fun k => ?_) (fun k hk => ?_)
    · ring
    · linarith
    · constructor <;> omega
  rw [if_neg h2]
  by_cases h1 : ((j2 + 0) * rs + i + rs ≤ q ∧ q < (j2 + 0) * rs + i + rs + PS)
  · rw [if_pos h1]
    obtain ⟨hJ, hI1, hI2⟩ := c1.1 h1
    rw [if_pos (by omega), hJ]
    rw [hJ] at hq
    refine tile_leaf cj A U Bsrc PS uB depth 4 HU res q _ _ _ _ _ h1 (fun k => ?_) (fun k => ?_) (fun k hk => ?_)
    · ring
    · linarith
    · constructor <;> omega
  rw [if_neg h1]
  by_cases h0 : ((j2 + 0) * rs + i ≤ q ∧ q < (j2 + 0) * rs + i + PS)
  · rw [if_pos h0]
    obtain ⟨hJ, hI1, hI2⟩ := c0.1 h0
    rw [if_pos (by omega), hJ]
    rw [hJ] at hq
    refine tile_leaf cj A U Bsrc PS uB depth 4 HU res q _ _ _ _ _ h0 (fun k => ?_) (fun k => ?_) (fun k hk => ?_)
    · ring
    · linarith
    · constructor <;> omega
  rw [if_neg h0]
  rw [if_neg (by omega)]

theorem full_tile_spec2 {α : Type} [CommRing α] [Star α] (cj : ei_conj_helper) (PS rs : Int) (hPS : 0 < PS)
    (A U : Buf α) (uB : Int) (depth : Nat) (strideA offsetA j2 : Int) (res : Buf α) (i : Int)
    (hi : 0 ≤ i) (hirs : i + 2 * PS ≤ rs) (Bsrc : Int → α)
    (HU : ∀ m l : Int, 0 ≤ m → m < depth * 2 → 0 ≤ l → l < PS → U (uB + m * PS + l) = Bsrc m) :
    gebp_full_tile cj (2 * PS) 2 PS rs A U uB depth ((depth : Int).tdiv 4 * 4) strideA offsetA j2 res i
      = addRect rs (fun i' j' => ∑ k in Finset.range depth,
          cj.pmul (A (i * strideA + offsetA * (2 * PS) + k * (2 * PS) + (i' - i))) (Bsrc (k * 2 + (j' - j2))))
          i (i + 2 * PS) j2 (j2 + 2) res := by
  funext q
  have hrs : 0 < rs := by omega
  have hq := Int.emod_add_ediv q rs
  have c0 := cell_iff rs q (j2 + 0) i PS ((j2 + 0) * rs + i) (by ring) hi (by omega)
  have c1 := cell_iff rs q (j2 + 1) i PS ((j2 + 0) * rs + i + rs) (by ring) hi (by omega)
  have c2 := cell_iff rs q (j2 + 0) (i + PS) PS ((j2 + 0) * rs + i + PS) (by ring) (by omega) (by omega)
  have c3 := cell_iff rs q (j2 + 1) (i + PS) PS ((j2 + 0) * rs + i + rs + PS) (by ring) (by omega) (by omega)
  unfold gebp_full_tile
  rw [full_inner_eq_iterate cj 2 PS (by decide), full_iterate2]
  simp only [ei_pstore, ei_padd, ei_pload, ei_pset1, if_true, addRect, show ¬ ((2 : Int) = 4) by decide, if_false]
  by_cases h3 : ((j2 + 0) * rs + i + rs + PS ≤ q ∧ q < (j2 + 0) * rs + i + rs + PS + PS)
  · rw [if_pos h3]
    obtain ⟨hJ, hI1, hI2⟩ := c3.1 h3
    rw [if_pos (by omega), hJ]
    rw [hJ] at hq
    refine tile_leaf cj A U Bsrc PS uB depth 2 HU res q _ _ _ _ _ h3 (fun k => ?_) (fun k => ?_) (fun k hk => ?_)
    · ring
    · linarith
    · constructor <;> omega
  rw [if_neg h3]
  by_cases h2 : ((j2 + 0) * rs + i + PS ≤ q ∧ q < (j2 + 0) * rs + i + PS + PS)
  · rw [if_pos h2]
    obtain ⟨hJ, hI1, hI2⟩ := c2.1 h2
    rw [if_pos (by omega), hJ]
    rw [hJ] at hq
    refine tile_leaf cj A U Bsrc PS uB depth 2 HU res q _ _ _ _ _ h2 (fun k => ?_) (fun k => ?_) (fun k hk => ?_)
    · ring
    · linarith
    · constructor <;> omega
  rw [if_neg h2]
  by_cases h1 : ((j2 + 0) * rs + i + rs ≤ q ∧ q < (j2 + 0) * rs + i + rs + PS)
  · rw [if_pos h1]
    obtain ⟨hJ, hI1, hI2⟩ := c1.1 h1
    rw [if_pos (by omega), hJ]
    rw [hJ] at hq
    refine tile_leaf cj A U Bsrc PS uB depth 2 HU res q _ _ _ _ _ h1 (fun k => ?_) (fun k => ?_) (fun k hk => ?_)
    · ring
    · linarith
    · constructor <;> omega
  rw [if_neg h1]
  by_cases h0 : ((j2 + 0) * rs + i ≤ q ∧ q < (j2 + 0) * rs + i + PS)
  · rw [if_pos h0]
    obtain ⟨hJ, hI1, hI2⟩ := c0.1 h0
    rw [if_pos (by omega), hJ]
    rw [hJ] at hq
    refine tile_leaf cj A U Bsrc PS uB depth 2 HU res q _ _ _ _ _ h0 (fun k => ?_) (fun k => ?_) (fun k hk => ?_)
    · ring
    · linarith
    · constructor <;> omega
  rw [if_neg h0]
  rw [if_neg (by omega)]

theorem partial_tile_spec4 {α : Type} [CommRing α] [Star α] (cj : ei_conj_helper) (PS rs : Int) (hPS : 0 < PS)
    (A U : Buf α) (uB : Int) (depth : Nat) (strideA offsetA j2 : Int) (res : Buf α) (i : Int)
    (hi : 0 ≤ i) (hirs : i + PS ≤ rs) (Bsrc : Int → α)
    (HU : ∀ m l : Int, 0 ≤ m → m < depth * 4 → 0 ≤ l → l < PS → U (uB + m * PS + l) = Bsrc m) :
    gebp_partial_tile cj 4 PS rs A U uB depth ((depth : Int).tdiv 4 * 4) strideA offsetA j2 res i
      = addRect rs (fun i' j' => ∑ k in Finset.range depth,
          cj.pmul (A (i * strideA + offsetA * PS + k * PS + (i' - i))) (Bsrc (k * 4 + (j' - j2))))
          i (i + PS) j2 (j2 + 4) res := by
  funext q
  have hrs : 0 < rs := by omega
  have hq := Int.emod_add_ediv q rs
  have c0 := cell_iff rs q (j2 + 0) i PS ((j2 + 0) * rs + i) rfl hi (by omega)
  have c1 := cell_iff rs q (j2 + 1) i PS ((j2 + 1) * rs + i) rfl hi (by omega)
  have c2 := cell_iff rs q (j2 + 2) i PS ((j2 + 2) * rs + i) rfl hi (by omega)
  have c3 := cell_iff rs q (j2 + 3) i PS ((j2 + 3) * rs + i) rfl hi (by omega)
  unfold gebp_partial_tile
  rw [partial_inner_eq_iterate cj 4 PS (by decide), partial_iterate4]
  simp only [ei_pstore, ei_padd, ei_pload, ei_pset1, if_true, addRect, show ¬ ((2 : Int) = 4) by decide, if_false]
  by_cases h3 : ((j2 + 3) * rs + i ≤ q ∧ q < (j2 + 3) * rs + i + PS)
  · rw [if_pos h3]
    obtain ⟨hJ, hI1, hI2⟩ := c3.1 h3
    rw [if_pos (by omega), hJ]
    rw [hJ] at hq
    refine tile_leaf_acc cj A U Bsrc PS uB depth 4 HU res q _ _ _ _ _ h3 (fun k => ?_) (fun k => ?_) (fun k hk => ?_)
    · ring
    · linarith
    · constructor <;> omega
  rw [if_neg h3]
  by_cases h2 : ((j2 + 2) * rs + i ≤ q ∧ q < (j2 + 2) * rs + i + PS)
  · rw [if_pos h2]
    obtain ⟨hJ, hI1, hI2⟩ := c2.1 h2
    rw [if_pos (by omega), hJ]
    rw [hJ] at hq
    refine tile_leaf_acc cj A U Bsrc PS uB depth 4 HU res q _ _ _ _ _ h2 (fun k => ?_) (fun k => ?_) (fun k hk => ?_)
    · ring
    · linarith
    · constructor <;> omega
  rw [if_neg h2]
  by_cases h1 : ((j2 + 1) * rs + i ≤ q ∧ q < (j2 + 1) * rs + i + PS)
  · rw [if_pos h1]
    obtain ⟨hJ, hI1, hI2⟩ := c1.1 h1
    rw [if_pos (by omega), hJ]
    rw [hJ] at hq
    refine tile_leaf_acc cj A U Bsrc PS uB depth 4 HU res q _ _ _ _ _ h1 (fun k => ?_) (fun k => ?_) (fun k hk => ?_)
    · ring
    · linarith
    · constructor <;> omega
  rw [if_neg h1]
  by_cases h0 : ((j2 + 0) * rs + i ≤ q ∧ q < (j2 + 0) * rs + i + PS)
  · rw [if_pos h0]
    obtain ⟨hJ, hI1, hI2⟩ := c0.1 h0
    rw [if_pos (by omega), hJ]
    rw [hJ] at hq
    refine tile_leaf_acc cj A U Bsrc PS uB depth 4 HU res q _ _ _ _ _ h0 (fun k => ?_) (fun k => ?_) (fun k hk => ?_)
    · ring
    · linarith
    · constructor <;> omega
  rw [if_neg h0]
  rw [if_neg (by omega)]

theorem partial_tile_spec2 {α : Type} [CommRing α] [Star α] (cj : ei_conj_helper) (PS rs : Int) (hPS : 0 < PS)
    (A U : Buf α) (uB : Int) (depth : Nat) (strideA offsetA j2 : Int) (res : Buf α) (i : Int)
    (hi : 0 ≤ i) (hirs : i + PS ≤ rs) (Bsrc : Int → α)
    (HU : ∀ m l : Int, 0 ≤ m → m < depth * 2 → 0 ≤ l → l < PS → U (uB + m * PS + l) = Bsrc m) :
    gebp_partial_tile cj 2 PS rs A U uB depth ((depth : Int).tdiv 4 * 4) strideA offsetA j2 res i
      = addRect rs (fun i' j' => ∑ k in Finset.range depth,
          cj.pmul (A (i * strideA + offsetA * PS + k * PS + (i' - i))) (Bsrc (k * 2 + (j' - j2))))
          i (i + PS) j2 (j2 + 2) res := by
  funext q
  have hrs : 0 < rs := by omega
  have hq := Int.emod_add_ediv q rs
  have c0 := cell_iff rs q (j2 + 0) i PS ((j2 + 0) * rs + i) rfl hi (by omega)
  have c1 := cell_iff rs q (j2 + 1) i PS ((j2 + 1) * rs + i) rfl hi (by omega)
  unfold gebp_partial_tile
  rw [partial_inner_eq_iterate cj 2 PS (by decide), partial_iterate2]
  simp only [ei_pstore, ei_padd, ei_pload, ei_pset1, if_true, addRect, show ¬ ((2 : Int) = 4) by decide, if_false]
  by_cases h1 : ((j2 + 1) * rs + i ≤ q ∧ q < (j2 + 1) * rs + i + PS)
  · rw [if_pos h1]
    obtain ⟨hJ, hI1, hI2⟩ := c1.1 h1
    rw [if_pos (by omega), hJ]
    rw [hJ] at hq
    refine tile_leaf_acc cj A U Bsrc PS uB depth 2 HU res q _ _ _ _ _ h1 (fun k => ?_) (fun k => ?_) (fun k hk => ?_)
    · ring
    · linarith
    · constructor <;> omega
  rw [if_neg h1]
  by_cases h0 : ((j2 + 0) * rs + i ≤ q ∧ q < (j2 + 0) * rs + i + PS)
  · rw [if_pos h0]
    obtain ⟨hJ, hI1, hI2⟩ := c0.1 h0
    rw [if_pos (by omega), hJ]
    rw [hJ] at hq
    refine tile_leaf_acc cj A U Bsrc PS uB depth 2 HU res q _ _ _ _ _ h0 (fun k => ?_) (fun k => ?_) (fun k hk => ?_)
    · ring
    · linarith
    · constructor <;> omega
  rw [if_neg h0]
  rw [if_neg (by omega)]

theorem scalar_fold2 {α : Type} [CommRing α] [Star α] (cj : ei_conj_helper) (PS : Int)
    (A U : Buf α) (n : Nat) (s : InnerState (Acc4 α)) :
    (forRange 0 n 1).foldl (fun (s : InnerState (Acc4 α)) k =>
      { C := if (2 : Int) = 2 then gebp_scalar_step2 cj PS A U s.blA s.blB k s.C
             else gebp_scalar_step4 cj PS A U s.blA s.blB k s.C
        blB := s.blB + 2 * PS
        blA := s.blA }) s =
      { blA := s.blA
        blB := s.blB + n * (2 * PS)
        C :=
          { C0 := s.C.C0 + ∑ k in Finset.range n, cj.pmul (A (s.blA + k)) (U (s.blB + k * (2 * PS)))
            C1 := s.C.C1 + ∑ k in Finset.range n, cj.pmul (A (s.blA + k)) (U (s.blB + k * (2 * PS) + PS))
            C2 := s.C.C2
            C3 := s.C.C3 } } := by
  rw [forRange_zero_one]
  induction n with
  | zero => simp
  | succ n ih =>
    rw [List.range_succ, List.map_append, List.foldl_append, ih]
    simp only [List.map_cons, List.map_nil, List.foldl_cons, List.foldl_nil, if_true, gebp_scalar_step2,
      CJMADDs, Finset.sum_range_succ, zero_mul, add_zero, one_mul, add_assoc]
    congr 1
    push_cast; ring

theorem scalar_fold4 {α : Type} [CommRing α] [Star α] (cj : ei_conj_helper) (PS : Int)
    (A U : Buf α) (n : Nat) (s : InnerState (Acc4 α)) :
    (forRange 0 n 1).foldl (fun (s : InnerState (Acc4 α)) k =>
      { C := if (4 : Int) = 2 then gebp_scalar_step2 cj PS A U s.blA s.blB k s.C
             else gebp_scalar_step4 cj PS A U s.blA s.blB k s.C
        blB := s.blB + 4 * PS
        blA := s.blA }) s =
      { blA := s.blA
        blB := s.blB + n * (4 * PS)
        C :=
          { C0 := s.C.C0 + ∑ k in Finset.range n, cj.pmul (A (s.blA + k)) (U (s.blB + k * (4 * PS)))
            C1 := s.C.C1 + ∑ k in Finset.range n, cj.pmul (A (s.blA + k)) (U (s.blB + k * (4 * PS) + PS))
            C2 := s.C.C2 + ∑ k in Finset.range n, cj.pmul (A (s.blA + k)) (U (s.blB + k * (4 * PS) + 2 * PS))
            C3 := s.C.C3 + ∑ k in Finset.range n, cj.pmul (A (s.blA + k)) (U (s.blB + k * (4 * PS) + 3 * PS)) } } := by
  rw [forRange_zero_one]
  induction n with
  | zero => simp
  | succ n ih =>
    rw [List.range_succ, List.map_append, List.foldl_append, ih]
    simp only [List.map_cons, List.map_nil, List.foldl_cons, List.foldl_nil,
      show ¬ ((4 : Int) = 2) by decide, if_false, gebp_scalar_step4,
      CJMADDs, Finset.sum_range_succ, zero_mul, add_zero, one_mul, add_assoc]
    congr 1
    push_cast; ring

theorem col_full_fold {α : Type} [CommRing α] [Star α] (cj : ei_conj_helper) (mr PS : Int)
    (A U : Buf α) (n : Nat) (s : InnerState (Packet α × Packet α)) :
    (forRange 0 n 1).foldl (fun (s : InnerState (Packet α × Packet α)) _ =>
      let C0 := s.C.1
      let C4 := s.C.2
      let A0 := ei_pload A (s.blA + 0 * PS)
      let A1 := ei_pload A (s.blA + 1 * PS)
      let B0 := ei_pload U (s.blB + 0 * PS)
      let (C0, T0) := CJMADD cj A0 B0 C0
      let (C4, T1) := CJMADD cj A1 B0 C4
      { C := (C0, C4), blB := s.blB + PS, blA := s.blA + mr }) s =
      { blA := s.blA + n * mr
        blB := s.blB + n * PS
        C := (fun l => s.C.1 l + ∑ k in Finset.range n, cj.pmul (A (s.blA + k * mr + l)) (U (s.blB + k * PS + l)),
              fun l => s.C.2 l + ∑ k in Finset.range n,
                cj.pmul (A (s.blA + k * mr + PS + l)) (U (s.blB + k * PS + l))) } := by
  rw [forRange_zero_one]
  induction n with
  | zero => simp
  | succ n ih =>
    rw [List.range_succ, List.map_append, List.foldl_append, ih]
    simp only [List.map_cons, List.map_nil, List.foldl_cons, List.foldl_nil, CJMADD, ei_pload, ei_padd,
      ei_conj_helper.pmulP, Finset.sum_range_succ, zero_mul, add_zero, one_mul, add_assoc]
    congr 1
    · refine Prod.ext ?_ ?_ <;> funext l <;>
        simp only [ei_padd, ei_conj_helper.pmulP, ei_pload, add_assoc]
    · push_cast; ring
    · push_cast; ring

theorem col_partial_fold {α : Type} [CommRing α] [Star α] (cj : ei_conj_helper) (PS : Int)
    (A U : Buf α) (n : Nat) (s : InnerState (Packet α)) :
    (forRange 0 n 1).foldl (fun (s : InnerState (Packet α)) _ =>
      { C := cj.pmaddP (ei_pload A s.blA) (ei_pload U s.blB) s.C
        blB := s.blB + PS
        blA := s.blA + PS }) s =
      { blA := s.blA + n * PS
        blB := s.blB + n * PS
        C := fun l => s.C l + ∑ k in Finset.range n, cj.pmul (A (s.blA + k * PS + l)) (U (s.blB + k * PS + l)) } := by
  rw [forRange_zero_one]
  induction n with
  | zero => simp
  | succ n ih =>
    rw [List.range_succ, List.map_append, List.foldl_append, ih]
    simp only [List.map_cons, List.map_nil, List.foldl_cons, List.foldl_nil, ei_pload,
      ei_conj_helper.pmaddP, ei_conj_helper.pmadd, Finset.sum_range_succ]
    congr 1
    · funext l
      simp only [ei_pload, ei_conj_helper.pmaddP, ei_conj_helper.pmadd]
      ring
    · push_cast; ring
    · push_cast; ring

theorem col_scalar_fold {α : Type} [CommRing α] [Star α] (cj : ei_conj_helper) (PS : Int)
    (A U : Buf α) (blA blB : Int) (n : Nat) (C0 : α) :
    (forRange 0 n 1).foldl (fun C0 k => cj.pmadd (A (blA + k)) (U (blB + k * PS)) C0) C0 =
      C0 + ∑ k in Finset.range n, cj.pmul (A (blA + k)) (U (blB + k * PS)) := by
  rw [forRange_zero_one]
  induction n with
  | zero => simp
  | succ n ih =>
    rw [List.range_succ, List.map_append, List.foldl_append, ih]
    simp only [List.map_cons, List.map_nil, List.foldl_cons, List.foldl_nil, ei_conj_helper.pmadd,
      Finset.sum_range_succ]
    ring

theorem cell_iff_eq (rs q j a p : Int) (hp : p = j * rs + a) (ha : 0 ≤ a) (hw : a + 1 ≤ rs) :
    q = p ↔ (q / rs = j ∧ a ≤ q % rs ∧ q % rs < a + 1) := by
  rw [← cell_iff rs q j a 1 p hp ha hw]
  constructor
  · intro h; constructor <;> omega
  · intro h; omega

theorem scalar_leaf {α : Type} [CommRing α] [Star α] (cj : ei_conj_helper) (A U : Buf α) (Bsrc : Int → α)
    (PS uB : Int) (hPS : 0 < PS) (depth : Nat) (nr : Int)
    (HU : ∀ m l : Int, 0 ≤ m → m < depth * nr → 0 ≤ l → l < PS → U (uB + m * PS + l) = Bsrc m)
    (res : Buf α) (q p : Int) (fa fu fa' fb' : Nat → Int) (hp : q = p)
    (hu : ∀ k : Nat, fu k = uB + fb' k * PS + 0)
    (ha : ∀ k : Nat, fa k = fa' k)
    (hb : ∀ k : Nat, k < depth → 0 ≤ fb' k ∧ fb' k < depth * nr) :
    res p + (0 + ∑ k in Finset.range depth, cj.pmul (A (fa k)) (U (fu k)))
      = res q + ∑ k in Finset.range depth, cj.pmul (A (fa' k)) (Bsrc (fb' k)) := by
  rw [hp, zero_add]
  congr 1
  apply Finset.sum_congr rfl
  intro k hk
  have hk' := Finset.mem_range.1 hk
  rw [hu k, ha k, HU _ _ (hb k hk').1 (hb k hk').2 (le_refl _) hPS]

theorem scalar_row_spec4 {α : Type} [CommRing α] [Star α] (cj : ei_conj_helper) (PS rs : Int) (hPS : 0 < PS)
    (A U : Buf α) (uB : Int) (depth : Nat) (strideA offsetA j2 : Int) (res : Buf α) (i : Int)
    (hi : 0 ≤ i) (hirs : i + 1 ≤ rs) (Bsrc : Int → α)
    (HU : ∀ m l : Int, 0 ≤ m → m < depth * 4 → 0 ≤ l → l < PS → U (uB + m * PS + l) = Bsrc m) :
    gebp_scalar_row cj 4 PS rs A U uB depth strideA offsetA j2 res i
      = addRect rs (fun i' j' => ∑ k in Finset.range depth,
          cj.pmul (A (i * strideA + offsetA + k + (i' - i))) (Bsrc (k * 4 + (j' - j2))))
          i (i + 1) j2 (j2 + 4) res := by
  funext q
  have hrs : 0 < rs := by omega
  have hq := Int.emod_add_ediv q rs
  have c0 := cell_iff_eq rs q (j2 + 0) i ((j2 + 0) * rs + i) rfl hi (by omega)
  have c1 := cell_iff_eq rs q (j2 + 1) i ((j2 + 1) * rs + i) rfl hi (by omega)
  have c2 := cell_iff_eq rs q (j2 + 2) i ((j2 + 2) * rs + i) rfl hi (by omega)
  have c3 := cell_iff_eq rs q (j2 + 3) i ((j2 + 3) * rs + i) rfl hi (by omega)
  have e1 : (j2 + 1) * rs = (j2 + 0) * rs + rs := by ring
  have e2 : (j2 + 2) * rs = (j2 + 0) * rs + rs + rs := by ring
  have e3 : (j2 + 3) * rs = (j2 + 0) * rs + rs + rs + rs := by ring
  have n10 : (j2 + 1) * rs + i ≠ (j2 + 0) * rs + i := by omega
  have n20 : (j2 + 2) * rs + i ≠ (j2 + 0) * rs + i := by omega
  have n21 : (j2 + 2) * rs + i ≠ (j2 + 1) * rs + i := by omega
  have n30 : (j2 + 3) * rs + i ≠ (j2 + 0) * rs + i := by omega
  have n31 : (j2 + 3) * rs + i ≠ (j2 + 1) * rs + i := by omega
  have n32 : (j2 + 3) * rs + i ≠ (j2 + 2) * rs + i := by omega
  unfold gebp_scalar_row
  simp only []
  rw [scalar_fold4]
  simp only [if_true, addRect, Function.update_apply, if_neg n10, if_neg n20, if_neg n21, if_neg n30,
    if_neg n31, if_neg n32]
  by_cases h3 : q = (j2 + 3) * rs + i
  · rw [if_pos h3]
    obtain ⟨hJ, hI1, hI2⟩ := c3.1 h3
    rw [if_pos (by omega), hJ]
    rw [hJ] at hq
    refine scalar_leaf cj A U Bsrc PS uB hPS depth 4 HU res q _ _ _ _ _ h3 (fun k => ?_) (fun k => ?_) (fun k hk => ?_)
    · ring
    · linarith
    · constructor <;> omega
  rw [if_neg h3]
  by_cases h2 : q = (j2 + 2) * rs + i
  · rw [if_pos h2]
    obtain ⟨hJ, hI1, hI2⟩ := c2.1 h2
    rw [if_pos (by omega), hJ]
    rw [hJ] at hq
    refine scalar_leaf cj A U Bsrc PS uB hPS depth 4 HU res q _ _ _ _ _ h2 (fun k => ?_) (fun k => ?_) (fun k hk => ?_)
    · ring
    · linarith
    · constructor <;> omega
  rw [if_neg h2]
  by_cases h1 : q = (j2 + 1) * rs + i
  · rw [if_pos h1]
    obtain ⟨hJ, hI1, hI2⟩ := c1.1 h1
    rw [if_pos (by omega), hJ]
    rw [hJ] at hq
    refine scalar_leaf cj A U Bsrc PS uB hPS depth 4 HU res q _ _ _ _ _ h1 (fun k => ?_) (fun k => ?_) (fun k hk => ?_)
    · ring
    · linarith
    · constructor <;> omega
  rw [if_neg h1]
  by_cases h0 : q = (j2 + 0) * rs + i
  · rw [if_pos h0]
    obtain ⟨hJ, hI1, hI2⟩ := c0.1 h0
    rw [if_pos (by omega), hJ]
    rw [hJ] at hq
    refine scalar_leaf cj A U Bsrc PS uB hPS depth 4 HU res q _ _ _ _ _ h0 (fun k => ?_) (fun k => ?_) (fun k hk => ?_)
    · ring
    · linarith
    · constructor <;> omega
  rw [if_neg h0]
  rw [if_neg (by omega)]

theorem scalar_fold2_true {α : Type} [CommRing α] [Star α] (cj : ei_conj_helper) (PS : Int)
    (A U : Buf α) (n : Nat) (s : InnerState (Acc4 α)) :
    (forRange 0 n 1).foldl (fun (s : InnerState (Acc4 α)) k =>
      { C := if True then gebp_scalar_step2 cj PS A U s.blA s.blB k s.C
             else gebp_scalar_step4 cj PS A U s.blA s.blB k s.C
        blB := s.blB + 2 * PS
        blA := s.blA }) s =
      { blA := s.blA
        blB := s.blB + n * (2 * PS)
        C :=
          { C0 := s.C.C0 + ∑ k in Finset.range n, cj.pmul (A (s.blA + k)) (U (s.blB + k * (2 * PS)))
            C1 := s.C.C1 + ∑ k in Finset.range n, cj.pmul (A (s.blA + k)) (U (s.blB + k * (2 * PS) + PS))
            C2 := s.C.C2
            C3 := s.C.C3 } } := by
  have := scalar_fold2 cj PS A U n s
  simpa using this

theorem scalar_row_spec2 {α : Type} [CommRing α] [Star α] (cj : ei_conj_helper) (PS rs : Int) (hPS : 0 < PS)
    (A U : Buf α) (uB : Int) (depth : Nat) (strideA offsetA j2 : Int) (res : Buf α) (i : Int)
    (hi : 0 ≤ i) (hirs : i + 1 ≤ rs) (Bsrc : Int → α)
    (HU : ∀ m l : Int, 0 ≤ m → m < depth * 2 → 0 ≤ l → l < PS → U (uB + m * PS + l) = Bsrc m) :
    gebp_scalar_row cj 2 PS rs A U uB depth strideA offsetA j2 res i
      = addRect rs (fun i' j' => ∑ k in Finset.range depth,
          cj.pmul (A (i * strideA + offsetA + k + (i' - i))) (Bsrc (k * 2 + (j' - j2))))
          i (i + 1) j2 (j2 + 2) res := by
  funext q
  have hrs : 0 < rs := by omega
  have hq := Int.emod_add_ediv q rs
  have c0 := cell_iff_eq rs q (j2 + 0) i ((j2 + 0) * rs + i) rfl hi (by omega)
  have c1 := cell_iff_eq rs q (j2 + 1) i ((j2 + 1) * rs + i) rfl hi (by omega)
  have e1 : (j2 + 1) * rs = (j2 + 0) * rs + rs := by ring
  have n10 : (j2 + 1) * rs + i ≠ (j2 + 0) * rs + i := by omega
  unfold gebp_scalar_row
  simp only []
  rw [scalar_fold2_true]
  simp only [if_true, addRect, Function.update_apply, if_neg n10, show ¬ ((2 : Int) = 4) by decide, if_false]
  by_cases h1 : q = (j2 + 1) * rs + i
  · rw [if_pos h1]
    obtain ⟨hJ, hI1, hI2⟩ := c1.1 h1
    rw [if_pos (by omega), hJ]
    rw [hJ] at hq
    refine scalar_leaf cj A U Bsrc PS uB hPS depth 2 HU res q _ _ _ _ _ h1 (fun k => ?_) (fun k => ?_) (fun k hk => ?_)
    · ring
    · linarith
    · constructor <;> omega
  rw [if_neg h1]
  by_cases h0 : q = (j2 + 0) * rs + i
  · rw [if_pos h0]
    obtain ⟨hJ, hI1, hI2⟩ := c0.1 h0
    rw [if_pos (by omega), hJ]
    rw [hJ] at hq
    refine scalar_leaf cj A U Bsrc PS uB hPS depth 2 HU res q _ _ _ _ _ h0 (fun k => ?_) (fun k => ?_) (fun k hk => ?_)
    · ring
    · linarith
    · constructor <;> omega
  rw [if_neg h0]
  rw [if_neg (by omega)]

theorem col_full_tile_spec {α : Type} [CommRing α] [Star α] (cj : ei_conj_helper) (PS rs : Int) (hPS : 0 < PS)
    (A U : Buf α) (uB : Int) (depth : Nat) (strideA offsetA j2 : Int) (res : Buf α) (i : Int)
    (hi : 0 ≤ i) (hirs : i + 2 * PS ≤ rs) (Bsrc : Int → α)
    (HU : ∀ m l : Int, 0 ≤ m → m < depth * 1 → 0 ≤ l → l < PS → U (uB + m * PS + l) = Bsrc m) :
    gebp_col_full_tile cj (2 * PS) PS rs A U uB depth strideA offsetA j2 res i
      = addRect rs (fun i' j' => ∑ k in Finset.range depth,
          cj.pmul (A (i * strideA + offsetA * (2 * PS) + k * (2 * PS) + (i' - i))) (Bsrc (k * 1 + (j' - j2))))
          i (i + 2 * PS) j2 (j2 + 1) res := by
  funext q
  have hrs : 0 < rs := by omega
  have hq := Int.emod_add_ediv q rs
  have c0 := cell_iff rs q (j2 + 0) i PS ((j2 + 0) * rs + i) rfl hi (by omega)
  have c1 := cell_iff rs q (j2 + 0) (i + PS) PS ((j2 + 0) * rs + i + PS) (by ring) (by omega) (by omega)
  unfold gebp_col_full_tile
  simp only []
  rw [col_full_fold]
  simp only [ei_pstore, ei_pload, addRect]
  by_cases h1 : ((j2 + 0) * rs + i + PS ≤ q ∧ q < (j2 + 0) * rs + i + PS + PS)
  · rw [if_pos h1]
    obtain ⟨hJ, hI1, hI2⟩ := c1.1 h1
    rw [if_pos (by omega), hJ]
    rw [hJ] at hq
    refine tile_leaf_acc cj A U Bsrc PS uB depth 1 HU res q _ _ _ _ _ h1 (fun k => ?_) (fun k => ?_) (fun k hk => ?_)
    · ring
    · linarith
    · constructor <;> omega
  rw [if_neg h1]
  by_cases h0 : ((j2 + 0) * rs + i ≤ q ∧ q < (j2 + 0) * rs + i + PS)
  · rw [if_pos h0]
    obtain ⟨hJ, hI1, hI2⟩ := c0.1 h0
    rw [if_pos (by omega), hJ]
    rw [hJ] at hq
    refine tile_leaf_acc cj A U Bsrc PS uB depth 1 HU res q _ _ _ _ _ h0 (fun k => ?_) (fun k => ?_) (fun k hk => ?_)
    · ring
    · linarith
    · constructor <;> omega
  rw [if_neg h0]
  rw [if_neg (by omega)]

theorem col_partial_tile_spec {α : Type} [CommRing α] [Star α] (cj : ei_conj_helper) (PS rs : Int) (hPS : 0 < PS)
    (A U : Buf α) (uB : Int) (depth : Nat) (strideA offsetA j2 : Int) (res : Buf α) (i : Int)
    (hi : 0 ≤ i) (hirs : i + PS ≤ rs) (Bsrc : Int → α)
    (HU : ∀ m l : Int, 0 ≤ m → m < depth * 1 → 0 ≤ l → l < PS → U (uB + m * PS + l) = Bsrc m) :
    gebp_col_partial_tile cj PS rs A U uB depth strideA offsetA j2 res i
      = addRect rs (fun i' j' => ∑ k in Finset.range depth,
          cj.pmul (A (i * strideA + offsetA * PS + k * PS + (i' - i))) (Bsrc (k * 1 + (j' - j2))))
          i (i + PS) j2 (j2 + 1) res := by
  funext q
  have hrs : 0 < rs := by omega
  have hq := Int.emod_add_ediv q rs
  have c0 := cell_iff rs q (j2 + 0) i PS ((j2 + 0) * rs + i) rfl hi (by omega)
  unfold gebp_col_partial_tile
  rw [col_partial_fold]
  simp only [ei_pstore, ei_pload, addRect]
  by_cases h0 : ((j2 + 0) * rs + i ≤ q ∧ q < (j2 + 0) * rs + i + PS)
  · rw [if_pos h0]
    obtain ⟨hJ, hI1, hI2⟩ := c0.1 h0
    rw [if_pos (by omega), hJ]
    rw [hJ] at hq
    refine tile_leaf_acc cj A U Bsrc PS uB depth 1 HU res q _ _ _ _ _ h0 (fun k => ?_) (fun k => ?_) (fun k hk => ?_)
    · ring
    · linarith
    · constructor <;> omega
  rw [if_neg h0]
  rw [if_neg (by omega)]

theorem col_scalar_row_spec {α : Type} [CommRing α] [Star α] (cj : ei_conj_helper) (PS rs : Int) (hPS : 0 < PS)
    (A U : Buf α) (uB : Int) (depth : Nat) (strideA offsetA j2 : Int) (res : Buf α) (i : Int)
    (hi : 0 ≤ i) (hirs : i + 1 ≤ rs) (Bsrc : Int → α)
    (HU : ∀ m l : Int, 0 ≤ m → m < depth * 1 → 0 ≤ l → l < PS → U (uB + m * PS + l) = Bsrc m) :
    gebp_col_scalar_row cj PS rs A U uB depth strideA offsetA j2 res i
      = addRect rs (fun i' j' => ∑ k in Finset.range depth,
          cj.pmul (A (i * strideA + offsetA + k + (i' - i))) (Bsrc (k * 1 + (j' - j2))))
          i (i + 1) j2 (j2 + 1) res := by
  funext q
  have hrs : 0 < rs := by omega
  have hq := Int.emod_add_ediv q rs
  have c0 := cell_iff_eq rs q (j2 + 0) i ((j2 + 0) * rs + i) rfl hi (by omega)
  unfold gebp_col_scalar_row
  rw [col_scalar_fold]
  simp only [addRect, Function.update_apply]
  by_cases h0 : q = (j2 + 0) * rs + i
  · rw [if_pos h0]
    obtain ⟨hJ, hI1, hI2⟩ := c0.1 h0
    rw [if_pos (by omega), hJ]
    rw [hJ] at hq
    refine scalar_leaf cj A U Bsrc PS uB hPS depth 1 HU res q _ _ _ _ _ h0 (fun k => ?_) (fun k => ?_) (fun k hk => ?_)
    · ring
    · linarith
    · constructor <;> omega
  rw [if_neg h0]
  rw [if_neg (by omega)]

theorem addRect_congr {α : Type} [Add α] (rs : Int) (f g : Int → Int → α) (i0 i1 j0 j1 : Int) (res : Buf α)
    (h : ∀ i j, i0 ≤ i → i < i1 → j0 ≤ j → j < j1 → f i j = g i j) :
    addRect rs f i0 i1 j0 j1 res = addRect rs g i0 i1 j0 j1 res := by
  funext q
  unfold addRect
  by_cases hc : i0 ≤ q % rs ∧ q % rs < i1 ∧ j0 ≤ q / rs ∧ q / rs < j1
  · rw [if_pos hc, if_pos hc, h _ _ hc.1 hc.2.1 hc.2.2.1 hc.2.2.2]
  · rw [if_neg hc, if_neg hc]

theorem addRect_empty_rows {α : Type} [Add α] (rs : Int) (f : Int → Int → α) (i0 i1 j0 j1 : Int)
    (res : Buf α) (h : i1 ≤ i0) : addRect rs f i0 i1 j0 j1 res = res := by
  funext q
  unfold addRect
  rw [if_neg (by omega)]

theorem addRect_empty_cols {α : Type} [Add α] (rs : Int) (f : Int → Int → α) (i0 i1 j0 j1 : Int)
    (res : Buf α) (h : j1 ≤ j0) : addRect rs f i0 i1 j0 j1 res = res := by
  funext q
  unfold addRect
  rw [if_neg (by omega)]

theorem addRect_rows_merge {α : Type} [Add α] (rs : Int) (f : Int → Int → α) (i0 i1 i2 j0 j1 : Int)
    (res : Buf α) (h01 : i0 ≤ i1) (h12 : i1 ≤ i2) :
    addRect rs f i1 i2 j0 j1 (addRect rs f i0 i1 j0 j1 res) = addRect rs f i0 i2 j0 j1 res := by
  funext q
  unfold addRect
  by_cases ha : i0 ≤ q % rs ∧ q % rs < i1 ∧ j0 ≤ q / rs ∧ q / rs < j1
  · rw [if_neg (by omega), if_pos ha, if_pos (by omega)]
  · by_cases hb : i1 ≤ q % rs ∧ q % rs < i2 ∧ j0 ≤ q / rs ∧ q / rs < j1
    · rw [if_pos hb, if_neg ha, if_pos (by omega)]
    · rw [if_neg hb, if_neg ha, if_neg (by omega)]

theorem addRect_cols_merge {α : Type} [Add α] (rs : Int) (f : Int → Int → α) (i0 i1 j0 j1 j2 : Int)
    (res : Buf α) (h01 : j0 ≤ j1) (h12 : j1 ≤ j2) :
    addRect rs f i0 i1 j1 j2 (addRect rs f i0 i1 j0 j1 res) = addRect rs f i0 i1 j0 j2 res := by
  funext q
  unfold addRect
  by_cases ha : i0 ≤ q % rs ∧ q % rs < i1 ∧ j0 ≤ q / rs ∧ q / rs < j1
  · rw [if_neg (by omega), if_pos ha, if_pos (by omega)]
  · by_cases hb : i0 ≤ q % rs ∧ q % rs < i1 ∧ j1 ≤ q / rs ∧ q / rs < j2
    · rw [if_pos hb, if_neg ha, if_pos (by omega)]
    · rw [if_neg hb, if_neg ha, if_neg (by omega)]

/-- A loop over `T` consecutive row tiles of height `W`, each adding `f` on its rows, adds `f` on all of them. -/
theorem foldl_addRect_rows {α : Type} [Add α] (rs : Int) (f : Int → Int → α) (j0 j1 : Int)
    (tile : Buf α → Int → Buf α) (W : Int) (hW : 0 ≤ W) (base : Int) (T : Nat)
    (h : ∀ (res : Buf α) (t : Nat), t < T →
      tile res (base + t * W) = addRect rs f (base + t * W) (base + t * W + W) j0 j1 res)
    (res : Buf α) :
    ((List.range T).map (fun (t : Nat) => base + (t : Int) * W)).foldl tile res
      = addRect rs f base (base + T * W) j0 j1 res := by
  induction T with
  | zero =>
    simp only [List.range_zero, List.map_nil, List.foldl_nil]
    rw [addRect_empty_rows]
    simp
  | succ T ih =>
    rw [List.range_succ, List.map_append, List.foldl_append, ih (fun res t ht => h res t (by omega))]
    simp only [List.map_cons, List.map_nil, List.foldl_cons, List.foldl_nil]
    rw [h _ T (by omega)]
    have hT : 0 ≤ (T : Int) * W := mul_nonneg (by positivity) hW
    have e : base + ((T + 1 : Nat) : Int) * W = base + T * W + W := by push_cast; ring
    rw [e]
    exact addRect_rows_merge rs f base (base + T * W) (base + T * W + W) j0 j1 res (by omega) (by omega)

/-- A loop over `T` consecutive column tiles of width `W`, with a state that carries a second component
satisfying an invariant `Inv`, when each step adds `f` on its columns. -/
theorem foldl_addRect_cols {α β : Type} [Add α] (rs : Int) (f : Int → Int → α) (i0 i1 : Int)
    (step : Buf α × β → Int → Buf α × β) (Inv : β → Prop) (W : Int) (hW : 0 ≤ W) (base : Int) (T : Nat)
    (h : ∀ (st : Buf α × β) (t : Nat), t < T → Inv st.2 →
      (step st (base + t * W)).1 = addRect rs f i0 i1 (base + t * W) (base + t * W + W) st.1 ∧
      Inv (step st (base + t * W)).2)
    (st : Buf α × β) (hst : Inv st.2) :
    (((List.range T).map (fun (t : Nat) => base + (t : Int) * W)).foldl step st).1
      = addRect rs f i0 i1 base (base + T * W) st.1 ∧
    Inv (((List.range T).map (fun (t : Nat) => base + (t : Int) * W)).foldl step st).2 := by
  induction T with
  | zero =>
    simp only [List.range_zero, List.map_nil, List.foldl_nil]
    refine ⟨?_, hst⟩
    rw [addRect_empty_cols]
    simp
  | succ T ih =>
    obtain ⟨ih1, ih2⟩ := ih (fun st t ht => h st t (by omega))
    rw [List.range_succ, List.map_append, List.foldl_append]
    simp only [List.map_cons, List.map_nil, List.foldl_cons, List.foldl_nil]
    obtain ⟨h1, h2⟩ := h _ T (by omega) ih2
    refine ⟨?_, h2⟩
    rw [h1, ih1]
    have hT : 0 ≤ (T : Int) * W := mul_nonneg (by positivity) hW
    have e : base + ((T + 1 : Nat) : Int) * W = base + T * W + W := by push_cast; ring
    rw [e]
    exact addRect_cols_merge rs f i0 i1 base (base + T * W) (base + T * W + W) st.1 (by omega) (by omega)

theorem forRange_tiles_zero (T : Nat) (m : Int) (hm : 0 < m) :
    forRange 0 (T * m) m = (List.range T).map (fun (t : Nat) => 0 + (t : Int) * m) := by
  rw [forRange_tiles T m hm]
  apply List.map_congr_left
  intro t _
  ring

theorem forRange_one_mul (a : Int) (n : Nat) :
    forRange a (a + n) 1 = (List.range n).map (fun (t : Nat) => a + (t : Int) * 1) := by
  rw [forRange_one]
  apply List.map_congr_left
  intro t _
  ring

/-- The three row bands of the kernel against one column tile: when each band member adds `f` on its own
rows, the three loops together add `f` on all rows `[0, rows)`. -/
theorem three_bands {α : Type} [Add α] (M PS rows : Nat) (hM : 0 < M) (rs : Int)
    (f : Int → Int → α) (j0 j1 : Int) (full part scalar : Buf α → Int → Buf α)
    (hfull : ∀ (res : Buf α) (t : Nat), t < rows / M →
      full res (0 + (t : Int) * M) = addRect rs f (0 + (t : Int) * M) (0 + (t : Int) * M + M) j0 j1 res)
    (hpart : ∀ res : Buf α, rows - rows / M * M ≥ PS →
      part res ((rows / M * M : Nat) : Int)
        = addRect rs f ((rows / M * M : Nat) : Int) (((rows / M * M : Nat) : Int) + PS) j0 j1 res)
    (hscal : ∀ (res : Buf α) (i : Nat),
      (if rows - rows / M * M ≥ PS then rows / M * M + PS else rows / M * M) ≤ i → i < rows →
      scalar res i = addRect rs f i ((i : Int) + 1) j0 j1 res)
    (res : Buf α) :
    (forRange ((rows : Int).tdiv M * M + (if (rows : Int) - (rows : Int).tdiv M * M ≥ PS then (PS : Int) else 0))
        rows 1).foldl scalar
      (if (rows : Int) - (rows : Int).tdiv M * M ≥ PS then
        part ((forRange 0 ((rows : Int).tdiv M * M) M).foldl full res) ((rows : Int).tdiv M * M)
       else (forRange 0 ((rows : Int).tdiv M * M) M).foldl full res)
      = addRect rs f 0 rows j0 j1 res := by
  have hle : rows / M * M ≤ rows := Nat.div_mul_le_self rows M
  rw [tdiv_mul_cast]
  have e1 : ((rows / M * M : Nat) : Int) = ((rows / M : Nat) : Int) * (M : Int) := by push_cast; rfl
  have hb1 : (forRange 0 ((rows / M * M : Nat) : Int) M).foldl full res
      = addRect rs f 0 ((rows / M * M : Nat) : Int) j0 j1 res := by
    rw [e1, forRange_tiles_zero _ _ (by exact_mod_cast hM),
      foldl_addRect_rows rs f j0 j1 full M (by positivity) 0 (rows / M) hfull]
    rw [zero_add]
  rw [hb1]
  have hb3 : ∀ (P2 : Nat) (hP2 : P2 ≤ rows) (r : Buf α),
      (∀ (res : Buf α) (i : Nat), P2 ≤ i → i < rows → scalar res i = addRect rs f i ((i : Int) + 1) j0 j1 res) →
      (forRange (P2 : Int) rows 1).foldl scalar r = addRect rs f P2 rows j0 j1 r := by
    intro P2 hP2 r hs
    have e : (rows : Int) = (P2 : Int) + ((rows - P2 : Nat) : Int) := by omega
    conv_lhs => rw [e]
    rw [forRange_one_mul, foldl_addRect_rows rs f j0 j1 scalar 1 (by decide) P2 (rows - P2)]
    · rw [mul_one, ← e]
    · intro res t ht
      have := hs res (P2 + t) (by omega) (by omega)
      simp only [mul_one]
      push_cast at this
      exact this
  by_cases hc : rows - rows / M * M ≥ PS
  · have hc' : (rows : Int) - ((rows / M * M : Nat) : Int) ≥ (PS : Int) := by omega
    rw [if_pos hc', if_pos hc']
    rw [if_pos hc] at hscal
    have e2 : ((rows / M * M : Nat) : Int) + (PS : Int) = ((rows / M * M + PS : Nat) : Int) := by push_cast; rfl
    rw [hpart _ hc, e2, hb3 _ (by omega) _ hscal]
    rw [← e2, addRect_rows_merge rs f 0 ((rows / M * M : Nat) : Int) (((rows / M * M : Nat) : Int) + PS)
      j0 j1 res (by positivity) (by omega)]
    rw [e2]
    exact addRect_rows_merge rs f 0 _ _ j0 j1 res (by positivity) (by omega)
  · have hc' : ¬ ((rows : Int) - ((rows / M * M : Nat) : Int) ≥ (PS : Int)) := by omega
    rw [if_neg hc', if_neg hc', add_zero]
    rw [if_neg hc] at hscal
    rw [hb3 _ hle _ hscal]
    exact addRect_rows_merge rs f 0 _ _ j0 j1 res (by positivity) (by omega)

theorem lhsAddr_full (M PS rows : Nat) (hM : 0 < M) (sA oA : Int) (t : Nat) (ht : t < rows / M)
    (i' k : Int) (h0 : 0 + (t : Int) * M ≤ i') (h1 : i' < 0 + (t : Int) * M + M) :
    lhsAddr M PS rows sA oA i' k = (0 + (t : Int) * M) * sA + oA * M + k * M + (i' - (0 + (t : Int) * M)) := by
  have hle : rows / M * M ≤ rows := Nat.div_mul_le_self rows M
  have hM' : (0 : Int) < M := by exact_mod_cast hM
  unfold lhsAddr
  simp only []
  rw [tdiv_mul_cast]
  have hP : (t : Int) * M + M ≤ ((rows / M * M : Nat) : Int) := by
    have : (t + 1) * M ≤ rows / M * M := Nat.mul_le_mul_right _ ht
    have : (((t + 1) * M : Nat) : Int) ≤ ((rows / M * M : Nat) : Int) := by exact_mod_cast this
    push_cast at this ⊢
    linarith
  rw [if_pos (by omega)]
  have hdm := (Int.ediv_emod_unique (a := i') (r := i' - (t : Int) * M) (q := (t : Int)) hM').2
    ⟨by ring, by omega, by omega⟩
  rw [hdm.1, hdm.2]
  ring

theorem lhsAddr_packet_tile (M PS rows : Nat) (sA oA : Int) (hc : rows - rows / M * M ≥ PS)
    (i' k : Int) (h0 : ((rows / M * M : Nat) : Int) ≤ i') (h1 : i' < ((rows / M * M : Nat) : Int) + PS) :
    lhsAddr M PS rows sA oA i' k
      = ((rows / M * M : Nat) : Int) * sA + oA * PS + k * PS + (i' - ((rows / M * M : Nat) : Int)) := by
  have hle : rows / M * M ≤ rows := Nat.div_mul_le_self rows M
  unfold lhsAddr
  simp only []
  rw [tdiv_mul_cast]
  rw [if_neg (by omega), if_pos (by constructor <;> omega)]

theorem lhsAddr_scalar (M PS rows : Nat) (sA oA : Int) (i : Nat)
    (h0 : (if rows - rows / M * M ≥ PS then rows / M * M + PS else rows / M * M) ≤ i) (k : Int) :
    lhsAddr M PS rows sA oA i k = (i : Int) * sA + oA + k := by
  have hle : rows / M * M ≤ rows := Nat.div_mul_le_self rows M
  unfold lhsAddr
  simp only []
  rw [tdiv_mul_cast]
  by_cases hc : rows - rows / M * M ≥ PS
  · rw [if_pos hc] at h0
    rw [if_neg (by omega), if_neg (by omega)]
  · rw [if_neg hc] at h0
    rw [if_neg (by omega), if_neg (by omega)]

/-- Effect of one pass of the loop over full column tiles: the result gains the products of the packed left
rows with the packed right columns of the tile; the memory holding `blockB` changes only inside the
scratch area. -/
theorem col_tile_spec {α : Type} [CommRing α] [Star α] (PS rows depth : Nat) (hPS : 0 < PS) (nr : Int)
    (hnr : nr = 2 ∨ nr = 4) (cj : ei_conj_helper) (rs : Int) (hrs : (rows : Int) ≤ rs) (A : Buf α)
    (sA sB oA oB uB : Int) (st : Buf α × Buf α) (j2 : Int)
    (hdisj : ∀ m : Nat, (m : Int) < depth * nr →
      (j2 * sB + oB * nr + m < uB ∨ uB + (depth : Int) * nr * PS ≤ j2 * sB + oB * nr + m)) :
    (gebp_col_tile cj ((2 * PS : Nat) : Int) nr PS rs A rows depth sA sB oA oB
        ((rows : Int).tdiv ((2 * PS : Nat) : Int) * ((2 * PS : Nat) : Int))
        ((rows : Int).tdiv ((2 * PS : Nat) : Int) * ((2 * PS : Nat) : Int) +
          (if (rows : Int) - (rows : Int).tdiv ((2 * PS : Nat) : Int) * ((2 * PS : Nat) : Int) ≥ PS
            then (PS : Int) else 0))
        ((depth : Int).tdiv 4 * 4) uB st j2).1
      = addRect rs (fun i' j' => ∑ k in Finset.range depth,
          cj.pmul (A (lhsAddr ((2 * PS : Nat) : Int) PS rows sA oA i' k))
            (st.2 (j2 * sB + oB * nr + (k * nr + (j' - j2))))) 0 rows j2 (j2 + nr) st.1 ∧
    (∀ q : Int, (q < uB ∨ uB + (depth : Int) * nr * PS ≤ q) →
      (gebp_col_tile cj ((2 * PS : Nat) : Int) nr PS rs A rows depth sA sB oA oB
        ((rows : Int).tdiv ((2 * PS : Nat) : Int) * ((2 * PS : Nat) : Int))
        ((rows : Int).tdiv ((2 * PS : Nat) : Int) * ((2 * PS : Nat) : Int) +
          (if (rows : Int) - (rows : Int).tdiv ((2 * PS : Nat) : Int) * ((2 * PS : Nat) : Int) ≥ PS
            then (PS : Int) else 0))
        ((depth : Int).tdiv 4 * 4) uB st j2).2 q = st.2 q) := by
  have hPS' : (0 : Int) < PS := by exact_mod_cast hPS
  have hM : ((2 * PS : Nat) : Int) = 2 * (PS : Int) := by push_cast; ring
  have hle : rows / (2 * PS) * (2 * PS) ≤ rows := Nat.div_mul_le_self rows (2 * PS)
  rcases hnr with h | h
  · subst h
    have hn : (depth : Int) * 2 = ((depth * 2 : Nat) : Int) := by push_cast; ring
    obtain ⟨hU1, hU2⟩ := unpackB_spec (PS : Int) (le_of_lt hPS') st.2 uB (j2 * sB + oB * 2) (depth * 2)
      (fun k hk => by
        have := hdisj k (by rw [hn]; exact_mod_cast hk)
        rw [hn] at this
        exact this) (depth * 2) (le_refl _)
    have HU : ∀ m l : Int, 0 ≤ m → m < depth * 2 → 0 ≤ l → l < PS →
        gebp_unpackB PS st.2 uB (j2 * sB + oB * 2) ((depth : Int) * 2) (uB + m * PS + l)
          = st.2 (j2 * sB + oB * 2 + m) := by
      intro m l hm0 hm hl0 hl
      rw [hn]
      have := hU1 m.toNat (by omega) l hl0 hl
      rwa [Int.toNat_of_nonneg hm0] at this
    unfold gebp_col_tile
    simp only []
    refine ⟨?_, ?_⟩
    · apply three_bands (2 * PS) PS rows (by omega) rs
      · intro res t ht
        rw [hM]
        have hrow : (0 : Int) + (t : Int) * (2 * PS) + 2 * PS ≤ rs := by
          have : (t + 1) * (2 * PS) ≤ rows / (2 * PS) * (2 * PS) := Nat.mul_le_mul_right _ ht
          have : (((t + 1) * (2 * PS) : Nat) : Int) ≤ ((rows / (2 * PS) * (2 * PS) : Nat) : Int) := by
            exact_mod_cast this
          push_cast at this
          have : ((rows / (2 * PS) * (2 * PS) : Nat) : Int) ≤ rows := by exact_mod_cast hle
          push_cast at this
          linarith
        have hi0 : (0 : Int) ≤ 0 + (t : Int) * (2 * PS) := by positivity
        rw [full_tile_spec2 cj PS rs hPS' A _ uB depth sA oA j2 res _ hi0 hrow
          (fun m => st.2 (j2 * sB + oB * 2 + m)) HU]
        apply addRect_congr
        intro i' j' h0 h1 _ _
        apply Finset.sum_congr rfl
        intro k _
        have hA := lhsAddr_full (2 * PS) PS rows (by omega) sA oA t ht i' k (by rw [hM]; exact h0)
          (by rw [hM]; exact h1)
        rw [hM] at hA
        rw [hA]
      · intro res hc
        have hi0 : (0 : Int) ≤ ((rows / (2 * PS) * (2 * PS) : Nat) : Int) := by positivity
        have hrow : ((rows / (2 * PS) * (2 * PS) : Nat) : Int) + PS ≤ rs := by omega
        rw [partial_tile_spec2 cj PS rs hPS' A _ uB depth sA oA j2 res _ hi0 hrow
          (fun m => st.2 (j2 * sB + oB * 2 + m)) HU]
        apply addRect_congr
        intro i' j' h0 h1 _ _
        apply Finset.sum_congr rfl
        intro k _
        rw [lhsAddr_packet_tile (2 * PS) PS rows sA oA hc i' k h0 h1]
      · intro res i hi hir
        have hi0 : (0 : Int) ≤ (i : Int) := by positivity
        have hrow : (i : Int) + 1 ≤ rs := by omega
        rw [scalar_row_spec2 cj PS rs hPS' A _ uB depth sA oA j2 res _ hi0 hrow
          (fun m => st.2 (j2 * sB + oB * 2 + m)) HU]
        apply addRect_congr
        intro i' j' h0 h1 _ _
        have hi' : i' = (i : Int) := by omega
        subst hi'
        apply Finset.sum_congr rfl
        intro k _
        rw [lhsAddr_scalar (2 * PS) PS rows sA oA i hi k]
        congr 2
        ring
    · intro q hq
      exact hU2 q (by rw [← hn]; exact hq)
  · subst h
    have hn : (depth : Int) * 4 = ((depth * 4 : Nat) : Int) := by push_cast; ring
    obtain ⟨hU1, hU2⟩ := unpackB_spec (PS : Int) (le_of_lt hPS') st.2 uB (j2 * sB + oB * 4) (depth * 4)
      (fun k hk => by
        have := hdisj k (by rw [hn]; exact_mod_cast hk)
        rw [hn] at this
        exact this) (depth * 4) (le_refl _)
    have HU : ∀ m l : Int, 0 ≤ m → m < depth * 4 → 0 ≤ l → l < PS →
        gebp_unpackB PS st.2 uB (j2 * sB + oB * 4) ((depth : Int) * 4) (uB + m * PS + l)
          = st.2 (j2 * sB + oB * 4 + m) := by
      intro m l hm0 hm hl0 hl
      rw [hn]
      have := hU1 m.toNat (by omega) l hl0 hl
      rwa [Int.toNat_of_nonneg hm0] at this
    unfold gebp_col_tile
    simp only []
    refine ⟨?_, ?_⟩
    · apply three_bands (2 * PS) PS rows (by omega) rs
      · intro res t ht
        rw [hM]
        have hrow : (0 : Int) + (t : Int) * (2 * PS) + 2 * PS ≤ rs := by
          have : (t + 1) * (2 * PS) ≤ rows / (2 * PS) * (2 * PS) := Nat.mul_le_mul_right _ ht
          have : (((t + 1) * (2 * PS) : Nat) : Int) ≤ ((rows / (2 * PS) * (2 * PS) : Nat) : Int) := by
            exact_mod_cast this
          push_cast at this
          have : ((rows / (2 * PS) * (2 * PS) : Nat) : Int) ≤ rows := by exact_mod_cast hle
          push_cast at this
          linarith
        have hi0 : (0 : Int) ≤ 0 + (t : Int) * (2 * PS) := by positivity
        rw [full_tile_spec4 cj PS rs hPS' A _ uB depth sA oA j2 res _ hi0 hrow
          (fun m => st.2 (j2 * sB + oB * 4 + m)) HU]
        apply addRect_congr
        intro i' j' h0 h1 _ _
        apply Finset.sum_congr rfl
        intro k _
        have hA := lhsAddr_full (2 * PS) PS rows (by omega) sA oA t ht i' k (by rw [hM]; exact h0)
          (by rw [hM]; exact h1)
        rw [hM] at hA
        rw [hA]
      · intro res hc
        have hi0 : (0 : Int) ≤ ((rows / (2 * PS) * (2 * PS) : Nat) : Int) := by positivity
        have hrow : ((rows / (2 * PS) * (2 * PS) : Nat) : Int) + PS ≤ rs := by omega
        rw [partial_tile_spec4 cj PS rs hPS' A _ uB depth sA oA j2 res _ hi0 hrow
          (fun m => st.2 (j2 * sB + oB * 4 + m)) HU]
        apply addRect_congr
        intro i' j' h0 h1 _ _
        apply Finset.sum_congr rfl
        intro k _
        rw [lhsAddr_packet_tile (2 * PS) PS rows sA oA hc i' k h0 h1]
      · intro res i hi hir
        have hi0 : (0 : Int) ≤ (i : Int) := by positivity
        have hrow : (i : Int) + 1 ≤ rs := by omega
        rw [scalar_row_spec4 cj PS rs hPS' A _ uB depth sA oA j2 res _ hi0 hrow
          (fun m => st.2 (j2 * sB + oB * 4 + m)) HU]
        apply addRect_congr
        intro i' j' h0 h1 _ _
        have hi' : i' = (i : Int) := by omega
        subst hi'
        apply Finset.sum_congr rfl
        intro k _
        rw [lhsAddr_scalar (2 * PS) PS rows sA oA i hi k]
        congr 2
        ring
    · intro q hq
      exact hU2 q (by rw [← hn]; exact hq)

/-- Effect of one pass of the loop over the remaining columns. -/
theorem col_single_spec {α : Type} [CommRing α] [Star α] (PS rows depth : Nat) (hPS : 0 < PS)
    (cj : ei_conj_helper) (rs : Int) (hrs : (rows : Int) ≤ rs) (A : Buf α)
    (sA sB oA oB uB : Int) (st : Buf α × Buf α) (j2 : Int)
    (hdisj : ∀ m : Nat, m < depth →
      (j2 * sB + oB + m < uB ∨ uB + (depth : Int) * PS ≤ j2 * sB + oB + m)) :
    (gebp_col_single cj ((2 * PS : Nat) : Int) PS rs A rows depth sA sB oA oB
        ((rows : Int).tdiv ((2 * PS : Nat) : Int) * ((2 * PS : Nat) : Int))
        ((rows : Int).tdiv ((2 * PS : Nat) : Int) * ((2 * PS : Nat) : Int) +
          (if (rows : Int) - (rows : Int).tdiv ((2 * PS : Nat) : Int) * ((2 * PS : Nat) : Int) ≥ PS
            then (PS : Int) else 0))
        uB st j2).1
      = addRect rs (fun i' j' => ∑ k in Finset.range depth,
          cj.pmul (A (lhsAddr ((2 * PS : Nat) : Int) PS rows sA oA i' k))
            (st.2 (j2 * sB + oB + (k * 1 + (j' - j2))))) 0 rows j2 (j2 + 1) st.1 ∧
    (∀ q : Int, (q < uB ∨ uB + (depth : Int) * PS ≤ q) →
      (gebp_col_single cj ((2 * PS : Nat) : Int) PS rs A rows depth sA sB oA oB
        ((rows : Int).tdiv ((2 * PS : Nat) : Int) * ((2 * PS : Nat) : Int))
        ((rows : Int).tdiv ((2 * PS : Nat) : Int) * ((2 * PS : Nat) : Int) +
          (if (rows : Int) - (rows : Int).tdiv ((2 * PS : Nat) : Int) * ((2 * PS : Nat) : Int) ≥ PS
            then (PS : Int) else 0))
        uB st j2).2 q = st.2 q) := by
  have hPS' : (0 : Int) < PS := by exact_mod_cast hPS
  have hM : ((2 * PS : Nat) : Int) = 2 * (PS : Int) := by push_cast; ring
  have hle : rows / (2 * PS) * (2 * PS) ≤ rows := Nat.div_mul_le_self rows (2 * PS)
  obtain ⟨hU1, hU2⟩ := unpackB_spec (PS : Int) (le_of_lt hPS') st.2 uB (j2 * sB + oB) depth
    (fun k hk => hdisj k hk) depth (le_refl _)
  have HU : ∀ m l : Int, 0 ≤ m → m < depth * 1 → 0 ≤ l → l < PS →
      gebp_unpackB PS st.2 uB (j2 * sB + oB) (depth : Int) (uB + m * PS + l)
        = st.2 (j2 * sB + oB + m) := by
    intro m l hm0 hm hl0 hl
    have := hU1 m.toNat (by omega) l hl0 hl
    rwa [Int.toNat_of_nonneg hm0] at this
  unfold gebp_col_single
  simp only []
  refine ⟨?_, ?_⟩
  · apply three_bands (2 * PS) PS rows (by omega) rs
    · intro res t ht
      rw [hM]
      have hrow : (0 : Int) + (t : Int) * (2 * PS) + 2 * PS ≤ rs := by
        have : (t + 1) * (2 * PS) ≤ rows / (2 * PS) * (2 * PS) := Nat.mul_le_mul_right _ ht
        have : (((t + 1) * (2 * PS) : Nat) : Int) ≤ ((rows / (2 * PS) * (2 * PS) : Nat) : Int) := by
          exact_mod_cast this
        push_cast at this
        have : ((rows / (2 * PS) * (2 * PS) : Nat) : Int) ≤ rows := by exact_mod_cast hle
        push_cast at this
        linarith
      have hi0 : (0 : Int) ≤ 0 + (t : Int) * (2 * PS) := by positivity
      rw [col_full_tile_spec cj PS rs hPS' A _ uB depth sA oA j2 res _ hi0 hrow
        (fun m => st.2 (j2 * sB + oB + m)) HU]
      apply addRect_congr
      intro i' j' h0 h1 _ _
      apply Finset.sum_congr rfl
      intro k _
      have hA := lhsAddr_full (2 * PS) PS rows (by omega) sA oA t ht i' k (by rw [hM]; exact h0)
        (by rw [hM]; exact h1)
      rw [hM] at hA
      rw [hA]
    · intro res hc
      have hi0 : (0 : Int) ≤ ((rows / (2 * PS) * (2 * PS) : Nat) : Int) := by positivity
      have hrow : ((rows / (2 * PS) * (2 * PS) : Nat) : Int) + PS ≤ rs := by omega
      rw [col_partial_tile_spec cj PS rs hPS' A _ uB depth sA oA j2 res _ hi0 hrow
        (fun m => st.2 (j2 * sB + oB + m)) HU]
      apply addRect_congr
      intro i' j' h0 h1 _ _
      apply Finset.sum_congr rfl
      intro k _
      rw [lhsAddr_packet_tile (2 * PS) PS rows sA oA hc i' k h0 h1]
    · intro res i hi hir
      have hi0 : (0 : Int) ≤ (i : Int) := by positivity
      have hrow : (i : Int) + 1 ≤ rs := by omega
      rw [col_scalar_row_spec cj PS rs hPS' A _ uB depth sA oA j2 res _ hi0 hrow
        (fun m => st.2 (j2 * sB + oB + m)) HU]
      apply addRect_congr
      intro i' j' h0 h1 _ _
      have hi' : i' = (i : Int) := by omega
      subst hi'
      apply Finset.sum_congr rfl
      intro k _
      rw [lhsAddr_scalar (2 * PS) PS rows sA oA i hi k]
      congr 2
      ring
  · intro q hq
    exact hU2 q hq

theorem rhsAddr_tile (nr cols : Nat) (hnr : 0 < nr) (sB oB : Int) (t : Nat) (ht : t < cols / nr)
    (j' k : Int) (h0 : 0 + (t : Int) * nr ≤ j') (h1 : j' < 0 + (t : Int) * nr + nr) :
    rhsAddr nr cols sB oB k j' = (0 + (t : Int) * nr) * sB + oB * nr + (k * nr + (j' - (0 + (t : Int) * nr))) := by
  have hle : cols / nr * nr ≤ cols := Nat.div_mul_le_self cols nr
  have hnr' : (0 : Int) < nr := by exact_mod_cast hnr
  unfold rhsAddr
  simp only []
  rw [tdiv_mul_cast]
  have hP : (t : Int) * nr + nr ≤ ((cols / nr * nr : Nat) : Int) := by
    have : (t + 1) * nr ≤ cols / nr * nr := Nat.mul_le_mul_right _ ht
    have : (((t + 1) * nr : Nat) : Int) ≤ ((cols / nr * nr : Nat) : Int) := by exact_mod_cast this
    push_cast at this ⊢
    linarith
  rw [if_pos (by omega)]
  have hdm := (Int.ediv_emod_unique (a := j') (r := j' - (t : Int) * nr) (q := (t : Int)) hnr').2
    ⟨by ring, by omega, by omega⟩
  rw [hdm.1, hdm.2]
  ring

theorem rhsAddr_single (nr cols : Nat) (sB oB : Int) (j : Int) (hj : ((cols / nr * nr : Nat) : Int) ≤ j)
    (k : Int) : rhsAddr nr cols sB oB k j = j * sB + oB + k := by
  unfold rhsAddr
  simp only []
  rw [tdiv_mul_cast, if_neg (by omega)]

theorem kernel_core {α : Type} [CommRing α] [Star α] (PS nr rows depth cols : Nat) (hPS : 0 < PS)
    (hnr : nr = 2 ∨ nr = 4) (cj : ei_conj_helper) (res : Buf α) (rs : Int) (hrs : (rows : Int) ≤ rs)
    (A memB : Buf α) (sA sB oA oB uB : Int)
    (hscr : ∀ k j : Nat, k < depth → j < cols →
      (rhsAddr nr cols sB oB k j < uB ∨ uB + (depth : Int) * nr * PS ≤ rhsAddr nr cols sB oB k j)) :
    ((forRange ((cols : Int).tdiv nr * nr) cols 1).foldl
      (gebp_col_single cj ((2 * PS : Nat) : Int) PS rs A rows depth sA sB oA oB
        ((rows : Int).tdiv ((2 * PS : Nat) : Int) * ((2 * PS : Nat) : Int))
        ((rows : Int).tdiv ((2 * PS : Nat) : Int) * ((2 * PS : Nat) : Int) +
          (if (rows : Int) - (rows : Int).tdiv ((2 * PS : Nat) : Int) * ((2 * PS : Nat) : Int) ≥ PS
            then (PS : Int) else 0)) uB)
      ((forRange 0 ((cols : Int).tdiv nr * nr) nr).foldl
        (gebp_col_tile cj ((2 * PS : Nat) : Int) nr PS rs A rows depth sA sB oA oB
          ((rows : Int).tdiv ((2 * PS : Nat) : Int) * ((2 * PS : Nat) : Int))
          ((rows : Int).tdiv ((2 * PS : Nat) : Int) * ((2 * PS : Nat) : Int) +
            (if (rows : Int) - (rows : Int).tdiv ((2 * PS : Nat) : Int) * ((2 * PS : Nat) : Int) ≥ PS
              then (PS : Int) else 0))
          ((depth : Int).tdiv 4 * 4) uB) (res, memB))).1
      = addRect rs (gebpDot cj ((2 * PS : Nat) : Int) PS nr rows depth cols sA sB oA oB A memB) 0 rows 0 cols res ∧
    (∀ q : Int, (q < uB ∨ uB + (depth : Int) * nr * PS ≤ q) →
      ((forRange ((cols : Int).tdiv nr * nr) cols 1).foldl
      (gebp_col_single cj ((2 * PS : Nat) : Int) PS rs A rows depth sA sB oA oB
        ((rows : Int).tdiv ((2 * PS : Nat) : Int) * ((2 * PS : Nat) : Int))
        ((rows : Int).tdiv ((2 * PS : Nat) : Int) * ((2 * PS : Nat) : Int) +
          (if (rows : Int) - (rows : Int).tdiv ((2 * PS : Nat) : Int) * ((2 * PS : Nat) : Int) ≥ PS
            then (PS : Int) else 0)) uB)
      ((forRange 0 ((cols : Int).tdiv nr * nr) nr).foldl
        (gebp_col_tile cj ((2 * PS : Nat) : Int) nr PS rs A rows depth sA sB oA oB
          ((rows : Int).tdiv ((2 * PS : Nat) : Int) * ((2 * PS : Nat) : Int))
          ((rows : Int).tdiv ((2 * PS : Nat) : Int) * ((2 * PS : Nat) : Int) +
            (if (rows : Int) - (rows : Int).tdiv ((2 * PS : Nat) : Int) * ((2 * PS : Nat) : Int) ≥ PS
              then (PS : Int) else 0))
          ((depth : Int).tdiv 4 * 4) uB) (res, memB))).2 q = memB q) := by
  have hPS' : (0 : Int) < PS := by exact_mod_cast hPS
  have hnr0 : 0 < nr := by omega
  have hnr' : (0 : Int) < nr := by exact_mod_cast hnr0
  have hnrI : (nr : Int) = 2 ∨ (nr : Int) = 4 := by omega
  have hle : cols / nr * nr ≤ cols := Nat.div_mul_le_self cols nr
  have hdPS : (depth : Int) * PS ≤ (depth : Int) * nr * PS := by
    have h1 : (0 : Int) ≤ (depth : Int) * PS := by positivity
    have h2 : (1 : Int) ≤ nr := by omega
    nlinarith
  rw [tdiv_mul_cast cols nr]
  have e1 : ((cols / nr * nr : Nat) : Int) = ((cols / nr : Nat) : Int) * (nr : Int) := by push_cast; rfl
  have e2 : (cols : Int) = ((cols / nr * nr : Nat) : Int) + ((cols - cols / nr * nr : Nat) : Int) := by omega
  have L1 := foldl_addRect_cols rs
    (gebpDot cj ((2 * PS : Nat) : Int) PS nr rows depth cols sA sB oA oB A memB) 0 rows
    (gebp_col_tile cj ((2 * PS : Nat) : Int) nr PS rs A rows depth sA sB oA oB
          ((rows : Int).tdiv ((2 * PS : Nat) : Int) * ((2 * PS : Nat) : Int))
          ((rows : Int).tdiv ((2 * PS : Nat) : Int) * ((2 * PS : Nat) : Int) +
            (if (rows : Int) - (rows : Int).tdiv ((2 * PS : Nat) : Int) * ((2 * PS : Nat) : Int) ≥ PS
              then (PS : Int) else 0))
          ((depth : Int).tdiv 4 * 4) uB)
    (fun mem => ∀ q : Int, (q < uB ∨ uB + (depth : Int) * nr * PS ≤ q) → mem q = memB q)
    (nr : Int) (le_of_lt hnr') 0 (cols / nr) (by
      intro st t ht hInv
      have hcol : ∀ (c : Nat), c < nr → t * nr + c < cols := by
        intro c hc
        have : (t + 1) * nr ≤ cols / nr * nr := Nat.mul_le_mul_right _ ht
        have h2 : (t + 1) * nr = t * nr + nr := by ring
        omega
      have haddr : ∀ (k c : Nat), c < nr →
          (0 + (t : Int) * nr) * sB + oB * nr + (k * nr + c) = rhsAddr nr cols sB oB k ((t * nr + c : Nat) : Int) := by
        intro k c hc
        rw [rhsAddr_tile nr cols hnr0 sB oB t ht _ k (by push_cast; omega) (by push_cast; omega)]
        push_cast
        ring
      obtain ⟨h1, h2⟩ := col_tile_spec PS rows depth hPS nr hnrI cj rs hrs A sA sB oA oB uB st
        (0 + (t : Int) * nr) (by
          intro m hm
          have hm' : m < depth * nr := by exact_mod_cast hm
          have hk : m / nr < depth := by
            rw [Nat.div_lt_iff_lt_mul hnr0]; exact hm'
          have hc : m % nr < nr := Nat.mod_lt _ hnr0
          have hmm : (m : Int) = ((m / nr : Nat) : Int) * nr + ((m % nr : Nat) : Int) := by
            have := Nat.div_add_mod m nr
            have h3 : nr * (m / nr) = m / nr * nr := Nat.mul_comm _ _
            have : m / nr * nr + m % nr = m := by omega
            exact_mod_cast this.symm
          have := hscr (m / nr) (t * nr + m % nr) hk (hcol _ hc)
          rw [← haddr _ _ hc] at this
          rw [hmm]
          rcases this with h | h
          · left; linarith
          · right; linarith)
      refine ⟨?_, ?_⟩
      · rw [h1]
        apply addRect_congr
        intro i' j' _ _ hj0 hj1
        unfold gebpDot
        rw [Int.toNat_ofNat]
        apply Finset.sum_congr rfl
        intro k hk
        have hk' := Finset.mem_range.1 hk
        have hc0 : 0 ≤ j' - (0 + (t : Int) * nr) := by omega
        have hjc : j' = ((t * nr + (j' - (0 + (t : Int) * nr)).toNat : Nat) : Int) := by
          push_cast
          rw [Int.toNat_of_nonneg hc0]
          ring
        have hcn : (j' - (0 + (t : Int) * nr)).toNat < nr := by omega
        have ha := haddr k _ hcn
        rw [← hjc, Int.toNat_of_nonneg hc0] at ha
        rw [ha]
        congr 1
        apply hInv
        have := hscr k (t * nr + (j' - (0 + (t : Int) * nr)).toNat) hk' (hcol _ hcn)
        rw [← hjc] at this
        exact this
      · intro q hq
        rw [h2 q hq, hInv q hq]) (res, memB) (fun q _ => rfl)
  rw [e1, forRange_tiles_zero _ _ hnr']
  obtain ⟨L1a, L1b⟩ := L1
  have L2 := foldl_addRect_cols rs
    (gebpDot cj ((2 * PS : Nat) : Int) PS nr rows depth cols sA sB oA oB A memB) 0 rows
    (gebp_col_single cj ((2 * PS : Nat) : Int) PS rs A rows depth sA sB oA oB
        ((rows : Int).tdiv ((2 * PS : Nat) : Int) * ((2 * PS : Nat) : Int))
        ((rows : Int).tdiv ((2 * PS : Nat) : Int) * ((2 * PS : Nat) : Int) +
          (if (rows : Int) - (rows : Int).tdiv ((2 * PS : Nat) : Int) * ((2 * PS : Nat) : Int) ≥ PS
            then (PS : Int) else 0)) uB)
    (fun mem => ∀ q : Int, (q < uB ∨ uB + (depth : Int) * nr * PS ≤ q) → mem q = memB q)
    1 (by decide) ((cols / nr * nr : Nat) : Int) (cols - cols / nr * nr) (by
      intro st t ht hInv
      have hj : cols / nr * nr + t < cols := by omega
      have hjI : ((cols / nr * nr : Nat) : Int) + (t : Int) * 1 = ((cols / nr * nr + t : Nat) : Int) := by
        push_cast; ring
      have haddr : ∀ k : Int, (((cols / nr * nr : Nat) : Int) + (t : Int) * 1) * sB + oB + k
          = rhsAddr nr cols sB oB k ((cols / nr * nr + t : Nat) : Int) := by
        intro k
        rw [rhsAddr_single nr cols sB oB _ (by push_cast; omega) k, hjI]
      obtain ⟨h1, h2⟩ := col_single_spec PS rows depth hPS cj rs hrs A sA sB oA oB uB st
        (((cols / nr * nr : Nat) : Int) + (t : Int) * 1) (by
          intro m hm
          have := hscr m (cols / nr * nr + t) hm hj
          rw [← haddr] at this
          rcases this with h | h
          · left; exact h
          · right; linarith)
      refine ⟨?_, ?_⟩
      · rw [h1]
        apply addRect_congr
        intro i' j' _ _ hj0 hj1
        have hj' : j' = ((cols / nr * nr : Nat) : Int) + (t : Int) * 1 := by omega
        subst hj'
        unfold gebpDot
        rw [Int.toNat_ofNat]
        apply Finset.sum_congr rfl
        intro k hk
        have hk' := Finset.mem_range.1 hk
        have e : (k : Int) * 1 + (((cols / nr * nr : Nat) : Int) + (t : Int) * 1 -
            (((cols / nr * nr : Nat) : Int) + (t : Int) * 1)) = k := by ring
        rw [e, haddr k, ← hjI]
        congr 1
        apply hInv
        have := hscr k (cols / nr * nr + t) hk' hj
        rw [← hjI] at this
        exact this
      · intro q hq
        rw [h2 q (by rcases hq with h | h; · left; exact h
                     · right; linarith), hInv q hq])
    _ L1b
  obtain ⟨L2a, L2b⟩ := L2
  have hfr : forRange ((cols / nr * nr : Nat) : Int) cols 1
      = (List.range (cols - cols / nr * nr)).map (fun (t : Nat) => ((cols / nr * nr : Nat) : Int) + (t : Int) * 1) := by
    have := forRange_one_mul ((cols / nr * nr : Nat) : Int) (cols - cols / nr * nr)
    rw [← e2] at this
    exact this
  rw [← e1, hfr]
  refine ⟨?_, ?_⟩
  · rw [L2a, L1a]
    have e3 : (0 : Int) + ((cols / nr : Nat) : Int) * nr = ((cols / nr * nr : Nat) : Int) := by
      push_cast; ring
    have e4 : ((cols / nr * nr : Nat) : Int) + ((cols - cols / nr * nr : Nat) : Int) * 1 = cols := by
      omega
    rw [e3, e4]
    exact addRect_cols_merge rs _ 0 rows 0 _ _ res (by positivity) (by omega)
  · intro q hq
    exact L2b q hq

/-- The index from which the kernel reads row `i` at depth `k` is the one at which the left packer
stored the source entry `(i, k)`. -/
theorem lhsLog_addr_mem (mr PS rows depth : Nat) (hmr : 0 < mr) (es eo : Int) (i k : Nat)
    (hi : i < rows) (hk : k < depth) :
    ((lhsAddr mr PS rows es eo i k, (i : Int), (k : Int)) : PackEvent) ∈ lhsLog mr PS rows depth es eo := by
  have hle : rows / mr * mr ≤ rows := Nat.div_mul_le_self rows mr
  rw [mem_lhsLog]
  unfold lhsAddr
  simp only []
  rw [tdiv_mul_cast]
  by_cases h1 : i < rows / mr * mr
  · left
    rw [if_pos (by exact_mod_cast h1)]
    refine ⟨i / mr, ?_, k, hk, i % mr, Nat.mod_lt _ hmr, ?_⟩
    · rw [Nat.div_lt_iff_lt_mul hmr]; exact h1
    · have hdm : i / mr * mr + i % mr = i := by
        have := Nat.div_add_mod i mr
        have h3 : mr * (i / mr) = i / mr * mr := Nat.mul_comm _ _
        omega
      have hdm' : ((i / mr * mr : Nat) : Int) + ((i % mr : Nat) : Int) = (i : Int) := by exact_mod_cast hdm
      refine Prod.ext ?_ (Prod.ext ?_ rfl)
      · simp only []
        push_cast
        ring
      · simp only []
        exact hdm'.symm
  · rw [if_neg (by push_cast at h1 ⊢; exact_mod_cast h1)]
    by_cases h2 : rows - rows / mr * mr ≥ PS ∧ i < rows / mr * mr + PS
    · right; left
      have hc : (rows : Int) - ((rows / mr * mr : Nat) : Int) ≥ PS ∧ (i : Int) < ((rows / mr * mr : Nat) : Int) + PS := by
        omega
      rw [if_pos hc]
      refine ⟨h2.1, k, hk, i - rows / mr * mr, by omega, ?_⟩
      have hw : ((i - rows / mr * mr : Nat) : Int) = (i : Int) - ((rows / mr * mr : Nat) : Int) := by omega
      refine Prod.ext ?_ (Prod.ext ?_ rfl)
      · simp only []
        rw [hw]
        ring
      · simp only []
        rw [hw]
        ring
    · right; right
      have hc : ¬ ((rows : Int) - ((rows / mr * mr : Nat) : Int) ≥ PS ∧ (i : Int) < ((rows / mr * mr : Nat) : Int) + PS) := by
        omega
      rw [if_neg hc]
      refine ⟨i - (if rows - rows / mr * mr ≥ PS then rows / mr * mr + PS else rows / mr * mr), ?_, k, hk, ?_⟩
      · split_ifs with h3 <;> omega
      · have hs : (if rows - rows / mr * mr ≥ PS then rows / mr * mr + PS else rows / mr * mr)
            + (i - (if rows - rows / mr * mr ≥ PS then rows / mr * mr + PS else rows / mr * mr)) = i := by
          split_ifs with h3 <;> omega
        rw [hs]

/-- The index from which the kernel takes depth `k` of column `j` is the one at which the right packers
stored the source entry `(k, j)`. -/
theorem rhsLog_addr_mem (nr cols depth : Nat) (hnr : nr = 2 ∨ nr = 4) (es eo : Int) (k j : Nat)
    (hk : k < depth) (hj : j < cols) :
    ((rhsAddr nr cols es eo k j, (k : Int), (j : Int)) : PackEvent) ∈ rhsLog nr cols depth es eo := by
  have hnr0 : 0 < nr := by omega
  have hle : cols / nr * nr ≤ cols := Nat.div_mul_le_self cols nr
  by_cases h1 : j < cols / nr * nr
  · have ht : j / nr < cols / nr := by
      rw [Nat.div_lt_iff_lt_mul hnr0]; exact h1
    have hdm : j / nr * nr + j % nr = j := by
      have := Nat.div_add_mod j nr
      have h3 : nr * (j / nr) = j / nr * nr := Nat.mul_comm _ _
      omega
    have hdm' : ((j / nr * nr : Nat) : Int) + ((j % nr : Nat) : Int) = (j : Int) := by exact_mod_cast hdm
    have hc : j % nr < nr := Nat.mod_lt _ hnr0
    have hm := mem_rhsLog_tile nr cols depth es eo (j / nr) k (j % nr) ht hk (by
      rcases hnr with h | h
      · left; omega
      · right; exact ⟨by exact_mod_cast h, by omega⟩)
    have ha := rhsAddr_tile nr cols hnr0 es eo (j / nr) ht (j : Int) (k : Int)
      (by push_cast at hdm' ⊢; omega) (by push_cast at hdm' ⊢; omega)
    have : ((rhsAddr nr cols es eo k j, (k : Int), (j : Int)) : PackEvent)
        = (((j / nr * nr : Nat) : Int) * es + nr * eo + (k : Int) * nr + ((j % nr : Nat) : Int), (k : Int),
            ((j / nr * nr : Nat) : Int) + ((j % nr : Nat) : Int)) := by
      refine Prod.ext ?_ (Prod.ext rfl ?_)
      · simp only []
        rw [ha]
        push_cast at hdm' ⊢
        linear_combination (-1 : Int) * hdm'
      · simp only []
        exact hdm'.symm
    rw [this]
    exact hm
  · have hm := mem_rhsLog_col nr cols depth es eo j k (by omega) hj hk
    rw [rhsAddr_single nr cols es eo j (by exact_mod_cast (by omega : cols / nr * nr ≤ j)) k]
    exact hm

/-- Value of a result entry after `addRect`, at the index of a cell of the rectangle. -/
theorem addRect_apply {α : Type} [Add α] (rs : Int) (f : Int → Int → α) (i1 j1 : Int) (res : Buf α)
    (i j : Int) (hi0 : 0 ≤ i) (hi1 : i < i1) (hrs : i1 ≤ rs) (hj0 : 0 ≤ j) (hj1 : j < j1) :
    addRect rs f 0 i1 0 j1 res (j * rs + i) = res (j * rs + i) + f i j := by
  have h := (cell_iff rs (j * rs + i) j i 1 (j * rs + i) rfl hi0 (by omega)).1 ⟨le_refl _, by omega⟩
  unfold addRect
  have hm : (j * rs + i) % rs = i := by omega
  rw [h.1, hm, if_pos ⟨hi0, hi1, hj0, hj1⟩]

/-- Outside the rectangle of rows `[0, i1)` and columns `[0, j1)`, `addRect` leaves the buffer as it is. -/
theorem addRect_frame {α : Type} [Add α] (rs : Int) (f : Int → Int → α) (i1 j1 : Int) (res : Buf α)
    (q : Int) (hq : ¬ (0 ≤ q % rs ∧ q % rs < i1 ∧ 0 ≤ q / rs ∧ q / rs < j1)) :
    addRect rs f 0 i1 0 j1 res q = res q := by
  unfold addRect
  rw [if_neg hq]

theorem pack_rhs_closed {α : Type} [MulOneClass α] [DecidableEq α] (order : StorageOrder)
    (nr cols depth : Nat) (hnr : 0 < nr)
    (pm : Bool) (blockB rhs : Buf α) (rhsStride : Int) (alpha : α) (stride offset : Int) :
    ei_gemm_pack_rhs order (nr : Int) pm blockB rhs rhsStride alpha depth cols stride offset =
      ⟨replay (fun k j => alpha * rhsCoeff order rhs rhsStride k j)
          (rhsLog nr cols depth (if pm then stride else depth) (if pm then offset else 0)) blockB,
       cols * (if pm then stride else depth),
       rhsLog nr cols depth (if pm then stride else depth) (if pm then offset else 0)⟩ := by
  cases order
  · exact pack_rhs_ColMajor_closed nr cols depth hnr pm blockB rhs rhsStride alpha stride offset
  · exact pack_rhs_RowMajor_closed nr cols depth hnr pm blockB rhs rhsStride alpha stride offset

/-- What the kernel does, for any contents of the two packed buffers: every entry of the result
rectangle receives the dot product of the values the kernel addresses, provided the scratch area is
apart from the addresses of `blockB` that are read. -/
theorem kernel_spec {α : Type} [CommRing α] [Star α] (PS nr rows depth cols : Nat) (hPS : 0 < PS)
    (hnr : nr = 2 ∨ nr = 4) (cj : ei_conj_helper) (res : Buf α) (rs : Int) (hrs : (rows : Int) ≤ rs)
    (A memB : Buf α) (strideA strideB oA oB : Int) (uBo : Option Int)
    (hscr : ∀ k j : Nat, k < depth → j < cols →
      (rhsAddr nr cols (gebp_stride strideB depth) oB k j < gebp_scratch uBo (gebp_stride strideB depth) nr PS ∨
        gebp_scratch uBo (gebp_stride strideB depth) nr PS + (depth : Int) * nr * PS
          ≤ rhsAddr nr cols (gebp_stride strideB depth) oB k j)) :
    (ei_gebp_kernel ((2 * PS : Nat) : Int) nr PS cj res rs A memB rows depth cols strideA strideB oA oB uBo).1
      = addRect rs (gebpDot cj ((2 * PS : Nat) : Int) PS nr rows depth cols
          (gebp_stride strideA depth) (gebp_stride strideB depth) oA oB A memB) 0 rows 0 cols res := by
  have h := (kernel_core PS nr rows depth cols hPS hnr cj res rs hrs A memB
    (gebp_stride strideA depth) (gebp_stride strideB depth) oA oB
    (gebp_scratch uBo (gebp_stride strideB depth) nr PS) hscr).1
  rw [← h]
  unfold ei_gebp_kernel gebp_stride gebp_scratch
  cases uBo <;> rfl

/-- The kernel on freshly packed operands: every entry of the result rectangle receives the
dot product of the packed row of the left operand and the packed, scaled column of the right one. -/
theorem kernel_on_packed {α : Type} [CommRing α] [Star α] [DecidableEq α]
    (PS nr rows depth cols : Nat) (hPS : 0 < PS)
    (hnr : nr = 2 ∨ nr = 4) (cj : ei_conj_helper) (res : Buf α) (rs : Int) (hrs : (rows : Int) ≤ rs)
    (ic cjf pm : Bool) (order : StorageOrder) (blockA blockB : Buf α) (lhs : Int → Int → α) (rhs : Buf α)
    (rhsStride : Int) (alpha : α) (stride offset : Int)
    (hpm : pm = true → 0 ≤ offset ∧ offset + depth ≤ stride)
    (strideA strideB oA oB : Int)
    (hsA : gebp_stride strideA depth = if pm then stride else depth)
    (hsB : gebp_stride strideB depth = if pm then stride else depth)
    (hoA : oA = if pm then offset else 0) (hoB : oB = if pm then offset else 0)
    (uBo : Option Int)
    (hu : ∀ p, uBo = some p →
      (p + (depth : Int) * nr * PS ≤ 0 ∨ (cols : Int) * (if pm then stride else depth) ≤ p)) :
    (ei_gebp_kernel ((2 * PS : Nat) : Int) nr PS cj res rs
        (ei_gemm_pack_lhs ((2 * PS : Nat) : Int) PS ic cjf pm blockA lhs depth rows stride offset).block
        (ei_gemm_pack_rhs order nr pm blockB rhs rhsStride alpha depth cols stride offset).block
        rows depth cols strideA strideB oA oB uBo).1
      = addRect rs (fun i j => ∑ k in Finset.range depth,
          cj.pmul (ei_conj_if (ic && cjf) (lhs i k)) (alpha * rhsCoeff order rhs rhsStride k j))
          0 rows 0 cols res := by
  have hnr2 : 2 ≤ nr := by omega
  have h0 : 0 ≤ (if pm then offset else 0) := by
    cases pm
    · simp
    · simpa using (hpm rfl).1
  have h1 : (if pm then offset else 0) + (depth : Int) ≤ (if pm then stride else depth) := by
    cases pm
    · simp
    · simpa using (hpm rfl).2
  have hrange := (rhsLog_increasing nr cols depth hnr2 _ _ h0 h1).2
  rw [kernel_spec PS nr rows depth cols hPS hnr cj res rs hrs]
  · apply addRect_congr
    intro i j hi0 hi1 hj0 hj1
    unfold gebpDot
    rw [Int.toNat_ofNat]
    apply Finset.sum_congr rfl
    intro k hk
    have hk' := Finset.mem_range.1 hk
    have hi : i = ((i.toNat : Nat) : Int) := (Int.toNat_of_nonneg hi0).symm
    have hj : j = ((j.toNat : Nat) : Int) := (Int.toNat_of_nonneg hj0).symm
    have hA := pack_lhs_block_at (2 * PS) PS rows depth (by omega) ic cjf pm blockA lhs stride offset hpm _
      (lhsLog_addr_mem (2 * PS) PS rows depth (by omega) _ _ i.toNat k (by omega) hk')
    have hB := replay_rhsLog_at (fun k j => alpha * rhsCoeff order rhs rhsStride k j) nr cols depth hnr2 _ _
      h0 h1 blockB _ (rhsLog_addr_mem nr cols depth hnr _ _ k j.toNat hk' (by omega))
    simp only [] at hA hB
    rw [← hi] at hA
    rw [← hj] at hB
    rw [hsA, hoA, hA, pack_rhs_closed order nr cols depth (by omega), hsB, hoB]
    simp only []
    rw [hB]
  · intro k j hk hj
    have hm := hrange _ (rhsLog_addr_mem nr cols depth hnr _ _ k j hk hj)
    simp only [] at hm
    rw [hsB, hoB]
    have hd : (depth : Int) ≤ (if pm then stride else depth) := by omega
    cases uBo with
    | none =>
      right
      unfold gebp_scratch
      simp only []
      have h3 : (depth : Int) * nr * PS ≤ (if pm then stride else depth) * nr * PS := by
        have : (0 : Int) ≤ (nr : Int) * PS := by positivity
        nlinarith
      linarith [hm.1]
    | some p =>
      unfold gebp_scratch
      simp only []
      rcases hu p rfl with h | h
      · right; linarith [hm.1]
      · left; linarith [hm.2]

theorem rhsCoeff_rhs_from {α : Type} (order : StorageOrder) (rhs : Buf α) (rhsStride k0 k j : Int) :
    rhsCoeff order (rhs_from order rhs rhsStride k0) rhsStride k j = rhsCoeff order rhs rhsStride (k0 + k) j := by
  cases order
  · simp only [rhsCoeff, rhs_from]
    congr 1
    ring
  · simp only [rhsCoeff, rhs_from]
    congr 1
    ring

theorem two_mul_cast (PS : Nat) : (2 : Int) * (PS : Int) = ((2 * PS : Nat) : Int) := by
  push_cast
  rfl

/-- Two successive updates of the same rectangle add the sum of the two terms. -/
theorem addRect_add {α : Type} [AddSemigroup α] (rs : Int) (f g : Int → Int → α) (i0 i1 j0 j1 : Int)
    (res : Buf α) :
    addRect rs f i0 i1 j0 j1 (addRect rs g i0 i1 j0 j1 res)
      = addRect rs (fun i j => g i j + f i j) i0 i1 j0 j1 res := by
  funext q
  unfold addRect
  by_cases hc : i0 ≤ q % rs ∧ q % rs < i1 ∧ j0 ≤ q / rs ∧ q / rs < j1
  · rw [if_pos hc, if_pos hc, if_pos hc, add_assoc]
  · rw [if_neg hc, if_neg hc, if_neg hc]

/-- An update of a rectangle is the old buffer plus the same update of the zero buffer. -/
theorem addRect_zero {α : Type} [AddMonoid α] (rs : Int) (f : Int → Int → α) (i0 i1 j0 j1 : Int)
    (res : Buf α) (q : Int) :
    addRect rs f i0 i1 j0 j1 res q = res q + addRect rs f i0 i1 j0 j1 (fun _ => 0) q := by
  unfold addRect
  by_cases hc : i0 ≤ q % rs ∧ q % rs < i1 ∧ j0 ≤ q / rs ∧ q / rs < j1
  · rw [if_pos hc, if_pos hc, zero_add]
  · rw [if_neg hc, if_neg hc, add_zero]

/-- C1. Micro-kernel correctness in exact arithmetic: with `mr = 2 * PacketSize` and `nr` 2 or 4, on a left
buffer packed by `ei_gemm_pack_lhs` (non-panel, no conjugation), a right buffer packed by `ei_gemm_pack_rhs`
with `alpha = 1` (either storage order) and a scratch area apart from the packed right buffer, the kernel
leaves `res[j*resStride + i] = old res[j*resStride + i] + Σ_{k<depth} A(i,k) * B(k,j)` for all `i < rows`,
`j < cols`. -/
theorem gebp_kernel_correct {α : Type} [CommRing α] [Star α] [DecidableEq α]
    (PacketSize nr rows depth cols : Nat) (mr : Int) (hPS : 0 < PacketSize) (hmr : mr = 2 * (PacketSize : Int))
    (hnr : nr = 2 ∨ nr = 4) (resStride : Int) (hrs : (rows : Int) ≤ resStride)
    ( IsComplex : Bool) (order : StorageOrder) (lhs : Int → Int → α) (rhs : Buf α) (rhsStride : Int)
    (blockA blockB res : Buf α) (stride offset : Int) (unpackedB : Option Int)
    (hscr : ∀ p, unpackedB = some p →
      (p + (depth : Int) * nr * PacketSize ≤ 0 ∨ (cols : Int) * depth ≤ p))
    (i j : Nat) (hi : i < rows) (hj : j < cols) :
    (ei_gebp_kernel mr nr PacketSize ⟨false, false⟩ res resStride
        (ei_gemm_pack_lhs mr PacketSize IsComplex false false blockA lhs depth rows stride offset).block
        (ei_gemm_pack_rhs order nr false blockB rhs rhsStride 1 depth cols stride offset).block
        rows depth cols (-1) (-1) 0 0 unpackedB).1 ((j : Int) * resStride + i)
      = res ((j : Int) * resStride + i)
        + ∑ k in Finset.range depth, lhs i k * rhsCoeff order rhs rhsStride k j := by
  subst hmr
  rw [two_mul_cast, kernel_on_packed PacketSize nr rows depth cols hPS hnr ⟨false, false⟩ res resStride hrs
    IsComplex false false order blockA blockB lhs rhs rhsStride 1 stride offset (by simp) (-1) (-1) 0 0
    (by simp [gebp_stride]) (by simp [gebp_stride]) (by simp) (by simp) unpackedB (by simpa using hscr),
    addRect_apply resStride _ rows cols res i j (by positivity) (by exact_mod_cast hi) hrs (by positivity)
      (by exact_mod_cast hj)]
  simp [ei_conj_helper.pmul, ei_conj_if]

theorem gebp_kernel_correct_witness :
    (0 < 2 ∧ (4 : Int) = 2 * ((2 : Nat) : Int) ∧ ((4 : Nat) = 2 ∨ (4 : Nat) = 4) ∧ (4 : Nat) < 5 ∧ (3 : Nat) < 4) ∧
    (ei_gebp_kernel 4 ((4 : Nat) : Int) ((2 : Nat) : Int) ⟨false, false⟩ (fun q => q) 5
        (ei_gemm_pack_lhs 4 ((2 : Nat) : Int) false false false (fun _ => (0 : Int)) (fun i k => i + 2 * k + 1)
          ((3 : Nat) : Int) ((5 : Nat) : Int) 0 0).block
        (ei_gemm_pack_rhs StorageOrder.ColMajor ((4 : Nat) : Int) false (fun _ => (0 : Int)) (fun q => q - 5) 3 1
          ((3 : Nat) : Int) ((4 : Nat) : Int) 0 0).block
        ((5 : Nat) : Int) ((3 : Nat) : Int) ((4 : Nat) : Int) (-1) (-1) 0 0 (some 12)).1
          (((3 : Nat) : Int) * 5 + ((4 : Nat) : Int)) = 128 :=
  ⟨⟨by decide, by decide, Or.inr rfl, by decide, by decide⟩,
    (gebp_kernel_correct 2 4 5 3 4 4 (by decide) (by decide) (Or.inr rfl) 5 (by decide) false
      StorageOrder.ColMajor (fun i k => i + 2 * k + 1) (fun q => q - 5) 3 (fun _ => (0 : Int)) (fun _ => 0)
      (fun q => q) 0 0 (some 12) (by intro p hp; cases hp; decide) 4 3 (by decide) (by decide)).trans
      (by decide)⟩

/-- C6. Alpha scaling end to end: packing the right operand with `alpha` and running the kernel
(`mr = 2 * PacketSize`, `nr` 2 or 4) adds `alpha * (A * B)` to the result, for every `i < rows` and every
`j < cols`, the columns of the width-1 remainder path included. -/
theorem gebp_alpha_scaling {α : Type} [CommRing α] [Star α] [DecidableEq α]
    (PacketSize nr rows depth cols : Nat) (mr : Int) (hPS : 0 < PacketSize) (hmr : mr = 2 * (PacketSize : Int))
    (hnr : nr = 2 ∨ nr = 4) (resStride : Int) (hrs : (rows : Int) ≤ resStride)
    ( IsComplex : Bool) (order : StorageOrder) (lhs : Int → Int → α) (rhs : Buf α) (rhsStride : Int)
    (alpha : α) (blockA blockB res : Buf α) (stride offset : Int) (unpackedB : Option Int)
    (hscr : ∀ p, unpackedB = some p →
      (p + (depth : Int) * nr * PacketSize ≤ 0 ∨ (cols : Int) * depth ≤ p))
    (i j : Nat) (hi : i < rows) (hj : j < cols) :
    (ei_gebp_kernel mr nr PacketSize ⟨false, false⟩ res resStride
        (ei_gemm_pack_lhs mr PacketSize IsComplex false false blockA lhs depth rows stride offset).block
        (ei_gemm_pack_rhs order nr false blockB rhs rhsStride alpha depth cols stride offset).block
        rows depth cols (-1) (-1) 0 0 unpackedB).1 ((j : Int) * resStride + i)
      = res ((j : Int) * resStride + i)
        + alpha * ∑ k in Finset.range depth, lhs i k * rhsCoeff order rhs rhsStride k j := by
  subst hmr
  rw [two_mul_cast, kernel_on_packed PacketSize nr rows depth cols hPS hnr ⟨false, false⟩ res resStride hrs
    IsComplex false false order blockA blockB lhs rhs rhsStride alpha stride offset (by simp) (-1) (-1) 0 0
    (by simp [gebp_stride]) (by simp [gebp_stride]) (by simp) (by simp) unpackedB (by simpa using hscr),
    addRect_apply resStride _ rows cols res i j (by positivity) (by exact_mod_cast hi) hrs (by positivity)
      (by exact_mod_cast hj), Finset.mul_sum]
  congr 1
  apply Finset.sum_congr rfl
  intro k _
  simp only [ei_conj_helper.pmul, ei_conj_if, Bool.and_false, Bool.false_eq_true, if_false]
  ring

theorem gebp_alpha_scaling_witness :
    (0 < 2 ∧ (4 : Int) = 2 * ((2 : Nat) : Int) ∧ ((2 : Nat) = 2 ∨ (2 : Nat) = 4) ∧ (2 : Nat) < 3 ∧ (2 : Nat) < 3) ∧
    (ei_gebp_kernel 4 ((2 : Nat) : Int) ((2 : Nat) : Int) ⟨false, false⟩ (fun _ => 0) 3
        (ei_gemm_pack_lhs 4 ((2 : Nat) : Int) false false false (fun _ => (0 : Int)) (fun i k => i + 3 * k + 1)
          ((3 : Nat) : Int) ((3 : Nat) : Int) 0 0).block
        (ei_gemm_pack_rhs StorageOrder.ColMajor ((2 : Nat) : Int) false (fun _ => (0 : Int)) (fun q => q + 1) 3 2
          ((3 : Nat) : Int) ((3 : Nat) : Int) 0 0).block
        ((3 : Nat) : Int) ((3 : Nat) : Int) ((3 : Nat) : Int) (-1) (-1) 0 0 none).1
          (((2 : Nat) : Int) * 3 + ((2 : Nat) : Int)) = 2 * (3 * 7 + 6 * 8 + 9 * 9) :=
  ⟨⟨by decide, by decide, Or.inl rfl, by decide, by decide⟩,
    (gebp_alpha_scaling 2 2 3 3 3 4 (by decide) (by decide) (Or.inl rfl) 3 (by decide) false
      StorageOrder.ColMajor (fun i k => i + 3 * k + 1) (fun q => q + 1) 3 2 (fun _ => (0 : Int)) (fun _ => 0)
      (fun _ => 0) 0 0 none (by intro p hp; cases hp) 2 2 (by decide) (by decide)).trans
      (by decide)⟩

/-- C7. Conjugated left operand: packing `A` with `Conjugate` set on a complex scalar and running the
kernel with the non-conjugating multiply policy on a zero result gives `conj(A) * B`, that is
`res[j*resStride + i] = Σ_{k<depth} conj(A(i,k)) * B(k,j)`. -/
theorem gebp_conj_lhs {α : Type} [CommRing α] [Star α] [DecidableEq α]
    (PacketSize nr rows depth cols : Nat) (mr : Int) (hPS : 0 < PacketSize) (hmr : mr = 2 * (PacketSize : Int))
    (hnr : nr = 2 ∨ nr = 4) (resStride : Int) (hrs : (rows : Int) ≤ resStride)
    (order : StorageOrder) (lhs : Int → Int → α) (rhs : Buf α) (rhsStride : Int)
    (blockA blockB : Buf α) (stride offset : Int) (unpackedB : Option Int)
    (hscr : ∀ p, unpackedB = some p →
      (p + (depth : Int) * nr * PacketSize ≤ 0 ∨ (cols : Int) * depth ≤ p))
    (i j : Nat) (hi : i < rows) (hj : j < cols) :
    (ei_gebp_kernel mr nr PacketSize ⟨false, false⟩ (fun _ => 0) resStride
        (ei_gemm_pack_lhs mr PacketSize true true false blockA lhs depth rows stride offset).block
        (ei_gemm_pack_rhs order nr false blockB rhs rhsStride 1 depth cols stride offset).block
        rows depth cols (-1) (-1) 0 0 unpackedB).1 ((j : Int) * resStride + i)
      = ∑ k in Finset.range depth, star (lhs i k) * rhsCoeff order rhs rhsStride k j := by
  subst hmr
  rw [two_mul_cast, kernel_on_packed PacketSize nr rows depth cols hPS hnr ⟨false, false⟩ (fun _ => 0)
    resStride hrs true true false order blockA blockB lhs rhs rhsStride 1 stride offset (by simp) (-1) (-1) 0 0
    (by simp [gebp_stride]) (by simp [gebp_stride]) (by simp) (by simp) unpackedB (by simpa using hscr),
    addRect_apply resStride _ rows cols _ i j (by positivity) (by exact_mod_cast hi) hrs (by positivity)
      (by exact_mod_cast hj)]
  simp [ei_conj_helper.pmul, ei_conj_if]

theorem gebp_conj_lhs_witness :
    (0 < 1 ∧ (2 : Int) = 2 * ((1 : Nat) : Int) ∧ ((2 : Nat) = 2 ∨ (2 : Nat) = 4) ∧ (1 : Nat) < 2 ∧ (0 : Nat) < 2) ∧
    (ei_gebp_kernel 2 ((2 : Nat) : Int) ((1 : Nat) : Int) ⟨false, false⟩ (fun _ => (0 : GaussianInt)) 2
        (ei_gemm_pack_lhs 2 ((1 : Nat) : Int) true true false (fun _ => (0 : GaussianInt))
          (fun i k => ⟨i + 1, k + 2⟩) ((2 : Nat) : Int) ((2 : Nat) : Int) 0 0).block
        (ei_gemm_pack_rhs StorageOrder.ColMajor ((2 : Nat) : Int) false (fun _ => (0 : GaussianInt))
          (fun q => ⟨q, 1⟩) 2 1 ((2 : Nat) : Int) ((2 : Nat) : Int) 0 0).block
        ((2 : Nat) : Int) ((2 : Nat) : Int) ((2 : Nat) : Int) (-1) (-1) 0 0 none).1
          (((0 : Nat) : Int) * 2 + ((1 : Nat) : Int)) = (⟨7, 1⟩ : GaussianInt) :=
  ⟨⟨by decide, by decide, Or.inl rfl, by decide, by decide⟩,
    (gebp_conj_lhs 1 2 2 2 2 2 (by decide) (by decide) (Or.inl rfl) 2 (by decide)
      StorageOrder.ColMajor (fun i k => (⟨i + 1, k + 2⟩ : GaussianInt)) (fun q => ⟨q, 1⟩) 2 (fun _ => (0 : GaussianInt))
      (fun _ => 0) 0 0 none (by intro p hp; cases hp) 1 0 (by decide) (by decide)).trans
      (by decide)⟩

/-- C9. Panel-mode kernel equivalence: on buffers packed in panel mode with `0 ≤ offset` and
`offset + depth ≤ stride`, the kernel called with `strideA = strideB = stride` and
`offsetA = offsetB = offset` leaves the same result as the kernel called with the default strides and
offsets on buffers freshly packed in non-panel mode from the same data; and a stride of `-1` is the
same as a stride of `depth`. -/
theorem gebp_panel_equiv {α : Type} [CommRing α] [Star α] [DecidableEq α]
    (PacketSize nr rows depth cols : Nat) (mr : Int) (hPS : 0 < PacketSize) (hmr : mr = 2 * (PacketSize : Int))
    (hnr : nr = 2 ∨ nr = 4) (cj : ei_conj_helper) (resStride : Int) (hrs : (rows : Int) ≤ resStride)
    ( IsComplex Conjugate : Bool) (order : StorageOrder) (lhs : Int → Int → α) (rhs : Buf α) (rhsStride : Int)
    (alpha : α) (res : Buf α) (stride offset : Int) (hoff : 0 ≤ offset) (hstr : offset + depth ≤ stride)
    (panelA panelB blockA blockB : Buf α) (scratchP scratchN : Option Int)
    (hscrP : ∀ p, scratchP = some p →
      (p + (depth : Int) * nr * PacketSize ≤ 0 ∨ (cols : Int) * stride ≤ p))
    (hscrN : ∀ p, scratchN = some p →
      (p + (depth : Int) * nr * PacketSize ≤ 0 ∨ (cols : Int) * depth ≤ p)) :
    (ei_gebp_kernel mr nr PacketSize cj res resStride
        (ei_gemm_pack_lhs mr PacketSize IsComplex Conjugate true panelA lhs depth rows stride offset).block
        (ei_gemm_pack_rhs order nr true panelB rhs rhsStride alpha depth cols stride offset).block
        rows depth cols stride stride offset offset scratchP).1
      = (ei_gebp_kernel mr nr PacketSize cj res resStride
        (ei_gemm_pack_lhs mr PacketSize IsComplex Conjugate false blockA lhs depth rows 0 0).block
        (ei_gemm_pack_rhs order nr false blockB rhs rhsStride alpha depth cols 0 0).block
        rows depth cols (-1) (-1) 0 0 scratchN).1 ∧
    (∀ (A memB : Buf α) (strideA strideB offsetA offsetB : Int) (unpackedB : Option Int),
      ei_gebp_kernel mr nr PacketSize cj res resStride A memB rows depth cols (-1) strideB offsetA offsetB
          unpackedB
        = ei_gebp_kernel mr nr PacketSize cj res resStride A memB rows depth cols depth strideB offsetA offsetB
          unpackedB ∧
      ei_gebp_kernel mr nr PacketSize cj res resStride A memB rows depth cols strideA (-1) offsetA offsetB
          unpackedB
        = ei_gebp_kernel mr nr PacketSize cj res resStride A memB rows depth cols strideA depth offsetA offsetB
          unpackedB) := by
  subst hmr
  refine ⟨?_, ?_⟩
  · have hs : gebp_stride stride depth = stride := by
      unfold gebp_stride
      rw [if_neg (by omega)]
    rw [two_mul_cast,
      kernel_on_packed PacketSize nr rows depth cols hPS hnr cj res resStride hrs
        IsComplex Conjugate true order panelA panelB lhs rhs rhsStride alpha stride offset
        (fun _ => ⟨hoff, hstr⟩) stride stride offset offset (by simpa using hs) (by simpa using hs)
        (by simp) (by simp) scratchP (by simpa using hscrP),
      kernel_on_packed PacketSize nr rows depth cols hPS hnr cj res resStride hrs
        IsComplex Conjugate false order blockA blockB lhs rhs rhsStride alpha 0 0 (by simp) (-1) (-1) 0 0
        (by simp [gebp_stride]) (by simp [gebp_stride]) (by simp) (by simp) scratchN (by simpa using hscrN)]
  · intro A memB strideA strideB offsetA offsetB unpackedB
    constructor
    · unfold ei_gebp_kernel
      simp
    · unfold ei_gebp_kernel
      simp

theorem gebp_panel_equiv_witness :
    (0 < 2 ∧ (4 : Int) = 2 * ((2 : Nat) : Int) ∧ ((2 : Nat) = 2 ∨ (2 : Nat) = 4) ∧
      (0 : Int) ≤ 1 ∧ (1 : Int) + ((3 : Nat) : Int) ≤ 5) ∧
    (ei_gebp_kernel 4 ((2 : Nat) : Int) ((2 : Nat) : Int) ⟨false, false⟩ (fun q => q) 7
        (ei_gemm_pack_lhs 4 ((2 : Nat) : Int) false false true (fun _ => (0 : Int)) (fun i k => i + 3 * k + 1)
          ((3 : Nat) : Int) ((7 : Nat) : Int) 5 1).block
        (ei_gemm_pack_rhs StorageOrder.ColMajor ((2 : Nat) : Int) true (fun _ => (0 : Int)) (fun q => q + 1) 3 2
          ((3 : Nat) : Int) ((3 : Nat) : Int) 5 1).block
        ((7 : Nat) : Int) ((3 : Nat) : Int) ((3 : Nat) : Int) 5 5 1 1 none).1
      = (ei_gebp_kernel 4 ((2 : Nat) : Int) ((2 : Nat) : Int) ⟨false, false⟩ (fun q => q) 7
        (ei_gemm_pack_lhs 4 ((2 : Nat) : Int) false false false (fun _ => (0 : Int)) (fun i k => i + 3 * k + 1)
          ((3 : Nat) : Int) ((7 : Nat) : Int) 0 0).block
        (ei_gemm_pack_rhs StorageOrder.ColMajor ((2 : Nat) : Int) false (fun _ => (0 : Int)) (fun q => q + 1) 3 2
          ((3 : Nat) : Int) ((3 : Nat) : Int) 0 0).block
        ((7 : Nat) : Int) ((3 : Nat) : Int) ((3 : Nat) : Int) (-1) (-1) 0 0 none).1 :=
  ⟨⟨by decide, by decide, Or.inl rfl, by decide, by decide⟩,
    (gebp_panel_equiv 2 2 7 3 3 4 (by decide) (by decide) (Or.inl rfl) ⟨false, false⟩ 7 (by decide) false false
      StorageOrder.ColMajor (fun i k => i + 3 * k + 1) (fun q => q + 1) 3 2 (fun q => q) 5 1 (by decide)
      (by decide) (fun _ => (0 : Int)) (fun _ => 0) (fun _ => 0) (fun _ => 0) none none
      (by intro p hp; cases hp) (by intro p hp; cases hp)).1⟩

/-- C10. Accumulation across depth blocks: for `depth = d1 + d2`, running the kernel on the operands
packed for the depth range `[0,d1)` and then on the operands packed for `[d1,depth)`, both into the same
result, gives the result of one kernel call over the full depth; and the kernel adds to the result it
finds: its result is the old result plus what it leaves on a zero result. -/
theorem gebp_depth_accumulate {α : Type} [CommRing α] [Star α] [DecidableEq α]
    (PacketSize nr rows d1 d2 cols : Nat) (mr : Int) (hPS : 0 < PacketSize) (hmr : mr = 2 * (PacketSize : Int))
    (hnr : nr = 2 ∨ nr = 4) (cj : ei_conj_helper) (resStride : Int) (hrs : (rows : Int) ≤ resStride)
    ( IsComplex Conjugate : Bool) (order : StorageOrder) (lhs : Int → Int → α) (rhs : Buf α) (rhsStride : Int)
    (alpha : α) (res : Buf α) (blockA1 blockB1 blockA2 blockB2 blockA blockB : Buf α)
    (scratch1 scratch2 scratch : Option Int)
    (hscr1 : ∀ p, scratch1 = some p → (p + (d1 : Int) * nr * PacketSize ≤ 0 ∨ (cols : Int) * d1 ≤ p))
    (hscr2 : ∀ p, scratch2 = some p → (p + (d2 : Int) * nr * PacketSize ≤ 0 ∨ (cols : Int) * d2 ≤ p))
    (hscr : ∀ p, scratch = some p →
      (p + ((d1 + d2 : Nat) : Int) * nr * PacketSize ≤ 0 ∨ (cols : Int) * ((d1 + d2 : Nat) : Int) ≤ p)) :
    (ei_gebp_kernel mr nr PacketSize cj
        (ei_gebp_kernel mr nr PacketSize cj res resStride
          (ei_gemm_pack_lhs mr PacketSize IsComplex Conjugate false blockA1 lhs d1 rows 0 0).block
          (ei_gemm_pack_rhs order nr false blockB1 rhs rhsStride alpha d1 cols 0 0).block
          rows d1 cols (-1) (-1) 0 0 scratch1).1
        resStride
        (ei_gemm_pack_lhs mr PacketSize IsComplex Conjugate false blockA2 (fun i k => lhs i (d1 + k))
          d2 rows 0 0).block
        (ei_gemm_pack_rhs order nr false blockB2 (rhs_from order rhs rhsStride d1) rhsStride alpha
          d2 cols 0 0).block
        rows d2 cols (-1) (-1) 0 0 scratch2).1
      = (ei_gebp_kernel mr nr PacketSize cj res resStride
          (ei_gemm_pack_lhs mr PacketSize IsComplex Conjugate false blockA lhs ((d1 + d2 : Nat) : Int) rows 0 0).block
          (ei_gemm_pack_rhs order nr false blockB rhs rhsStride alpha ((d1 + d2 : Nat) : Int) cols 0 0).block
          rows ((d1 + d2 : Nat) : Int) cols (-1) (-1) 0 0 scratch).1 ∧
    (∀ q : Int,
      (ei_gebp_kernel mr nr PacketSize cj res resStride
          (ei_gemm_pack_lhs mr PacketSize IsComplex Conjugate false blockA lhs ((d1 + d2 : Nat) : Int) rows 0 0).block
          (ei_gemm_pack_rhs order nr false blockB rhs rhsStride alpha ((d1 + d2 : Nat) : Int) cols 0 0).block
          rows ((d1 + d2 : Nat) : Int) cols (-1) (-1) 0 0 scratch).1 q
        = res q + (ei_gebp_kernel mr nr PacketSize cj (fun _ => 0) resStride
          (ei_gemm_pack_lhs mr PacketSize IsComplex Conjugate false blockA lhs ((d1 + d2 : Nat) : Int) rows 0 0).block
          (ei_gemm_pack_rhs order nr false blockB rhs rhsStride alpha ((d1 + d2 : Nat) : Int) cols 0 0).block
          rows ((d1 + d2 : Nat) : Int) cols (-1) (-1) 0 0 scratch).1 q) := by
  subst hmr
  have key : ∀ (depth : Nat) (r bA bB : Buf α) (l : Int → Int → α) (rh : Buf α) (u : Option Int)
      (hu : ∀ p, u = some p → (p + (depth : Int) * nr * PacketSize ≤ 0 ∨ (cols : Int) * depth ≤ p)),
      (ei_gebp_kernel ((2 * PacketSize : Nat) : Int) nr PacketSize cj r resStride
          (ei_gemm_pack_lhs ((2 * PacketSize : Nat) : Int) PacketSize IsComplex Conjugate false bA l depth rows 0 0).block
          (ei_gemm_pack_rhs order nr false bB rh rhsStride alpha depth cols 0 0).block
          rows depth cols (-1) (-1) 0 0 u).1
        = addRect resStride (fun i j => ∑ k in Finset.range depth,
          cj.pmul (ei_conj_if (IsComplex && Conjugate) (l i k)) (alpha * rhsCoeff order rh rhsStride k j))
          0 rows 0 cols r := by
    intro depth r bA bB l rh u hu
    exact kernel_on_packed PacketSize nr rows depth cols hPS hnr cj r resStride hrs
        IsComplex Conjugate false order bA bB l rh rhsStride alpha 0 0 (by simp) (-1) (-1) 0 0
        (by simp [gebp_stride]) (by simp [gebp_stride]) (by simp) (by simp) u (by simpa using hu)
  rw [two_mul_cast]
  refine ⟨?_, ?_⟩
  · rw [key d1 _ _ _ _ _ _ hscr1, key d2 _ _ _ _ _ _ hscr2, key (d1 + d2) _ _ _ _ _ _ hscr, addRect_add]
    apply addRect_congr
    intro i j _ _ _ _
    rw [Finset.sum_range_add]
    congr 1
    apply Finset.sum_congr rfl
    intro k _
    rw [rhsCoeff_rhs_from]
    push_cast
    rfl
  · intro q
    rw [key (d1 + d2) _ _ _ _ _ _ hscr, key (d1 + d2) _ _ _ _ _ _ hscr]
    exact addRect_zero _ _ _ _ _ _ _ _

theorem gebp_depth_accumulate_witness :
    (0 < 2 ∧ (4 : Int) = 2 * ((2 : Nat) : Int) ∧ ((2 : Nat) = 2 ∨ (2 : Nat) = 4)) ∧
    (ei_gebp_kernel 4 ((2 : Nat) : Int) ((2 : Nat) : Int) ⟨false, false⟩
        (ei_gebp_kernel 4 ((2 : Nat) : Int) ((2 : Nat) : Int) ⟨false, false⟩ (fun q => q) 3
          (ei_gemm_pack_lhs 4 ((2 : Nat) : Int) false false false (fun _ => (0 : Int)) (fun i k => i + 3 * k + 1)
            ((1 : Nat) : Int) ((3 : Nat) : Int) 0 0).block
          (ei_gemm_pack_rhs StorageOrder.ColMajor ((2 : Nat) : Int) false (fun _ => (0 : Int)) (fun q => q + 1) 3 1
            ((1 : Nat) : Int) ((3 : Nat) : Int) 0 0).block
          ((3 : Nat) : Int) ((1 : Nat) : Int) ((3 : Nat) : Int) (-1) (-1) 0 0 none).1
        3
        (ei_gemm_pack_lhs 4 ((2 : Nat) : Int) false false false (fun _ => (0 : Int))
          (fun i k => (fun i k => i + 3 * k + 1) i (((1 : Nat) : Int) + k)) ((2 : Nat) : Int) ((3 : Nat) : Int) 0 0).block
        (ei_gemm_pack_rhs StorageOrder.ColMajor ((2 : Nat) : Int) false (fun _ => (0 : Int))
          (rhs_from StorageOrder.ColMajor (fun q => q + 1) 3 ((1 : Nat) : Int)) 3 1
          ((2 : Nat) : Int) ((3 : Nat) : Int) 0 0).block
        ((3 : Nat) : Int) ((2 : Nat) : Int) ((3 : Nat) : Int) (-1) (-1) 0 0 none).1
      = (ei_gebp_kernel 4 ((2 : Nat) : Int) ((2 : Nat) : Int) ⟨false, false⟩ (fun q => q) 3
          (ei_gemm_pack_lhs 4 ((2 : Nat) : Int) false false false (fun _ => (0 : Int)) (fun i k => i + 3 * k + 1)
            ((1 + 2 : Nat) : Int) ((3 : Nat) : Int) 0 0).block
          (ei_gemm_pack_rhs StorageOrder.ColMajor ((2 : Nat) : Int) false (fun _ => (0 : Int)) (fun q => q + 1) 3 1
            ((1 + 2 : Nat) : Int) ((3 : Nat) : Int) 0 0).block
          ((3 : Nat) : Int) ((1 + 2 : Nat) : Int) ((3 : Nat) : Int) (-1) (-1) 0 0 none).1 :=
  ⟨⟨by decide, by decide, Or.inl rfl⟩,
    (gebp_depth_accumulate 2 2 3 1 2 3 4 (by decide) (by decide) (Or.inl rfl) ⟨false, false⟩ 3 (by decide)
      false false StorageOrder.ColMajor (fun i k => i + 3 * k + 1) (fun q => q + 1) 3 1 (fun q => q)
      (fun _ => (0 : Int)) (fun _ => 0) (fun _ => 0) (fun _ => 0) (fun _ => 0) (fun _ => 0) none none none
      (by intro p hp; cases hp) (by intro p hp; cases hp) (by intro p hp; cases hp)).1⟩

theorem pack_lhs_layout_witness :
    0 < 4 ∧
    (ei_gemm_pack_lhs ((4 : Nat) : Int) ((2 : Nat) : Int) false false false (fun _ => (0 : Int))
        (fun i k => i + 10 * k) ((3 : Nat) : Int) ((7 : Nat) : Int) 0 0).block
      (((6 : Nat) : Int) * (3 : Nat) + (1 : Nat)) = 16 :=
  ⟨by decide, ((pack_lhs_layout 4 2 7 3 (by decide) false false (fun _ => (0 : Int))
    (fun i k => i + 10 * k)).2.2 6 1 (by decide) (by decide) (by decide)).trans (by decide)⟩

theorem pack_panel_slices_witness :
    (0 < 4 ∧ 2 ≤ 2) ∧
    (ei_gemm_pack_lhs ((4 : Nat) : Int) ((2 : Nat) : Int) false false true
        (ei_gemm_pack_lhs ((4 : Nat) : Int) ((2 : Nat) : Int) false false true (fun _ => (0 : Int))
          (fun i k => i + 10 * k) (1 : Nat) (7 : Nat) ((1 + 2 : Nat) : Int) 0).block
        (fun i k => (fun i k => i + 10 * k) i (k + (1 : Nat))) (2 : Nat) (7 : Nat) ((1 + 2 : Nat) : Int)
          (1 : Nat)).block
      = (ei_gemm_pack_lhs ((4 : Nat) : Int) ((2 : Nat) : Int) false false true (fun _ => (0 : Int))
          (fun i k => i + 10 * k) ((1 + 2 : Nat) : Int) (7 : Nat) ((1 + 2 : Nat) : Int) 0).block ∧
    (ei_gemm_pack_rhs_ColMajor ((2 : Nat) : Int) true
        (ei_gemm_pack_rhs_ColMajor ((2 : Nat) : Int) true (fun _ => (0 : Int)) (fun q => q + 1) 3 2
          (1 : Nat) (3 : Nat) ((1 + 2 : Nat) : Int) 0).block
        (fun q => (fun q => q + 1) (q + (1 : Nat))) 3 2 (2 : Nat) (3 : Nat) ((1 + 2 : Nat) : Int) (1 : Nat)).block
      = (ei_gemm_pack_rhs_ColMajor ((2 : Nat) : Int) true (fun _ => (0 : Int)) (fun q => q + 1) 3 2
          ((1 + 2 : Nat) : Int) (3 : Nat) ((1 + 2 : Nat) : Int) 0).block :=
  ⟨⟨by decide, by decide⟩,
    (pack_panel_slices 4 2 2 7 3 1 2 (by decide) (by decide) false false (fun _ => (0 : Int)) (fun _ => 0)
      (fun q => q + 1) (fun i k => i + 10 * k) 3 2).1,
    (pack_panel_slices 4 2 2 7 3 1 2 (by decide) (by decide) false false (fun _ => (0 : Int)) (fun _ => 0)
      (fun q => q + 1) (fun i k => i + 10 * k) 3 2).2.1⟩

/-- Replaying a log with two value functions that agree on the coordinates of its events. -/
theorem replay_congr {α : Type} (val val2 : Int → Int → α) (L : List PackEvent) (b : Buf α)
    (h : ∀ e ∈ L, val e.2.1 e.2.2 = val2 e.2.1 e.2.2) : replay val L b = replay val2 L b := by
  induction L generalizing b with
  | nil => rfl
  | cons e L ih =>
    have h1 : replay val (e :: L) b = replay val L (Function.update b e.1 (val e.2.1 e.2.2)) := rfl
    have h2 : replay val2 (e :: L) b = replay val2 L (Function.update b e.1 (val2 e.2.1 e.2.2)) := rfl
    rw [h1, h2, h e (List.mem_cons_self _ _)]
    exact ih _ (fun e' he' => h e' (List.mem_cons_of_mem _ he'))

/-- At an index that some event of the log stores to, the replayed buffer does not depend on the
buffer the replay started from. -/
theorem replay_covered {α : Type} (val : Int → Int → α) (L : List PackEvent) (b b2 : Buf α) (q : Int)
    (hex : ∃ e ∈ L, e.1 = q) : replay val L b q = replay val L b2 q := by
  induction L generalizing b b2 with
  | nil => simp at hex
  | cons e L ih =>
    have h1 : ∀ b : Buf α, replay val (e :: L) b = replay val L (Function.update b e.1 (val e.2.1 e.2.2)) :=
      fun _ => rfl
    rw [h1, h1]
    by_cases hL : ∃ e' ∈ L, e'.1 = q
    · exact ih _ _ hL
    · have hq : e.1 = q := by
        obtain ⟨e', he', hq'⟩ := hex
        rcases List.mem_cons.1 he' with rfl | h'
        · exact hq'
        · exact absurd ⟨e', h', hq'⟩ hL
      rw [replay_of_not_mem _ _ _ _ (fun e' he' hq' => hL ⟨e', he', hq'⟩),
        replay_of_not_mem _ _ _ _ (fun e' he' hq' => hL ⟨e', he', hq'⟩), ← hq, Function.update_same,
        Function.update_same]

/-- The columns read by the right packers lie in `[0, cols)` when a group has at most `nr` members. -/
theorem rhsLog_col_range (nr cols depth : Nat) (hnr : 2 ≤ nr) (es eo : Int) (e : PackEvent)
    (he : e ∈ rhsLog nr cols depth es eo) : 0 ≤ e.2.2 ∧ e.2.2 < cols := by
  have hle : cols / nr * nr ≤ cols := Nat.div_mul_le_self cols nr
  rcases (mem_rhsLog _ _ _ _ _ _).1 he with ⟨t, ht, k, hk, x, hx, rfl⟩ | ⟨t, ht, k, hk, rfl⟩
  · have h1 : (t + 1) * nr ≤ cols / nr * nr := Nat.mul_le_mul_right _ ht
    have h2 : (t + 1) * nr = t * nr + nr := by ring
    have hx' : x < nr := by
      rcases hx with h | ⟨h4, h⟩
      · omega
      · have : nr = 4 := by exact_mod_cast h4
        omega
    simp only
    omega
  · simp only
    omega

theorem sequential_group {α : Type} (nr : Int) (hnr : nr = 2 ∨ nr = 4) (s : PackState α) (h : s.Sequential)
    (v0 v1 v2 v3 : α) (k j2 : Int) : (pack_rhs_group nr s v0 v1 v2 v3 k j2).Sequential := by
  obtain ⟨h0, hl⟩ := h
  rcases hnr with rfl | rfl
  · refine ⟨?_, ?_⟩
    · simp only [pack_rhs_group, PackState.advance, PackState.store]
      norm_num
      omega
    · have e : (pack_rhs_group 2 s v0 v1 v2 v3 k j2).log = s.log ++ [(s.count + 0, k, j2 + 0), (s.count + 1, k, j2 + 1)] := by
        simp [pack_rhs_group, PackState.advance, PackState.store]
      have ec : (pack_rhs_group 2 s v0 v1 v2 v3 k j2).count = s.count + 2 := by
        simp [pack_rhs_group, PackState.advance, PackState.store]
      rw [e, ec]
      have : (s.count + 2).toNat = s.count.toNat + 1 + 1 := by omega
      rw [this, List.range_succ, List.range_succ, List.map_append, List.map_append, List.map_append, hl]
      simp [Int.toNat_of_nonneg h0]
  · refine ⟨?_, ?_⟩
    · simp only [pack_rhs_group, PackState.advance, PackState.store]
      norm_num
      omega
    · have e : (pack_rhs_group 4 s v0 v1 v2 v3 k j2).log = s.log ++ [(s.count + 0, k, j2 + 0), (s.count + 1, k, j2 + 1),
          (s.count + 2, k, j2 + 2), (s.count + 3, k, j2 + 3)] := by
        simp [pack_rhs_group, PackState.advance, PackState.store]
      have ec : (pack_rhs_group 4 s v0 v1 v2 v3 k j2).count = s.count + 4 := by
        simp [pack_rhs_group, PackState.advance, PackState.store]
      rw [e, ec]
      have : (s.count + 4).toNat = s.count.toNat + 1 + 1 + 1 + 1 := by omega
      rw [this, List.range_succ, List.range_succ, List.range_succ, List.range_succ, List.map_append, List.map_append,
        List.map_append, List.map_append, List.map_append, hl]
      simp [Int.toNat_of_nonneg h0]

theorem pack_rhs_ColMajor_sequential {α : Type} [Mul α] [One α] [DecidableEq α] (nr : Int)
    (hnr : nr = 2 ∨ nr = 4) (blockB rhs : Buf α) (rhsStride : Int) (alpha : α)
    (depth cols stride offset : Int) :
    (ei_gemm_pack_rhs_ColMajor nr false blockB rhs rhsStride alpha depth cols stride offset).Sequential := by
  unfold ei_gemm_pack_rhs_ColMajor
  simp only [Bool.false_eq_true, if_false]
  have h0 : (⟨blockB, 0, []⟩ : PackState α).Sequential := ⟨le_refl _, by simp⟩
  refine List.foldlRecOn _ _ _ ?_ ?_
  · refine List.foldlRecOn _ _ _ h0 ?_
    intro s hs j2 _
    split
    · refine List.foldlRecOn _ _ _ hs ?_
      intro s hs k _
      exact sequential_group nr hnr s hs _ _ _ _ _ _
    · refine List.foldlRecOn _ _ _ hs ?_
      intro s hs k _
      exact sequential_group nr hnr s hs _ _ _ _ _ _
  · intro s hs j2 _
    split
    · refine List.foldlRecOn _ _ _ hs ?_
      intro s hs k _
      exact sequential_store_advance s hs _ _ _
    · refine List.foldlRecOn _ _ _ hs ?_
      intro s hs k _
      exact sequential_store_advance s hs _ _ _

/-- In non-panel mode with `nr` 2 or 4 the right packers store to the indices `0, 1, ..., cols*depth-1`
in this order. -/
theorem rhsLog_sequential (nr cols depth : Nat) (hnr : nr = 2 ∨ nr = 4) :
    (rhsLog nr cols depth depth 0).map (fun e => e.1)
      = (List.range (cols * depth)).map (fun (n : Nat) => (n : Int)) := by
  have h := pack_rhs_ColMajor_sequential (α := Int) nr (by omega) (fun _ => 0) (fun _ => 0) 0 0 depth cols 0 0
  rw [pack_rhs_ColMajor_closed nr cols depth (by omega)] at h
  have h2 := h.2
  simp only [Bool.false_eq_true, if_false] at h2
  have e : ((cols : Int) * (depth : Int)).toNat = cols * depth := by
    have : (cols : Int) * (depth : Int) = ((cols * depth : Nat) : Int) := by push_cast; rfl
    rw [this, Int.toNat_ofNat]
  rw [e] at h2
  exact h2

theorem lhsLog_sequential (mr PS rows depth : Nat) (hmr : 0 < mr) :
    (lhsLog mr PS rows depth depth 0).map (fun e => e.1)
      = (List.range (rows * depth)).map (fun (n : Nat) => (n : Int)) := by
  have h := pack_lhs_sequential (α := Int) mr PS false false (fun _ => 0) (fun _ _ => 0) depth rows 0 0
  rw [pack_lhs_closed mr PS rows depth hmr] at h
  have h2 := h.2
  simp only [Bool.false_eq_true, if_false] at h2
  have e : ((rows : Int) * (depth : Int)).toNat = rows * depth := by
    have : (rows : Int) * (depth : Int) = ((rows * depth : Nat) : Int) := by push_cast; rfl
    rw [this, Int.toNat_ofNat]
  rw [e] at h2
  exact h2

/-- A log whose indices are `0, ..., N-1` stores to the index `q` exactly when `0 ≤ q < N`. -/
theorem sequential_mem_iff (L : List PackEvent) (N : Nat)
    (h : L.map (fun e => e.1) = (List.range N).map (fun (n : Nat) => (n : Int))) (q : Int) :
    (∃ e ∈ L, e.1 = q) ↔ (0 ≤ q ∧ q < N) := by
  have key : q ∈ L.map (fun e => e.1) ↔ (0 ≤ q ∧ q < N) := by
    rw [h]
    simp only [List.mem_map, List.mem_range]
    constructor
    · rintro ⟨n, hn, rfl⟩
      omega
    · rintro ⟨h0, h1⟩
      exact ⟨q.toNat, by omega, by omega⟩
  rw [← key, List.mem_map]

/-- C11. Boundary safety of the packers in non-panel mode, for all `rows`, `depth`, `cols`: every store of
`ei_gemm_pack_lhs` reads a source entry `(i,k)` with `i < rows`, `k < depth` and writes an index in
`[0, rows*depth)`, the buffer is unchanged outside that range, and the packed buffer does not depend on
source entries outside the view; the same for `ei_gemm_pack_rhs` (`nr` 2 or 4, both storage orders) with
source entries `(k,j)`, `k < depth`, `j < cols`, and indices in `[0, cols*depth)`. -/
theorem pack_boundary_safety {α : Type} [MulOneClass α] [Star α] [DecidableEq α]
    (mr PacketSize nr rows depth cols : Nat) (hmr : 0 < mr) (hnr : nr = 2 ∨ nr = 4)
    ( IsComplex Conjugate : Bool) (order : StorageOrder) (blockA blockB : Buf α)
    (lhs : Int → Int → α) (rhs : Buf α) (rhsStride : Int) (alpha : α) :
    ((∀ e ∈ (ei_gemm_pack_lhs mr PacketSize IsComplex Conjugate false blockA lhs depth rows 0 0).log,
        (0 ≤ e.1 ∧ e.1 < (rows : Int) * depth) ∧ (0 ≤ e.2.1 ∧ e.2.1 < rows) ∧ (0 ≤ e.2.2 ∧ e.2.2 < depth)) ∧
      (∀ q : Int, ¬ (0 ≤ q ∧ q < (rows : Int) * depth) →
        (ei_gemm_pack_lhs mr PacketSize IsComplex Conjugate false blockA lhs depth rows 0 0).block q
          = blockA q) ∧
      (∀ lhs2 : Int → Int → α,
        (∀ i k : Int, 0 ≤ i → i < rows → 0 ≤ k → k < depth → lhs2 i k = lhs i k) →
        (ei_gemm_pack_lhs mr PacketSize IsComplex Conjugate false blockA lhs2 depth rows 0 0).block
          = (ei_gemm_pack_lhs mr PacketSize IsComplex Conjugate false blockA lhs depth rows 0 0).block)) ∧
    ((∀ e ∈ (ei_gemm_pack_rhs order nr false blockB rhs rhsStride alpha depth cols 0 0).log,
        (0 ≤ e.1 ∧ e.1 < (cols : Int) * depth) ∧ (0 ≤ e.2.1 ∧ e.2.1 < depth) ∧ (0 ≤ e.2.2 ∧ e.2.2 < cols)) ∧
      (∀ q : Int, ¬ (0 ≤ q ∧ q < (cols : Int) * depth) →
        (ei_gemm_pack_rhs order nr false blockB rhs rhsStride alpha depth cols 0 0).block q = blockB q) ∧
      (∀ rhs2 : Buf α,
        (∀ k j : Int, 0 ≤ k → k < depth → 0 ≤ j → j < cols →
          rhsCoeff order rhs2 rhsStride k j = rhsCoeff order rhs rhsStride k j) →
        (ei_gemm_pack_rhs order nr false blockB rhs2 rhsStride alpha depth cols 0 0).block
          = (ei_gemm_pack_rhs order nr false blockB rhs rhsStride alpha depth cols 0 0).block)) := by
  have hnr2 : 2 ≤ nr := by omega
  have hL := fun (l : Int → Int → α) =>
    pack_lhs_closed mr PacketSize rows depth hmr IsComplex Conjugate false blockA l 0 0
  have hR := fun (r : Buf α) =>
    pack_rhs_closed order nr cols depth (by omega) false blockB r rhsStride alpha 0 0
  simp only [Bool.false_eq_true, if_false] at hL hR
  have hiL := (lhsLog_increasing mr PacketSize rows depth hmr depth 0 (le_refl _) (by omega)).2
  have hiR := (rhsLog_increasing nr cols depth hnr2 depth 0 (le_refl _) (by omega)).2
  refine ⟨⟨?_, ?_, ?_⟩, ⟨?_, ?_, ?_⟩⟩
  · intro e he
    rw [hL] at he
    simp only at he
    obtain ⟨h1, h2, h3, h4⟩ := lhsLog_pos_range _ _ _ _ _ _ e he
    exact ⟨hiL e he, ⟨h1, h2⟩, ⟨h3, h4⟩⟩
  · intro q hq
    rw [hL]
    simp only
    apply replay_of_not_mem
    intro e he heq
    exact hq (heq ▸ hiL e he)
  · intro lhs2 h
    rw [hL, hL]
    simp only
    apply replay_congr
    intro e he
    obtain ⟨h1, h2, h3, h4⟩ := lhsLog_pos_range _ _ _ _ _ _ e he
    rw [h e.2.1 e.2.2 h1 h2 h3 h4]
  · intro e he
    rw [hR] at he
    simp only at he
    exact ⟨hiR e he, rhsLog_depth_range _ _ _ _ _ e he, rhsLog_col_range _ _ _ hnr2 _ _ e he⟩
  · intro q hq
    rw [hR]
    simp only
    apply replay_of_not_mem
    intro e he heq
    exact hq (heq ▸ hiR e he)
  · intro rhs2 h
    rw [hR, hR]
    simp only
    apply replay_congr
    intro e he
    obtain ⟨h1, h2⟩ := rhsLog_depth_range _ _ _ _ _ e he
    obtain ⟨h3, h4⟩ := rhsLog_col_range _ _ _ hnr2 _ _ e he
    rw [h e.2.1 e.2.2 h1 h2 h3 h4]

theorem pack_boundary_safety_witness :
    (0 < 4 ∧ ((2 : Nat) = 2 ∨ (2 : Nat) = 4)) ∧
    (ei_gemm_pack_lhs ((4 : Nat) : Int) ((2 : Nat) : Int) false false false (fun q => (100 + q : Int))
        (fun i k => 10 * i + k) ((3 : Nat) : Int) ((5 : Nat) : Int) 0 0).block 15 = 115 ∧
    (ei_gemm_pack_rhs StorageOrder.RowMajor ((2 : Nat) : Int) false (fun q => (100 + q : Int))
        (fun q => q) 3 2 ((3 : Nat) : Int) ((3 : Nat) : Int) 0 0).block (-1) = 99 :=
  ⟨⟨by decide, Or.inl rfl⟩,
    ((pack_boundary_safety 4 2 2 5 3 3 (by decide) (Or.inl rfl) false false StorageOrder.RowMajor
      (fun q => (100 + q : Int)) (fun q => (100 + q : Int)) (fun i k => 10 * i + k) (fun q => q) 3 2).1.2.1
      15 (by decide)).trans (by decide),
    ((pack_boundary_safety 4 2 2 5 3 3 (by decide) (Or.inl rfl) false false StorageOrder.RowMajor
      (fun q => (100 + q : Int)) (fun q => (100 + q : Int)) (fun i k => 10 * i + k) (fun q => q) 3 2).2.2.1
      (-1) (by decide)).trans (by decide)⟩

/-- C12. Determinism of packing in non-panel mode: packing the same source with the same parameters into
two destination buffers gives buffers that agree on `[0, rows*depth)` for the left packer and on
`[0, cols*depth)` for the right packers (`nr` 2 or 4), whatever the two buffers held before; the stores
executed and the final cursor are the same as well. -/
theorem pack_deterministic {α : Type} [MulOneClass α] [Star α] [DecidableEq α]
    (mr PacketSize nr rows depth cols : Nat) (hmr : 0 < mr) (hnr : nr = 2 ∨ nr = 4)
    ( IsComplex Conjugate : Bool) (order : StorageOrder) (blockA blockA2 blockB blockB2 : Buf α)
    (lhs : Int → Int → α) (rhs : Buf α) (rhsStride : Int) (alpha : α) :
    ((∀ q : Int, 0 ≤ q → q < (rows : Int) * depth →
        (ei_gemm_pack_lhs mr PacketSize IsComplex Conjugate false blockA lhs depth rows 0 0).block q
          = (ei_gemm_pack_lhs mr PacketSize IsComplex Conjugate false blockA2 lhs depth rows 0 0).block q) ∧
      (ei_gemm_pack_lhs mr PacketSize IsComplex Conjugate false blockA lhs depth rows 0 0).log
        = (ei_gemm_pack_lhs mr PacketSize IsComplex Conjugate false blockA2 lhs depth rows 0 0).log ∧
      (ei_gemm_pack_lhs mr PacketSize IsComplex Conjugate false blockA lhs depth rows 0 0).count
        = (ei_gemm_pack_lhs mr PacketSize IsComplex Conjugate false blockA2 lhs depth rows 0 0).count) ∧
    ((∀ q : Int, 0 ≤ q → q < (cols : Int) * depth →
        (ei_gemm_pack_rhs order nr false blockB rhs rhsStride alpha depth cols 0 0).block q
          = (ei_gemm_pack_rhs order nr false blockB2 rhs rhsStride alpha depth cols 0 0).block q) ∧
      (ei_gemm_pack_rhs order nr false blockB rhs rhsStride alpha depth cols 0 0).log
        = (ei_gemm_pack_rhs order nr false blockB2 rhs rhsStride alpha depth cols 0 0).log ∧
      (ei_gemm_pack_rhs order nr false blockB rhs rhsStride alpha depth cols 0 0).count
        = (ei_gemm_pack_rhs order nr false blockB2 rhs rhsStride alpha depth cols 0 0).count) := by
  have hL := fun (b : Buf α) =>
    pack_lhs_closed mr PacketSize rows depth hmr IsComplex Conjugate false b lhs 0 0
  have hR := fun (b : Buf α) =>
    pack_rhs_closed order nr cols depth (by omega) false b rhs rhsStride alpha 0 0
  simp only [Bool.false_eq_true, if_false] at hL hR
  refine ⟨⟨?_, ?_, ?_⟩, ⟨?_, ?_, ?_⟩⟩
  · intro q h0 h1
    rw [hL, hL]
    simp only
    apply replay_covered
    exact (sequential_mem_iff _ (rows * depth) (lhsLog_sequential mr PacketSize rows depth hmr) q).2
      ⟨h0, by push_cast; exact h1⟩
  · rw [hL, hL]
  · rw [hL, hL]
  · intro q h0 h1
    rw [hR, hR]
    simp only
    apply replay_covered
    exact (sequential_mem_iff _ (cols * depth) (rhsLog_sequential nr cols depth hnr) q).2
      ⟨h0, by push_cast; exact h1⟩
  · rw [hR, hR]
  · rw [hR, hR]

theorem pack_deterministic_witness :
    (0 < 4 ∧ ((4 : Nat) = 2 ∨ (4 : Nat) = 4)) ∧
    (ei_gemm_pack_rhs StorageOrder.ColMajor ((4 : Nat) : Int) false (fun q => (100 + q : Int))
        (fun q => q) 3 2 ((3 : Nat) : Int) ((5 : Nat) : Int) 0 0).block 14
      = (ei_gemm_pack_rhs StorageOrder.ColMajor ((4 : Nat) : Int) false (fun _ => (7 : Int))
        (fun q => q) 3 2 ((3 : Nat) : Int) ((5 : Nat) : Int) 0 0).block 14 :=
  ⟨⟨by decide, Or.inr rfl⟩,
    (pack_deterministic 4 2 4 5 3 5 (by decide) (Or.inr rfl) false false StorageOrder.ColMajor
      (fun _ => (0 : Int)) (fun _ => 1) (fun q => (100 + q : Int)) (fun _ => (7 : Int))
      (fun i k => 10 * i + k) (fun q => q) 3 2).2.1 14 (by decide) (by decide)⟩

/-- C13. The two right-packer specializations agree: when `rhsR` holds the matrix `B` in row-major order
(`B(k,j)` at `rhsR[k*strideR + j]`) and `rhsC` holds it in column-major order (`B(k,j)` at
`rhsC[j*strideC + k]`), the row-major packer on `rhsR` and the column-major packer on `rhsC` end in the
same state: same stores at the same indices in the same order, same buffer, same cursor; for every
`alpha`, in panel mode with any stride and offset and in non-panel mode. -/
theorem pack_rhs_orders_agree {α : Type} [MulOneClass α] [DecidableEq α]
    (nr depth cols : Nat) (hnr : 2 ≤ nr) ( PanelMode : Bool) (blockB rhsR rhsC : Buf α)
    (strideR strideC : Int) (B : Int → Int → α)
    (hR : ∀ k j : Int, 0 ≤ k → k < depth → 0 ≤ j → j < cols → rhsR (k * strideR + j) = B k j)
    (hC : ∀ k j : Int, 0 ≤ k → k < depth → 0 ≤ j → j < cols → rhsC (j * strideC + k) = B k j)
    (alpha : α) (stride offset : Int) :
    ei_gemm_pack_rhs_RowMajor nr PanelMode blockB rhsR strideR alpha depth cols stride offset
      = ei_gemm_pack_rhs_ColMajor nr PanelMode blockB rhsC strideC alpha depth cols stride offset := by
  rw [pack_rhs_RowMajor_closed nr cols depth (by omega), pack_rhs_ColMajor_closed nr cols depth (by omega)]
  congr 1
  apply replay_congr
  intro e he
  obtain ⟨h1, h2⟩ := rhsLog_depth_range _ _ _ _ _ e he
  obtain ⟨h3, h4⟩ := rhsLog_col_range _ _ _ hnr _ _ e he
  rw [hR _ _ h1 h2 h3 h4, hC _ _ h1 h2 h3 h4]

theorem pack_rhs_orders_agree_witness :
    (2 ≤ 2) ∧
    ei_gemm_pack_rhs_RowMajor ((2 : Nat) : Int) true (fun _ => (0 : Int)) (fun q => q) 3 2
        ((2 : Nat) : Int) ((3 : Nat) : Int) 4 1
      = ei_gemm_pack_rhs_ColMajor ((2 : Nat) : Int) true (fun _ => (0 : Int)) (fun q => 3 * (q % 2) + q / 2) 2 2
        ((2 : Nat) : Int) ((3 : Nat) : Int) 4 1 :=
  ⟨by decide, pack_rhs_orders_agree 2 2 3 (by decide) true (fun _ => (0 : Int)) (fun q => q)
    (fun q => 3 * (q % 2) + q / 2) 3 2 (fun k j => 3 * k + j)
    (by intro k j _ _ _ _; simp only; ring)
    (by intro k j h1 h2 h3 h4
        have e1 : (j * 2 + k) % 2 = k := by push_cast at h2; omega
        have e2 : (j * 2 + k) / 2 = j := by push_cast at h2; omega
        simp only [e1, e2]) 2 4 1⟩

theorem cursor_advance_monotone (c : CursorTrace) (h : c.Monotone) (n : Int) (hn : 0 ≤ n) :
    (c.advance n).Monotone := by
  unfold CursorTrace.Monotone CursorTrace.values CursorTrace.advance at *
  simp only
  rw [List.pairwise_append] at h ⊢
  refine ⟨?_, List.pairwise_singleton _ _, ?_⟩
  · rw [List.pairwise_append]
    exact h
  · intro a ha b hb
    simp only [List.mem_singleton] at hb
    subst hb
    rcases List.mem_append.1 ha with h1 | h1
    · have := h.2.2 a h1 c.count (List.mem_singleton_self _)
      omega
    · simp only [List.mem_singleton] at h1
      omega

theorem cursor_if_advance_monotone (pm : Bool) (c : CursorTrace) (h : c.Monotone) (n : Int)
    (hn : pm = true → 0 ≤ n) : (if pm then c.advance n else c).Monotone := by
  cases pm
  · simpa using h
  · simp only [if_true]
    exact cursor_advance_monotone c h n (hn rfl)

theorem pack_lhs_tile_cursor_monotone (pm : Bool) (W depth stride offset : Int) (hW : 0 ≤ W)
    (hpm : pm = true → 0 ≤ offset ∧ offset + depth ≤ stride) (c : CursorTrace) (h : c.Monotone) (i : Int) :
    (pack_lhs_tile_cursor pm W depth stride offset c i).Monotone := by
  unfold pack_lhs_tile_cursor
  simp only []
  apply cursor_if_advance_monotone
  · refine List.foldlRecOn _ _ _ ?_ ?_
    · exact cursor_if_advance_monotone _ _ h _ (fun hp => mul_nonneg hW (hpm hp).1)
    · intro c hc k _
      refine List.foldlRecOn _ _ _ hc ?_
      intro c hc w _
      exact cursor_advance_monotone c hc 1 (by decide)
  · intro hp
    exact mul_nonneg hW (by have := (hpm hp).2; omega)

theorem pack_lhs_row_cursor_monotone (pm : Bool) (depth stride offset : Int)
    (hpm : pm = true → 0 ≤ offset ∧ offset + depth ≤ stride) (c : CursorTrace) (h : c.Monotone) (i : Int) :
    (pack_lhs_row_cursor pm depth stride offset c i).Monotone := by
  unfold pack_lhs_row_cursor
  simp only []
  apply cursor_if_advance_monotone
  · refine List.foldlRecOn _ _ _ ?_ ?_
    · exact cursor_if_advance_monotone _ _ h _ (fun hp => (hpm hp).1)
    · intro c hc k _
      exact cursor_advance_monotone c hc 1 (by decide)
  · intro hp
    have := (hpm hp).2
    omega

theorem pack_lhs_cursor_monotone (mr PS : Int) (hmr : 0 ≤ mr) (hPS : 0 ≤ PS) (pm : Bool)
    (depth rows stride offset : Int) (hpm : pm = true → 0 ≤ offset ∧ offset + depth ≤ stride) :
    (ei_gemm_pack_lhs_cursor mr PS pm depth rows stride offset).Monotone := by
  unfold ei_gemm_pack_lhs_cursor
  simp only []
  have h0 : (⟨0, []⟩ : CursorTrace).Monotone := by
    simp [CursorTrace.Monotone, CursorTrace.values]
  have h1 : ((forRange 0 (rows.tdiv mr * mr) mr).foldl
      (pack_lhs_tile_cursor pm mr depth stride offset) ⟨0, []⟩).Monotone := by
    refine List.foldlRecOn _ _ _ h0 ?_
    intro c hc i _
    exact pack_lhs_tile_cursor_monotone pm mr depth stride offset hmr hpm c hc i
  refine List.foldlRecOn _ _ _ ?_ ?_
  · split
    · exact pack_lhs_tile_cursor_monotone pm PS depth stride offset hPS hpm _ h1 (rows.tdiv mr * mr)
    · exact h1
  · intro c hc i _
    exact pack_lhs_row_cursor_monotone pm depth stride offset hpm c hc i

theorem pack_rhs_cursor_monotone (nr : Int) (hnr : 0 ≤ nr) (pm : Bool)
    (depth cols stride offset : Int) (hpm : pm = true → 0 ≤ offset ∧ offset + depth ≤ stride) :
    (ei_gemm_pack_rhs_cursor nr pm depth cols stride offset).Monotone := by
  unfold ei_gemm_pack_rhs_cursor
  simp only []
  have h0 : (⟨0, []⟩ : CursorTrace).Monotone := by
    simp [CursorTrace.Monotone, CursorTrace.values]
  refine List.foldlRecOn _ _ _ ?_ ?_
  · refine List.foldlRecOn _ _ _ h0 ?_
    intro c hc j2 _
    apply cursor_if_advance_monotone
    · refine List.foldlRecOn _ _ _ ?_ ?_
      · exact cursor_if_advance_monotone _ _ hc _ (fun hp => mul_nonneg hnr (hpm hp).1)
      · intro c hc k _
        exact cursor_advance_monotone c hc nr hnr
    · intro hp
      exact mul_nonneg hnr (by have := (hpm hp).2; omega)
  · intro c hc j2 _
    apply cursor_if_advance_monotone
    · refine List.foldlRecOn _ _ _ ?_ ?_
      · exact cursor_if_advance_monotone _ _ hc _ (fun hp => (hpm hp).1)
      · intro c hc k _
        exact cursor_advance_monotone c hc 1 (by decide)
    · intro hp
      have := (hpm hp).2
      omega

/-- Two loops over the same list whose bodies keep the packer's cursor and the cursor walk equal. -/
theorem foldl_count_sim {α β : Type} (f : PackState α → β → PackState α) (g : CursorTrace → β → CursorTrace)
    (h : ∀ (s : PackState α) (c : CursorTrace) (x : β), s.count = c.count → (f s x).count = (g c x).count)
    (L : List β) (s : PackState α) (c : CursorTrace) (h0 : s.count = c.count) :
    (L.foldl f s).count = (L.foldl g c).count := by
  induction L generalizing s c with
  | nil => exact h0
  | cons x L ih => exact ih _ _ (h s c x h0)

theorem if_advance_count_sim {α : Type} (pm : Bool) (s : PackState α) (c : CursorTrace) (n : Int)
    (h : s.count = c.count) :
    (if pm then s.advance n else s).count = (if pm then c.advance n else c).count := by
  cases pm
  · simpa using h
  · simp only [if_true, PackState.advance, CursorTrace.advance]
    omega

theorem pack_lhs_tile_count_sim {α : Type} (cj : α → α) (lhs : Int → Int → α) (pm : Bool)
    (W depth stride offset : Int) (s : PackState α) (c : CursorTrace) (i : Int) (h : s.count = c.count) :
    (pack_lhs_tile cj lhs pm W depth stride offset s i).count
      = (pack_lhs_tile_cursor pm W depth stride offset c i).count := by
  unfold pack_lhs_tile pack_lhs_tile_cursor
  simp only []
  apply if_advance_count_sim
  apply foldl_count_sim
  · intro s c k hsc
    apply foldl_count_sim
    · intro s c w hsc
      simp only [PackState.advance, PackState.store, CursorTrace.advance]
      omega
    · exact hsc
  · exact if_advance_count_sim pm s c _ h

theorem pack_lhs_row_count_sim {α : Type} (cj : α → α) (lhs : Int → Int → α) (pm : Bool)
    (depth stride offset : Int) (s : PackState α) (c : CursorTrace) (i : Int) (h : s.count = c.count) :
    (pack_lhs_row cj lhs pm depth stride offset s i).count
      = (pack_lhs_row_cursor pm depth stride offset c i).count := by
  unfold pack_lhs_row pack_lhs_row_cursor
  simp only []
  apply if_advance_count_sim
  apply foldl_count_sim
  · intro s c k hsc
    simp only [PackState.advance, PackState.store, CursorTrace.advance]
    omega
  · exact if_advance_count_sim pm s c _ h

/-- The cursor walk of the left packer ends where the packer's cursor ends. -/
theorem pack_lhs_cursor_count {α : Type} [Star α] (mr PS : Int) (ic cjf pm : Bool) (blockA : Buf α)
    (lhs : Int → Int → α) (depth rows stride offset : Int) :
    (ei_gemm_pack_lhs mr PS ic cjf pm blockA lhs depth rows stride offset).count
      = (ei_gemm_pack_lhs_cursor mr PS pm depth rows stride offset).count := by
  unfold ei_gemm_pack_lhs ei_gemm_pack_lhs_cursor
  simp only []
  have h1 : ((forRange 0 (rows.tdiv mr * mr) mr).foldl
      (pack_lhs_tile (ei_conj_if (ic && cjf)) lhs pm mr depth stride offset) ⟨blockA, 0, []⟩).count
      = ((forRange 0 (rows.tdiv mr * mr) mr).foldl
      (pack_lhs_tile_cursor pm mr depth stride offset) ⟨0, []⟩).count := by
    apply foldl_count_sim
    · intro s c i hsc
      exact pack_lhs_tile_count_sim _ _ _ _ _ _ _ s c i hsc
    · rfl
  by_cases hc : rows - rows.tdiv mr * mr ≥ PS
  · rw [if_pos hc, if_pos hc]
    apply foldl_count_sim
    · intro s c i hsc
      exact pack_lhs_row_count_sim _ _ _ _ _ _ s c i hsc
    · exact pack_lhs_tile_count_sim _ _ _ _ _ _ _ _ _ _ h1
  · rw [if_neg hc, if_neg hc]
    apply foldl_count_sim
    · intro s c i hsc
      exact pack_lhs_row_count_sim _ _ _ _ _ _ s c i hsc
    · exact h1

theorem pack_rhs_group_count {α : Type} (nr : Int) (s : PackState α) (v0 v1 v2 v3 : α) (k j2 : Int) :
    (pack_rhs_group nr s v0 v1 v2 v3 k j2).count = s.count + nr := by
  unfold pack_rhs_group
  by_cases h : nr = 4
  · simp [h, PackState.store, PackState.advance]
  · simp [h, PackState.store, PackState.advance]

/-- The cursor walk of the right packers ends where the cursor of either specialization ends. -/
theorem pack_rhs_cursor_count {α : Type} [Mul α] [One α] [DecidableEq α] (order : StorageOrder) (nr : Int)
    (pm : Bool) (blockB rhs : Buf α) (rhsStride : Int) (alpha : α) (depth cols stride offset : Int) :
    (ei_gemm_pack_rhs order nr pm blockB rhs rhsStride alpha depth cols stride offset).count
      = (ei_gemm_pack_rhs_cursor nr pm depth cols stride offset).count := by
  have hg : ∀ (f : PackState α → Int → PackState α), (∀ s k, (f s k).count = s.count + nr) →
      ∀ (s : PackState α) (c : CursorTrace), s.count = c.count →
      ((forRange 0 depth 1).foldl f s).count
        = ((forRange 0 depth 1).foldl (fun c k => c.advance nr) c).count := by
    intro f hf s c hsc
    apply foldl_count_sim
    · intro s c k hsc
      rw [hf]
      simp only [CursorTrace.advance]
      omega
    · exact hsc
  have h1 : ∀ (f : PackState α → Int → PackState α), (∀ s k, (f s k).count = s.count + 1) →
      ∀ (s : PackState α) (c : CursorTrace), s.count = c.count →
      ((forRange 0 depth 1).foldl f s).count
        = ((forRange 0 depth 1).foldl (fun c k => c.advance 1) c).count := by
    intro f hf s c hsc
    apply foldl_count_sim
    · intro s c k hsc
      rw [hf]
      simp only [CursorTrace.advance]
      omega
    · exact hsc
  cases order
  · unfold ei_gemm_pack_rhs ei_gemm_pack_rhs_ColMajor ei_gemm_pack_rhs_cursor
    simp only []
    apply foldl_count_sim
    · intro s c j2 hsc
      apply if_advance_count_sim
      split
      · exact h1 _ (fun s k => by simp [PackState.store, PackState.advance]) _ _
          (if_advance_count_sim pm s c _ hsc)
      · exact h1 _ (fun s k => by simp [PackState.store, PackState.advance]) _ _
          (if_advance_count_sim pm s c _ hsc)
    · apply foldl_count_sim
      · intro s c j2 hsc
        apply if_advance_count_sim
        split
        · exact hg _ (fun s k => pack_rhs_group_count _ _ _ _ _ _ _ _) _ _
            (if_advance_count_sim pm s c _ hsc)
        · exact hg _ (fun s k => pack_rhs_group_count _ _ _ _ _ _ _ _) _ _
            (if_advance_count_sim pm s c _ hsc)
      · rfl
  · unfold ei_gemm_pack_rhs ei_gemm_pack_rhs_RowMajor ei_gemm_pack_rhs_cursor
    simp only []
    apply foldl_count_sim
    · intro s c j2 hsc
      apply if_advance_count_sim
      exact h1 _ (fun s k => by simp [PackState.store, PackState.advance]) _ _
          (if_advance_count_sim pm s c _ hsc)
    · apply foldl_count_sim
      · intro s c j2 hsc
        apply if_advance_count_sim
        split
        · exact hg _ (fun s k => pack_rhs_group_count _ _ _ _ _ _ _ _) _ _
            (if_advance_count_sim pm s c _ hsc)
        · exact hg _ (fun s k => pack_rhs_group_count _ _ _ _ _ _ _ _) _ _
            (if_advance_count_sim pm s c _ hsc)
      · rfl

/-- C14, counterexample. The asserted condition does not rule out `offset + depth > stride`: in panel
mode with `stride = 1`, `offset = 1`, `depth = 1` (`mr = 2`, `rows = 2`) the assertion of the left packer
passes, yet it writes index 2, outside `[0, rows*stride) = [0, 2)`, and its cursor goes back from 4 to 2
at the skip after the tile. -/
theorem pack_assert_too_weak :
    pack_assert true 1 1 1 = true ∧
    (∃ e ∈ (ei_gemm_pack_lhs 2 1 false false true (fun _ => (0 : Int)) (fun i k => i + k) 1 2 1 1).log,
      ¬ (0 ≤ e.1 ∧ e.1 < 2 * 1)) ∧
    ¬ (ei_gemm_pack_lhs_cursor 2 1 true 1 2 1 1).Monotone ∧
    (ei_gemm_pack_lhs_cursor 2 1 true 1 2 1 1).values = [0, 2, 3, 4, 2] := by
  decide

/-- C14, amended. In panel mode, whenever `0 ≤ offset` and `offset + depth ≤ stride` (this implies the
asserted condition `stride ≥ depth`, `offset ≤ stride`), every index written by `ei_gemm_pack_lhs` lies in
`[0, rows*stride)`, every index written by `ei_gemm_pack_rhs` (either specialization) lies in
`[0, cols*stride)`, and the write cursor never moves backwards: every value it takes is at most every
later one, in the walk of the cursor that ends at the packer's final `count`. -/
theorem pack_panel_cursor_safe {α : Type} [MulOneClass α] [Star α] [DecidableEq α]
    (mr PacketSize nr rows depth cols : Nat) (hmr : 0 < mr) (hnr : 2 ≤ nr)
    ( IsComplex Conjugate : Bool) (order : StorageOrder) (blockA blockB : Buf α)
    (lhs : Int → Int → α) (rhs : Buf α) (rhsStride : Int) (alpha : α) (stride offset : Int)
    (hoff : 0 ≤ offset) (hstr : offset + depth ≤ stride) :
    pack_assert true stride offset depth = true ∧
    (∀ e ∈ (ei_gemm_pack_lhs mr PacketSize IsComplex Conjugate true blockA lhs depth rows stride offset).log,
      0 ≤ e.1 ∧ e.1 < (rows : Int) * stride) ∧
    (∀ e ∈ (ei_gemm_pack_rhs order nr true blockB rhs rhsStride alpha depth cols stride offset).log,
      0 ≤ e.1 ∧ e.1 < (cols : Int) * stride) ∧
    ((ei_gemm_pack_lhs_cursor mr PacketSize true depth rows stride offset).Monotone ∧
      (ei_gemm_pack_lhs_cursor mr PacketSize true depth rows stride offset).count
        = (ei_gemm_pack_lhs mr PacketSize IsComplex Conjugate true blockA lhs depth rows stride offset).count) ∧
    ((ei_gemm_pack_rhs_cursor nr true depth cols stride offset).Monotone ∧
      (ei_gemm_pack_rhs_cursor nr true depth cols stride offset).count
        = (ei_gemm_pack_rhs order nr true blockB rhs rhsStride alpha depth cols stride offset).count) := by
  refine ⟨?_, ?_, ?_, ⟨?_, ?_⟩, ⟨?_, ?_⟩⟩
  · simp only [pack_assert, Bool.not_true, Bool.false_and, Bool.true_and, Bool.false_or, Bool.and_eq_true,
      decide_eq_true_eq]
    constructor <;> omega
  · intro e he
    rw [pack_lhs_closed mr PacketSize rows depth hmr] at he
    simp only [if_true] at he
    exact (lhsLog_increasing mr PacketSize rows depth hmr stride offset hoff hstr).2 e he
  · intro e he
    rw [pack_rhs_closed order nr cols depth (by omega)] at he
    simp only [if_true] at he
    exact (rhsLog_increasing nr cols depth hnr stride offset hoff hstr).2 e he
  · exact pack_lhs_cursor_monotone mr PacketSize (by positivity) (by positivity) true depth rows stride offset
      (fun _ => ⟨hoff, hstr⟩)
  · exact (pack_lhs_cursor_count _ _ _ _ _ _ _ _ _ _ _).symm
  · exact pack_rhs_cursor_monotone nr (by positivity) true depth cols stride offset (fun _ => ⟨hoff, hstr⟩)
  · exact (pack_rhs_cursor_count _ _ _ _ _ _ _ _ _ _ _).symm

theorem pack_panel_cursor_safe_witness :
    (0 < 2 ∧ 2 ≤ 2 ∧ (0 : Int) ≤ 1 ∧ (1 : Int) + ((1 : Nat) : Int) ≤ 3) ∧
    (ei_gemm_pack_lhs_cursor ((2 : Nat) : Int) ((1 : Nat) : Int) true ((1 : Nat) : Int) ((2 : Nat) : Int) 3 1).Monotone ∧
    (ei_gemm_pack_lhs_cursor ((2 : Nat) : Int) ((1 : Nat) : Int) true ((1 : Nat) : Int) ((2 : Nat) : Int) 3 1).values
      = [0, 2, 3, 4, 6] :=
  ⟨⟨by decide, by decide, by decide, by decide⟩,
    (pack_panel_cursor_safe 2 1 2 2 1 3 (by decide) (by decide) false false StorageOrder.ColMajor
      (fun _ => (0 : Int)) (fun _ => 0) (fun i k => i + k) (fun q => q) 1 1 3 1 (by decide) (by decide)).2.2.2.1.1,
    by decide⟩

/-- C15. With `alpha = 1` and an uninterpreted multiplication, the row-major right packer (`nr = 2`,
`depth = 1`, `cols = 3`, source `rhs[q] = atom q`) stores the source value itself in the full tile
(index 0 and 1) but the product `1 * source` for the remainder column (index 2): its remainder loop
multiplies by `alpha` without testing `hasAlpha`. The column-major packer stores the source value itself
on both paths. -/
theorem pack_rhs_RowMajor_remainder_multiplies :
    (ei_gemm_pack_rhs_RowMajor 2 false (fun _ => SymScalar.one) SymScalar.atom 3 1 1 3 0 0).block 0
      = SymScalar.atom 0 ∧
    (ei_gemm_pack_rhs_RowMajor 2 false (fun _ => SymScalar.one) SymScalar.atom 3 1 1 3 0 0).block 1
      = SymScalar.atom 1 ∧
    (ei_gemm_pack_rhs_RowMajor 2 false (fun _ => SymScalar.one) SymScalar.atom 3 1 1 3 0 0).block 2
      = SymScalar.mul SymScalar.one (SymScalar.atom 2) ∧
    (ei_gemm_pack_rhs_RowMajor 2 false (fun _ => SymScalar.one) SymScalar.atom 3 1 1 3 0 0).block 2
      ≠ SymScalar.atom 2 ∧
    (ei_gemm_pack_rhs_ColMajor 2 false (fun _ => SymScalar.one) SymScalar.atom 1 1 1 3 0 0).block 2
      = SymScalar.atom 2 := by
  decide

/-- The `unpack B` loop writes only inside `[unpackedB, unpackedB + n*PacketSize)`. -/
theorem unpackB_frame {α : Type} (PS : Int) (hPS : 0 ≤ PS) (mem : Buf α) (uB src : Int) (n : Nat)
    (q : Int) (hq : q < uB ∨ uB + n * PS ≤ q) : gebp_unpackB PS mem uB src n q = mem q := by
  induction n with
  | zero => simp [gebp_unpackB, forRange]
  | succ n ih =>
    have hstep : gebp_unpackB PS mem uB src ((n + 1 : Nat) : Int) =
        ei_pstore PS (gebp_unpackB PS mem uB src n) (uB + n * PS)
          (ei_pset1 (gebp_unpackB PS mem uB src n (src + n))) := by
      unfold gebp_unpackB
      rw [forRange_zero_one, forRange_zero_one, List.range_succ, List.map_append, List.foldl_append]
      rfl
    have e : ((n + 1 : Nat) : Int) * PS = (n : Int) * PS + PS := by push_cast; ring
    have hn0 : 0 ≤ (n : Int) * PS := mul_nonneg (by positivity) hPS
    rw [e] at hq
    rw [hstep]
    unfold ei_pstore
    rw [if_neg (by omega)]
    apply ih
    omega

/-- The memory holding `blockB` and the scratch area is written by the kernel only inside
`[uB, uB + depth*nr*PacketSize)`, where `uB` is the scratch position the kernel works with. -/
theorem kernel_mem_frame {α : Type} [Zero α] [Add α] [Mul α] [Star α] (PS nr depth : Nat) (hnr : 1 ≤ nr)
    (mr rows cols : Int) (cj : ei_conj_helper) (res : Buf α) (rs : Int) (A memB : Buf α)
    (strideA strideB oA oB : Int) (uBo : Option Int) (q : Int)
    (hq : q < gebp_scratch uBo (gebp_stride strideB depth) nr PS ∨
      gebp_scratch uBo (gebp_stride strideB depth) nr PS + (depth : Int) * nr * PS ≤ q) :
    (ei_gebp_kernel mr nr PS cj res rs A memB rows depth cols strideA strideB oA oB uBo).2 q = memB q := by
  have hdPS : (depth : Int) * PS ≤ (depth : Int) * nr * PS := by
    have h1 : (0 : Int) ≤ (depth : Int) * PS := by positivity
    have h2 : (1 : Int) ≤ nr := by exact_mod_cast hnr
    nlinarith
  have key : ∀ (uB : Int), (q < uB ∨ uB + (depth : Int) * nr * PS ≤ q) →
      ∀ (sA sB : Int) (pm1 pm2 pk : Int) (L1 L2 : List Int),
      (L2.foldl (gebp_col_single cj mr PS rs A rows depth sA sB oA oB pm1 pm2 uB)
        (L1.foldl (gebp_col_tile cj mr nr PS rs A rows depth sA sB oA oB pm1 pm2 pk uB) (res, memB))).2 q
        = memB q := by
    intro uB huB sA sB pm1 pm2 pk L1 L2
    refine List.foldlRecOn (motive := fun (st : Buf α × Buf α) => st.2 q = memB q) _ _ _ ?_ ?_
    · refine List.foldlRecOn (motive := fun (st : Buf α × Buf α) => st.2 q = memB q) _ _ _ rfl ?_
      intro st hst j2 _
      have : (gebp_col_tile cj mr nr PS rs A rows depth sA sB oA oB pm1 pm2 pk uB st j2).2
          = gebp_unpackB PS st.2 uB (j2 * sB + oB * nr) (((depth * nr : Nat) : Int)) := by
        unfold gebp_col_tile
        push_cast
        rfl
      rw [this, unpackB_frame PS (by positivity) _ _ _ _ q (by push_cast; exact huB), hst]
    · intro st hst j2 _
      have : (gebp_col_single cj mr PS rs A rows depth sA sB oA oB pm1 pm2 uB st j2).2
          = gebp_unpackB PS st.2 uB (j2 * sB + oB) depth := by
        unfold gebp_col_single
        rfl
      rw [this, unpackB_frame PS (by positivity) _ _ _ _ q (by omega), hst]
  unfold ei_gebp_kernel
  simp only []
  cases uBo with
  | none => exact key _ hq _ _ _ _ _ _ _
  | some p => exact key _ hq _ _ _ _ _ _ _

/-- C16. Scratch buffer use: in the memory that holds `blockB` (index 0 onwards) and the scratch area, the
kernel writes only the `depth*nr*PacketSize` scalars from the scratch pointer on; without a scratch
pointer it writes only the `depth*nr*PacketSize` scalars that start `strideB*nr*PacketSize` scalars before
`blockB`; so for `depth ≤ strideB` no element of the packed right buffer at an index `≥ 0` is written. -/
theorem gebp_scratch_region {α : Type} [Zero α] [Add α] [Mul α] [Star α] (PacketSize nr depth : Nat)
    (hnr : 1 ≤ nr) (mr rows cols : Int) (cj : ei_conj_helper) (res : Buf α) (resStride : Int)
    (blockA memB : Buf α) (strideA strideB offsetA offsetB : Int) :
    (∀ (p q : Int), (q < p ∨ p + (depth : Int) * nr * PacketSize ≤ q) →
      (ei_gebp_kernel mr nr PacketSize cj res resStride blockA memB rows depth cols strideA strideB
        offsetA offsetB (some p)).2 q = memB q) ∧
    (∀ q : Int, (q < 0 - (if strideB = -1 then (depth : Int) else strideB) * nr * PacketSize ∨
        0 - (if strideB = -1 then (depth : Int) else strideB) * nr * PacketSize
          + (depth : Int) * nr * PacketSize ≤ q) →
      (ei_gebp_kernel mr nr PacketSize cj res resStride blockA memB rows depth cols strideA strideB
        offsetA offsetB none).2 q = memB q) ∧
    ((depth : Int) ≤ (if strideB = -1 then (depth : Int) else strideB) → ∀ q : Int, 0 ≤ q →
      (ei_gebp_kernel mr nr PacketSize cj res resStride blockA memB rows depth cols strideA strideB
        offsetA offsetB none).2 q = memB q) := by
  refine ⟨?_, ?_, ?_⟩
  · intro p q hq
    exact kernel_mem_frame PacketSize nr depth hnr mr rows cols cj res resStride blockA memB
      strideA strideB offsetA offsetB (some p) q hq
  · intro q hq
    exact kernel_mem_frame PacketSize nr depth hnr mr rows cols cj res resStride blockA memB
      strideA strideB offsetA offsetB none q hq
  · intro hd q hq
    apply kernel_mem_frame PacketSize nr depth hnr mr rows cols cj res resStride blockA memB
      strideA strideB offsetA offsetB none q
    right
    have h3 : (depth : Int) * nr * PacketSize ≤ (if strideB = -1 then (depth : Int) else strideB) * nr * PacketSize := by
      have : (0 : Int) ≤ (nr : Int) * PacketSize := by positivity
      nlinarith
    show 0 - (if strideB = -1 then (depth : Int) else strideB) * nr * PacketSize
      + (depth : Int) * nr * PacketSize ≤ q
    linarith

theorem gebp_scratch_region_witness :
    (1 ≤ 2) ∧
    (ei_gebp_kernel 4 ((2 : Nat) : Int) ((2 : Nat) : Int) ⟨false, false⟩ (fun _ => (0 : Int)) 3
        (fun q => q) (fun q => q + 1) 3 ((3 : Nat) : Int) 3 (-1) (-1) 0 0 none).2 0 = 1 :=
  ⟨by decide,
    ((gebp_scratch_region 2 2 3 (by decide) 4 3 3 ⟨false, false⟩ (fun _ => (0 : Int)) 3
      (fun q => q) (fun q => q + 1) (-1) (-1) 0 0).2.2 (by decide) 0 (by decide)).trans (by decide)⟩

theorem lhsLog_addr_of_mem (mr PS rows depth : Nat) (hmr : 0 < mr) (es eo : Int) (e : PackEvent)
    (he : e ∈ lhsLog mr PS rows depth es eo) : e.1 = lhsAddr mr PS rows es eo e.2.1 e.2.2 := by
  rcases (mem_lhsLog mr PS rows depth es eo e).1 he with
    ⟨t, ht, k, hk, w, hw, rfl⟩ | ⟨hc, k, hk, w, hw, rfl⟩ | ⟨t, ht, k, hk, rfl⟩
  · simp only
    rw [lhsAddr_full mr PS rows hmr es eo t ht _ k (by push_cast; omega) (by push_cast; omega)]
    push_cast
    ring
  · simp only
    rw [lhsAddr_packet_tile mr PS rows es eo hc _ k (by omega) (by omega)]
    ring
  · simp only
    rw [lhsAddr_scalar mr PS rows es eo _ (Nat.le_add_right _ t) k]

theorem rhsLog_addr_of_mem (nr cols depth : Nat) (hnr : nr = 2 ∨ nr = 4) (es eo : Int) (e : PackEvent)
    (he : e ∈ rhsLog nr cols depth es eo) : e.1 = rhsAddr nr cols es eo e.2.1 e.2.2 := by
  have hnr0 : 0 < nr := by omega
  rcases (mem_rhsLog nr cols depth es eo e).1 he with ⟨t, ht, k, hk, x, hx, rfl⟩ | ⟨t, ht, k, hk, rfl⟩
  · simp only
    have hxn : x < nr := by
      rcases hx with h | ⟨h4, h⟩
      · omega
      · have : nr = 4 := by exact_mod_cast h4
        omega
    rw [rhsAddr_tile nr cols hnr0 es eo t ht _ k (by push_cast; omega) (by push_cast; omega)]
    push_cast
    ring
  · simp only
    rw [rhsAddr_single nr cols es eo _ (by push_cast; omega) k]

theorem lhsAddr_bands (mr PS rows sA oA i k : Int) :
    lhsAddr mr PS rows sA oA i k =
      (if i < gebp_peeled_mc mr rows then (i / mr * mr) * sA + oA * mr + k * mr + i % mr
       else if i < gebp_peeled_mc2 mr PS rows then
         gebp_peeled_mc mr rows * sA + oA * PS + k * PS + (i - gebp_peeled_mc mr rows)
       else i * sA + oA + k) := by
  unfold lhsAddr gebp_peeled_mc2 gebp_peeled_mc
  simp only []
  by_cases h1 : i < rows.tdiv mr * mr
  · rw [if_pos h1, if_pos h1]
  · rw [if_neg h1, if_neg h1]
    by_cases h2 : rows - rows.tdiv mr * mr ≥ PS
    · rw [if_pos h2]
      by_cases h3 : i < rows.tdiv mr * mr + PS
      · rw [if_pos ⟨h2, h3⟩, if_pos h3]
      · rw [if_neg (fun h => h3 h.2), if_neg h3]
    · rw [if_neg h2, if_neg (fun h => h2 h.1), if_neg (by omega)]

/-- The kernel result depends on the two packed buffers only through the entries at `lhsAddr` and
`rhsAddr`. -/
theorem kernel_reads {α : Type} [CommRing α] [Star α] (PS nr rows depth cols : Nat) (hPS : 0 < PS)
    (hnr : nr = 2 ∨ nr = 4) (cj : ei_conj_helper) (res : Buf α) (rs : Int) (hrs : (rows : Int) ≤ rs)
    (A A2 memB memB2 : Buf α) (strideA strideB oA oB : Int) (uBo : Option Int)
    (hscr : ∀ k j : Nat, k < depth → j < cols →
      (rhsAddr nr cols (gebp_stride strideB depth) oB k j < gebp_scratch uBo (gebp_stride strideB depth) nr PS ∨
        gebp_scratch uBo (gebp_stride strideB depth) nr PS + (depth : Int) * nr * PS
          ≤ rhsAddr nr cols (gebp_stride strideB depth) oB k j))
    (hA : ∀ i k : Nat, i < rows → k < depth →
      A (lhsAddr ((2 * PS : Nat) : Int) PS rows (gebp_stride strideA depth) oA i k)
        = A2 (lhsAddr ((2 * PS : Nat) : Int) PS rows (gebp_stride strideA depth) oA i k))
    (hB : ∀ k j : Nat, k < depth → j < cols →
      memB (rhsAddr nr cols (gebp_stride strideB depth) oB k j)
        = memB2 (rhsAddr nr cols (gebp_stride strideB depth) oB k j)) :
    (ei_gebp_kernel ((2 * PS : Nat) : Int) nr PS cj res rs A memB rows depth cols strideA strideB oA oB uBo).1
      = (ei_gebp_kernel ((2 * PS : Nat) : Int) nr PS cj res rs A2 memB2 rows depth cols strideA strideB
          oA oB uBo).1 := by
  rw [kernel_spec PS nr rows depth cols hPS hnr cj res rs hrs A memB strideA strideB oA oB uBo hscr,
    kernel_spec PS nr rows depth cols hPS hnr cj res rs hrs A2 memB2 strideA strideB oA oB uBo hscr]
  apply addRect_congr
  intro i j hi0 hi hj0 hj
  unfold gebpDot
  apply Finset.sum_congr rfl
  intro k hk
  have hk' : k < depth := by simpa using hk
  have h1 := hA i.toNat k (by omega) hk'
  have h2 := hB k j.toNat hk' (by omega)
  rw [Int.toNat_of_nonneg hi0] at h1
  rw [Int.toNat_of_nonneg hj0] at h2
  rw [h1, h2]

/-- The left packer is its three loops run between the band boundaries `pack_lhs_bands`: full tiles up to
the first boundary, the partial tile when the remainder holds a packet, single rows from the second
boundary on. -/
theorem pack_lhs_by_bands {α : Type} [Star α] (mr PacketSize : Int) ( IsComplex Conjugate PanelMode : Bool)
    (blockA : Buf α) (lhs : Int → Int → α) (depth rows stride offset : Int) :
    ei_gemm_pack_lhs mr PacketSize IsComplex Conjugate PanelMode blockA lhs depth rows stride offset =
      (forRange (pack_lhs_bands mr PacketSize rows).2 rows 1).foldl
        (pack_lhs_row (ei_conj_if (IsComplex && Conjugate)) lhs PanelMode depth stride offset)
        (if rows - (pack_lhs_bands mr PacketSize rows).1 ≥ PacketSize then
          pack_lhs_tile (ei_conj_if (IsComplex && Conjugate)) lhs PanelMode PacketSize depth stride offset
            ((forRange 0 (pack_lhs_bands mr PacketSize rows).1 mr).foldl
              (pack_lhs_tile (ei_conj_if (IsComplex && Conjugate)) lhs PanelMode mr depth stride offset)
              { block := blockA, count := 0, log := [] })
            (pack_lhs_bands mr PacketSize rows).1
         else
          (forRange 0 (pack_lhs_bands mr PacketSize rows).1 mr).foldl
            (pack_lhs_tile (ei_conj_if (IsComplex && Conjugate)) lhs PanelMode mr depth stride offset)
            { block := blockA, count := 0, log := [] }) := by
  unfold ei_gemm_pack_lhs pack_lhs_bands
  simp only []
  by_cases h : rows - rows.tdiv mr * mr ≥ PacketSize
  · rw [if_pos h, if_pos h, if_pos h]
  · rw [if_neg h, if_neg h, if_neg h]

/-- The kernel is its two loops over the columns, whose bodies run the three row bands between the
boundaries `gebp_peeled_mc` and `gebp_peeled_mc2`. -/
theorem kernel_by_bands {α : Type} [Zero α] [Add α] [Mul α] [Star α] (mr nr PacketSize : Int)
    (cj : ei_conj_helper) (res : Buf α) (resStride : Int) (blockA memB : Buf α)
    (rows depth cols strideA strideB offsetA offsetB : Int) (unpackedB : Option Int) :
    ei_gebp_kernel mr nr PacketSize cj res resStride blockA memB rows depth cols strideA strideB offsetA
        offsetB unpackedB =
      (forRange (cols.tdiv nr * nr) cols 1).foldl
        (gebp_col_single cj mr PacketSize resStride blockA rows depth (gebp_stride strideA depth)
          (gebp_stride strideB depth) offsetA offsetB (gebp_peeled_mc mr rows)
          (gebp_peeled_mc2 mr PacketSize rows) (gebp_scratch unpackedB (gebp_stride strideB depth) nr PacketSize))
        ((forRange 0 (cols.tdiv nr * nr) nr).foldl
          (gebp_col_tile cj mr nr PacketSize resStride blockA rows depth (gebp_stride strideA depth)
            (gebp_stride strideB depth) offsetA offsetB (gebp_peeled_mc mr rows)
            (gebp_peeled_mc2 mr PacketSize rows) (depth.tdiv 4 * 4)
            (gebp_scratch unpackedB (gebp_stride strideB depth) nr PacketSize)) (res, memB)) := by
  unfold ei_gebp_kernel gebp_stride gebp_scratch gebp_peeled_mc2 gebp_peeled_mc
  cases unpackedB <;> rfl

/-- C24. Packer and kernel use the same three-band row tiling. For `mr = 2 * PacketSize`, `nr` 2 or 4, and
the kernel given the stride and offset the packers used: `ei_gemm_pack_lhs` is its three loops run between
the boundaries `pack_lhs_bands`, `ei_gebp_kernel` is its column loops run with the row boundaries
`gebp_peeled_mc` and `gebp_peeled_mc2`, and these boundaries are equal; for every `i < rows`, `k < depth`
the index `lhsAddr` is the one of the claim for the band of `i` (full tile, partial tile, single row), the
packer stored the entry `(i,k)` at this index and at no other, and the packed buffer holds the (conjugated)
entry there; likewise `rhsAddr` is where `ei_gemm_pack_rhs` stored the entry `(k,j)` and the buffer holds
`alpha` times the entry there; and for any contents of the two buffers the kernel adds to the result entry
`(i,j)` the sum over `k` of the products of the left value at index `lhsAddr i k` and the right value at
index `rhsAddr k j`, so these are the indices the kernel reads for `(i,k)` and `(k,j)`, and the result
depends on the two buffers through the entries at these indices only. -/
theorem gebp_pack_same_tiling {α : Type} [CommRing α] [Star α] [DecidableEq α]
    (PacketSize nr rows depth cols : Nat) (mr : Int) (hPS : 0 < PacketSize) (hmr : mr = 2 * (PacketSize : Int))
    (hnr : nr = 2 ∨ nr = 4) ( IsComplex Conjugate PanelMode : Bool) (order : StorageOrder)
    (blockA blockB : Buf α) (lhs : Int → Int → α) (rhs : Buf α) (rhsStride : Int) (alpha : α)
    (stride offset strideA strideB offsetA offsetB : Int)
    (hsA : gebp_stride strideA depth = if PanelMode then stride else depth)
    (hsB : gebp_stride strideB depth = if PanelMode then stride else depth)
    (hoA : offsetA = if PanelMode then offset else 0) (hoB : offsetB = if PanelMode then offset else 0) :
    pack_lhs_bands mr PacketSize rows = (gebp_peeled_mc mr rows, gebp_peeled_mc2 mr PacketSize rows) ∧
    (∀ i k : Nat, i < rows → k < depth →
      lhsAddr mr PacketSize rows (gebp_stride strideA depth) offsetA i k =
        (if (i : Int) < gebp_peeled_mc mr rows then
          ((i : Int) / mr * mr) * gebp_stride strideA depth + offsetA * mr + k * mr + (i : Int) % mr
        else if (i : Int) < gebp_peeled_mc2 mr PacketSize rows then
          gebp_peeled_mc mr rows * gebp_stride strideA depth + offsetA * PacketSize + k * PacketSize
            + ((i : Int) - gebp_peeled_mc mr rows)
        else (i : Int) * gebp_stride strideA depth + offsetA + k) ∧
      ((lhsAddr mr PacketSize rows (gebp_stride strideA depth) offsetA i k, (i : Int), (k : Int)) : PackEvent)
        ∈ (ei_gemm_pack_lhs mr PacketSize IsComplex Conjugate PanelMode blockA lhs depth rows stride offset).log ∧
      (∀ e ∈ (ei_gemm_pack_lhs mr PacketSize IsComplex Conjugate PanelMode blockA lhs depth rows stride
          offset).log,
        e.2.1 = (i : Int) → e.2.2 = (k : Int) →
          e.1 = lhsAddr mr PacketSize rows (gebp_stride strideA depth) offsetA i k)) ∧
    (∀ k j : Nat, k < depth → j < cols →
      rhsAddr nr cols (gebp_stride strideB depth) offsetB k j =
        (if (j : Int) < (cols : Int).tdiv nr * nr then
          ((j : Int) / nr * nr) * gebp_stride strideB depth + offsetB * nr + k * nr + (j : Int) % nr
        else (j : Int) * gebp_stride strideB depth + offsetB + k) ∧
      ((rhsAddr nr cols (gebp_stride strideB depth) offsetB k j, (k : Int), (j : Int)) : PackEvent)
        ∈ (ei_gemm_pack_rhs order nr PanelMode blockB rhs rhsStride alpha depth cols stride offset).log ∧
      (∀ e ∈ (ei_gemm_pack_rhs order nr PanelMode blockB rhs rhsStride alpha depth cols stride offset).log,
        e.2.1 = (k : Int) → e.2.2 = (j : Int) →
          e.1 = rhsAddr nr cols (gebp_stride strideB depth) offsetB k j)) ∧
    (∀ (cj : ei_conj_helper) (res : Buf α) (resStride : Int) (A A2 memB memB2 : Buf α)
        (unpackedB : Option Int), (rows : Int) ≤ resStride →
      (∀ k j : Nat, k < depth → j < cols →
        (rhsAddr nr cols (gebp_stride strideB depth) offsetB k j
            < gebp_scratch unpackedB (gebp_stride strideB depth) nr PacketSize ∨
          gebp_scratch unpackedB (gebp_stride strideB depth) nr PacketSize + (depth : Int) * nr * PacketSize
            ≤ rhsAddr nr cols (gebp_stride strideB depth) offsetB k j)) →
      (∀ i k : Nat, i < rows → k < depth →
        A (lhsAddr mr PacketSize rows (gebp_stride strideA depth) offsetA i k)
          = A2 (lhsAddr mr PacketSize rows (gebp_stride strideA depth) offsetA i k)) →
      (∀ k j : Nat, k < depth → j < cols →
        memB (rhsAddr nr cols (gebp_stride strideB depth) offsetB k j)
          = memB2 (rhsAddr nr cols (gebp_stride strideB depth) offsetB k j)) →
      (ei_gebp_kernel mr nr PacketSize cj res resStride A memB rows depth cols strideA strideB offsetA
          offsetB unpackedB).1
        = (ei_gebp_kernel mr nr PacketSize cj res resStride A2 memB2 rows depth cols strideA strideB offsetA
          offsetB unpackedB).1) ∧
    (ei_gemm_pack_lhs mr PacketSize IsComplex Conjugate PanelMode blockA lhs depth rows stride offset =
      (forRange (pack_lhs_bands mr PacketSize rows).2 rows 1).foldl
        (pack_lhs_row (ei_conj_if (IsComplex && Conjugate)) lhs PanelMode depth stride offset)
        (if (rows : Int) - (pack_lhs_bands mr PacketSize rows).1 ≥ PacketSize then
          pack_lhs_tile (ei_conj_if (IsComplex && Conjugate)) lhs PanelMode PacketSize depth stride offset
            ((forRange 0 (pack_lhs_bands mr PacketSize rows).1 mr).foldl
              (pack_lhs_tile (ei_conj_if (IsComplex && Conjugate)) lhs PanelMode mr depth stride offset)
              { block := blockA, count := 0, log := [] })
            (pack_lhs_bands mr PacketSize rows).1
         else
          (forRange 0 (pack_lhs_bands mr PacketSize rows).1 mr).foldl
            (pack_lhs_tile (ei_conj_if (IsComplex && Conjugate)) lhs PanelMode mr depth stride offset)
            { block := blockA, count := 0, log := [] })) ∧
    (∀ (cj : ei_conj_helper) (res : Buf α) (resStride : Int) (A memB : Buf α) (unpackedB : Option Int),
      ei_gebp_kernel mr nr PacketSize cj res resStride A memB rows depth cols strideA strideB offsetA
          offsetB unpackedB =
        (forRange ((cols : Int).tdiv nr * nr) cols 1).foldl
          (gebp_col_single cj mr PacketSize resStride A rows depth (gebp_stride strideA depth)
            (gebp_stride strideB depth) offsetA offsetB (gebp_peeled_mc mr rows)
            (gebp_peeled_mc2 mr PacketSize rows)
            (gebp_scratch unpackedB (gebp_stride strideB depth) nr PacketSize))
          ((forRange 0 ((cols : Int).tdiv nr * nr) nr).foldl
            (gebp_col_tile cj mr nr PacketSize resStride A rows depth (gebp_stride strideA depth)
              (gebp_stride strideB depth) offsetA offsetB (gebp_peeled_mc mr rows)
              (gebp_peeled_mc2 mr PacketSize rows) ((depth : Int).tdiv 4 * 4)
              (gebp_scratch unpackedB (gebp_stride strideB depth) nr PacketSize)) (res, memB))) ∧
    (∀ (cj : ei_conj_helper) (res : Buf α) (resStride : Int) (A memB : Buf α) (unpackedB : Option Int),
      (rows : Int) ≤ resStride →
      (∀ k j : Nat, k < depth → j < cols →
        (rhsAddr nr cols (gebp_stride strideB depth) offsetB k j
            < gebp_scratch unpackedB (gebp_stride strideB depth) nr PacketSize ∨
          gebp_scratch unpackedB (gebp_stride strideB depth) nr PacketSize + (depth : Int) * nr * PacketSize
            ≤ rhsAddr nr cols (gebp_stride strideB depth) offsetB k j)) →
      ∀ i j : Nat, i < rows → j < cols →
        (ei_gebp_kernel mr nr PacketSize cj res resStride A memB rows depth cols strideA strideB offsetA
            offsetB unpackedB).1 ((j : Int) * resStride + i)
          = res ((j : Int) * resStride + i) + ∑ k in Finset.range depth,
              cj.pmul (A (lhsAddr mr PacketSize rows (gebp_stride strideA depth) offsetA i k))
                (memB (rhsAddr nr cols (gebp_stride strideB depth) offsetB k j))) ∧
    ((PanelMode = true → 0 ≤ offset ∧ offset + (depth : Int) ≤ stride) →
      (∀ i k : Nat, i < rows → k < depth →
        (ei_gemm_pack_lhs mr PacketSize IsComplex Conjugate PanelMode blockA lhs depth rows stride
            offset).block (lhsAddr mr PacketSize rows (gebp_stride strideA depth) offsetA i k)
          = ei_conj_if (IsComplex && Conjugate) (lhs i k)) ∧
      (∀ k j : Nat, k < depth → j < cols →
        (ei_gemm_pack_rhs order nr PanelMode blockB rhs rhsStride alpha depth cols stride offset).block
            (rhsAddr nr cols (gebp_stride strideB depth) offsetB k j)
          = alpha * rhsCoeff order rhs rhsStride k j)) := by
  have hdec := pack_lhs_by_bands mr PacketSize IsComplex Conjugate PanelMode blockA lhs depth rows stride
    offset
  have hker := fun (cj : ei_conj_helper) (res : Buf α) (resStride : Int) (A memB : Buf α)
      (unpackedB : Option Int) =>
    kernel_by_bands mr nr PacketSize cj res resStride A memB rows depth cols strideA strideB offsetA
      offsetB unpackedB
  subst hmr hoA hoB
  rw [two_mul_cast] at hdec hker ⊢
  have hmr0 : 0 < 2 * PacketSize := by omega
  have hnr0 : 0 < nr := by omega
  have hnr2 : 2 ≤ nr := by omega
  have hL := pack_lhs_closed (α := α) (2 * PacketSize) PacketSize rows depth hmr0 IsComplex Conjugate PanelMode
    blockA lhs stride offset
  have hR := pack_rhs_closed (α := α) order nr cols depth hnr0 PanelMode blockB rhs rhsStride alpha stride offset
  refine ⟨?_, ?_, ?_, ?_, hdec, hker, ?_, ?_⟩
  · unfold pack_lhs_bands gebp_peeled_mc2 gebp_peeled_mc
    simp only []
    by_cases h : (rows : Int) - (rows : Int).tdiv ((2 * PacketSize : Nat) : Int) * ((2 * PacketSize : Nat) : Int)
        ≥ (PacketSize : Int)
    · rw [if_pos h, if_pos h]
    · rw [if_neg h, if_neg h, add_zero]
  · intro i k hi hk
    rw [hL, hsA]
    refine ⟨lhsAddr_bands _ _ _ _ _ _ _, ?_, ?_⟩
    · exact lhsLog_addr_mem (2 * PacketSize) PacketSize rows depth hmr0 _ _ i k hi hk
    · intro e he h1 h2
      have := lhsLog_addr_of_mem (2 * PacketSize) PacketSize rows depth hmr0 _ _ e he
      rw [h1, h2] at this
      exact this
  · intro k j hk hj
    rw [hR, hsB]
    refine ⟨?_, ?_, ?_⟩
    · unfold rhsAddr
      rfl
    · exact rhsLog_addr_mem nr cols depth hnr _ _ k j hk hj
    · intro e he h1 h2
      have := rhsLog_addr_of_mem nr cols depth hnr _ _ e he
      rw [h1, h2] at this
      exact this
  · intro cj res rs A A2 memB memB2 uBo hrs hscr hA hB
    exact kernel_reads PacketSize nr rows depth cols hPS hnr cj res rs hrs A A2 memB memB2 strideA strideB
      _ _ uBo hscr hA hB
  · intro cj res rs A memB uBo hrs hscr i j hi hj
    rw [kernel_spec PacketSize nr rows depth cols hPS hnr cj res rs hrs A memB strideA strideB _ _ uBo hscr,
      addRect_apply rs _ rows cols res i j (by positivity) (by exact_mod_cast hi) hrs (by positivity)
        (by exact_mod_cast hj)]
    unfold gebpDot
    rw [Int.toNat_ofNat]
  · intro hpm
    have h0 : 0 ≤ (if PanelMode then offset else 0) := by
      cases PanelMode
      · simp
      · simpa using (hpm rfl).1
    have h1 : (if PanelMode then offset else 0) + (depth : Int) ≤ (if PanelMode then stride else depth) := by
      cases PanelMode
      · simp
      · simpa using (hpm rfl).2
    refine ⟨?_, ?_⟩
    · intro i k hi hk
      rw [hsA]
      exact pack_lhs_block_at (2 * PacketSize) PacketSize rows depth hmr0 IsComplex Conjugate PanelMode
        blockA lhs stride offset hpm _
        (lhsLog_addr_mem (2 * PacketSize) PacketSize rows depth hmr0 _ _ i k hi hk)
    · intro k j hk hj
      rw [hR, hsB]
      exact replay_rhsLog_at (fun k j => alpha * rhsCoeff order rhs rhsStride k j) nr cols depth hnr2 _ _
        h0 h1 blockB _ (rhsLog_addr_mem nr cols depth hnr _ _ k j hk hj)

theorem gebp_pack_same_tiling_witness :
    (0 < 2 ∧ (4 : Int) = 2 * ((2 : Nat) : Int) ∧ ((2 : Nat) = 2 ∨ (2 : Nat) = 4) ∧
      gebp_stride 5 ((3 : Nat) : Int) = (if true then 5 else ((3 : Nat) : Int)) ∧
      (1 : Int) = (if true then 1 else 0)) ∧
    pack_lhs_bands 4 ((2 : Nat) : Int) ((7 : Nat) : Int) = (4, 6) ∧
    lhsAddr 4 ((2 : Nat) : Int) ((7 : Nat) : Int) (gebp_stride 5 ((3 : Nat) : Int)) 1 ((5 : Nat) : Int)
      ((2 : Nat) : Int) = 27 ∧
    ((lhsAddr 4 ((2 : Nat) : Int) ((7 : Nat) : Int) (gebp_stride 5 ((3 : Nat) : Int)) 1 ((5 : Nat) : Int)
        ((2 : Nat) : Int), ((5 : Nat) : Int), ((2 : Nat) : Int)) : PackEvent)
      ∈ (ei_gemm_pack_lhs 4 ((2 : Nat) : Int) false false true (fun _ => (0 : Int)) (fun i k => 10 * i + k)
          ((3 : Nat) : Int) ((7 : Nat) : Int) 5 1).log ∧
    (ei_gebp_kernel 4 ((2 : Nat) : Int) ((2 : Nat) : Int) ⟨false, false⟩ (fun _ => (0 : Int)) 7
        (fun q => q) (fun q => q + 1) ((7 : Nat) : Int) ((3 : Nat) : Int) ((3 : Nat) : Int)
        5 5 1 1 none).1 (((2 : Nat) : Int) * 7 + ((5 : Nat) : Int)) = 23 * 12 + 25 * 13 + 27 * 14 ∧
    (ei_gemm_pack_lhs 4 ((2 : Nat) : Int) false false true (fun _ => (0 : Int)) (fun i k => 10 * i + k)
        ((3 : Nat) : Int) ((7 : Nat) : Int) 5 1).block 27 = 52 :=
  ⟨⟨by decide, by decide, Or.inl rfl, by decide, by decide⟩,
    (gebp_pack_same_tiling 2 2 7 3 3 4 (by decide) (by decide) (Or.inl rfl) false false true
      StorageOrder.ColMajor (fun _ => (0 : Int)) (fun _ => 0) (fun i k => 10 * i + k) (fun q => q) 3 1
      5 1 5 5 1 1 (by decide) (by decide) (by decide) (by decide)).1.trans (by decide),
    by decide,
    ((gebp_pack_same_tiling 2 2 7 3 3 4 (by decide) (by decide) (Or.inl rfl) false false true
      StorageOrder.ColMajor (fun _ => (0 : Int)) (fun _ => 0) (fun i k => 10 * i + k) (fun q => q) 3 1
      5 1 5 5 1 1 (by decide) (by decide) (by decide) (by decide)).2.1 5 2 (by decide) (by decide)).2.1,
    ((gebp_pack_same_tiling 2 2 7 3 3 4 (by decide) (by decide) (Or.inl rfl) false false true
      StorageOrder.ColMajor (fun _ => (0 : Int)) (fun _ => 0) (fun i k => 10 * i + k) (fun q => q) 3 1
      5 1 5 5 1 1 (by decide) (by decide) (by decide) (by decide)).2.2.2.2.2.2.1 ⟨false, false⟩
      (fun _ => (0 : Int)) 7 (fun q => q) (fun q => q + 1) none (by decide)
      (by intro k j hk hj; interval_cases k <;> interval_cases j <;> decide) 5 2 (by decide)
      (by decide)).trans (by decide),
    by decide⟩

/-- C25, counterexample. With `PacketSize = 1` and the tile height `mr = 3`, a positive multiple of
`PacketSize`, on a 3 x 1 left operand with entries 1, 2, 3 packed by `ei_gemm_pack_lhs` and a 1 x 2 right
operand of ones, the kernel updates rows 0 and 1 of the only full row tile and leaves row 2 at its old value
0, where old result + left * right is 3. -/
theorem gebp_tile_height_three :
    ((3 : Int) = 3 * 1 ∧ (3 : Int).tdiv 3 * 3 = 3) ∧
    (ei_gebp_kernel 3 2 1 ⟨false, false⟩ (fun _ => (0 : Int)) 3
        (ei_gemm_pack_lhs 3 1 false false false (fun _ => (0 : Int)) (fun i k => i + 1) 1 3 0 0).block
        (ei_gemm_pack_rhs StorageOrder.ColMajor 2 false (fun _ => (0 : Int)) (fun _ => 1) 1 1 1 2 0 0).block
        3 1 2 (-1) (-1) 0 0 none).1 2 = 0 ∧
    (0 : Int) + ((fun i k => i + 1 : Int → Int → Int) 2 0) * ((fun _ => 1 : Int → Int) (0 * 1 + 0)) = 3 ∧
    (ei_gebp_kernel 3 2 1 ⟨false, false⟩ (fun _ => (0 : Int)) 3
        (ei_gemm_pack_lhs 3 1 false false false (fun _ => (0 : Int)) (fun i k => i + 1) 1 3 0 0).block
        (ei_gemm_pack_rhs StorageOrder.ColMajor 2 false (fun _ => (0 : Int)) (fun _ => 1) 1 1 1 2 0 0).block
        3 1 2 (-1) (-1) 0 0 none).1 1 = 2 := by
  decide

/-- C26, counterexample. With the tile width `nr = 3`, `ei_gemm_pack_rhs` on a right operand of depth 2 with
3 columns stores two values per depth index and moves its cursor by 3: the entries of column 2 are never
stored and the indices 2 and 5 keep their old value. With `nr = 1` on 1 column it stores two values per
depth index and moves its cursor by 1: index 1 is written for depth 0 (from column 1) and again for
depth 1. -/
theorem pack_rhs_tile_width_three :
    ((ei_gemm_pack_rhs StorageOrder.ColMajor 3 false (fun _ => (0 : Int)) (fun q => q + 1) 2 1 2 3 0 0).log
        = [(0, 0, 0), (1, 0, 1), (3, 1, 0), (4, 1, 1)] ∧
      (List.range 6).map (fun (q : Nat) =>
        (ei_gemm_pack_rhs StorageOrder.ColMajor 3 false (fun _ => (0 : Int)) (fun q => q + 1) 2 1 2 3 0 0).block q)
        = [1, 3, 0, 2, 4, 0]) ∧
    (ei_gemm_pack_rhs StorageOrder.ColMajor 1 false (fun _ => (0 : Int)) (fun q => q + 1) 2 1 2 1 0 0).log
        = [(0, 0, 0), (1, 0, 1), (1, 1, 0), (2, 1, 1)] := by
  decide

/-- C25, amended. For the tile height `mr = 2 * PacketSize` (`nr` 2 or 4, `resStride ≥ rows`, the scratch
area apart from the entries of `blockB` that are read), `ei_gebp_kernel` updates all `mr` rows of every full
row tile: for the tile `t < rows / mr`, every `w < mr` and every column `j < cols`, the result entry of row
`t * mr + w` becomes its old value plus the sum over `k < depth` of the product of the left entry at
`blockA[(t*mr)*strideA + offsetA*mr + k*mr + w]` with the right entry of `(k, j)`. -/
theorem gebp_full_tile_rows {α : Type} [CommRing α] [Star α]
    (PacketSize nr rows depth cols : Nat) (mr : Int) (hPS : 0 < PacketSize) (hmr : mr = 2 * (PacketSize : Int))
    (hnr : nr = 2 ∨ nr = 4) (cj : ei_conj_helper) (res : Buf α) (resStride : Int)
    (hrs : (rows : Int) ≤ resStride) (blockA memB : Buf α) (strideA strideB offsetA offsetB : Int)
    (unpackedB : Option Int)
    (hscr : ∀ k j : Nat, k < depth → j < cols →
      (rhsAddr nr cols (gebp_stride strideB depth) offsetB k j
          < gebp_scratch unpackedB (gebp_stride strideB depth) nr PacketSize ∨
        gebp_scratch unpackedB (gebp_stride strideB depth) nr PacketSize + (depth : Int) * nr * PacketSize
          ≤ rhsAddr nr cols (gebp_stride strideB depth) offsetB k j))
    (t w j : Nat) (ht : t < rows / (2 * PacketSize)) (hw : w < 2 * PacketSize) (hj : j < cols) :
    (ei_gebp_kernel mr nr PacketSize cj res resStride blockA memB rows depth cols strideA strideB offsetA
        offsetB unpackedB).1 ((j : Int) * resStride + ((t : Int) * mr + w))
      = res ((j : Int) * resStride + ((t : Int) * mr + w))
        + ∑ k in Finset.range depth,
            cj.pmul (blockA (((t : Int) * mr) * gebp_stride strideA depth + offsetA * mr + (k : Int) * mr + w))
              (memB (rhsAddr nr cols (gebp_stride strideB depth) offsetB k j)) := by
  subst hmr
  rw [two_mul_cast]
  have hmr0 : 0 < 2 * PacketSize := by omega
  have hle : rows / (2 * PacketSize) * (2 * PacketSize) ≤ rows := Nat.div_mul_le_self _ _
  have hlt : t * (2 * PacketSize) + w < rows := by
    have : (t + 1) * (2 * PacketSize) ≤ rows / (2 * PacketSize) * (2 * PacketSize) :=
      Nat.mul_le_mul_right _ ht
    have e : (t + 1) * (2 * PacketSize) = t * (2 * PacketSize) + 2 * PacketSize := by ring
    omega
  have hi0 : (0 : Int) ≤ (t : Int) * ((2 * PacketSize : Nat) : Int) + w := by positivity
  have hi1 : (t : Int) * ((2 * PacketSize : Nat) : Int) + w < rows := by exact_mod_cast hlt
  rw [kernel_spec PacketSize nr rows depth cols hPS hnr cj res resStride hrs blockA memB strideA strideB
    offsetA offsetB unpackedB hscr,
    addRect_apply resStride _ rows cols res _ j hi0 hi1 hrs (by positivity) (by exact_mod_cast hj)]
  congr 1
  unfold gebpDot
  rw [Int.toNat_ofNat]
  apply Finset.sum_congr rfl
  intro k _
  rw [lhsAddr_full (2 * PacketSize) PacketSize rows hmr0 _ _ t ht _ k (by omega) (by omega)]
  congr 2
  ring

theorem gebp_full_tile_rows_witness :
    (0 < 2 ∧ (4 : Int) = 2 * ((2 : Nat) : Int) ∧ ((2 : Nat) = 2 ∨ (2 : Nat) = 4) ∧ (5 : Int) ≤ 5 ∧
      1 < 9 / (2 * 2) ∧ 3 < 2 * 2 ∧ 1 < 2) ∧
    (ei_gebp_kernel 4 ((2 : Nat) : Int) ((2 : Nat) : Int) ⟨false, false⟩ (fun q => q) 9
        (fun q => q + 1) (fun q => 2 * q + 1) ((9 : Nat) : Int) ((1 : Nat) : Int) ((2 : Nat) : Int)
        (-1) (-1) 0 0 none).1 (((1 : Nat) : Int) * 9 + (((1 : Nat) : Int) * 4 + ((3 : Nat) : Int))) = 40 :=
  ⟨⟨by decide, by decide, Or.inl rfl, by decide, by decide, by decide, by decide⟩,
    (gebp_full_tile_rows 2 2 9 1 2 4 (by decide) (by decide) (Or.inl rfl) ⟨false, false⟩ (fun q => q) 9
      (by decide) (fun q => q + 1) (fun q => 2 * q + 1) (-1) (-1) 0 0 none
      (by intro k j hk hj; right; have : k = 0 := by omega
          subst this; interval_cases j <;> decide)
      1 3 1 (by decide) (by decide) (by decide)).trans (by decide)⟩

/-- C26, amended. For the tile widths `nr = 2` and `nr = 4`, `ei_gemm_pack_rhs` stores exactly the `nr`
source values of each depth index of each full column tile: the value of column `t * nr + x` at depth `k`
goes to index `(t*nr)*stride + nr*offset + k*nr + x` (stride `depth` and offset 0 when not in panel mode),
every store to a column of a full tile is one of these, and with `0 ≤ offset`, `offset + depth ≤ stride` the
stores go to strictly increasing indices, so none falls on the next depth index; and `ei_gebp_kernel`
(`mr = 2 * PacketSize`) updates all `nr` result columns of the tile. -/
theorem pack_rhs_tile_width {α : Type} [CommRing α] [Star α] [DecidableEq α]
    (PacketSize nr rows depth cols : Nat) (hPS : 0 < PacketSize) (hnr : nr = 2 ∨ nr = 4)
    ( PanelMode : Bool) (order : StorageOrder) (blockB rhs : Buf α) (rhsStride : Int) (alpha : α)
    (stride offset : Int) :
    (∀ t k x : Nat, t < cols / nr → k < depth → x < nr →
      ((((t * nr : Nat) : Int) * (if PanelMode then stride else depth) + nr * (if PanelMode then offset else 0)
          + (k : Int) * nr + x, (k : Int), ((t * nr : Nat) : Int) + x) : PackEvent)
        ∈ (ei_gemm_pack_rhs order nr PanelMode blockB rhs rhsStride alpha depth cols stride offset).log) ∧
    (∀ e ∈ (ei_gemm_pack_rhs order nr PanelMode blockB rhs rhsStride alpha depth cols stride offset).log,
      e.2.2 < ((cols / nr * nr : Nat) : Int) →
      ∃ t k x : Nat, t < cols / nr ∧ k < depth ∧ x < nr ∧
        e = (((t * nr : Nat) : Int) * (if PanelMode then stride else depth)
              + nr * (if PanelMode then offset else 0) + (k : Int) * nr + x, (k : Int),
             ((t * nr : Nat) : Int) + x)) ∧
    ((PanelMode = true → 0 ≤ offset ∧ offset + depth ≤ stride) →
      ((ei_gemm_pack_rhs order nr PanelMode blockB rhs rhsStride alpha depth cols stride offset).log.map
        (fun e => e.1)).Pairwise (fun a b => a < b)) ∧
    (∀ (cj : ei_conj_helper) (res : Buf α) (resStride : Int) (blockA memB : Buf α)
        (strideA strideB offsetA offsetB : Int) (unpackedB : Option Int), (rows : Int) ≤ resStride →
      (∀ k j : Nat, k < depth → j < cols →
        (rhsAddr nr cols (gebp_stride strideB depth) offsetB k j
            < gebp_scratch unpackedB (gebp_stride strideB depth) nr PacketSize ∨
          gebp_scratch unpackedB (gebp_stride strideB depth) nr PacketSize + (depth : Int) * nr * PacketSize
            ≤ rhsAddr nr cols (gebp_stride strideB depth) offsetB k j)) →
      ∀ t x i : Nat, t < cols / nr → x < nr → i < rows →
        (ei_gebp_kernel ((2 * PacketSize : Nat) : Int) nr PacketSize cj res resStride blockA memB rows depth
            cols strideA strideB offsetA offsetB unpackedB).1 ((((t * nr : Nat) : Int) + x) * resStride + i)
          = res ((((t * nr : Nat) : Int) + x) * resStride + i)
            + ∑ k in Finset.range depth,
                cj.pmul (blockA (lhsAddr ((2 * PacketSize : Nat) : Int) PacketSize rows
                    (gebp_stride strideA depth) offsetA i k))
                  (memB (((t * nr : Nat) : Int) * gebp_stride strideB depth + offsetB * nr
                    + (k : Int) * nr + x))) := by
  have hnr0 : 0 < nr := by omega
  have hR := pack_rhs_closed (α := α) order nr cols depth hnr0 PanelMode blockB rhs rhsStride alpha stride offset
  rw [hR]
  simp only []
  refine ⟨?_, ?_, ?_, ?_⟩
  · intro t k x ht hk hx
    apply (mem_rhsLog nr cols depth _ _ _).2
    left
    refine ⟨t, ht, k, hk, x, ?_, rfl⟩
    rcases hnr with h | h
    · left; omega
    · right; exact ⟨by exact_mod_cast h, by omega⟩
  · intro e he hcol
    rcases (mem_rhsLog nr cols depth _ _ e).1 he with ⟨t, ht, k, hk, x, hx, rfl⟩ | ⟨t, ht, k, hk, rfl⟩
    · refine ⟨t, k, x, ht, hk, ?_, rfl⟩
      rcases hx with h | ⟨h4, h⟩
      · omega
      · have : nr = 4 := by exact_mod_cast h4
        omega
    · simp only at hcol
      push_cast at hcol
      omega
  · intro hpm
    refine (rhsLog_increasing nr cols depth (by omega) _ _ ?_ ?_).1
    · cases PanelMode
      · simp
      · simpa using (hpm rfl).1
    · cases PanelMode
      · simp
      · simpa using (hpm rfl).2
  · intro cj res rs A memB sA sB oA oB uBo hrs hscr t x i ht hx hi
    have hle : cols / nr * nr ≤ cols := Nat.div_mul_le_self _ _
    have hlt : t * nr + x < cols := by
      have : (t + 1) * nr ≤ cols / nr * nr := Nat.mul_le_mul_right _ ht
      have e : (t + 1) * nr = t * nr + nr := by ring
      omega
    have hj0 : (0 : Int) ≤ ((t * nr : Nat) : Int) + x := by positivity
    have hj1 : ((t * nr : Nat) : Int) + x < cols := by exact_mod_cast hlt
    rw [kernel_spec PacketSize nr rows depth cols hPS hnr cj res rs hrs A memB sA sB oA oB uBo hscr,
      addRect_apply rs _ rows cols res i _ (by positivity) (by exact_mod_cast hi) hrs hj0 hj1]
    congr 1
    unfold gebpDot
    rw [Int.toNat_ofNat]
    apply Finset.sum_congr rfl
    intro k _
    rw [rhsAddr_tile nr cols hnr0 _ _ t ht _ k (by push_cast; omega) (by push_cast; omega)]
    congr 2
    push_cast
    ring

theorem pack_rhs_tile_width_witness :
    (0 < 1 ∧ ((4 : Nat) = 2 ∨ (4 : Nat) = 4) ∧ 0 < 5 / 4 ∧ 1 < 2 ∧ 3 < 4) ∧
    (((((0 * 4 : Nat) : Int) * (if false then 0 else ((2 : Nat) : Int)) + ((4 : Nat) : Int) * (if false then 0 else 0)
        + ((1 : Nat) : Int) * ((4 : Nat) : Int) + ((3 : Nat) : Int), ((1 : Nat) : Int),
        ((0 * 4 : Nat) : Int) + ((3 : Nat) : Int)) : PackEvent)
      ∈ (ei_gemm_pack_rhs StorageOrder.RowMajor ((4 : Nat) : Int) false (fun _ => (0 : Int)) (fun q => q) 5 1
          ((2 : Nat) : Int) ((5 : Nat) : Int) 0 0).log) ∧
    (ei_gemm_pack_rhs StorageOrder.RowMajor ((4 : Nat) : Int) false (fun _ => (0 : Int)) (fun q => q) 5 1
        ((2 : Nat) : Int) ((5 : Nat) : Int) 0 0).block 7 = 8 :=
  ⟨⟨by decide, Or.inr rfl, by decide, by decide, by decide⟩,
    (pack_rhs_tile_width 1 4 3 2 5 (by decide) (Or.inr rfl) false StorageOrder.RowMajor (fun _ => (0 : Int))
      (fun q => q) 5 1 0 0).1 0 1 3 (by decide) (by decide) (by decide),
    by decide⟩

theorem pstore_frame_cell {α : Type} (PS : Int) (m : Buf α) (p : Int) (v : Packet α) (q base W off : Int)
    (hp : p = base + off) (h0 : 0 ≤ off) (h1 : off + PS ≤ W)
    (hq : ∀ w : Int, 0 ≤ w → w < W → q ≠ base + w) : ei_pstore PS m p v q = m q := by
  unfold ei_pstore
  rw [if_neg]
  rintro ⟨h2, h3⟩
  exact hq (q - base) (by omega) (by omega) (by ring)

theorem full_tile_frame {α : Type} [Zero α] [Add α] [Mul α] [Star α] (cj : ei_conj_helper)
    (mr nr PS rs : Int) (hPS : 0 ≤ PS) (hnr : nr = 2 ∨ nr = 4) (A U : Buf α)
    (uB depth pkc sA oA j2 : Int) (res : Buf α) (i q : Int)
    (hq : ∀ c w : Int, 0 ≤ c → c < nr → 0 ≤ w → w < 2 * PS → q ≠ (j2 + c) * rs + i + w) :
    gebp_full_tile cj mr nr PS rs A U uB depth pkc sA oA j2 res i q = res q := by
  unfold gebp_full_tile
  rcases hnr with h | h
  · subst h
    simp only [show ¬ ((2 : Int) = 4) by decide, if_false]
    rw [pstore_frame_cell PS _ _ _ q ((j2 + 1) * rs + i) (2 * PS) PS (by ring) hPS (by omega)
        (hq 1 · (by decide) (by decide)),
      pstore_frame_cell PS _ _ _ q ((j2 + 0) * rs + i) (2 * PS) PS (by ring) hPS (by omega)
        (hq 0 · (by decide) (by decide)),
      pstore_frame_cell PS _ _ _ q ((j2 + 1) * rs + i) (2 * PS) 0 (by ring) (le_refl _) (by omega)
        (hq 1 · (by decide) (by decide)),
      pstore_frame_cell PS _ _ _ q ((j2 + 0) * rs + i) (2 * PS) 0 (by ring) (le_refl _) (by omega)
        (hq 0 · (by decide) (by decide))]
  · subst h
    simp only [if_true]
    rw [pstore_frame_cell PS _ _ _ q ((j2 + 3) * rs + i) (2 * PS) PS (by ring) hPS (by omega)
        (hq 3 · (by decide) (by decide)),
      pstore_frame_cell PS _ _ _ q ((j2 + 2) * rs + i) (2 * PS) PS (by ring) hPS (by omega)
        (hq 2 · (by decide) (by decide)),
      pstore_frame_cell PS _ _ _ q ((j2 + 1) * rs + i) (2 * PS) PS (by ring) hPS (by omega)
        (hq 1 · (by decide) (by decide)),
      pstore_frame_cell PS _ _ _ q ((j2 + 0) * rs + i) (2 * PS) PS (by ring) hPS (by omega)
        (hq 0 · (by decide) (by decide)),
      pstore_frame_cell PS _ _ _ q ((j2 + 3) * rs + i) (2 * PS) 0 (by ring) (le_refl _) (by omega)
        (hq 3 · (by decide) (by decide)),
      pstore_frame_cell PS _ _ _ q ((j2 + 2) * rs + i) (2 * PS) 0 (by ring) (le_refl _) (by omega)
        (hq 2 · (by decide) (by decide)),
      pstore_frame_cell PS _ _ _ q ((j2 + 1) * rs + i) (2 * PS) 0 (by ring) (le_refl _) (by omega)
        (hq 1 · (by decide) (by decide)),
      pstore_frame_cell PS _ _ _ q ((j2 + 0) * rs + i) (2 * PS) 0 (by ring) (le_refl _) (by omega)
        (hq 0 · (by decide) (by decide))]

theorem partial_tile_frame {α : Type} [Zero α] [Add α] [Mul α] [Star α] (cj : ei_conj_helper)
    (nr PS rs : Int) (hnr : nr = 2 ∨ nr = 4) (A U : Buf α)
    (uB depth pkc sA oA j2 : Int) (res : Buf α) (i q : Int)
    (hq : ∀ c w : Int, 0 ≤ c → c < nr → 0 ≤ w → w < PS → q ≠ (j2 + c) * rs + i + w) :
    gebp_partial_tile cj nr PS rs A U uB depth pkc sA oA j2 res i q = res q := by
  unfold gebp_partial_tile
  rcases hnr with h | h
  · subst h
    simp only [show ¬ ((2 : Int) = 4) by decide, if_false]
    rw [pstore_frame_cell PS _ _ _ q ((j2 + 1) * rs + i) PS 0 (by ring) (le_refl _) (by omega)
        (hq 1 · (by decide) (by decide)),
      pstore_frame_cell PS _ _ _ q ((j2 + 0) * rs + i) PS 0 (by ring) (le_refl _) (by omega)
        (hq 0 · (by decide) (by decide))]
  · subst h
    simp only [if_true]
    rw [pstore_frame_cell PS _ _ _ q ((j2 + 3) * rs + i) PS 0 (by ring) (le_refl _) (by omega)
        (hq 3 · (by decide) (by decide)),
      pstore_frame_cell PS _ _ _ q ((j2 + 2) * rs + i) PS 0 (by ring) (le_refl _) (by omega)
        (hq 2 · (by decide) (by decide)),
      pstore_frame_cell PS _ _ _ q ((j2 + 1) * rs + i) PS 0 (by ring) (le_refl _) (by omega)
        (hq 1 · (by decide) (by decide)),
      pstore_frame_cell PS _ _ _ q ((j2 + 0) * rs + i) PS 0 (by ring) (le_refl _) (by omega)
        (hq 0 · (by decide) (by decide))]

theorem scalar_row_frame {α : Type} [Zero α] [Add α] [Mul α] [Star α] (cj : ei_conj_helper)
    (nr PS rs : Int) (hnr : nr = 2 ∨ nr = 4) (A U : Buf α)
    (uB depth sA oA j2 : Int) (res : Buf α) (i q : Int)
    (hq : ∀ c : Int, 0 ≤ c → c < nr → q ≠ (j2 + c) * rs + i) :
    gebp_scalar_row cj nr PS rs A U uB depth sA oA j2 res i q = res q := by
  unfold gebp_scalar_row
  rcases hnr with h | h
  · subst h
    simp only [show ¬ ((2 : Int) = 4) by decide, if_false]
    rw [Function.update_noteq (hq 1 (by decide) (by decide)),
      Function.update_noteq (hq 0 (by decide) (by decide))]
  · subst h
    simp only [if_true]
    rw [Function.update_noteq (hq 3 (by decide) (by decide)),
      Function.update_noteq (hq 2 (by decide) (by decide)),
      Function.update_noteq (hq 1 (by decide) (by decide)),
      Function.update_noteq (hq 0 (by decide) (by decide))]

theorem col_full_tile_frame {α : Type} [Add α] [Mul α] [Star α] (cj : ei_conj_helper)
    (mr PS rs : Int) (hPS : 0 ≤ PS) (A U : Buf α)
    (uB depth sA oA j2 : Int) (res : Buf α) (i q : Int)
    (hq : ∀ w : Int, 0 ≤ w → w < 2 * PS → q ≠ (j2 + 0) * rs + i + w) :
    gebp_col_full_tile cj mr PS rs A U uB depth sA oA j2 res i q = res q := by
  unfold gebp_col_full_tile
  rw [pstore_frame_cell PS _ _ _ q ((j2 + 0) * rs + i) (2 * PS) PS (by ring) hPS (by omega) hq,
    pstore_frame_cell PS _ _ _ q ((j2 + 0) * rs + i) (2 * PS) 0 (by ring) (le_refl _) (by omega) hq]

theorem col_partial_tile_frame {α : Type} [Add α] [Mul α] [Star α] (cj : ei_conj_helper)
    (PS rs : Int) (A U : Buf α)
    (uB depth sA oA j2 : Int) (res : Buf α) (i q : Int)
    (hq : ∀ w : Int, 0 ≤ w → w < PS → q ≠ (j2 + 0) * rs + i + w) :
    gebp_col_partial_tile cj PS rs A U uB depth sA oA j2 res i q = res q := by
  unfold gebp_col_partial_tile
  rw [pstore_frame_cell PS _ _ _ q ((j2 + 0) * rs + i) PS 0 (by ring) (le_refl _) (by omega) hq]

theorem col_scalar_row_frame {α : Type} [Zero α] [Add α] [Mul α] [Star α] (cj : ei_conj_helper)
    (PS rs : Int) (A U : Buf α)
    (uB depth sA oA j2 : Int) (res : Buf α) (i q : Int)
    (hq : q ≠ (j2 + 0) * rs + i) :
    gebp_col_scalar_row cj PS rs A U uB depth sA oA j2 res i q = res q := by
  unfold gebp_col_scalar_row
  rw [Function.update_noteq hq]

theorem foldl_frame {α β : Type} (L : List β) (step : Buf α → β → Buf α) (q : Int)
    (h : ∀ (r : Buf α) (x : β), x ∈ L → step r x q = r q) (r : Buf α) : L.foldl step r q = r q := by
  induction L generalizing r with
  | nil => rfl
  | cons x xs ih =>
    rw [List.foldl_cons, ih (fun r y hy => h r y (List.mem_cons_of_mem _ hy)), h r x (List.mem_cons_self _ _)]

/-- The rows visited by the three row bands of the kernel for `mr = 2 * PacketSize`: a full tile starts at
a row `i ≥ 0` with `i + mr ≤ rows`, the partial tile at `peeled_mc` with `peeled_mc + PacketSize ≤ rows`,
a single row is in `[0, rows)`. -/
theorem bands_frame {α : Type} (M PS rows : Nat) (hM : 0 < M) (q : Int)
    (full part scalar : Buf α → Int → Buf α)
    (hfull : ∀ (r : Buf α) (i : Int), 0 ≤ i → i + M ≤ rows → full r i q = r q)
    (hpart : ∀ (r : Buf α) (i : Int), 0 ≤ i → i + PS ≤ rows → part r i q = r q)
    (hscal : ∀ (r : Buf α) (i : Int), 0 ≤ i → i < rows → scalar r i q = r q)
    (res : Buf α) :
    (forRange ((rows : Int).tdiv M * M + (if (rows : Int) - (rows : Int).tdiv M * M ≥ PS then (PS : Int) else 0))
        rows 1).foldl scalar
      (if (rows : Int) - (rows : Int).tdiv M * M ≥ PS then
        part ((forRange 0 ((rows : Int).tdiv M * M) M).foldl full res) ((rows : Int).tdiv M * M)
       else (forRange 0 ((rows : Int).tdiv M * M) M).foldl full res) q = res q := by
  have hle : rows / M * M ≤ rows := Nat.div_mul_le_self rows M
  rw [tdiv_mul_cast]
  have e1 : ((rows / M * M : Nat) : Int) = ((rows / M : Nat) : Int) * (M : Int) := by push_cast; rfl
  have hb1 : (forRange 0 ((rows / M * M : Nat) : Int) M).foldl full res q = res q := by
    rw [e1, forRange_tiles_zero _ _ (by exact_mod_cast hM)]
    apply foldl_frame
    intro r x hx
    obtain ⟨t, ht, rfl⟩ := List.mem_map.1 hx
    have ht' : t < rows / M := List.mem_range.1 ht
    have h1 : (t + 1) * M ≤ rows / M * M := Nat.mul_le_mul_right _ ht'
    have h2 : (((t + 1) * M : Nat) : Int) ≤ (rows : Int) := by exact_mod_cast le_trans h1 hle
    apply hfull
    · positivity
    · push_cast at h2
      linarith
  rw [foldl_frame _ scalar q (fun r x hx => ?_)]
  · by_cases hc : (rows : Int) - ((rows / M * M : Nat) : Int) ≥ (PS : Int)
    · rw [if_pos hc, hpart _ _ (by positivity) (by omega), hb1]
    · rw [if_neg hc, hb1]
  · unfold forRange at hx
    obtain ⟨t, ht, rfl⟩ := List.mem_map.1 hx
    have ht' := List.mem_range.1 ht
    have hlo : (0 : Int) ≤ ((rows / M * M : Nat) : Int) + (if (rows : Int) - ((rows / M * M : Nat) : Int) ≥ (PS : Int)
        then (PS : Int) else 0) := by
      split_ifs <;> positivity
    apply hscal
    · simp only [mul_one]
      positivity
    · simp only [mul_one]
      have : (t : Int) < (↑rows - (((rows / M * M : Nat) : Int) + (if (rows : Int) - ((rows / M * M : Nat) : Int) ≥ (PS : Int)
          then (PS : Int) else 0)) + 1 - 1) / 1 := by
        have := Int.lt_toNat.1 ht'
        exact this
      rw [Int.ediv_one] at this
      omega

theorem col_tile_frame {α : Type} [Zero α] [Add α] [Mul α] [Star α] (PS rows : Nat) (hPS : 0 < PS)
    (nr : Int) (hnr : nr = 2 ∨ nr = 4) (cj : ei_conj_helper) (rs : Int) (A : Buf α)
    (depth sA sB oA oB pkc uB : Int) (st : Buf α × Buf α) (j2 q : Int)
    (hq : ∀ c i : Int, 0 ≤ c → c < nr → 0 ≤ i → i < rows → q ≠ (j2 + c) * rs + i) :
    (gebp_col_tile cj ((2 * PS : Nat) : Int) nr PS rs A rows depth sA sB oA oB
        ((rows : Int).tdiv ((2 * PS : Nat) : Int) * ((2 * PS : Nat) : Int))
        ((rows : Int).tdiv ((2 * PS : Nat) : Int) * ((2 * PS : Nat) : Int) +
          (if (rows : Int) - (rows : Int).tdiv ((2 * PS : Nat) : Int) * ((2 * PS : Nat) : Int) ≥ PS
            then (PS : Int) else 0))
        pkc uB st j2).1 q = st.1 q := by
  unfold gebp_col_tile
  apply bands_frame (2 * PS) PS rows (by omega) q
  · intro r i hi0 hi
    apply full_tile_frame cj _ nr PS rs (by positivity) hnr
    intro c w hc0 hc hw0 hw
    have := hq c (i + w) hc0 hc (by omega) (by push_cast at hi; omega)
    rwa [← add_assoc] at this
  · intro r i hi0 hi
    apply partial_tile_frame cj nr PS rs hnr
    intro c w hc0 hc hw0 hw
    have := hq c (i + w) hc0 hc (by omega) (by omega)
    rwa [← add_assoc] at this
  · intro r i hi0 hi
    apply scalar_row_frame cj nr PS rs hnr
    intro c hc0 hc
    exact hq c i hc0 hc hi0 hi

theorem col_single_frame {α : Type} [Zero α] [Add α] [Mul α] [Star α] (PS rows : Nat) (hPS : 0 < PS)
    (cj : ei_conj_helper) (rs : Int) (A : Buf α)
    (depth sA sB oA oB uB : Int) (st : Buf α × Buf α) (j2 q : Int)
    (hq : ∀ i : Int, 0 ≤ i → i < rows → q ≠ j2 * rs + i) :
    (gebp_col_single cj ((2 * PS : Nat) : Int) PS rs A rows depth sA sB oA oB
        ((rows : Int).tdiv ((2 * PS : Nat) : Int) * ((2 * PS : Nat) : Int))
        ((rows : Int).tdiv ((2 * PS : Nat) : Int) * ((2 * PS : Nat) : Int) +
          (if (rows : Int) - (rows : Int).tdiv ((2 * PS : Nat) : Int) * ((2 * PS : Nat) : Int) ≥ PS
            then (PS : Int) else 0))
        uB st j2).1 q = st.1 q := by
  unfold gebp_col_single
  apply bands_frame (2 * PS) PS rows (by omega) q
  · intro r i hi0 hi
    apply col_full_tile_frame cj _ PS rs (by positivity)
    intro w hw0 hw
    have := hq (i + w) (by omega) (by push_cast at hi; omega)
    rwa [add_zero, ← add_assoc] at *
  · intro r i hi0 hi
    apply col_partial_tile_frame cj PS rs
    intro w hw0 hw
    have := hq (i + w) (by omega) (by omega)
    rwa [add_zero, ← add_assoc] at *
  · intro r i hi0 hi
    apply col_scalar_row_frame cj PS rs
    rw [add_zero]
    exact hq i hi0 hi

/-- The kernel (`mr = 2 * PacketSize`, `nr` 2 or 4) leaves every index of the result buffer that is not of
the form `j * resStride + i` with `0 ≤ i < rows`, `0 ≤ j < cols` as it was. -/
theorem kernel_res_frame {α : Type} [Zero α] [Add α] [Mul α] [Star α] (PS nr rows depth cols : Nat)
    (hPS : 0 < PS) (hnr : nr = 2 ∨ nr = 4) (cj : ei_conj_helper) (res : Buf α) (rs : Int)
    (A memB : Buf α) (strideA strideB oA oB : Int) (uBo : Option Int) (q : Int)
    (hq : ∀ i j : Int, 0 ≤ i → i < rows → 0 ≤ j → j < cols → q ≠ j * rs + i) :
    (ei_gebp_kernel ((2 * PS : Nat) : Int) nr PS cj res rs A memB rows depth cols strideA strideB oA oB uBo).1 q
      = res q := by
  have hnr0 : 0 < nr := by omega
  have hnrI : ((nr : Int) = 2 ∨ (nr : Int) = 4) := by
    rcases hnr with h | h <;> [left; right] <;> exact_mod_cast h
  have hle : cols / nr * nr ≤ cols := Nat.div_mul_le_self cols nr
  unfold ei_gebp_kernel
  simp only []
  rw [tdiv_mul_cast cols nr]
  have e1 : ((cols / nr * nr : Nat) : Int) = ((cols / nr : Nat) : Int) * (nr : Int) := by push_cast; rfl
  refine List.foldlRecOn (motive := fun (st : Buf α × Buf α) => st.1 q = res q) _ _ _ ?_ ?_
  · refine List.foldlRecOn (motive := fun (st : Buf α × Buf α) => st.1 q = res q) _ _ _ rfl ?_
    intro st hst j2 hj2
    rw [e1, forRange_tiles_zero _ _ (by exact_mod_cast hnr0)] at hj2
    obtain ⟨t, ht, rfl⟩ := List.mem_map.1 hj2
    have ht' : t < cols / nr := List.mem_range.1 ht
    have h1 : (t + 1) * nr ≤ cols / nr * nr := Nat.mul_le_mul_right _ ht'
    have h2 : (((t + 1) * nr : Nat) : Int) ≤ (cols : Int) := by exact_mod_cast le_trans h1 hle
    push_cast at h2
    rw [col_tile_frame PS rows hPS nr hnrI cj rs A _ _ _ _ _ _ _ st _ q ?_, hst]
    intro c i hc0 hc hi0 hi
    have ht0 : (0 : Int) ≤ (t : Int) * nr := by positivity
    exact hq i (0 + (t : Int) * nr + c) hi0 hi (by omega) (by linarith)
  · intro st hst j2 hj2
    unfold forRange at hj2
    obtain ⟨t, ht, rfl⟩ := List.mem_map.1 hj2
    have ht' := Int.lt_toNat.1 (List.mem_range.1 ht)
    rw [Int.ediv_one] at ht'
    rw [col_single_frame PS rows hPS cj rs A _ _ _ _ _ _ st _ q ?_, hst]
    intro i hi0 hi
    refine hq i _ hi0 hi ?_ ?_
    · simp only [mul_one]; positivity
    · simp only [mul_one]; omega

theorem foldl_snd {σ τ ι : Type} (f : σ × τ → ι → σ × τ) (g : τ → ι → τ)
    (h : ∀ st j, (f st j).2 = g st.2 j) (L : List ι) (s : σ × τ) :
    (L.foldl f s).2 = L.foldl g s.2 := by
  induction L generalizing s with
  | nil => rfl
  | cons j L ih =>
    rw [List.foldl_cons, List.foldl_cons, ih, h]

/-- The memory holding `blockB` and the scratch area after the kernel is the result of the `unpack B`
loops alone: it does not depend on the result buffer, on `blockA`, on the conjugation flags, nor on
`mr`, `rows`, `resStride`, `strideA` and `offsetA`. -/
theorem kernel_mem_indep {α : Type} [Zero α] [Add α] [Mul α] [Star α] (mr mr2 nr PS : Int)
    (cj cj2 : ei_conj_helper) (res res2 : Buf α) (rs rs2 : Int) (A A2 memB : Buf α)
    (rows rows2 depth cols sA sA2 sB oA oA2 oB : Int) (uBo : Option Int) :
    (ei_gebp_kernel mr nr PS cj res rs A memB rows depth cols sA sB oA oB uBo).2
      = (ei_gebp_kernel mr2 nr PS cj2 res2 rs2 A2 memB rows2 depth cols sA2 sB oA2 oB uBo).2 := by
  have key : ∀ (uB sB1 : Int) (mr rows rs sA oA pm1 pm2 pk : Int) (cj : ei_conj_helper) (res A : Buf α)
      (L1 L2 : List Int),
      (L2.foldl (gebp_col_single cj mr PS rs A rows depth sA sB1 oA oB pm1 pm2 uB)
        (L1.foldl (gebp_col_tile cj mr nr PS rs A rows depth sA sB1 oA oB pm1 pm2 pk uB) (res, memB))).2
        = L2.foldl (fun m j2 => gebp_unpackB PS m uB (j2 * sB1 + oB) depth)
            (L1.foldl (fun m j2 => gebp_unpackB PS m uB (j2 * sB1 + oB * nr) (depth * nr)) memB) := by
    intro uB sB1 mr rows rs sA oA pm1 pm2 pk cj res A L1 L2
    rw [foldl_snd _ (fun m j2 => gebp_unpackB PS m uB (j2 * sB1 + oB) depth) (fun st j => rfl),
      foldl_snd _ (fun m j2 => gebp_unpackB PS m uB (j2 * sB1 + oB * nr) (depth * nr)) (fun st j => rfl)]
  unfold ei_gebp_kernel
  simp only []
  rw [key, key]

/-- C27, counterexample. With `PacketSize = 1`, `mr = 2`, `nr = 2`, `resStride = rows = 1`, `depth = 2`
and `cols = 2`, on a memory that holds `q` at every index `q` of `blockB`: without a scratch pointer and
with `strideB = 1 < depth`, the scratch area is the 4 scalars from `blockB - 2` on, and the kernel
overwrites `blockB[0]` and `blockB[1]` with 2 and 3; with the scratch pointer `blockB + 1` (and
`strideB = depth`) it overwrites `blockB[1 .. 4]`. The result buffer is written at the indices
`j * resStride + i` only in both calls. -/
theorem gebp_kernel_overwrites_blockB :
    ((2 : Int) = 2 * 1 ∧ (1 : Int) ≤ 1) ∧
    (List.range 4).map (fun (q : Nat) =>
      (ei_gebp_kernel 2 2 1 ⟨false, false⟩ (fun _ => (0 : Int)) 1 (fun _ => 1) (fun q => q)
        1 2 2 (-1) 1 0 0 none).2 q) = [2, 3, 2, 3] ∧
    (List.range 6).map (fun (q : Nat) =>
      (ei_gebp_kernel 2 2 1 ⟨false, false⟩ (fun _ => (0 : Int)) 1 (fun _ => 1) (fun q => q)
        1 2 2 (-1) (-1) 0 0 (some 1)).2 q) = [0, 0, 0, 0, 0, 5] := by
  decide

/-- C27, amended. Frame of the kernel for `mr = 2 * PacketSize`, `nr` 2 or 4 and `resStride ≥ rows`. The
result buffer changes only at the indices `j * resStride + i` with `0 ≤ i < rows`, `0 ≤ j < cols`, whatever
`rows mod mr` and `cols mod nr` are. The memory addressed from `blockB` changes only inside the scratch
area, the `depth * nr * PacketSize` scalars from the scratch pointer on (from
`blockB - strideB * nr * PacketSize` on when no scratch pointer is given): so no element of `blockB` at an
index `q ≥ 0` is written when no scratch pointer is given and `depth ≤ strideB`, and no element of
`blockB[0 .. len)` is written when the scratch area given ends at or before `blockB` or starts at or after
`blockB + len`. With `depth = 0` the result buffer and the memory are unchanged. The memory after the call
is the same whatever the result buffer and `blockA` are, and a left operand that lies in this memory at
`blockA = blockB + pA` keeps every element that is outside the scratch area. -/
theorem gebp_kernel_frame {α : Type} [CommRing α] [Star α]
    (PacketSize nr rows depth cols : Nat) (mr : Int) (hPS : 0 < PacketSize) (hmr : mr = 2 * (PacketSize : Int))
    (hnr : nr = 2 ∨ nr = 4) (cj : ei_conj_helper) (res : Buf α) (resStride : Int)
    (hrs : (rows : Int) ≤ resStride) (blockA memB : Buf α) (strideA strideB offsetA offsetB : Int)
    (unpackedB : Option Int) :
    (∀ q : Int, (∀ i j : Int, 0 ≤ i → i < rows → 0 ≤ j → j < cols → q ≠ j * resStride + i) →
      (ei_gebp_kernel mr nr PacketSize cj res resStride blockA memB rows depth cols strideA strideB
        offsetA offsetB unpackedB).1 q = res q) ∧
    (∀ q : Int, (q < gebp_scratch unpackedB (gebp_stride strideB depth) nr PacketSize ∨
        gebp_scratch unpackedB (gebp_stride strideB depth) nr PacketSize + (depth : Int) * nr * PacketSize ≤ q) →
      (ei_gebp_kernel mr nr PacketSize cj res resStride blockA memB rows depth cols strideA strideB
        offsetA offsetB unpackedB).2 q = memB q) ∧
    (unpackedB = none → (depth : Int) ≤ gebp_stride strideB depth → ∀ q : Int, 0 ≤ q →
      (ei_gebp_kernel mr nr PacketSize cj res resStride blockA memB rows depth cols strideA strideB
        offsetA offsetB unpackedB).2 q = memB q) ∧
    (depth = 0 →
      ei_gebp_kernel mr nr PacketSize cj res resStride blockA memB rows depth cols strideA strideB
        offsetA offsetB unpackedB = (res, memB)) ∧
    (∀ p len : Int, unpackedB = some p → (p + (depth : Int) * nr * PacketSize ≤ 0 ∨ len ≤ p) →
      ∀ q : Int, 0 ≤ q → q < len →
      (ei_gebp_kernel mr nr PacketSize cj res resStride blockA memB rows depth cols strideA strideB
        offsetA offsetB unpackedB).2 q = memB q) ∧
    (∀ (cj2 : ei_conj_helper) (res2 : Buf α) (resStride2 : Int) (blockA2 : Buf α)
        (strideA2 offsetA2 : Int),
      (ei_gebp_kernel mr nr PacketSize cj2 res2 resStride2 blockA2 memB rows depth cols strideA2 strideB
        offsetA2 offsetB unpackedB).2
      = (ei_gebp_kernel mr nr PacketSize cj res resStride blockA memB rows depth cols strideA strideB
        offsetA offsetB unpackedB).2) ∧
    (∀ pA a : Int, (pA + a < gebp_scratch unpackedB (gebp_stride strideB depth) nr PacketSize ∨
        gebp_scratch unpackedB (gebp_stride strideB depth) nr PacketSize + (depth : Int) * nr * PacketSize
          ≤ pA + a) →
      (ei_gebp_kernel mr nr PacketSize cj res resStride (fun x => memB (pA + x)) memB rows depth cols
        strideA strideB offsetA offsetB unpackedB).2 (pA + a) = memB (pA + a)) := by
  subst hmr
  rw [two_mul_cast]
  have hnr1 : 1 ≤ nr := by omega
  refine ⟨?_, ?_, ?_, ?_, ?_, ?_, ?_⟩
  · intro q hq
    exact kernel_res_frame PacketSize nr rows depth cols hPS hnr cj res resStride blockA memB strideA strideB
      offsetA offsetB unpackedB q hq
  · intro q hq
    exact kernel_mem_frame PacketSize nr depth hnr1 _ rows cols cj res resStride blockA memB
      strideA strideB offsetA offsetB unpackedB q hq
  · intro hu hd q hq
    subst hu
    apply kernel_mem_frame PacketSize nr depth hnr1 _ rows cols cj res resStride blockA memB
      strideA strideB offsetA offsetB none q
    right
    have h3 : (depth : Int) * nr * PacketSize ≤ gebp_stride strideB depth * nr * PacketSize := by
      have : (0 : Int) ≤ (nr : Int) * PacketSize := by positivity
      nlinarith
    show 0 - gebp_stride strideB depth * nr * PacketSize + (depth : Int) * nr * PacketSize ≤ q
    linarith
  · intro hd
    subst hd
    apply Prod.ext
    · rw [kernel_spec PacketSize nr rows 0 cols hPS hnr cj res resStride hrs blockA memB strideA strideB
        offsetA offsetB unpackedB (fun k j hk => absurd hk (Nat.not_lt_zero _))]
      funext q
      unfold addRect gebpDot
      simp
    · funext q
      apply kernel_mem_frame PacketSize nr 0 hnr1 _ rows cols cj res resStride blockA memB
        strideA strideB offsetA offsetB unpackedB q
      rcases lt_or_le q (gebp_scratch unpackedB (gebp_stride strideB ((0 : Nat) : Int)) nr PacketSize)
        with h | h
      · exact Or.inl h
      · right
        simpa using h
  · intro p len hu hp q hq0 hq
    subst hu
    apply kernel_mem_frame PacketSize nr depth hnr1 _ rows cols cj res resStride blockA memB
      strideA strideB offsetA offsetB (some p) q
    show q < p ∨ p + (depth : Int) * nr * PacketSize ≤ q
    omega
  · intro cj2 res2 rs2 A2 sA2 oA2
    exact kernel_mem_indep (α := α) ..
  · intro pA a hq
    exact kernel_mem_frame PacketSize nr depth hnr1 _ rows cols cj res resStride _ memB
      strideA strideB offsetA offsetB unpackedB (pA + a) hq

theorem gebp_kernel_frame_witness :
    (0 < 2 ∧ (4 : Int) = 2 * ((2 : Nat) : Int) ∧ ((2 : Nat) = 2 ∨ (2 : Nat) = 4) ∧
      (((7 : Nat) : Int) ≤ 8)) ∧
    (ei_gebp_kernel 4 ((2 : Nat) : Int) ((2 : Nat) : Int) ⟨false, false⟩ (fun q => q) 8
        (fun q => q + 1) (fun q => 2 * q + 1) ((7 : Nat) : Int) ((2 : Nat) : Int) ((3 : Nat) : Int)
        (-1) (-1) 0 0 none).1 15 = 15 ∧
    (ei_gebp_kernel 4 ((2 : Nat) : Int) ((2 : Nat) : Int) ⟨false, false⟩ (fun q => q) 8
        (fun q => q + 1) (fun q => 2 * q + 1) ((7 : Nat) : Int) ((2 : Nat) : Int) ((3 : Nat) : Int)
        (-1) (-1) 0 0 none).1 14 ≠ 14 ∧
    (ei_gebp_kernel 4 ((2 : Nat) : Int) ((2 : Nat) : Int) ⟨false, false⟩ (fun q => q) 8
        (fun q => q + 1) (fun q => 2 * q + 1) ((7 : Nat) : Int) ((2 : Nat) : Int) ((3 : Nat) : Int)
        (-1) (-1) 0 0 none).2 0 = 1 ∧
    (ei_gebp_kernel 4 ((2 : Nat) : Int) ((2 : Nat) : Int) ⟨false, false⟩ (fun q => q) 8
        (fun q => q + 1) (fun q => 2 * q + 1) ((7 : Nat) : Int) ((2 : Nat) : Int) ((3 : Nat) : Int)
        (-1) (-1) 0 0 none).2 (-1) ≠ -1 :=
  ⟨⟨by decide, by decide, Or.inl rfl, by decide⟩,
    (gebp_kernel_frame 2 2 7 2 3 4 (by decide) (by decide) (Or.inl rfl) ⟨false, false⟩ (fun q => q) 8
      (by decide) (fun q => q + 1) (fun q => 2 * q + 1) (-1) (-1) 0 0 none).1 15
      (by intro i j hi0 hi hj0 hj; omega),
    by decide,
    (gebp_kernel_frame 2 2 7 2 3 4 (by decide) (by decide) (Or.inl rfl) ⟨false, false⟩ (fun q => q) 8
      (by decide) (fun q => q + 1) (fun q => 2 * q + 1) (-1) (-1) 0 0 none).2.2.1 rfl (by decide) 0
      (by decide),
    by decide⟩

theorem mem_forRange_one (a b x : Int) (hx : x ∈ forRange a b 1) : a ≤ x ∧ x < b := by
  unfold forRange at hx
  obtain ⟨t, ht, rfl⟩ := List.mem_map.1 hx
  have ht' := Int.lt_toNat.1 (List.mem_range.1 ht)
  rw [Int.ediv_one] at ht'
  constructor <;> omega

theorem forRange_one_mem (a b x : Int) (h0 : a ≤ x) (h1 : x < b) : x ∈ forRange a b 1 := by
  unfold forRange
  refine List.mem_map.2 ⟨(x - a).toNat, List.mem_range.2 (Int.lt_toNat.2 ?_), ?_⟩
  · rw [Int.ediv_one]
    omega
  · omega

theorem mem_pack_lhs_tiles (mr PS rows : Nat) (hmr : 0 < mr) (tile : Int × Int) :
    tile ∈ pack_lhs_tiles mr PS rows ↔
      ∃ a W : Nat, tile = ((a : Int), (W : Int)) ∧
        ((∃ t : Nat, t < rows / mr ∧ a = t * mr ∧ W = mr) ∨
         (rows - rows / mr * mr ≥ PS ∧ a = rows / mr * mr ∧ W = PS) ∨
         ((if rows - rows / mr * mr ≥ PS then rows / mr * mr + PS else rows / mr * mr) ≤ a ∧ a < rows ∧
            W = 1)) := by
  have hle : rows / mr * mr ≤ rows := Nat.div_mul_le_self rows mr
  unfold pack_lhs_tiles
  simp only []
  rw [tdiv_mul_cast]
  have e1 : ((rows / mr * mr : Nat) : Int) = ((rows / mr : Nat) : Int) * (mr : Int) := by push_cast; rfl
  have hc : ((rows : Int) - ((rows / mr * mr : Nat) : Int) ≥ (PS : Int)) ↔ rows - rows / mr * mr ≥ PS := by
    omega
  simp only [List.mem_append, List.mem_map]
  constructor
  · rintro ((⟨i, hi, rfl⟩ | h) | ⟨i, hi, rfl⟩)
    · rw [e1, forRange_tiles_zero _ _ (by exact_mod_cast hmr)] at hi
      obtain ⟨t, ht, rfl⟩ := List.mem_map.1 hi
      exact ⟨t * mr, mr, by push_cast; simp, Or.inl ⟨t, List.mem_range.1 ht, rfl, rfl⟩⟩
    · by_cases h2 : rows - rows / mr * mr ≥ PS
      · rw [if_pos (hc.2 h2)] at h
        rw [List.mem_singleton] at h
        exact ⟨rows / mr * mr, PS, h, Or.inr (Or.inl ⟨h2, rfl, rfl⟩)⟩
      · rw [if_neg (fun h' => h2 (hc.1 h'))] at h
        exact absurd h (List.not_mem_nil _)
    · obtain ⟨h0, h1⟩ := mem_forRange_one _ _ _ hi
      have hi0 : 0 ≤ i := by
        split_ifs at h0 <;> omega
      refine ⟨i.toNat, 1, by rw [Int.toNat_of_nonneg hi0]; rfl, Or.inr (Or.inr ⟨?_, by omega, rfl⟩)⟩
      split_ifs at h0 ⊢ <;> omega
  · rintro ⟨a, W, rfl, (⟨t, ht, ha, hW⟩ | ⟨h2, ha, hW⟩ | ⟨h0, h1, hW⟩)⟩ <;> rw [hW]
    · rw [ha]
      left; left
      refine ⟨((t * mr : Nat) : Int), ?_, rfl⟩
      rw [e1, forRange_tiles_zero _ _ (by exact_mod_cast hmr)]
      exact List.mem_map.2 ⟨t, List.mem_range.2 ht, by push_cast; simp⟩
    · rw [ha]
      left; right
      rw [if_pos (hc.2 h2)]
      exact List.mem_singleton.2 rfl
    · right
      refine ⟨(a : Int), forRange_one_mem _ _ _ ?_ (by exact_mod_cast h1), rfl⟩
      split_ifs at h0 ⊢ <;> omega

theorem mem_pack_rhs_tiles (nr cols : Nat) (hnr : 0 < nr) (tile : Int × Int) :
    tile ∈ pack_rhs_tiles nr cols ↔
      ∃ a W : Nat, tile = ((a : Int), (W : Int)) ∧
        ((∃ t : Nat, t < cols / nr ∧ a = t * nr ∧ W = nr) ∨
         (cols / nr * nr ≤ a ∧ a < cols ∧ W = 1)) := by
  have hle : cols / nr * nr ≤ cols := Nat.div_mul_le_self cols nr
  unfold pack_rhs_tiles
  simp only []
  rw [tdiv_mul_cast]
  have e1 : ((cols / nr * nr : Nat) : Int) = ((cols / nr : Nat) : Int) * (nr : Int) := by push_cast; rfl
  simp only [List.mem_append, List.mem_map]
  constructor
  · rintro (⟨i, hi, rfl⟩ | ⟨i, hi, rfl⟩)
    · rw [e1, forRange_tiles_zero _ _ (by exact_mod_cast hnr)] at hi
      obtain ⟨t, ht, rfl⟩ := List.mem_map.1 hi
      exact ⟨t * nr, nr, by push_cast; simp, Or.inl ⟨t, List.mem_range.1 ht, rfl, rfl⟩⟩
    · obtain ⟨h0, h1⟩ := mem_forRange_one _ _ _ hi
      have hi0 : 0 ≤ i := by omega
      exact ⟨i.toNat, 1, by rw [Int.toNat_of_nonneg hi0]; rfl, Or.inr ⟨by omega, by omega, rfl⟩⟩
  · rintro ⟨a, W, rfl, (⟨t, ht, ha, hW⟩ | ⟨h0, h1, hW⟩)⟩ <;> rw [hW]
    · rw [ha]
      left
      refine ⟨((t * nr : Nat) : Int), ?_, rfl⟩
      rw [e1, forRange_tiles_zero _ _ (by exact_mod_cast hnr)]
      exact List.mem_map.2 ⟨t, List.mem_range.2 ht, by push_cast; simp⟩
    · right
      exact ⟨(a : Int), forRange_one_mem _ _ _ (by exact_mod_cast h0) (by exact_mod_cast h1), rfl⟩

/-- Replaying a store log whose stores all fall in the windows of a family of pairwise disjoint tiles,
the window of the tile `(a, W)` being the `W * depth` indices from `a * es + W * eo` on: an index inside
the slot `[a * es, (a + W) * es)` of a tile and outside its window keeps its value. -/
theorem replay_slot_frame {α : Type} (tiles : List (Int × Int)) (L : List PackEvent) (es eo : Int)
    (depth : Nat) (h0 : 0 ≤ eo) (h1 : eo + depth ≤ es)
    (hW : ∀ t ∈ tiles, 0 ≤ t.2)
    (hdisj : ∀ t ∈ tiles, ∀ t2 ∈ tiles, t.1 < t2.1 + t2.2 → t2.1 < t.1 + t.2 → t = t2)
    (hwin : ∀ e ∈ L, ∃ t ∈ tiles, t.1 * es + t.2 * eo ≤ e.1 ∧ e.1 < t.1 * es + t.2 * eo + t.2 * depth)
    (val : Int → Int → α) (b : Buf α) (tile : Int × Int) (htile : tile ∈ tiles) (q : Int)
    (hq1 : tile.1 * es ≤ q) (hq2 : q < (tile.1 + tile.2) * es)
    (hq3 : ¬ (tile.1 * es + tile.2 * eo ≤ q ∧ q < tile.1 * es + tile.2 * eo + tile.2 * depth)) :
    replay val L b q = b q := by
  apply replay_of_not_mem
  intro e he heq
  obtain ⟨t, ht, hlo, hhi⟩ := hwin e he
  rw [heq] at hlo hhi
  have hes : 0 ≤ es := by
    have : (0 : Int) ≤ (depth : Int) := by positivity
    linarith
  have hw := hW t ht
  have a1 : 0 ≤ t.2 * eo := mul_nonneg hw h0
  have a2 : t.2 * eo + t.2 * depth ≤ t.2 * es := by
    have := mul_le_mul_of_nonneg_left h1 hw
    linarith
  have b1 : t.1 * es ≤ q := by linarith
  have b2 : q < (t.1 + t.2) * es := by
    have : (t.1 + t.2) * es = t.1 * es + t.2 * es := by ring
    linarith
  have c1 : tile.1 < t.1 + t.2 := lt_of_mul_lt_mul_right (lt_of_le_of_lt hq1 b2) hes
  have c2 : t.1 < tile.1 + tile.2 := lt_of_mul_lt_mul_right (lt_of_le_of_lt b1 hq2) hes
  have := hdisj tile htile t ht c1 c2
  rw [this] at hq3
  exact hq3 ⟨hlo, hhi⟩

theorem pack_lhs_tiles_disjoint (mr PS rows : Nat) (hmr : 0 < mr) :
    (∀ t ∈ pack_lhs_tiles mr PS rows, (0 : Int) ≤ t.2) ∧
    (∀ t ∈ pack_lhs_tiles mr PS rows, ∀ t2 ∈ pack_lhs_tiles mr PS rows,
      t.1 < t2.1 + t2.2 → t2.1 < t.1 + t.2 → t = t2) := by
  have hle : rows / mr * mr ≤ rows := Nat.div_mul_le_self rows mr
  have hband : ∀ t : Nat, t < rows / mr → t * mr + mr ≤ rows / mr * mr := by
    intro t ht
    have := Nat.mul_le_mul_right mr (Nat.succ_le_of_lt ht)
    rw [Nat.succ_mul] at this
    exact this
  have hcmp : ∀ t t2 : Nat, t < t2 → t * mr + mr ≤ t2 * mr := by
    intro t t2 h
    have := Nat.mul_le_mul_right mr (Nat.succ_le_of_lt h)
    rw [Nat.succ_mul] at this
    exact this
  constructor
  · intro t ht
    obtain ⟨a, W, rfl, _⟩ := (mem_pack_lhs_tiles mr PS rows hmr t).1 ht
    positivity
  · intro t ht t2 ht2 h1 h2
    obtain ⟨a, W, rfl, hA⟩ := (mem_pack_lhs_tiles mr PS rows hmr t).1 ht
    obtain ⟨a2, W2, rfl, hB⟩ := (mem_pack_lhs_tiles mr PS rows hmr t2).1 ht2
    simp only at h1 h2
    have h1' : a < a2 + W2 := by exact_mod_cast h1
    have h2' : a2 < a + W := by exact_mod_cast h2
    have key : a = a2 ∧ W = W2 := by
      rcases hA with ⟨x, hx, ha, hw⟩ | ⟨hc, ha, hw⟩ | ⟨hc, hlt, hw⟩ <;>
        rcases hB with ⟨y, hy, hb, hv⟩ | ⟨hd, hb, hv⟩ | ⟨hd, hlt2, hv⟩
      · have := hband x hx
        have := hband y hy
        rcases Nat.lt_trichotomy x y with h | h | h
        · have := hcmp x y h; omega
        · subst h; omega
        · have := hcmp y x h; omega
      · have := hband x hx; omega
      · have := hband x hx
        split_ifs at hd <;> omega
      · have := hband y hy; omega
      · omega
      · split_ifs at hd
        omega
      · have := hband y hy
        split_ifs at hc <;> omega
      · split_ifs at hc
        omega
      · omega
    rw [key.1, key.2]

theorem lhsLog_window (mr PS rows depth : Nat) (hmr : 0 < mr) (es eo : Int) (e : PackEvent)
    (he : e ∈ lhsLog mr PS rows depth es eo) :
    ∃ t ∈ pack_lhs_tiles mr PS rows, t.1 * es + t.2 * eo ≤ e.1 ∧ e.1 < t.1 * es + t.2 * eo + t.2 * depth := by
  have hcell : ∀ (k w W : Nat), k < depth → w < W →
      (0 : Int) ≤ (k : Int) * W + w ∧ (k : Int) * W + w < (W : Int) * depth := by
    intro k w W hk hw
    have h := Nat.mul_le_mul_right W (Nat.succ_le_of_lt hk)
    rw [Nat.succ_mul] at h
    have h' : ((k * W + W : Nat) : Int) ≤ ((depth * W : Nat) : Int) := by exact_mod_cast h
    push_cast at h'
    constructor
    · positivity
    · have : (W : Int) * depth = (depth : Int) * W := by ring
      omega
  rcases (mem_lhsLog mr PS rows depth es eo e).1 he with
    ⟨t, ht, k, hk, w, hw, rfl⟩ | ⟨hc, k, hk, w, hw, rfl⟩ | ⟨t, ht, k, hk, rfl⟩
  · refine ⟨(((t * mr : Nat) : Int), (mr : Int)),
      (mem_pack_lhs_tiles mr PS rows hmr _).2 ⟨t * mr, mr, rfl, Or.inl ⟨t, ht, rfl, rfl⟩⟩, ?_, ?_⟩
    · have := (hcell k w mr hk hw).1
      simp only
      linarith
    · have := (hcell k w mr hk hw).2
      simp only
      linarith
  · refine ⟨(((rows / mr * mr : Nat) : Int), (PS : Int)),
      (mem_pack_lhs_tiles mr PS rows hmr _).2 ⟨rows / mr * mr, PS, rfl, Or.inr (Or.inl ⟨hc, rfl, rfl⟩)⟩, ?_, ?_⟩
    · have := (hcell k w PS hk hw).1
      simp only
      linarith
    · have := (hcell k w PS hk hw).2
      simp only
      linarith
  · refine ⟨((((if rows - rows / mr * mr ≥ PS then rows / mr * mr + PS else rows / mr * mr) + t : Nat) : Int),
        ((1 : Nat) : Int)),
      (mem_pack_lhs_tiles mr PS rows hmr _).2 ⟨_, 1, rfl, Or.inr (Or.inr ⟨Nat.le_add_right _ _, by omega, rfl⟩)⟩,
      ?_, ?_⟩
    · simp only [Nat.cast_one, one_mul]
      have : (0 : Int) ≤ (k : Int) := by positivity
      linarith
    · simp only [Nat.cast_one, one_mul]
      have : (k : Int) < depth := by exact_mod_cast hk
      linarith

theorem pack_rhs_tiles_disjoint (nr cols : Nat) (hnr : 0 < nr) :
    (∀ t ∈ pack_rhs_tiles nr cols, (0 : Int) ≤ t.2) ∧
    (∀ t ∈ pack_rhs_tiles nr cols, ∀ t2 ∈ pack_rhs_tiles nr cols,
      t.1 < t2.1 + t2.2 → t2.1 < t.1 + t.2 → t = t2) := by
  have hle : cols / nr * nr ≤ cols := Nat.div_mul_le_self cols nr
  have hband : ∀ t : Nat, t < cols / nr → t * nr + nr ≤ cols / nr * nr := by
    intro t ht
    have := Nat.mul_le_mul_right nr (Nat.succ_le_of_lt ht)
    rw [Nat.succ_mul] at this
    exact this
  have hcmp : ∀ t t2 : Nat, t < t2 → t * nr + nr ≤ t2 * nr := by
    intro t t2 h
    have := Nat.mul_le_mul_right nr (Nat.succ_le_of_lt h)
    rw [Nat.succ_mul] at this
    exact this
  constructor
  · intro t ht
    obtain ⟨a, W, rfl, _⟩ := (mem_pack_rhs_tiles nr cols hnr t).1 ht
    positivity
  · intro t ht t2 ht2 h1 h2
    obtain ⟨a, W, rfl, hA⟩ := (mem_pack_rhs_tiles nr cols hnr t).1 ht
    obtain ⟨a2, W2, rfl, hB⟩ := (mem_pack_rhs_tiles nr cols hnr t2).1 ht2
    simp only at h1 h2
    have h1' : a < a2 + W2 := by exact_mod_cast h1
    have h2' : a2 < a + W := by exact_mod_cast h2
    have key : a = a2 ∧ W = W2 := by
      rcases hA with ⟨x, hx, ha, hw⟩ | ⟨hc, hlt, hw⟩ <;>
        rcases hB with ⟨y, hy, hb, hv⟩ | ⟨hd, hlt2, hv⟩
      · have := hband x hx
        have := hband y hy
        rcases Nat.lt_trichotomy x y with h | h | h
        · have := hcmp x y h; omega
        · subst h; omega
        · have := hcmp y x h; omega
      · have := hband x hx; omega
      · have := hband y hy; omega
      · omega
    rw [key.1, key.2]

theorem rhsLog_window (nr cols depth : Nat) (hnr : nr = 2 ∨ nr = 4) (es eo : Int) (e : PackEvent)
    (he : e ∈ rhsLog nr cols depth es eo) :
    ∃ t ∈ pack_rhs_tiles nr cols, t.1 * es + t.2 * eo ≤ e.1 ∧ e.1 < t.1 * es + t.2 * eo + t.2 * depth := by
  have hnr0 : 0 < nr := by omega
  have hcell : ∀ (k w W : Nat), k < depth → w < W →
      (0 : Int) ≤ (k : Int) * W + w ∧ (k : Int) * W + w < (W : Int) * depth := by
    intro k w W hk hw
    have h := Nat.mul_le_mul_right W (Nat.succ_le_of_lt hk)
    rw [Nat.succ_mul] at h
    have h' : ((k * W + W : Nat) : Int) ≤ ((depth * W : Nat) : Int) := by exact_mod_cast h
    push_cast at h'
    constructor
    · positivity
    · have : (W : Int) * depth = (depth : Int) * W := by ring
      omega
  rcases (mem_rhsLog nr cols depth es eo e).1 he with ⟨t, ht, k, hk, x, hx, rfl⟩ | ⟨t, ht, k, hk, rfl⟩
  · have hxn : x < nr := by
      rcases hx with h | ⟨h4, h⟩
      · omega
      · have : nr = 4 := by exact_mod_cast h4
        omega
    refine ⟨(((t * nr : Nat) : Int), (nr : Int)),
      (mem_pack_rhs_tiles nr cols hnr0 _).2 ⟨t * nr, nr, rfl, Or.inl ⟨t, ht, rfl, rfl⟩⟩, ?_, ?_⟩
    · have := (hcell k x nr hk hxn).1
      simp only
      linarith
    · have := (hcell k x nr hk hxn).2
      simp only
      linarith
  · refine ⟨(((cols / nr * nr + t : Nat) : Int), ((1 : Nat) : Int)),
      (mem_pack_rhs_tiles nr cols hnr0 _).2 ⟨_, 1, rfl, Or.inr ⟨Nat.le_add_right _ _, by omega, rfl⟩⟩, ?_, ?_⟩
    · simp only [Nat.cast_one, one_mul]
      have : (0 : Int) ≤ (k : Int) := by positivity
      linarith
    · simp only [Nat.cast_one, one_mul]
      have : (k : Int) < depth := by exact_mod_cast hk
      linarith

/-- C28. Panel-mode packing leaves the rest of the panel untouched. For `0 ≤ offset` and
`offset + depth ≤ stride`, in panel mode: every store of `ei_gemm_pack_lhs` (of `ei_gemm_pack_rhs`, `nr` 2
or 4, either storage order) goes to the window of a tile, the `W * depth` indices from
`a * stride + W * offset` on for the tile of width `W` that starts at row (column) `a`; and every index
`q` in the slot `[a * stride, (a + W) * stride)` of a tile and outside its window, that is in the skipped
prefix or suffix, holds after packing the value it held before. -/
theorem pack_panel_frame {α : Type} [MulOneClass α] [Star α] [DecidableEq α]
    (mr PacketSize nr rows depth cols : Nat) (hmr : 0 < mr) (hnr : nr = 2 ∨ nr = 4)
    ( IsComplex Conjugate : Bool) (order : StorageOrder) (blockA blockB : Buf α)
    (lhs : Int → Int → α) (rhs : Buf α) (rhsStride : Int) (alpha : α) (stride offset : Int)
    (hoff : 0 ≤ offset) (hstr : offset + depth ≤ stride) :
    ((∀ e ∈ (ei_gemm_pack_lhs mr PacketSize IsComplex Conjugate true blockA lhs depth rows stride offset).log,
        ∃ t ∈ pack_lhs_tiles mr PacketSize rows,
          t.1 * stride + t.2 * offset ≤ e.1 ∧ e.1 < t.1 * stride + t.2 * offset + t.2 * depth) ∧
      (∀ t ∈ pack_lhs_tiles mr PacketSize rows, ∀ q : Int, t.1 * stride ≤ q → q < (t.1 + t.2) * stride →
        ¬ (t.1 * stride + t.2 * offset ≤ q ∧ q < t.1 * stride + t.2 * offset + t.2 * depth) →
        (ei_gemm_pack_lhs mr PacketSize IsComplex Conjugate true blockA lhs depth rows stride offset).block q
          = blockA q)) ∧
    ((∀ e ∈ (ei_gemm_pack_rhs order nr true blockB rhs rhsStride alpha depth cols stride offset).log,
        ∃ t ∈ pack_rhs_tiles nr cols,
          t.1 * stride + t.2 * offset ≤ e.1 ∧ e.1 < t.1 * stride + t.2 * offset + t.2 * depth) ∧
      (∀ t ∈ pack_rhs_tiles nr cols, ∀ q : Int, t.1 * stride ≤ q → q < (t.1 + t.2) * stride →
        ¬ (t.1 * stride + t.2 * offset ≤ q ∧ q < t.1 * stride + t.2 * offset + t.2 * depth) →
        (ei_gemm_pack_rhs order nr true blockB rhs rhsStride alpha depth cols stride offset).block q
          = blockB q)) := by
  have hnr0 : 0 < nr := by omega
  have hL := pack_lhs_closed (α := α) mr PacketSize rows depth hmr IsComplex Conjugate true
    blockA lhs stride offset
  have hR := pack_rhs_closed (α := α) order nr cols depth hnr0 true blockB rhs rhsStride alpha stride offset
  simp only [if_true] at hL hR
  rw [hL, hR]
  simp only []
  refine ⟨⟨?_, ?_⟩, ⟨?_, ?_⟩⟩
  · intro e he
    exact lhsLog_window mr PacketSize rows depth hmr stride offset e he
  · intro t ht q hq1 hq2 hq3
    exact replay_slot_frame (pack_lhs_tiles mr PacketSize rows) _ stride offset depth hoff hstr
      (pack_lhs_tiles_disjoint mr PacketSize rows hmr).1 (pack_lhs_tiles_disjoint mr PacketSize rows hmr).2
      (fun e he => lhsLog_window mr PacketSize rows depth hmr stride offset e he) _ blockA t ht q hq1 hq2 hq3
  · intro e he
    exact rhsLog_window nr cols depth hnr stride offset e he
  · intro t ht q hq1 hq2 hq3
    exact replay_slot_frame (pack_rhs_tiles nr cols) _ stride offset depth hoff hstr
      (pack_rhs_tiles_disjoint nr cols hnr0).1 (pack_rhs_tiles_disjoint nr cols hnr0).2
      (fun e he => rhsLog_window nr cols depth hnr stride offset e he) _ blockB t ht q hq1 hq2 hq3

theorem pack_panel_frame_witness :
    (0 < 4 ∧ ((2 : Nat) = 2 ∨ (2 : Nat) = 4) ∧ (0 : Int) ≤ 1 ∧ (1 : Int) + ((2 : Nat) : Int) ≤ 4) ∧
    (((4 : Int), (2 : Int)) ∈ pack_lhs_tiles ((4 : Nat) : Int) ((2 : Nat) : Int) ((7 : Nat) : Int)) ∧
    (ei_gemm_pack_lhs ((4 : Nat) : Int) ((2 : Nat) : Int) false false true (fun q => (100 + q : Int))
        (fun i k => 10 * i + k) ((2 : Nat) : Int) ((7 : Nat) : Int) 4 1).block 17 = 117 ∧
    (ei_gemm_pack_lhs ((4 : Nat) : Int) ((2 : Nat) : Int) false false true (fun q => (100 + q : Int))
        (fun i k => 10 * i + k) ((2 : Nat) : Int) ((7 : Nat) : Int) 4 1).block 18 = 40 :=
  ⟨⟨by decide, Or.inl rfl, by decide, by decide⟩, by decide,
    ((pack_panel_frame 4 2 2 7 2 3 (by decide) (Or.inl rfl) false false StorageOrder.ColMajor
      (fun q => (100 + q : Int)) (fun q => (100 + q : Int)) (fun i k => 10 * i + k) (fun q => q) 3 1 4 1
      (by decide) (by decide)).1.2 (4, 2) (by decide) 17 (by decide) (by decide) (by decide)).trans
      (by decide),
    by decide⟩

theorem tileLog_shift (base : Int) (W depth : Nat) (i d r : Int) :
    (tileLog base W depth i).map (fun e => (e.1 + d, e.2.1 + r, e.2.2)) = tileLog (base + d) W depth (i + r) := by
  unfold tileLog
  rw [List.map_flatMap]
  congr 1
  funext k
  rw [List.map_map]
  congr 1
  funext w
  simp only [Function.comp]
  refine Prod.ext ?_ (Prod.ext ?_ rfl) <;> simp only <;> ring

theorem rowLog_shift (base : Int) (depth : Nat) (i d r : Int) :
    (rowLog base depth i).map (fun e => (e.1 + d, e.2.1 + r, e.2.2)) = rowLog (base + d) depth (i + r) := by
  unfold rowLog
  rw [List.map_map]
  congr 1
  funext k
  simp only [Function.comp]
  refine Prod.ext ?_ rfl
  simp only
  ring

theorem tileLog_width_zero (base : Int) (depth : Nat) (i : Int) : tileLog base 0 depth i = [] := by
  unfold tileLog
  simp

/-- The store log of the left packer on `m * mr + rest` rows is the log on the first `m * mr` rows followed
by the log on the remaining `rest` rows, moved by `m * mr` rows and by `m * mr * es` indices. -/
theorem lhsLog_split (mr PS m rest depth : Nat) (hmr : 0 < mr) (es eo : Int) :
    lhsLog mr PS (m * mr + rest) depth es eo =
      lhsLog mr PS (m * mr) depth es eo ++
        (lhsLog mr PS rest depth es eo).map
          (fun e => (e.1 + ((m * mr : Nat) : Int) * es, e.2.1 + ((m * mr : Nat) : Int), e.2.2)) := by
  have hdiv : (m * mr + rest) / mr = m + rest / mr := by
    rw [Nat.mul_comm m mr, Nat.mul_add_div hmr]
  have hdiv0 : m * mr / mr = m := Nat.mul_div_cancel m hmr
  have hP : (m + rest / mr) * mr = m * mr + rest / mr * mr := by ring
  unfold lhsLog
  simp only [hdiv, hdiv0, hP, Nat.sub_self, Nat.add_sub_add_left]
  have hfirst2 : (if 0 ≥ PS then tileLog (((m * mr : Nat) : Int) * es + (PS : Int) * eo) PS depth
      ((m * mr : Nat) : Int) else []) = [] := by
    split_ifs with h
    · have : PS = 0 := by omega
      subst this
      exact tileLog_width_zero _ _ _
    · rfl
  have hfirst3 : (m * mr - if 0 ≥ PS then m * mr + PS else m * mr) = 0 := by split_ifs <;> omega
  rw [hfirst2, hfirst3, List.range_zero, List.flatMap_nil, List.append_nil, List.append_nil,
    List.map_append, List.map_append, List.range_add, List.flatMap_append, List.append_assoc,
    List.append_assoc, List.append_assoc]
  refine congrArg₂ (· ++ ·) rfl (congrArg₂ (· ++ ·) ?_ (congrArg₂ (· ++ ·) ?_ ?_))
  · rw [List.flatMap_map, List.map_flatMap]
    congr 1
    funext t
    rw [tileLog_shift]
    congr 1 <;> push_cast <;> ring
  · split_ifs with h
    · rw [tileLog_shift]
      congr 1 <;> push_cast <;> ring
    · rfl
  · rw [List.map_flatMap]
    by_cases h : rest - rest / mr * mr ≥ PS
    · simp only [if_pos h]
      rw [show m * mr + rest - (m * mr + rest / mr * mr + PS) = rest - (rest / mr * mr + PS) by omega]
      congr 1
      funext t
      rw [rowLog_shift]
      congr 1 <;> push_cast <;> ring
    · simp only [if_neg h]
      rw [show m * mr + rest - (m * mr + rest / mr * mr) = rest - rest / mr * mr by omega]
      congr 1
      funext t
      rw [rowLog_shift]
      congr 1 <;> push_cast <;> ring

theorem replay_map_shift {α : Type} (val : Int → Int → α) (d r : Int) (L : List PackEvent) (b : Buf α)
    (q : Int) :
    replay val (L.map (fun e => (e.1 + d, e.2.1 + r, e.2.2))) b q
      = replay (fun i k => val (i + r) k) L (fun q2 => b (q2 + d)) (q - d) := by
  induction L generalizing b with
  | nil => simp [replay]
  | cons e L ih =>
    have h1 : replay val ((e :: L).map (fun e => (e.1 + d, e.2.1 + r, e.2.2))) b
        = replay val (L.map (fun e => (e.1 + d, e.2.1 + r, e.2.2)))
            (Function.update b (e.1 + d) (val (e.2.1 + r) e.2.2)) := rfl
    have h2 : replay (fun i k => val (i + r) k) (e :: L) (fun q2 => b (q2 + d))
        = replay (fun i k => val (i + r) k) L
            (Function.update (fun q2 => b (q2 + d)) e.1 (val (e.2.1 + r) e.2.2)) := rfl
    rw [h1, h2, ih]
    congr 1
    funext q2
    by_cases h : q2 = e.1
    · subst h
      simp
    · rw [Function.update_noteq h, Function.update_noteq (by omega)]

/-- C29. Row-block compositionality of left packing in non-panel mode. For `r1 = m * mr ≤ rows`: the
stores of the whole `rows x depth` view are those of the rows `[0, r1)` followed by those of the rows
`[r1, rows)` moved by `r1 * depth` indices; the packed buffer of the whole view is what packing the rows
`[r1, rows)` at index `r1 * depth` gives after packing the rows `[0, r1)`; it agrees below `r1 * depth`
with the packed buffer of the rows `[0, r1)` and from `r1 * depth` to `rows * depth` with the packed buffer
of the rows `[r1, rows)` alone, whatever the buffer that one was packed into. -/
theorem pack_lhs_row_blocks {α : Type} [Star α] (mr PacketSize rows depth m : Nat) (hmr : 0 < mr)
    (hr1 : m * mr ≤ rows) ( IsComplex Conjugate : Bool) (blockA : Buf α) (lhs : Int → Int → α) :
    (ei_gemm_pack_lhs mr PacketSize IsComplex Conjugate false blockA lhs depth rows 0 0).log
      = (ei_gemm_pack_lhs mr PacketSize IsComplex Conjugate false blockA lhs depth ((m * mr : Nat) : Int) 0 0).log
        ++ (ei_gemm_pack_lhs mr PacketSize IsComplex Conjugate false blockA
            (fun i k => lhs (i + ((m * mr : Nat) : Int)) k) depth ((rows - m * mr : Nat) : Int) 0 0).log.map
          (fun e => (e.1 + ((m * mr : Nat) : Int) * depth, e.2.1 + ((m * mr : Nat) : Int), e.2.2)) ∧
    (∀ q : Int,
      (ei_gemm_pack_lhs mr PacketSize IsComplex Conjugate false blockA lhs depth rows 0 0).block q
        = (ei_gemm_pack_lhs mr PacketSize IsComplex Conjugate false
            (fun q2 => (ei_gemm_pack_lhs mr PacketSize IsComplex Conjugate false blockA lhs depth
              ((m * mr : Nat) : Int) 0 0).block (q2 + ((m * mr : Nat) : Int) * depth))
            (fun i k => lhs (i + ((m * mr : Nat) : Int)) k) depth ((rows - m * mr : Nat) : Int) 0 0).block
          (q - ((m * mr : Nat) : Int) * depth)) ∧
    (∀ q : Int, q < ((m * mr : Nat) : Int) * depth →
      (ei_gemm_pack_lhs mr PacketSize IsComplex Conjugate false blockA lhs depth rows 0 0).block q
        = (ei_gemm_pack_lhs mr PacketSize IsComplex Conjugate false blockA lhs depth
            ((m * mr : Nat) : Int) 0 0).block q) ∧
    (∀ (B : Buf α) (q : Int), ((m * mr : Nat) : Int) * depth ≤ q → q < (rows : Int) * depth →
      (ei_gemm_pack_lhs mr PacketSize IsComplex Conjugate false blockA lhs depth rows 0 0).block q
        = (ei_gemm_pack_lhs mr PacketSize IsComplex Conjugate false B
            (fun i k => lhs (i + ((m * mr : Nat) : Int)) k) depth ((rows - m * mr : Nat) : Int) 0 0).block
          (q - ((m * mr : Nat) : Int) * depth)) := by
  obtain ⟨rest, rfl⟩ : ∃ rest, rows = m * mr + rest := ⟨rows - m * mr, by omega⟩
  rw [Nat.add_sub_cancel_left]
  have hL := fun (n : Nat) (b : Buf α) (l : Int → Int → α) =>
    pack_lhs_closed mr PacketSize n depth hmr IsComplex Conjugate false b l 0 0
  simp only [Bool.false_eq_true, if_false] at hL
  have hsplit := lhsLog_split mr PacketSize m rest depth hmr depth 0
  have hseq : ∀ q : Int,
      replay (fun r c => ei_conj_if (IsComplex && Conjugate) (lhs r c))
          (lhsLog mr PacketSize (m * mr + rest) depth depth 0) blockA q
        = replay (fun r c => ei_conj_if (IsComplex && Conjugate) (lhs (r + ((m * mr : Nat) : Int)) c))
            (lhsLog mr PacketSize rest depth depth 0)
            (fun q2 => replay (fun r c => ei_conj_if (IsComplex && Conjugate) (lhs r c))
              (lhsLog mr PacketSize (m * mr) depth depth 0) blockA (q2 + ((m * mr : Nat) : Int) * depth))
            (q - ((m * mr : Nat) : Int) * depth) := by
    intro q
    rw [hsplit, replay_append, replay_map_shift]
  have hinc := lhsLog_increasing mr PacketSize rest depth hmr depth 0 (le_refl _) (by simp)
  rw [hL, hL, hL]
  simp only []
  refine ⟨hsplit, ?_, ?_, ?_⟩
  · intro q
    rw [hL]
    exact hseq q
  · intro q hq
    rw [hseq q]
    rw [replay_of_not_mem]
    · simp
    · intro e he heq
      have := (hinc.2 e he).1
      omega
  · intro B q hq1 hq2
    rw [hseq q, hL]
    simp only []
    apply replay_covered
    refine (sequential_mem_iff _ (rest * depth) (lhsLog_sequential mr PacketSize rest depth hmr) _).2 ⟨by omega, ?_⟩
    push_cast at hq2 ⊢
    linarith

theorem pack_lhs_row_blocks_witness :
    (0 < 2 ∧ 2 * 2 ≤ 7) ∧
    (ei_gemm_pack_lhs ((2 : Nat) : Int) ((1 : Nat) : Int) false false false (fun _ => (0 : Int))
        (fun i k => 10 * i + k) ((3 : Nat) : Int) ((7 : Nat) : Int) 0 0).block 14 = 41 ∧
    (ei_gemm_pack_lhs ((2 : Nat) : Int) ((1 : Nat) : Int) false false false (fun _ => (5 : Int))
        (fun i k => (fun i k => 10 * i + k : Int → Int → Int) (i + ((2 * 2 : Nat) : Int)) k) ((3 : Nat) : Int)
        ((7 - 2 * 2 : Nat) : Int) 0 0).block (14 - ((2 * 2 : Nat) : Int) * ((3 : Nat) : Int)) = 41 :=
  ⟨⟨by decide, by decide⟩, by decide,
    ((pack_lhs_row_blocks 2 1 7 3 2 (by decide) (by decide) false false (fun _ => (0 : Int))
      (fun i k => 10 * i + k)).2.2.2 (fun _ => (5 : Int)) 14 (by decide) (by decide)).symm.trans (by decide)⟩

end EigenGebp

namespace EigenGeometry

/-- C17. Rotating a vector by a quaternion with `Quaternion::operator*(vec)` gives the product of
`toRotationMatrix()` with the vector, for every quaternion (unit or not) and every vector over a
commutative ring. -/
theorem quaternion_rotate_eq_matrix {α : Type} [CommRing α] (q : Quaternion α) (v : Vector3 α) :
    q.rotate v = q.toRotationMatrix.mulVec v := by
  simp only [Quaternion.rotate, Quaternion.toRotationMatrix, Matrix3.mulVec, Vector3.add, Vector3.smul,
    Vector3.cross, Quaternion.start3, Vector3.mk.injEq]
  refine ⟨?_, ?_, ?_⟩ <;> ring

theorem quaternion_norm2_nonneg {α : Type} [LinearOrderedField α] (q : Quaternion α) : 0 ≤ q.norm2 := by
  unfold Quaternion.norm2
  have h1 := mul_self_nonneg q.x
  have h2 := mul_self_nonneg q.y
  have h3 := mul_self_nonneg q.z
  have h4 := mul_self_nonneg q.w
  linarith

/-- C18. `Quaternion::inverse` returns the multiplicative inverse: over an ordered field, when the squared
norm is positive `q * q.inverse()` and `q.inverse() * q` are `identity()`; for a unit quaternion
`inverse()` is `conjugate()`; when the squared norm is not positive, which in an ordered field means it is
zero, `inverse()` is the zero quaternion. -/
theorem quaternion_inverse_spec {α : Type} [LinearOrderedField α] (q : Quaternion α) :
    (0 < q.norm2 → q.mul q.inverse = Quaternion.identity ∧ q.inverse.mul q = Quaternion.identity) ∧
    (q.norm2 = 1 → q.inverse = q.conjugate) ∧
    (q.norm2 = 0 → q.inverse = Quaternion.zero) ∧
    (0 < q.norm2 ∨ q.norm2 = 0) := by
  refine ⟨?_, ?_, ?_, ?_⟩
  · intro h
    have hne : q.x * q.x + q.y * q.y + q.z * q.z + q.w * q.w ≠ 0 := ne_of_gt h
    have hinv : q.inverse = q.conjugate.divScalar q.norm2 := by
      unfold Quaternion.inverse
      simp only []
      rw [if_pos h]
    rw [hinv]
    constructor
    · simp only [Quaternion.mul, Quaternion.identity, Quaternion.ctor, Quaternion.conjugate,
        Quaternion.divScalar, Quaternion.norm2, Quaternion.mk.injEq]
      refine ⟨?_, ?_, ?_, ?_⟩ <;> field_simp <;> ring
    · simp only [Quaternion.mul, Quaternion.identity, Quaternion.ctor, Quaternion.conjugate,
        Quaternion.divScalar, Quaternion.norm2, Quaternion.mk.injEq]
      refine ⟨?_, ?_, ?_, ?_⟩ <;> field_simp <;> ring
  · intro h
    unfold Quaternion.inverse
    simp only []
    rw [h, if_pos one_pos]
    simp [Quaternion.divScalar]
  · intro h
    unfold Quaternion.inverse
    simp only []
    rw [h, if_neg (lt_irrefl _)]
  · rcases (quaternion_norm2_nonneg q).lt_or_eq with h | h
    · exact Or.inl h
    · exact Or.inr h.symm

theorem quaternion_inverse_spec_witness :
    (0 : ℚ) < (Quaternion.ctor (1 : ℚ) 2 0 0).norm2 ∧
    (Quaternion.ctor (1 : ℚ) 2 0 0).mul (Quaternion.ctor (1 : ℚ) 2 0 0).inverse = Quaternion.identity :=
  ⟨by norm_num [Quaternion.norm2, Quaternion.ctor],
    ((quaternion_inverse_spec (Quaternion.ctor (1 : ℚ) 2 0 0)).1
      (by norm_num [Quaternion.norm2, Quaternion.ctor])).1⟩

/-- C33. For every unit quaternion `q` (`x^2 + y^2 + z^2 + w^2 = 1`) over a commutative ring, the matrix
`R = q.toRotationMatrix()` is a rotation matrix: `R^T * R = I`, `R * R^T = I` and `det R = 1`. -/
theorem quaternion_rotation_matrix_orthogonal {α : Type} [CommRing α] (q : Quaternion α)
    (h : q.norm2 = 1) :
    q.toRotationMatrix.transpose.mul q.toRotationMatrix = Matrix3.identity ∧
    q.toRotationMatrix.mul q.toRotationMatrix.transpose = Matrix3.identity ∧
    q.toRotationMatrix.determinant = 1 := by
  unfold Quaternion.norm2 at h
  refine ⟨?_, ?_, ?_⟩
  · simp only [Quaternion.toRotationMatrix, Matrix3.transpose, Matrix3.mul, Matrix3.identity,
      Matrix3.mk.injEq]
    refine ⟨?_, ?_, ?_, ?_, ?_, ?_, ?_, ?_, ?_⟩
    · linear_combination (4 * (q.y * q.y + q.z * q.z)) * h
    · linear_combination (-4 * (q.x * q.y)) * h
    · linear_combination (-4 * (q.x * q.z)) * h
    · linear_combination (-4 * (q.x * q.y)) * h
    · linear_combination (4 * (q.x * q.x + q.z * q.z)) * h
    · linear_combination (-4 * (q.y * q.z)) * h
    · linear_combination (-4 * (q.x * q.z)) * h
    · linear_combination (-4 * (q.y * q.z)) * h
    · linear_combination (4 * (q.x * q.x + q.y * q.y)) * h
  · simp only [Quaternion.toRotationMatrix, Matrix3.transpose, Matrix3.mul, Matrix3.identity,
      Matrix3.mk.injEq]
    refine ⟨?_, ?_, ?_, ?_, ?_, ?_, ?_, ?_, ?_⟩
    · linear_combination (4 * (q.y * q.y + q.z * q.z)) * h
    · linear_combination (-4 * (q.x * q.y)) * h
    · linear_combination (-4 * (q.x * q.z)) * h
    · linear_combination (-4 * (q.x * q.y)) * h
    · linear_combination (4 * (q.x * q.x + q.z * q.z)) * h
    · linear_combination (-4 * (q.y * q.z)) * h
    · linear_combination (-4 * (q.x * q.z)) * h
    · linear_combination (-4 * (q.y * q.z)) * h
    · linear_combination (4 * (q.x * q.x + q.y * q.y)) * h
  · simp only [Quaternion.toRotationMatrix, Matrix3.determinant]
    linear_combination (4 * (q.x * q.x + q.y * q.y + q.z * q.z)) * h

theorem quaternion_rotation_matrix_orthogonal_witness :
    (Quaternion.ctor (1 / 2 : ℚ) (1 / 2) (1 / 2) (1 / 2)).norm2 = 1 ∧
    (Quaternion.ctor (1 / 2 : ℚ) (1 / 2) (1 / 2) (1 / 2)).toRotationMatrix.determinant = 1 ∧
    (Quaternion.ctor (1 / 2 : ℚ) (1 / 2) (1 / 2) (1 / 2)).toRotationMatrix
      = { m00 := 0, m01 := 0, m02 := 1, m10 := 1, m11 := 0, m12 := 0, m20 := 0, m21 := 1, m22 := 0 } :=
  ⟨by norm_num [Quaternion.norm2, Quaternion.ctor],
    (quaternion_rotation_matrix_orthogonal (Quaternion.ctor (1 / 2 : ℚ) (1 / 2) (1 / 2) (1 / 2))
      (by norm_num [Quaternion.norm2, Quaternion.ctor])).2.2,
    by norm_num [Quaternion.toRotationMatrix, Quaternion.ctor]⟩

end EigenGeometry

namespace EigenSchur

theorem findBottom_spec {R C Rot MatIn : Type} [LinearOrderedField R] [Zero C]
    (env : SchurEnv R C Rot MatIn) (T : Mat C) (iu : Nat) (iter : Int) :
    (findBottom env T iu iter).2.1 ≤ iu ∧
    ((findBottom env T iu iter).2.1 = iu → (findBottom env T iu iter).2.2 = iter) ∧
    ((findBottom env T iu iter).2.1 < iu → (findBottom env T iu iter).2.2 = 0) := by
  induction iu generalizing T iter with
  | zero => simp [findBottom]
  | succ iu ih =>
    unfold findBottom
    simp only []
    by_cases h : (subdiagonalEntryIsNeglegible env T (iu : Int)).1 = true
    · simp only [h, Bool.not_true, Bool.false_eq_true, if_false]
      obtain ⟨h1, h2, h3⟩ := ih (subdiagonalEntryIsNeglegible env T (iu : Int)).2 0
      refine ⟨by omega, fun he => by omega, fun hl => ?_⟩
      rcases Nat.lt_or_eq_of_le h1 with h4 | h4
      · exact h3 h4
      · exact h2 h4
    · simp only [Bool.not_eq_true] at h
      simp [h]

/-- The QR iteration ends within the passes allowed: from any state with `0 ≤ iter < 30`, a bound of
`30 * iu + (30 - iter)` passes is enough, because each pass that does not leave the loop either lowers
`iu` (and resets `iter`) or raises `iter`. The variables at the `break` have `0 ≤ iter ≤ 30`. -/
theorem schur_loop_total {R C Rot MatIn : Type} [LinearOrderedField R] [Zero C] [Add C] [Sub C] [Mul C]
    [Div C] (env : SchurEnv R C Rot MatIn) (skipU : Bool) (n : Int) (fuel : Nat) (st : SchurLoop C)
    (h0 : 0 ≤ st.iter) (h1 : st.iter < 30) (hf : 30 * st.iu.toNat + (30 - st.iter).toNat ≤ fuel) :
    ∃ r, schur_loop env skipU n fuel st = some r ∧ 0 ≤ r.iter ∧ r.iter ≤ 30 := by
  induction fuel generalizing st with
  | zero => omega
  | succ fuel ih =>
    unfold schur_loop
    simp only []
    obtain ⟨b1, b2, b3⟩ := findBottom_spec env st.T st.iu.toNat st.iter
    have hb0 : 0 ≤ (findBottom env st.T st.iu.toNat st.iter).2.2 := by
      rcases Nat.lt_or_eq_of_le b1 with h | h
      · rw [b3 h]
      · rw [b2 h]; exact h0
    have hb30 : (findBottom env st.T st.iu.toNat st.iter).2.2 < 30 := by
      rcases Nat.lt_or_eq_of_le b1 with h | h
      · rw [b3 h]; decide
      · rw [b2 h]; exact h1
    by_cases hiu : (if 0 < st.iu then ((findBottom env st.T st.iu.toNat st.iter).2.1 : Int) else st.iu) = 0
    · rw [if_pos hiu]
      exact ⟨_, rfl, hb0, by simp only; omega⟩
    · rw [if_neg hiu]
      by_cases hit : (findBottom env st.T st.iu.toNat st.iter).2.2 + 1 ≥ 30
      · rw [if_pos hit]
        exact ⟨_, rfl, by simp only; omega, by simp only; omega⟩
      · rw [if_neg hit]
        apply ih
        · simp only; omega
        · simp only; omega
        · simp only
          by_cases hpos : 0 < st.iu
          · rw [if_pos hpos]
            rw [if_pos hpos] at hiu
            rw [Int.toNat_ofNat]
            rcases Nat.lt_or_eq_of_le b1 with h | h
            · rw [b3 h]
              omega
            · rw [b2 h, h]
              omega
          · rw [if_neg hpos]
            have : st.iu.toNat = 0 := by omega
            rw [this] at b1 b2 hf ⊢
            have hz : (findBottom env st.T 0 st.iter).2.1 = 0 := by omega
            rw [b2 hz]
            omega

theorem schur_iterate_total {R C Rot MatIn : Type} [LinearOrderedField R] [Zero C] [Add C] [Sub C] [Mul C]
    [Div C] (env : SchurEnv R C Rot MatIn) (matU : Mat C) (matrix : MatIn) (skipU : Bool) :
    ∃ r, schur_iterate env matU matrix skipU = some r ∧ 0 ≤ r.iter ∧ r.iter ≤ 30 := by
  unfold schur_iterate
  simp only []
  apply schur_loop_total
  · simp
  · simp
  · simp only
    have : (30 - (0 : Int)).toNat = 30 := by decide
    rw [this]
    omega

/-- The object after `compute`, by cases: the 1x1 branch, the iteration that gives up, the iteration that
ends before the limit. `compute` returns on every square input. -/
theorem compute_cases {R C Rot MatIn : Type} [LinearOrderedField R] [Zero C] [One C] [Add C] [Sub C]
    [Mul C] [Div C] (env : SchurEnv R C Rot MatIn) (s : ComplexSchur C) (matrix : MatIn) (skipU : Bool)
    (hsq : env.cols matrix = env.rows matrix) :
    (env.cols matrix = 1 ∧
      s.compute env matrix skipU = some
        { m_matT := if skipU then s.m_matT else env.cast matrix
          m_matU := fun i j => if i = j then 1 else 0
          m_isInitialized := true
          m_matUisUptodate := !skipU }) ∨
    (env.cols matrix ≠ 1 ∧ ∃ r, schur_iterate env s.m_matU matrix skipU = some r ∧
      ((30 ≤ r.iter ∧ s.compute env matrix skipU = some
          { m_matT := r.T, m_matU := r.U, m_isInitialized := s.m_isInitialized, m_matUisUptodate := false }) ∨
       (r.iter < 30 ∧ s.compute env matrix skipU = some
          { m_matT := r.T, m_matU := r.U, m_isInitialized := true, m_matUisUptodate := !skipU }))) := by
  unfold ComplexSchur.compute
  simp only []
  rw [if_neg (not_not.2 hsq)]
  by_cases h1 : env.cols matrix = 1
  · left
    refine ⟨h1, ?_⟩
    rw [if_pos h1]
    cases skipU <;> rfl
  · right
    refine ⟨h1, ?_⟩
    rw [if_neg h1]
    obtain ⟨r, hr, _, _⟩ := schur_iterate_total env s.m_matU matrix skipU
    refine ⟨r, hr, ?_⟩
    rw [hr]
    simp only []
    by_cases h30 : r.iter ≥ 30
    · left
      exact ⟨h30, by rw [if_pos h30]⟩
    · right
      exact ⟨by omega, by rw [if_neg h30]⟩

/-- C19, counterexample. On a freshly constructed object, `compute(m, skipU = true)` for a 2x2 input on
which no subdiagonal entry is ever found negligible returns after giving up at the 30th iteration, with
`m_isInitialized` still false: `matrixT()` fails its assertion, as `matrixU()` does. -/
theorem schur_matrixT_fails_after_giving_up :
    (((ComplexSchur.ctor (fun _ _ => (0 : ℚ)) (fun _ _ => 0)).compute stuckEnv (2, 5) true).map
      (fun s => (s.matrixT.toBool, s.matrixU.toBool, s.m_isInitialized))) = some (false, false, false) ∧
    ((schur_iterate stuckEnv (fun _ _ => (0 : ℚ)) (2, 5) true).map (fun r => r.iter)) = some 30 := by
  decide

/-- C19, amended. `matrixT()` passes its assertion iff `m_isInitialized`, and `matrixU()` passes iff
`m_isInitialized` and `m_matUisUptodate`; on a freshly constructed object both fail; `compute(m, true)`
returns on every square input, after it `matrixU()` fails, and `matrixT()` succeeds when `m` is 1x1 or the
QR iteration ended before the limit (`iter < 30`), while a call that gives up (`iter ≥ 30`) leaves
`m_isInitialized` as it was. -/
theorem schur_accessor_preconditions {R C Rot MatIn : Type} [LinearOrderedField R] [Zero C] [One C]
    [Add C] [Sub C] [Mul C] [Div C] (env : SchurEnv R C Rot MatIn) (s : ComplexSchur C) (T0 U0 : Mat C)
    (matrix : MatIn) :
    ((s.matrixT = Except.ok s.m_matT ↔ s.m_isInitialized = true) ∧
      (s.matrixU = Except.ok s.m_matU ↔ (s.m_isInitialized = true ∧ s.m_matUisUptodate = true))) ∧
    ((ComplexSchur.ctor T0 U0).matrixT = Except.error "ComplexSchur is not initialized." ∧
      (ComplexSchur.ctor T0 U0).matrixU = Except.error "ComplexSchur is not initialized.") ∧
    (env.cols matrix = env.rows matrix →
      ∃ s2, s.compute env matrix true = some s2 ∧
        (∃ msg, s2.matrixU = Except.error msg) ∧
        ((env.cols matrix = 1 ∨ ∃ r, schur_iterate env s.m_matU matrix true = some r ∧ r.iter < 30) →
          s2.matrixT = Except.ok s2.m_matT) ∧
        ((env.cols matrix ≠ 1 ∧ ∃ r, schur_iterate env s.m_matU matrix true = some r ∧ 30 ≤ r.iter) →
          s2.m_isInitialized = s.m_isInitialized)) ∧
    (env.cols matrix = env.rows matrix →
      ∃ s2, s.compute env matrix false = some s2 ∧
        ((env.cols matrix = 1 ∨ ∃ r, schur_iterate env s.m_matU matrix false = some r ∧ r.iter < 30) →
          s2.matrixT = Except.ok s2.m_matT ∧ s2.matrixU = Except.ok s2.m_matU)) := by
  refine ⟨⟨?_, ?_⟩, ⟨rfl, rfl⟩, ?_, ?_⟩
  rotate_left 3
  · intro hsq
    rcases compute_cases env s matrix false hsq with ⟨h1, hc⟩ | ⟨h1, r, hr, ⟨h30, hc⟩ | ⟨h30, hc⟩⟩
    · exact ⟨_, hc, fun _ => ⟨rfl, rfl⟩⟩
    · refine ⟨_, hc, ?_⟩
      rintro (h | ⟨r2, hr2, hlt⟩)
      · exact absurd h h1
      · rw [hr] at hr2
        cases hr2
        omega
    · exact ⟨_, hc, fun _ => ⟨rfl, rfl⟩⟩
  · unfold ComplexSchur.matrixT
    cases s.m_isInitialized <;> simp
  · unfold ComplexSchur.matrixU
    cases s.m_isInitialized <;> cases s.m_matUisUptodate <;> simp
  · intro hsq
    rcases compute_cases env s matrix true hsq with ⟨h1, hc⟩ | ⟨h1, r, hr, ⟨h30, hc⟩ | ⟨h30, hc⟩⟩
    · refine ⟨_, hc, ⟨_, rfl⟩, fun _ => rfl, fun h => absurd h1 h.1⟩
    · refine ⟨_, hc, ?_, ?_, fun _ => rfl⟩
      · simp only [ComplexSchur.matrixU]
        cases s.m_isInitialized
        · exact ⟨_, rfl⟩
        · exact ⟨_, rfl⟩
      · rintro (h | ⟨r2, hr2, hlt⟩)
        · exact absurd h h1
        · rw [hr] at hr2
          cases hr2
          omega
    · refine ⟨_, hc, ⟨_, rfl⟩, fun _ => rfl, ?_⟩
      rintro ⟨_, r2, hr2, hge⟩
      rw [hr] at hr2
      cases hr2
      omega

/-- C20. What `compute` does on a 1x1 input: `m_matU` becomes the identity, both flags are set as for any
finished decomposition, but `m_matT` receives the input only when `skipU` is false; with `skipU = true`
it keeps the value it had before the call. -/
theorem schur_compute_one_by_one {R C Rot MatIn : Type} [LinearOrderedField R] [Zero C] [One C]
    [Add C] [Sub C] [Mul C] [Div C] (env : SchurEnv R C Rot MatIn) (s : ComplexSchur C) (matrix : MatIn)
    (skipU : Bool) (hc : env.cols matrix = 1) (hr : env.rows matrix = 1) :
    s.compute env matrix skipU = some
      { m_matT := if skipU then s.m_matT else env.cast matrix
        m_matU := fun i j => if i = j then 1 else 0
        m_isInitialized := true
        m_matUisUptodate := !skipU } := by
  rcases compute_cases env s matrix skipU (by rw [hc, hr]) with ⟨_, h⟩ | ⟨h1, _⟩
  · exact h
  · exact absurd hc h1

theorem schur_compute_one_by_one_witness :
    (stuckEnv.cols (1, 5) = 1 ∧ stuckEnv.rows (1, 5) = 1) ∧
    ((ComplexSchur.ctor (fun _ _ => (0 : ℚ)) (fun _ _ => 0)).compute stuckEnv (1, 5) true).map
      (fun s => s.m_matT 0 0) = some 0 ∧
    stuckEnv.cast (1, 5) 0 0 = 5 ∧
    ((ComplexSchur.ctor (fun _ _ => (0 : ℚ)) (fun _ _ => 0)).compute stuckEnv (1, 5) false).map
      (fun s => s.m_matT 0 0) = some 5 :=
  ⟨⟨rfl, rfl⟩,
    (congrArg (Option.map (fun s => s.m_matT 0 0))
      (schur_compute_one_by_one stuckEnv (ComplexSchur.ctor (fun _ _ => (0 : ℚ)) (fun _ _ => 0)) (1, 5) true
        rfl rfl)).trans rfl,
    rfl,
    (congrArg (Option.map (fun s => s.m_matT 0 0))
      (schur_compute_one_by_one stuckEnv (ComplexSchur.ctor (fun _ _ => (0 : ℚ)) (fun _ _ => 0)) (1, 5) false
        rfl rfl)).trans rfl⟩

theorem rsqrt_mul_eq {R : Type} [LinearOrderedField R] (x y c : R) (hx : 0 ≤ x) (hy : 0 ≤ y) (hc : 0 ≤ c)
    (h : (x * y) * (x * y) = c * c) : x * y = c :=
  (mul_self_inj (mul_nonneg hx hy) hc).1 h

/-- The two parts computed by `ei_sqrt` before the sign of the imaginary part is set: both are
non-negative, the difference of their squares is `Re z` and twice their product is `|Im z|`. -/
theorem ei_sqrt_parts {R C Rot MatIn : Type} [LinearOrderedField R] (env : SchurEnv R C Rot MatIn)
    (hsq : ∀ x, 0 ≤ x → 0 ≤ env.ei_sqrt_real x ∧ env.ei_sqrt_real x * env.ei_sqrt_real x = x)
    (habs : ∀ z, env.ei_abs z
      = env.ei_sqrt_real (env.ei_real z * env.ei_real z + env.ei_imag z * env.ei_imag z))
    (z : C) :
    ∃ tre tim : R,
      ei_sqrt env z = env.complex tre (if env.ei_imag z < 0 then - tim else tim) ∧
      0 ≤ tre ∧ 0 ≤ tim ∧ tre * tre - tim * tim = env.ei_real z ∧ 2 * (tre * tim) = |env.ei_imag z| := by
  have hn : 0 ≤ env.ei_real z * env.ei_real z + env.ei_imag z * env.ei_imag z :=
    add_nonneg (mul_self_nonneg _) (mul_self_nonneg _)
  obtain ⟨ht0, htt⟩ := hsq _ hn
  rw [← habs z] at ht0 htt
  unfold ei_sqrt
  simp only []
  generalize env.ei_abs z = t at ht0 htt ⊢
  generalize env.ei_real z = a at htt ⊢
  generalize env.ei_imag z = b at htt ⊢
  clear hn
  have hbb : |b| * |b| = b * b := abs_mul_abs_self _
  have hb0 : 0 ≤ |b| := abs_nonneg _
  have hat : |a| ≤ t := by
    apply abs_le.2
    constructor <;> nlinarith [mul_self_nonneg b]
  have hat' := abs_le.1 hat
  have e : ∀ x y : R, (x * y) * (x * y) = (x * x) * (y * y) := fun x y => by ring
  have hq : |b| / 2 * (|b| / 2) = (b * b) / 4 := by rw [← hbb]; ring
  by_cases h1 : |a| ≤ |b|
  · obtain ⟨p0, pp⟩ := hsq ((1 / 2) * (t + a)) (by linarith)
    obtain ⟨q0, qq⟩ := hsq ((1 / 2) * (t - a)) (by linarith)
    refine ⟨env.ei_sqrt_real ((1 / 2) * (t + a)), env.ei_sqrt_real ((1 / 2) * (t - a)), ?_, p0, q0, ?_, ?_⟩
    · rw [if_pos h1]
    · rw [pp, qq]; ring
    · have := rsqrt_mul_eq _ _ (|b| / 2) p0 q0 (by positivity) (by
        rw [e, pp, qq, hq]
        linear_combination (1 / 4 : R) * htt)
      rw [this]; ring
  · have hab : |b| < |a| := lt_of_not_le h1
    have ha0 : a ≠ 0 := by
      intro h
      rw [h, abs_zero] at hab
      exact absurd hab (not_lt.2 hb0)
    by_cases h2 : a > 0
    · have htre : 0 < t + a := by linarith
      obtain ⟨p0, pp⟩ := hsq ((1 / 2) * (t + a)) (by linarith)
      obtain ⟨q0, qq⟩ := hsq ((1 / 2) / (t + a)) (by positivity)
      have hus : env.ei_sqrt_real ((1 / 2) * (t + a)) * env.ei_sqrt_real ((1 / 2) / (t + a)) = 1 / 2 :=
        rsqrt_mul_eq _ _ (1 / 2) p0 q0 (by norm_num) (by
          rw [e, pp, qq]
          field_simp
          ring)
      refine ⟨env.ei_sqrt_real ((1 / 2) * (t + a)), |b| * env.ei_sqrt_real ((1 / 2) / (t + a)),
        ?_, p0, mul_nonneg hb0 q0, ?_, ?_⟩
      · rw [if_neg h1, if_pos h2]
      · have : |b| * env.ei_sqrt_real ((1 / 2) / (t + a)) * (|b| * env.ei_sqrt_real ((1 / 2) / (t + a)))
            = (b * b) * ((1 / 2) / (t + a)) := by rw [e, hbb, qq]
        rw [this, pp]
        field_simp
        linear_combination (2 : R) * htt
      · have : env.ei_sqrt_real ((1 / 2) * (t + a)) * (|b| * env.ei_sqrt_real ((1 / 2) / (t + a)))
            = |b| * (env.ei_sqrt_real ((1 / 2) * (t + a)) * env.ei_sqrt_real ((1 / 2) / (t + a))) := by ring
        rw [this, hus]; ring
    · have ha1 : a < 0 := lt_of_le_of_ne (not_lt.1 h2) ha0
      have htim : 0 < t - a := by linarith
      obtain ⟨p0, pp⟩ := hsq ((1 / 2) * (t - a)) (by linarith)
      obtain ⟨q0, qq⟩ := hsq ((1 / 2) / (t - a)) (by positivity)
      have hus : env.ei_sqrt_real ((1 / 2) / (t - a)) * env.ei_sqrt_real ((1 / 2) * (t - a)) = 1 / 2 :=
        rsqrt_mul_eq _ _ (1 / 2) q0 p0 (by norm_num) (by
          rw [e, pp, qq]
          field_simp
          ring)
      refine ⟨|b| * env.ei_sqrt_real ((1 / 2) / (t - a)), env.ei_sqrt_real ((1 / 2) * (t - a)),
        ?_, mul_nonneg hb0 q0, p0, ?_, ?_⟩
      · rw [if_neg h1, if_neg h2]
      · have : |b| * env.ei_sqrt_real ((1 / 2) / (t - a)) * (|b| * env.ei_sqrt_real ((1 / 2) / (t - a)))
            = (b * b) * ((1 / 2) / (t - a)) := by rw [e, hbb, qq]
        rw [this, pp]
        field_simp
        linear_combination (-2 : R) * htt
      · have : |b| * env.ei_sqrt_real ((1 / 2) / (t - a)) * env.ei_sqrt_real ((1 / 2) * (t - a))
            = |b| * (env.ei_sqrt_real ((1 / 2) / (t - a)) * env.ei_sqrt_real ((1 / 2) * (t - a))) := by ring
        rw [this, hus]; ring

/-- C21. Over an ordered field with an exact real square root, `ei_sqrt` returns the principal square
root of every complex `z`: the result `r` satisfies `r * r = z` (real part `Re r ^ 2 - Im r ^ 2`,
imaginary part `Re r * Im r + Im r * Re r`), `Re r ≥ 0`, and `Im r < 0` only if `Im z < 0`; a negative
real `z` is sent to `i * sqrt |z|`. This covers the branch `|Re z| ≤ |Im z|` and the two stable
branches. -/
theorem ei_sqrt_principal {R C Rot MatIn : Type} [LinearOrderedField R] (env : SchurEnv R C Rot MatIn)
    (hre : ∀ a b, env.ei_real (env.complex a b) = a)
    (him : ∀ a b, env.ei_imag (env.complex a b) = b)
    (hsq : ∀ x, 0 ≤ x → 0 ≤ env.ei_sqrt_real x ∧ env.ei_sqrt_real x * env.ei_sqrt_real x = x)
    (habs : ∀ z, env.ei_abs z
      = env.ei_sqrt_real (env.ei_real z * env.ei_real z + env.ei_imag z * env.ei_imag z))
    (z : C) :
    (env.ei_real (ei_sqrt env z) * env.ei_real (ei_sqrt env z)
        - env.ei_imag (ei_sqrt env z) * env.ei_imag (ei_sqrt env z) = env.ei_real z ∧
      env.ei_real (ei_sqrt env z) * env.ei_imag (ei_sqrt env z)
        + env.ei_imag (ei_sqrt env z) * env.ei_real (ei_sqrt env z) = env.ei_imag z) ∧
    0 ≤ env.ei_real (ei_sqrt env z) ∧
    (env.ei_imag (ei_sqrt env z) < 0 → env.ei_imag z < 0) ∧
    (env.ei_imag z = 0 → env.ei_real z < 0 →
      env.ei_real (ei_sqrt env z) = 0 ∧ env.ei_imag (ei_sqrt env z) = env.ei_sqrt_real (- env.ei_real z)) := by
  obtain ⟨tre, tim, hr, h0, h1, h2, h3⟩ := ei_sqrt_parts env hsq habs z
  rw [hr, hre, him]
  have key : tre * (if env.ei_imag z < 0 then - tim else tim) + (if env.ei_imag z < 0 then - tim else tim) * tre
      = env.ei_imag z := by
    by_cases hb : env.ei_imag z < 0
    · rw [if_pos hb]
      rw [abs_of_neg hb] at h3
      linear_combination (-1 : R) * h3
    · rw [if_neg hb]
      rw [abs_of_nonneg (not_lt.1 hb)] at h3
      linear_combination h3
  refine ⟨⟨?_, key⟩, h0, ?_, ?_⟩
  · by_cases hb : env.ei_imag z < 0
    · rw [if_pos hb]; linear_combination h2
    · rw [if_neg hb]; exact h2
  · intro hlt
    by_contra hb
    rw [if_neg hb] at hlt
    exact absurd hlt (not_lt.2 h1)
  · intro hz hneg
    rw [hz, abs_zero] at h3
    rw [if_neg (by rw [hz]; exact lt_irrefl _)]
    have htre : tre = 0 := by
      rcases mul_eq_zero.1 (by linarith : tre * tim = 0) with h | h
      · exact h
      · rw [h] at h2
        nlinarith [mul_self_nonneg tre]
    refine ⟨htre, ?_⟩
    rw [htre] at h2
    obtain ⟨s0, ss⟩ := hsq (- env.ei_real z) (by linarith)
    exact (mul_self_inj h1 s0).1 (by rw [ss]; linarith)

theorem ei_sqrt_principal_witness :
    (∀ x : ℝ, 0 ≤ x → 0 ≤ Real.sqrt x ∧ Real.sqrt x * Real.sqrt x = x) ∧
    (complexEnv ℝ Real.sqrt).ei_real (ei_sqrt (complexEnv ℝ Real.sqrt) (-4, 0)) = 0 ∧
    (complexEnv ℝ Real.sqrt).ei_imag (ei_sqrt (complexEnv ℝ Real.sqrt) (-4, 0)) = Real.sqrt 4 :=
  ⟨fun x hx => ⟨Real.sqrt_nonneg x, Real.mul_self_sqrt hx⟩,
    ((ei_sqrt_principal (complexEnv ℝ Real.sqrt) (fun _ _ => rfl) (fun _ _ => rfl)
      (fun x hx => ⟨Real.sqrt_nonneg x, Real.mul_self_sqrt hx⟩) (fun _ => rfl) (-4, 0)).2.2.2 rfl
        (by norm_num [complexEnv])).1,
    ((ei_sqrt_principal (complexEnv ℝ Real.sqrt) (fun _ _ => rfl) (fun _ _ => rfl)
      (fun x hx => ⟨Real.sqrt_nonneg x, Real.mul_self_sqrt hx⟩) (fun _ => rfl) (-4, 0)).2.2.2 rfl
        (by norm_num [complexEnv])).2.trans (by norm_num [complexEnv])⟩

theorem compute_flags {R C Rot MatIn : Type} [LinearOrderedField R] [Zero C] [One C] [Add C] [Sub C]
    [Mul C] [Div C] (env : SchurEnv R C Rot MatIn) (s : ComplexSchur C) (matrix : MatIn) (skipU : Bool)
    (hsq : env.cols matrix = env.rows matrix) :
    ∃ s2, s.compute env matrix skipU = some s2 ∧ (s2.m_matUisUptodate = true → s2.m_isInitialized = true) := by
  rcases compute_cases env s matrix skipU hsq with ⟨_, hc⟩ | ⟨_, r, _, ⟨_, hc⟩ | ⟨_, hc⟩⟩
  · exact ⟨_, hc, fun _ => rfl⟩
  · exact ⟨_, hc, fun h => absurd h (by simp)⟩
  · exact ⟨_, hc, fun _ => rfl⟩

theorem computeAll_flags {R C Rot MatIn : Type} [LinearOrderedField R] [Zero C] [One C] [Add C] [Sub C]
    [Mul C] [Div C] (env : SchurEnv R C Rot MatIn) (calls : List (MatIn × Bool))
    (hsq : ∀ c ∈ calls, env.cols c.1 = env.rows c.1) (s : ComplexSchur C)
    (hs : s.m_matUisUptodate = true → s.m_isInitialized = true) :
    ∃ s2, s.computeAll env calls = some s2 ∧ (s2.m_matUisUptodate = true → s2.m_isInitialized = true) := by
  induction calls generalizing s with
  | nil => exact ⟨s, rfl, hs⟩
  | cons c cs ih =>
    obtain ⟨s1, h1, hinv⟩ := compute_flags env s c.1 c.2 (hsq c (List.mem_cons_self _ _))
    obtain ⟨s2, h2, hinv2⟩ := ih (fun d hd => hsq d (List.mem_cons_of_mem _ hd)) s1 hinv
    refine ⟨s2, ?_, hinv2⟩
    simp only [ComplexSchur.computeAll, h1]
    exact h2

/-- C30. Flag invariant of `ComplexSchur`: after either constructor and any sequence of `compute()` calls
on square matrices (each call returns, whether the iteration ends or gives up at the 30th iteration, with
any `skipU`), `m_matUisUptodate` implies `m_isInitialized`; and a call of `compute()` that gives up
(`iter ≥ 30` at the end of the loop) returns with `m_matUisUptodate` false and `m_isInitialized` as it was. -/
theorem schur_flag_invariant {R C Rot MatIn : Type} [LinearOrderedField R] [Zero C] [One C] [Add C] [Sub C]
    [Mul C] [Div C] (env : SchurEnv R C Rot MatIn) :
    (∀ (T0 U0 : Mat C) (calls : List (MatIn × Bool)), (∀ c ∈ calls, env.cols c.1 = env.rows c.1) →
      ∃ s, (ComplexSchur.ctor T0 U0).computeAll env calls = some s ∧
        (s.m_matUisUptodate = true → s.m_isInitialized = true)) ∧
    (∀ (T0 U0 : Mat C) (matrix : MatIn) (skipU : Bool) (calls : List (MatIn × Bool)),
      env.cols matrix = env.rows matrix → (∀ c ∈ calls, env.cols c.1 = env.rows c.1) →
      ∃ s1 s, ComplexSchur.ctorCompute env T0 U0 matrix skipU = some s1 ∧
        s1.computeAll env calls = some s ∧
        (s.m_matUisUptodate = true → s.m_isInitialized = true)) ∧
    (∀ (s : ComplexSchur C) (matrix : MatIn) (skipU : Bool), env.cols matrix = env.rows matrix →
      env.cols matrix ≠ 1 → ∀ r, schur_iterate env s.m_matU matrix skipU = some r → 30 ≤ r.iter →
      ∃ s2, s.compute env matrix skipU = some s2 ∧ s2.m_matUisUptodate = false ∧
        s2.m_isInitialized = s.m_isInitialized) := by
  refine ⟨?_, ?_, ?_⟩
  · intro T0 U0 calls hsq
    exact computeAll_flags env calls hsq _ (fun h => absurd h (by simp [ComplexSchur.ctor]))
  · intro T0 U0 matrix skipU calls hm hsq
    obtain ⟨s1, h1, hinv⟩ := compute_flags env (ComplexSchur.ctor T0 U0) matrix skipU hm
    obtain ⟨s, h2, hinv2⟩ := computeAll_flags env calls hsq s1 hinv
    exact ⟨s1, s, h1, h2, hinv2⟩
  · intro s matrix skipU hsq hn r hr h30
    rcases compute_cases env s matrix skipU hsq with ⟨h1, _⟩ | ⟨_, r2, hr2, ⟨_, hc⟩ | ⟨hlt, _⟩⟩
    · exact absurd h1 hn
    · exact ⟨_, hc, rfl, rfl⟩
    · rw [hr] at hr2
      cases hr2
      omega

theorem schur_loop_succ {R C Rot MatIn : Type} [LinearOrderedField R] [Zero C] [Add C] [Sub C] [Mul C]
    [Div C] (env : SchurEnv R C Rot MatIn) (skipU : Bool) (n : Int) (fuel : Nat) (st : SchurLoop C) :
    schur_loop env skipU n (fuel + 1) st =
      match schur_pass env skipU n st with
      | Sum.inl r => some r
      | Sum.inr s => schur_loop env skipU n fuel s := by
  rw [schur_loop]
  unfold schur_pass
  simp only []
  by_cases h1 : (if 0 < st.iu then ((findBottom env st.T st.iu.toNat st.iter).2.1 : Int) else st.iu) = 0
  · rw [if_pos h1, if_pos h1]
  · rw [if_neg h1, if_neg h1]
    by_cases h2 : (findBottom env st.T st.iu.toNat st.iter).2.2 + 1 ≥ 30
    · rw [if_pos h2, if_pos h2]
    · rw [if_neg h2, if_neg h2]

theorem schur_pass_spec {R C Rot MatIn : Type} [LinearOrderedField R] [Zero C] [Add C] [Sub C] [Mul C]
    [Div C] (env : SchurEnv R C Rot MatIn) (skipU : Bool) (n : Int) (st : SchurLoop C) :
    (∀ r, schur_pass env skipU n st = Sum.inl r → (r.iu = 0 ∨ r.iter ≥ 30) ∧
      (r.iu = st.iu ∨ (0 ≤ r.iu ∧ r.iu < st.iu))) ∧
    (∀ s, schur_pass env skipU n st = Sum.inr s → s.iu ≠ 0 ∧ s.iter < 30 ∧
      ((0 < s.iu ∧ s.iu < st.iu ∧ s.iter = 1) ∨ (s.iu = st.iu ∧ s.iter = st.iter + 1))) := by
  obtain ⟨b1, b2, b3⟩ := findBottom_spec env st.T st.iu.toNat st.iter
  have hiu : (if 0 < st.iu then ((findBottom env st.T st.iu.toNat st.iter).2.1 : Int) else st.iu) = st.iu ∨
      (0 ≤ (if 0 < st.iu then ((findBottom env st.T st.iu.toNat st.iter).2.1 : Int) else st.iu) ∧
       (if 0 < st.iu then ((findBottom env st.T st.iu.toNat st.iter).2.1 : Int) else st.iu) < st.iu) := by
    by_cases hp : 0 < st.iu
    · rw [if_pos hp]; omega
    · rw [if_neg hp]; left; rfl
  have hit : ((if 0 < st.iu then ((findBottom env st.T st.iu.toNat st.iter).2.1 : Int) else st.iu) < st.iu ∧
        (findBottom env st.T st.iu.toNat st.iter).2.2 = 0) ∨
      ((if 0 < st.iu then ((findBottom env st.T st.iu.toNat st.iter).2.1 : Int) else st.iu) = st.iu ∧
        (findBottom env st.T st.iu.toNat st.iter).2.2 = st.iter) := by
    by_cases hp : 0 < st.iu
    · rw [if_pos hp]
      rcases Nat.lt_or_eq_of_le b1 with h | h
      · left; exact ⟨by omega, b3 h⟩
      · right; exact ⟨by omega, b2 h⟩
    · rw [if_neg hp]
      right
      refine ⟨rfl, b2 ?_⟩
      have : st.iu.toNat = 0 := by omega
      omega
  unfold schur_pass
  simp only []
  generalize (if 0 < st.iu then ((findBottom env st.T st.iu.toNat st.iter).2.1 : Int) else st.iu) = iu
    at hiu hit ⊢
  generalize (findBottom env st.T st.iu.toNat st.iter).2.2 = it at hit ⊢
  by_cases h1 : iu = 0
  · rw [if_pos h1]
    refine ⟨?_, fun s hs => by cases hs⟩
    intro r hr
    injection hr with hr
    subst hr
    exact ⟨Or.inl h1, hiu⟩
  · rw [if_neg h1]
    by_cases h2 : it + 1 ≥ 30
    · rw [if_pos h2]
      refine ⟨?_, fun s hs => by cases hs⟩
      intro r hr
      injection hr with hr
      subst hr
      exact ⟨Or.inr h2, hiu⟩
    · rw [if_neg h2]
      refine ⟨fun r hr => (by cases hr), ?_⟩
      intro s hs
      injection hs with hs
      subst hs
      refine ⟨h1, by simp only; omega, ?_⟩
      simp only
      rcases hit with ⟨h3, h4⟩ | ⟨h3, h4⟩
      · left; omega
      · right; omega

theorem schur_loop_exit {R C Rot MatIn : Type} [LinearOrderedField R] [Zero C] [Add C] [Sub C] [Mul C]
    [Div C] (env : SchurEnv R C Rot MatIn) (skipU : Bool) (n : Int) (fuel : Nat) (st r : SchurLoop C)
    (h : schur_loop env skipU n fuel st = some r) : r.iu = 0 ∨ r.iter ≥ 30 := by
  induction fuel generalizing st with
  | zero => simp [schur_loop] at h
  | succ fuel ih =>
    rw [schur_loop_succ] at h
    cases hp : schur_pass env skipU n st with
    | inl r2 =>
      rw [hp] at h
      simp only [Option.some.injEq] at h
      rw [← h]
      exact ((schur_pass_spec env skipU n st).1 r2 hp).1
    | inr s2 =>
      rw [hp] at h
      exact ih s2 h

/-- C32. `ComplexSchur::compute` returns on every square input, whatever the values of the matrix and the
behaviour of the numerical primitives: a pass of the outer loop that goes on either lowers `iu` (staying
positive, with `iter` reset and then counted as 1) or keeps `iu` and raises `iter` by one, with `iter < 30`
and `iu ≠ 0` after it, so the pair `(iu, 30 - iter)` decreases lexicographically; a pass leaves the loop
exactly with `iu = 0` or `iter ≥ 30`; the loop is the iteration of such passes; and `30 * n + 30` passes
are always enough. -/
theorem schur_compute_terminates {R C Rot MatIn : Type} [LinearOrderedField R] [Zero C] [One C] [Add C]
    [Sub C] [Mul C] [Div C] (env : SchurEnv R C Rot MatIn) (s : ComplexSchur C) (matrix : MatIn)
    (skipU : Bool) (hsq : env.cols matrix = env.rows matrix) :
    (∃ r, s.compute env matrix skipU = some r) ∧
    (∃ r, schur_iterate env s.m_matU matrix skipU = some r ∧ (r.iu = 0 ∨ r.iter = 30)) ∧
    (∀ (n : Int) (st s2 : SchurLoop C), schur_pass env skipU n st = Sum.inr s2 →
      s2.iu ≠ 0 ∧ s2.iter < 30 ∧
      ((0 < s2.iu ∧ s2.iu < st.iu ∧ s2.iter = 1) ∨ (s2.iu = st.iu ∧ s2.iter = st.iter + 1)) ∧
      (st.iter < 30 → Prod.Lex (· < ·) (· < ·) (s2.iu.toNat, (30 - s2.iter).toNat)
        (st.iu.toNat, (30 - st.iter).toNat))) ∧
    (∀ (n : Int) (st r : SchurLoop C), schur_pass env skipU n st = Sum.inl r → r.iu = 0 ∨ r.iter ≥ 30) ∧
    (∀ (n : Int) (fuel : Nat) (st : SchurLoop C), schur_loop env skipU n (fuel + 1) st =
      match schur_pass env skipU n st with
      | Sum.inl r => some r
      | Sum.inr s2 => schur_loop env skipU n fuel s2) := by
  refine ⟨?_, ?_, ?_, ?_, schur_loop_succ env skipU⟩
  · rcases compute_cases env s matrix skipU hsq with ⟨_, h⟩ | ⟨_, r, _, ⟨_, h⟩ | ⟨_, h⟩⟩
    · exact ⟨_, h⟩
    · exact ⟨_, h⟩
    · exact ⟨_, h⟩
  · obtain ⟨r, hr, h0, h30⟩ := schur_iterate_total env s.m_matU matrix skipU
    refine ⟨r, hr, ?_⟩
    unfold schur_iterate at hr
    rcases schur_loop_exit env skipU _ _ _ r hr with h | h
    · exact Or.inl h
    · exact Or.inr (by omega)
  · intro n st s2 h
    obtain ⟨h1, h2, h3⟩ := (schur_pass_spec env skipU n st).2 s2 h
    refine ⟨h1, h2, h3, ?_⟩
    intro h30
    rcases h3 with ⟨a, b, c⟩ | ⟨a, b⟩
    · apply Prod.Lex.left
      omega
    · rw [a]
      apply Prod.Lex.right
      omega
  · intro n st r h
    exact ((schur_pass_spec env skipU n st).1 r h).1

theorem schur_compute_terminates_witness :
    stuckEnv.cols (2, 5) = stuckEnv.rows (2, 5) ∧
    ∃ r, (ComplexSchur.ctor (fun _ _ => (0 : ℚ)) (fun _ _ => 0)).compute stuckEnv (2, 5) false = some r :=
  ⟨rfl, (schur_compute_terminates stuckEnv (ComplexSchur.ctor (fun _ _ => (0 : ℚ)) (fun _ _ => 0))
    (2, 5) false rfl).1⟩

theorem schur_loop_traced_fst {R C Rot MatIn : Type} [LinearOrderedField R] [Zero C] [Add C] [Sub C]
    [Mul C] [Div C] (env : SchurEnv R C Rot MatIn) (skipU : Bool) (n : Int) (fuel : Nat)
    (st : SchurLoop C) :
    (schur_loop_traced env skipU n fuel st).1 = schur_loop env skipU n fuel st := by
  induction fuel generalizing st with
  | zero => rfl
  | succ fuel ih =>
    rw [schur_loop_traced, schur_loop]
    simp only []
    by_cases h1 : (if 0 < st.iu then ((findBottom env st.T st.iu.toNat st.iter).2.1 : Int) else st.iu) = 0
    · rw [if_pos h1, if_pos h1]
    · rw [if_neg h1, if_neg h1]
      by_cases h2 : (findBottom env st.T st.iu.toNat st.iter).2.2 + 1 ≥ 30
      · rw [if_pos h2, if_pos h2]
      · rw [if_neg h2, if_neg h2]
        exact ih _

theorem schur_loop_traced_range {R C Rot MatIn : Type} [LinearOrderedField R] [Zero C] [Add C] [Sub C]
    [Mul C] [Div C] (env : SchurEnv R C Rot MatIn) (skipU : Bool) (n : Int) (fuel : Nat)
    (st : SchurLoop C) (h0 : 0 ≤ st.iter) (hn : 0 ≤ st.iu) (hlt : st.iu < n) :
    ∀ c ∈ (schur_loop_traced env skipU n fuel st).2, 1 ≤ c.1 ∧ c.1 < n ∧ 1 ≤ c.2 ∧ c.2 < 30 := by
  induction fuel generalizing st with
  | zero =>
    intro c hc
    simp [schur_loop_traced] at hc
  | succ fuel ih =>
    obtain ⟨b1, b2, b3⟩ := findBottom_spec env st.T st.iu.toNat st.iter
    have hb0 : 0 ≤ (findBottom env st.T st.iu.toNat st.iter).2.2 := by
      rcases Nat.lt_or_eq_of_le b1 with h | h
      · rw [b3 h]
      · rw [b2 h]; exact h0
    have hiu : 0 ≤ (if 0 < st.iu then ((findBottom env st.T st.iu.toNat st.iter).2.1 : Int) else st.iu) ∧
        (if 0 < st.iu then ((findBottom env st.T st.iu.toNat st.iter).2.1 : Int) else st.iu) < n := by
      by_cases hp : 0 < st.iu
      · rw [if_pos hp]; omega
      · rw [if_neg hp]; omega
    rw [schur_loop_traced]
    simp only []
    generalize (if 0 < st.iu then ((findBottom env st.T st.iu.toNat st.iter).2.1 : Int) else st.iu) = iu
      at hiu ⊢
    generalize (findBottom env st.T st.iu.toNat st.iter).2.2 = it at hb0 ⊢
    by_cases h1 : iu = 0
    · rw [if_pos h1]
      intro c hc
      simp at hc
    · rw [if_neg h1]
      by_cases h2 : it + 1 ≥ 30
      · rw [if_pos h2]
        intro c hc
        simp at hc
      · rw [if_neg h2]
        intro c hc
        simp only [List.mem_cons] at hc
        rcases hc with hc | hc
        · rw [hc]
          simp only
          omega
        · exact ih _ (by simp only; omega) (by simp only; omega) (by simp only; omega) c hc

theorem computeShift_reads_sound {R C Rot MatIn : Type} [LinearOrderedField R] [Add C] [Sub C] [Mul C]
    [Div C] (env : SchurEnv R C Rot MatIn) (T T2 : Mat C) (iu iter : Int)
    (h : ∀ p ∈ computeShift_reads iu iter, T p.1 p.2 = T2 p.1 p.2) :
    computeShift env T iu iter = computeShift env T2 iu iter := by
  unfold computeShift
  unfold computeShift_reads at h
  by_cases hx : iter = 10 ∨ iter = 20
  · rw [if_pos hx] at h ⊢
    rw [if_pos hx]
    have e1 := h (iu, iu - 1) (by simp)
    have e2 := h (iu - 1, iu - 2) (by simp)
    simp only at e1 e2
    rw [e1, e2]
  · rw [if_neg hx] at h ⊢
    rw [if_neg hx]
    have e1 := h (iu - 1, iu - 1) (by simp)
    have e2 := h (iu, iu - 1) (by simp)
    have e3 := h (iu - 1, iu) (by simp)
    have e4 := h (iu, iu) (by simp)
    simp only at e1 e2 e3 e4
    rw [e1, e2, e3, e4]

/-- C31. The entries of `m_matT` that `computeShift(iu, iter)` reads determine its result; every call that
`compute` makes has `1 ≤ iu < n` and `1 ≤ iter < 30` (for `n ≥ 1`); for such a call all entries read have
row and column in `[0, n)` exactly when it is not the exceptional shift (`iter` 10 or 20) at `iu = 1`,
where `coeff(iu-1, iu-2)` is the entry `(0, -1)`; on a 2x2 input whose subdiagonal entry is never found
negligible `compute` does make the call `computeShift(1, 10)`, and the value returned by that call changes
with the entry `(0, -1)` alone. -/
theorem schur_computeShift_reads {R C Rot MatIn : Type} [LinearOrderedField R] [Zero C] [Add C] [Sub C]
    [Mul C] [Div C] (env : SchurEnv R C Rot MatIn) (matU : Mat C) (matrix : MatIn) (skipU : Bool) :
    (∀ (T T2 : Mat C) (iu iter : Int), (∀ p ∈ computeShift_reads iu iter, T p.1 p.2 = T2 p.1 p.2) →
      computeShift env T iu iter = computeShift env T2 iu iter) ∧
    (1 ≤ env.cols matrix → ∀ c ∈ schur_iterate_calls env matU matrix skipU,
      1 ≤ c.1 ∧ c.1 < env.cols matrix ∧ 1 ≤ c.2 ∧ c.2 < 30) ∧
    (∀ n iu iter : Int, 1 ≤ iu → iu < n →
      ((∀ p ∈ computeShift_reads iu iter, 0 ≤ p.1 ∧ p.1 < n ∧ 0 ≤ p.2 ∧ p.2 < n) ↔
        ¬ ((iter = 10 ∨ iter = 20) ∧ iu = 1))) ∧
    (0, -1) ∈ computeShift_reads 1 10 ∧
    stuckEnv.cols (2, 5) = 2 ∧
    (1, 10) ∈ schur_iterate_calls stuckEnv (fun _ _ => 0) (2, 5) false ∧
    computeShift stuckEnv (fun i j => if i = 0 ∧ j = -1 then 7 else 5) 1 10 = 12 ∧
    computeShift stuckEnv (fun _ _ => 5) 1 10 = 10 := by
  refine ⟨computeShift_reads_sound env, ?_, ?_, by decide, rfl, by decide, ?_, ?_⟩
  · intro hn c hc
    unfold schur_iterate_calls at hc
    exact schur_loop_traced_range env skipU _ _ _ (le_refl _) (by simp only; omega) (by simp only; omega)
      c hc
  · intro n iu iter h1 hlt
    unfold computeShift_reads
    by_cases hx : iter = 10 ∨ iter = 20
    · rw [if_pos hx]
      constructor
      · intro h hc
        have := h (iu - 1, iu - 2) (by simp)
        simp only at this
        omega
      · intro h p hp
        have h2 : iu ≠ 1 := fun e => h ⟨hx, e⟩
        simp only [List.mem_cons, List.mem_singleton, List.not_mem_nil, or_false] at hp
        rcases hp with hp | hp <;> rw [hp] <;> simp only <;> omega
    · rw [if_neg hx]
      constructor
      · intro _ hc
        exact hx hc.1
      · intro _ p hp
        simp only [List.mem_cons, List.mem_singleton, List.not_mem_nil, or_false] at hp
        rcases hp with hp | hp | hp | hp <;> rw [hp] <;> simp only <;> omega
  · norm_num [computeShift, stuckEnv]
  · norm_num [computeShift, stuckEnv]

end EigenSchur

namespace EigenProduct

theorem wrap_zero (signed : Bool) (w : Nat) : wrap signed w 0 = 0 := by
  unfold wrap
  cases signed <;> simp

theorem wrap_one_mul (signed : Bool) (w : Nat) (x : Int) :
    wrap signed w (wrap signed w 1 * x) = wrap signed w x := by
  unfold wrap
  cases signed
  · simp only [Bool.false_eq_true, if_false]
    rw [Int.mul_emod, Int.emod_emod, ← Int.mul_emod, one_mul]
  · simp only [if_true]
    rw [Int.bmod_mul_bmod, one_mul]

/-- The dynamic loop of `Product::_read` over `cols = k + 1` columns computes what the unrolled
recursion `ProductUnroller<k, ..>` computes. -/
theorem loop_eq_unrolled {α : Type} (add mul : α → α → α) (lhs rhs : Int → Int → α) (row col : Int)
    (k : Nat) :
    (EigenGebp.forRange 1 ((k + 1 : Nat) : Int) 1).foldl
        (fun res i => add res (mul (lhs row i) (rhs i col))) (mul (lhs row 0) (rhs 0 col))
      = ProductUnroller_run add mul lhs rhs row col k := by
  have h : ((k + 1 : Nat) : Int) = 1 + (k : Int) := by push_cast; ring
  rw [h, EigenGebp.forRange_one]
  clear h
  induction k with
  | zero => simp [ProductUnroller_run]
  | succ k ih =>
    rw [List.range_succ, List.map_append, List.foldl_append, ih]
    simp only [List.map_cons, List.map_nil, List.foldl_cons, List.foldl_nil, ProductUnroller_run]
    have e : (1 : Int) + (k : Int) = ((k + 1 : Nat) : Int) := by push_cast; ring
    rw [e]

theorem unrolled_identity (signed : Bool) (w : Nat) (m : Int → Int → Int) (row col : Int)
    (hr0 : 0 ≤ row) (hm : wrap signed w (m row col) = m row col) (k : Nat) :
    ProductUnroller_run (scalarAdd signed w) (scalarMul signed w) (Identity signed w) m row col k
      = if row ≤ k then m row col else 0 := by
  induction k with
  | zero =>
    simp only [ProductUnroller_run, scalarMul, Identity]
    by_cases h : row = 0
    · subst h
      simp only [if_true, Nat.cast_zero, le_refl]
      rw [wrap_one_mul, hm]
    · rw [if_neg h, if_neg (by push_cast; omega), wrap_zero, zero_mul, wrap_zero]
  | succ k ih =>
    simp only [ProductUnroller_run, ih, scalarMul, scalarAdd, Identity]
    by_cases h : row = ((k + 1 : Nat) : Int)
    · rw [if_pos h, if_neg (by omega), if_pos (by omega), wrap_one_mul, ← h, hm, zero_add, hm]
    · rw [if_neg h, wrap_zero, zero_mul, wrap_zero, add_zero]
      by_cases h2 : row ≤ (k : Int)
      · rw [if_pos h2, if_pos (by push_cast; omega), hm]
      · rw [if_neg h2, if_neg (by push_cast at h ⊢; omega), wrap_zero]

/-- C22. The identity is a left unit of the lazy matrix product over an integer type of `w` bits (signed or
not, arithmetic modulo `2^w`): for the `n x n` identity and a matrix `m` with `n ≥ 1` rows,
`Product::_read(row, col)` returns `m(row, col)` exactly for every row `0 ≤ row < n`, on the unrolled path
(`ColsAtCompileTime = n ≤ 16`) and on the dynamic loop (`ColsAtCompileTime` dynamic, or above 16). -/
theorem product_identity_left (signed : Bool) (w n : Nat) (hn : 0 < n) (m : Int → Int → Int)
    (row col : Int) (hr0 : 0 ≤ row) (hr : row < n)
    (hm : wrap signed w (m row col) = m row col)
    (ColsAtCompileTime : Option Nat) (hC : ColsAtCompileTime = none ∨ ColsAtCompileTime = some n) :
    Product_read (scalarAdd signed w) (scalarMul signed w) ColsAtCompileTime (Identity signed w) m n row col
      = m row col := by
  have hrun := unrolled_identity signed w m row col hr0 hm (n - 1)
  rw [if_pos (by omega)] at hrun
  have hloop := loop_eq_unrolled (scalarAdd signed w) (scalarMul signed w) (Identity signed w) m row col
    (n - 1)
  rw [show n - 1 + 1 = n by omega, hrun] at hloop
  unfold Product_read
  rcases hC with h | h
  · rw [h]
    exact hloop
  · rw [h]
    simp only []
    by_cases h16 : n ≤ 16
    · rw [if_pos h16]; exact hrun
    · rw [if_neg h16]; exact hloop

theorem product_identity_left_witness :
    ((0 < 3 ∧ (0 : Int) ≤ 2 ∧ (2 : Int) < (3 : Nat)) ∧
      wrap false 8 ((fun i j => 50 * i + 7 * j + 100 : Int → Int → Int) 2 1) = 207) ∧
    Product_read (scalarAdd false 8) (scalarMul false 8) (some 3) (Identity false 8)
      (fun i j => 50 * i + 7 * j + 100) ((3 : Nat) : Int) 2 1 = 207 ∧
    Product_read (scalarAdd true 8) (scalarMul true 8) none (Identity true 8)
      (fun i j => 50 * i + 7 * j - 100) ((3 : Nat) : Int) 2 1 = 7 :=
  ⟨⟨⟨by decide, by decide, by decide⟩, by decide⟩,
    product_identity_left false 8 3 (by decide) (fun i j => 50 * i + 7 * j + 100) 2 1 (by decide)
      (by decide) (by decide) (some 3) (Or.inr rfl),
    product_identity_left true 8 3 (by decide) (fun i j => 50 * i + 7 * j - 100) 2 1 (by decide)
      (by decide) (by decide) none (Or.inl rfl)⟩

theorem unrolled_eq_sum {α : Type} (add mul : α → α → α) (lhs rhs : Int → Int → α) (row col : Int)
    (k : Nat) :
    ProductUnroller_run add mul lhs rhs row col k = sum_increasing add mul lhs rhs row col (k + 1) := by
  unfold sum_increasing
  rw [Nat.add_sub_cancel]
  induction k with
  | zero => simp [ProductUnroller_run]
  | succ k ih =>
    rw [List.range_succ, List.map_append, List.foldl_append, ← ih]
    simp [ProductUnroller_run]

/-- C36. The unrolled and the looped coefficient of the product agree. For every inner size `n` with
`1 ≤ n ≤ 16` and any operators `+`, `*` of the scalar type (no algebraic law is used):
`ProductUnroller<n-1, n, Lhs, Rhs>::run` leaves in `res` the sum of `lhs(row,i)*rhs(i,col)` for
`i = 0, ..., n-1`, added in increasing `i`; `Product::_read` with `ColsAtCompileTime = n` returns this value
through the unroller, and the dynamic loop of `Product::_read` for `m_lhs.cols() = n` returns the same
value. -/
theorem product_unrolled_eq_loop {α : Type} (add mul : α → α → α) (lhs rhs : Int → Int → α)
    (row col : Int) (n : Nat) (h1 : 1 ≤ n) (h16 : n ≤ 16) :
    ProductUnroller_run add mul lhs rhs row col (n - 1) = sum_increasing add mul lhs rhs row col n ∧
    Product_read add mul (some n) lhs rhs n row col
      = ProductUnroller_run add mul lhs rhs row col (n - 1) ∧
    Product_read add mul none lhs rhs n row col = sum_increasing add mul lhs rhs row col n ∧
    Product_read add mul (some n) lhs rhs n row col = Product_read add mul none lhs rhs n row col := by
  have hs := unrolled_eq_sum add mul lhs rhs row col (n - 1)
  rw [Nat.sub_add_cancel h1] at hs
  have hl := loop_eq_unrolled add mul lhs rhs row col (n - 1)
  rw [Nat.sub_add_cancel h1] at hl
  have hu : Product_read add mul (some n) lhs rhs n row col
      = ProductUnroller_run add mul lhs rhs row col (n - 1) := by
    unfold Product_read
    simp only []
    rw [if_pos h16]
  have hd : Product_read add mul none lhs rhs n row col
      = ProductUnroller_run add mul lhs rhs row col (n - 1) := by
    unfold Product_read
    exact hl
  exact ⟨hs, hu, hd.trans hs, hu.trans hd.symm⟩

theorem product_unrolled_eq_loop_witness :
    (1 ≤ 3 ∧ 3 ≤ 16) ∧
    sum_increasing (fun a b => a - b) (fun a b => a * b) (fun i j => i + 2 * j + 1 : Int → Int → Int)
      (fun i j => 3 * i + j + 1) 1 2 3 = -72 ∧
    ProductUnroller_run (fun a b => a - b) (fun a b => a * b) (fun i j => i + 2 * j + 1 : Int → Int → Int)
      (fun i j => 3 * i + j + 1) 1 2 (3 - 1) = -72 ∧
    Product_read (fun a b => a - b) (fun a b => a * b) none (fun i j => i + 2 * j + 1 : Int → Int → Int)
      (fun i j => 3 * i + j + 1) ((3 : Nat) : Int) 1 2 = -72 :=
  ⟨⟨by decide, by decide⟩, by decide,
    (product_unrolled_eq_loop (fun a b => a - b) (fun a b => a * b) (fun i j => i + 2 * j + 1)
      (fun i j => 3 * i + j + 1) 1 2 3 (by decide) (by decide)).1.trans (by decide),
    (product_unrolled_eq_loop (fun a b => a - b) (fun a b => a * b) (fun i j => i + 2 * j + 1)
      (fun i j => 3 * i + j + 1) 1 2 3 (by decide) (by decide)).2.2.1.trans (by decide)⟩

end EigenProduct

namespace EigenMap

theorem land_fifteen (a : Nat) : a &&& 0xf = a % 16 := Nat.and_pow_two_sub_one_eq_mod a 4

theorem checkSanity_ok_iff (AlignedBit PacketAccessBit Flags m_data : Nat) (innerStride : Int) :
    checkSanity AlignedBit PacketAccessBit Flags m_data innerStride = Except.ok () ↔
      ((Flags &&& AlignedBit = 0 ∨ m_data % 16 = 0) ∧ (Flags &&& PacketAccessBit = 0 ∨ innerStride = 1)) := by
  unfold checkSanity
  rw [land_fifteen]
  by_cases h1 : Flags &&& AlignedBit = 0 <;> by_cases h2 : m_data % 16 = 0 <;>
    by_cases h3 : Flags &&& PacketAccessBit = 0 <;> by_cases h4 : innerStride = 1 <;>
    simp [h1, h2, h3, h4]

theorem checkSanity_misaligned (AlignedBit PacketAccessBit Flags m_data : Nat) (innerStride : Int)
    (hf : Flags &&& AlignedBit ≠ 0) (ha : m_data % 16 ≠ 0) :
    checkSanity AlignedBit PacketAccessBit Flags m_data innerStride = Except.error "data is not aligned" := by
  unfold checkSanity
  rw [land_fifteen]
  simp [hf, ha]

/-- C23. `checkSanity` on a map type that carries the Aligned flag fails with "data is not aligned" when
the address is not a multiple of 16, and so do the constructors whose own assertions pass; it passes when
the address is a multiple of 16 and the inner stride is 1 in case packet access is flagged. On a map type
without the Aligned flag the outcome does not depend on the address, and every address is accepted (under
the same condition on the inner stride). -/
theorem map_checkSanity_aligned (AlignedBit PacketAccessBit Flags m_data : Nat) (innerStride : Int) :
    (Flags &&& AlignedBit ≠ 0 → m_data % 16 ≠ 0 →
      checkSanity AlignedBit PacketAccessBit Flags m_data innerStride = Except.error "data is not aligned" ∧
      (∀ (R C S : Option Int) (size : Int), 0 ≤ size → (S = none ∨ S = some size) →
        MapBase.ctorVector AlignedBit PacketAccessBit Flags R C S innerStride m_data size
          = Except.error "data is not aligned") ∧
      (∀ (R C : Option Int) (rows cols : Int), 0 ≤ rows → 0 ≤ cols → (R = none ∨ R = some rows) →
        (C = none ∨ C = some cols) →
        MapBase.ctorMatrix AlignedBit PacketAccessBit Flags R C innerStride m_data rows cols
          = Except.error "data is not aligned")) ∧
    (Flags &&& AlignedBit ≠ 0 → m_data % 16 = 0 → (Flags &&& PacketAccessBit ≠ 0 → innerStride = 1) →
      checkSanity AlignedBit PacketAccessBit Flags m_data innerStride = Except.ok () ∧
      (∀ (R C S : Option Int) (size : Int), 0 ≤ size → (S = none ∨ S = some size) →
        MapBase.ctorVector AlignedBit PacketAccessBit Flags R C S innerStride m_data size
          = Except.ok { m_data := m_data, m_rows := R.getD size, m_cols := C.getD size })) ∧
    (Flags &&& AlignedBit = 0 →
      (∀ addr : Nat, checkSanity AlignedBit PacketAccessBit Flags addr innerStride
        = checkSanity AlignedBit PacketAccessBit Flags m_data innerStride) ∧
      ((Flags &&& PacketAccessBit ≠ 0 → innerStride = 1) →
        checkSanity AlignedBit PacketAccessBit Flags m_data innerStride = Except.ok ())) := by
  refine ⟨?_, ?_, ?_⟩
  · intro hf ha
    have h := checkSanity_misaligned AlignedBit PacketAccessBit Flags m_data innerStride hf ha
    refine ⟨h, ?_, ?_⟩
    · intro R C S size hs hS
      unfold MapBase.ctorVector
      rw [h]
      rcases hS with hS | hS <;> simp [hs, hS]
    · intro R C rows cols hr hc hR hC
      unfold MapBase.ctorMatrix
      rw [h]
      rcases hR with hR | hR <;> rcases hC with hC | hC <;> simp [hr, hc, hR, hC]
  · intro hf ha hp
    have h : checkSanity AlignedBit PacketAccessBit Flags m_data innerStride = Except.ok () :=
      (checkSanity_ok_iff _ _ _ _ _).2 ⟨Or.inr ha, by
        by_cases h3 : Flags &&& PacketAccessBit = 0
        · exact Or.inl h3
        · exact Or.inr (hp h3)⟩
    refine ⟨h, ?_⟩
    intro R C S size hs hS
    unfold MapBase.ctorVector
    rw [h]
    rcases hS with hS | hS <;> simp [hs, hS]
  · intro hf
    refine ⟨?_, ?_⟩
    · intro addr
      unfold checkSanity
      simp [hf]
    · intro hp
      exact (checkSanity_ok_iff _ _ _ _ _).2 ⟨Or.inl hf, by
        by_cases h3 : Flags &&& PacketAccessBit = 0
        · exact Or.inl h3
        · exact Or.inr (hp h3)⟩

end EigenMap

namespace EigenSparse

theorem lower_bound_from_spec (index : Int → Int) (i : Int) (len : Nat) (first : Int) :
    first ≤ lower_bound_from index i len first ∧ lower_bound_from index i len first ≤ first + len ∧
    (∀ k : Int, first ≤ k → k < lower_bound_from index i len first → index k < i) ∧
    (lower_bound_from index i len first < first + len → i ≤ index (lower_bound_from index i len first)) := by
  induction len generalizing first with
  | zero =>
    simp only [lower_bound_from]
    refine ⟨le_refl _, by simp, fun k h1 h2 => by omega, fun h => by simp at h⟩
  | succ len ih =>
    simp only [lower_bound_from]
    by_cases h : index first < i
    · rw [if_pos h]
      obtain ⟨h1, h2, h3, h4⟩ := ih (first + 1)
      refine ⟨by omega, by push_cast; omega, ?_, ?_⟩
      · intro k hk1 hk2
        by_cases hk : k = first
        · rw [hk]; exact h
        · exact h3 k (by omega) hk2
      · intro hlt
        exact h4 (by push_cast at hlt; omega)
    · rw [if_neg h]
      refine ⟨le_refl _, by push_cast; omega, fun k h1 h2 => by omega, fun _ => not_lt.1 h⟩

/-- C34. `SparseVector::coeff(i)` is a correct lookup: when the `n` stored indices are strictly increasing,
`coeff(i)` returns the value stored with index `i` if `i` is one of the stored indices, and zero
otherwise; this holds for every `n` (0, 1 or more) and for every `i`, the last stored index and the
indices above all stored ones included. -/
theorem sparse_coeff_lookup {α : Type} [Zero α] (v : SparseVector α) (n : Nat)
    (hn : v.m_data.size = n)
    (hs : ∀ p q : Nat, p < q → q < n → v.m_data.index p < v.m_data.index q) (i : Int) :
    (∀ p : Nat, p < n → v.m_data.index p = i → v.coeff i = v.m_data.value p) ∧
    ((∀ p : Nat, p < n → v.m_data.index p ≠ i) → v.coeff i = 0) := by
  have hinj : ∀ p q : Nat, p < n → q < n → v.m_data.index p = v.m_data.index q → p = q := by
    intro p q hp hq h
    rcases Nat.lt_trichotomy p q with h1 | h1 | h1
    · have := hs p q h1 hq; omega
    · exact h1
    · have := hs q p h1 hp; omega
  unfold SparseVector.coeff
  simp only []
  rw [hn]
  by_cases h0 : n = 0
  · subst h0
    rw [if_pos (by simp)]
    exact ⟨fun p hp => absurd hp (Nat.not_lt_zero _), fun _ => rfl⟩
  · rw [if_neg (by omega)]
    have hlast : ((n : Int) - 1) = ((n - 1 : Nat) : Int) := by omega
    by_cases h1 : (n : Int) > 0 ∧ i = v.m_data.index ((n : Int) - 1)
    · rw [if_pos h1]
      refine ⟨?_, ?_⟩
      · intro p hp hpi
        have : p = n - 1 := hinj p (n - 1) hp (by omega) (by rw [hpi, h1.2, hlast])
        rw [this, hlast]
      · intro hno
        exfalso
        apply hno (n - 1) (by omega)
        rw [← hlast, ← h1.2]
    · rw [if_neg h1]
      have hnl : i ≠ v.m_data.index ((n - 1 : Nat) : Int) := by
        intro h
        apply h1
        rw [hlast]
        exact ⟨by omega, h⟩
      unfold lower_bound
      obtain ⟨b1, b2, b3, b4⟩ := lower_bound_from_spec v.m_data.index i ((n : Int) - 1 - 0).toNat 0
      have hlen : ((((n : Int) - 1 - 0).toNat : Nat) : Int) = ((n - 1 : Nat) : Int) := by omega
      rw [hlen] at b2 b4
      generalize lower_bound_from v.m_data.index i ((n : Int) - 1 - 0).toNat 0 = r at b1 b2 b3 b4 ⊢
      obtain ⟨rn, rfl⟩ : ∃ rn : Nat, r = (rn : Int) := ⟨r.toNat, by omega⟩
      have hrn : rn ≤ n - 1 := by omega
      by_cases h2 : v.m_data.index (rn : Int) = i ∧ (rn : Int) - 0 < (n : Int)
      · rw [if_pos h2]
        refine ⟨?_, ?_⟩
        · intro p hp hpi
          have : p = rn := hinj p rn hp (by omega) (by rw [hpi, h2.1])
          rw [this, sub_zero]
        · intro hno
          exact absurd h2.1 (hno rn (by omega))
      · rw [if_neg h2]
        refine ⟨?_, fun _ => rfl⟩
        intro p hp hpi
        exfalso
        have hri : v.m_data.index (rn : Int) ≠ i := fun h => h2 ⟨h, by omega⟩
        rcases Nat.lt_trichotomy p rn with h3 | h3 | h3
        · have := b3 p (by omega) (by exact_mod_cast h3)
          omega
        · rw [h3] at hpi
          exact hri hpi
        · have hrlt : rn < n - 1 := by
            rcases Nat.lt_or_eq_of_le hrn with h | h
            · exact h
            · exfalso
              have hp' : p < n := hp
              omega
          have h5 := b4 (by simp only [zero_add]; exact_mod_cast hrlt)
          have h6 := hs rn p h3 hp
          omega

theorem sparse_coeff_lookup_witness :
    (⟨⟨fun k => 10 * k + 3, fun k => 100 + k, 4⟩, 50⟩ : SparseVector Int).m_data.size = ((4 : Nat) : Int) ∧
    (⟨⟨fun k => 10 * k + 3, fun k => 100 + k, 4⟩, 50⟩ : SparseVector Int).coeff 23 = 102 ∧
    (⟨⟨fun k => 10 * k + 3, fun k => 100 + k, 4⟩, 50⟩ : SparseVector Int).coeff 33 = 103 ∧
    (⟨⟨fun k => 10 * k + 3, fun k => 100 + k, 4⟩, 50⟩ : SparseVector Int).coeff 24 = 0 ∧
    (⟨⟨fun k => 10 * k + 3, fun k => 100 + k, 4⟩, 50⟩ : SparseVector Int).coeff 40 = 0 :=
  ⟨rfl,
    ((sparse_coeff_lookup (⟨⟨fun k => 10 * k + 3, fun k => 100 + k, 4⟩, 50⟩ : SparseVector Int) 4 rfl
      (by intro p q hpq hq; simp only; omega) 23).1 2 (by decide) (by decide)).trans (by decide),
    by decide, by decide, by decide⟩

theorem fillrand_loop_spec {α : Type} (i : Int) (m : Nat) (d : SparseArray α) :
    -1 ≤ (fillrand_loop i m d).2 ∧ (fillrand_loop i m d).2 < m ∧
    (fillrand_loop i m d).1.size = d.size ∧
    (∀ k : Int, (fillrand_loop i m d).2 < k → k < m → i < d.index k) ∧
    (0 ≤ (fillrand_loop i m d).2 → d.index (fillrand_loop i m d).2 ≤ i) ∧
    (∀ k : Int, (fillrand_loop i m d).1.index k =
      if (fillrand_loop i m d).2 + 2 ≤ k ∧ k ≤ m then d.index (k - 1) else d.index k) ∧
    (∀ k : Int, (fillrand_loop i m d).1.value k =
      if (fillrand_loop i m d).2 + 2 ≤ k ∧ k ≤ m then d.value (k - 1) else d.value k) := by
  induction m generalizing d with
  | zero =>
    simp only [fillrand_loop]
    refine ⟨le_refl _, by simp, trivial, fun k h1 h2 => by simp at h2; omega, fun h => by omega, ?_, ?_⟩
    · intro k
      rw [if_neg (by simp; omega)]
    · intro k
      rw [if_neg (by simp; omega)]
  | succ m ih =>
    simp only [fillrand_loop]
    by_cases h : d.index (m : Int) > i
    · rw [if_pos h]
      obtain ⟨h1, h2, h3, h4, h5, h6, h7⟩ := ih
        { index := Function.update d.index ((m : Int) + 1) (d.index (m : Int)),
          value := Function.update d.value ((m : Int) + 1) (d.value (m : Int)),
          size := d.size }
      generalize fillrand_loop i m
        { index := Function.update d.index ((m : Int) + 1) (d.index (m : Int)),
          value := Function.update d.value ((m : Int) + 1) (d.value (m : Int)),
          size := d.size } = r at h1 h2 h3 h4 h5 h6 h7 ⊢
      simp only [] at h3 h4 h5 h6 h7
      refine ⟨h1, by push_cast; omega, h3, ?_, ?_, ?_, ?_⟩
      · intro k hk1 hk2
        by_cases hk : k = (m : Int)
        · rw [hk]; exact h
        · have := h4 k hk1 (by push_cast at hk2; omega)
          rwa [Function.update_noteq (by omega)] at this
      · intro h0
        have := h5 h0
        rwa [Function.update_noteq (by omega)] at this
      · intro k
        rw [h6 k]
        by_cases c1 : r.2 + 2 ≤ k ∧ k ≤ (m : Int)
        · rw [if_pos c1, if_pos ⟨c1.1, by push_cast; omega⟩, Function.update_noteq (by omega)]
        · rw [if_neg c1]
          by_cases c2 : k = (m : Int) + 1
          · rw [c2, Function.update_same, if_pos ⟨by omega, by push_cast; omega⟩]
            congr 1
            omega
          · rw [Function.update_noteq c2, if_neg (by push_cast; omega)]
      · intro k
        rw [h7 k]
        by_cases c1 : r.2 + 2 ≤ k ∧ k ≤ (m : Int)
        · rw [if_pos c1, if_pos ⟨c1.1, by push_cast; omega⟩, Function.update_noteq (by omega)]
        · rw [if_neg c1]
          by_cases c2 : k = (m : Int) + 1
          · rw [c2, Function.update_same, if_pos ⟨by omega, by push_cast; omega⟩]
            congr 1
            omega
          · rw [Function.update_noteq c2, if_neg (by push_cast; omega)]
    · rw [if_neg h]
      simp only []
      refine ⟨by omega, by push_cast; omega, trivial, fun k hk1 hk2 => by push_cast at hk2; omega,
        fun _ => not_lt.1 h, ?_, ?_⟩
      · intro k
        rw [if_neg (by push_cast; omega)]
      · intro k
        rw [if_neg (by push_cast; omega)]

/-- C35. `SparseVector::fillrand(i)` on a vector with `n` stored entries: `nonZeros()` grows by exactly
1; the returned reference designates a position `p` with `0 ≤ p ≤ n` that holds index `i` and value 0;
the entries before `p` are unchanged and the entries from `p` on are moved up by one position, so every
stored (index, value) pair is still present in the same relative order; the entries before `p` that are
compared by the loop are not greater than `i` and those moved up are greater than `i`; and if the stored
indices were sorted before the call, they are sorted after it. -/
theorem sparse_fillrand_sorted {α : Type} [Zero α] (v : SparseVector α) (n : Nat)
    (hn : v.m_data.size = n) (i : Int) :
    (v.fillrand i).1.nonZeros = v.nonZeros + 1 ∧
    (v.fillrand i).1.m_size = v.m_size ∧
    0 ≤ (v.fillrand i).2 ∧ (v.fillrand i).2 ≤ n ∧
    (v.fillrand i).1.m_data.index (v.fillrand i).2 = i ∧
    (v.fillrand i).1.m_data.value (v.fillrand i).2 = 0 ∧
    (∀ k : Int, 0 ≤ k → k < (v.fillrand i).2 →
      (v.fillrand i).1.m_data.index k = v.m_data.index k ∧
      (v.fillrand i).1.m_data.value k = v.m_data.value k) ∧
    (∀ k : Int, (v.fillrand i).2 ≤ k → k < n →
      (v.fillrand i).1.m_data.index (k + 1) = v.m_data.index k ∧
      (v.fillrand i).1.m_data.value (k + 1) = v.m_data.value k ∧ i < v.m_data.index k) ∧
    ((∀ a b : Int, 0 ≤ a → a ≤ b → b < n → v.m_data.index a ≤ v.m_data.index b) →
      (∀ a b : Int, 0 ≤ a → a ≤ b → b < (v.fillrand i).1.nonZeros →
        (v.fillrand i).1.m_data.index a ≤ (v.fillrand i).1.m_data.index b)) := by
  have hm : (v.m_data.size - 1 + 1 - 0).toNat = n := by omega
  obtain ⟨h1, h2, h3, h4, h5, h6, h7⟩ :=
    fillrand_loop_spec i n (v.m_data.resize (v.m_data.size - 1 + 2))
  have hfi : ∀ k : Int, (v.fillrand i).1.m_data.index k =
      Function.update (fillrand_loop i n (v.m_data.resize (v.m_data.size - 1 + 2))).1.index
        ((fillrand_loop i n (v.m_data.resize (v.m_data.size - 1 + 2))).2 + 1) i k := by
    intro k
    simp only [SparseVector.fillrand, hm]
  have hfv : ∀ k : Int, (v.fillrand i).1.m_data.value k =
      Function.update (fillrand_loop i n (v.m_data.resize (v.m_data.size - 1 + 2))).1.value
        ((fillrand_loop i n (v.m_data.resize (v.m_data.size - 1 + 2))).2 + 1) 0 k := by
    intro k
    simp only [SparseVector.fillrand, hm]
  have hfp : (v.fillrand i).2 =
      (fillrand_loop i n (v.m_data.resize (v.m_data.size - 1 + 2))).2 + 1 := by
    simp only [SparseVector.fillrand, hm]
  have hfs : (v.fillrand i).1.nonZeros =
      (fillrand_loop i n (v.m_data.resize (v.m_data.size - 1 + 2))).1.size := by
    simp only [SparseVector.fillrand, SparseVector.nonZeros, hm]
  have hfm : (v.fillrand i).1.m_size = v.m_size := by
    simp only [SparseVector.fillrand]
  have hrs : (v.m_data.resize (v.m_data.size - 1 + 2)).size = v.m_data.size + 1 := by
    simp only [SparseArray.resize]; omega
  have hri : (v.m_data.resize (v.m_data.size - 1 + 2)).index = v.m_data.index := rfl
  have hrv : (v.m_data.resize (v.m_data.size - 1 + 2)).value = v.m_data.value := rfl
  rw [hri] at h4 h5 h6
  rw [hrv] at h7
  rw [hrs] at h3
  generalize fillrand_loop i n (v.m_data.resize (v.m_data.size - 1 + 2)) = r at *
  generalize v.fillrand i = f at *
  have hlow : ∀ k : Int, 0 ≤ k → k < f.2 →
      f.1.m_data.index k = v.m_data.index k ∧ f.1.m_data.value k = v.m_data.value k := by
    intro k hk0 hk
    rw [hfi, hfv, Function.update_noteq (by omega), Function.update_noteq (by omega), h6, h7,
      if_neg (by omega), if_neg (by omega)]
    exact ⟨rfl, rfl⟩
  have hhigh : ∀ k : Int, f.2 ≤ k → k < n →
      f.1.m_data.index (k + 1) = v.m_data.index k ∧
      f.1.m_data.value (k + 1) = v.m_data.value k ∧ i < v.m_data.index k := by
    intro k hk0 hk
    rw [hfi, hfv, Function.update_noteq (by omega), Function.update_noteq (by omega), h6, h7,
      if_pos ⟨by omega, by omega⟩, if_pos ⟨by omega, by omega⟩]
    refine ⟨by congr 1; omega, by congr 1; omega, h4 k (by omega) hk⟩
  have hat : f.1.m_data.index f.2 = i := by
    rw [hfi, hfp, Function.update_same]
  refine ⟨by rw [hfs, h3]; rfl, hfm, by omega, by omega, hat,
    by rw [hfv, hfp, Function.update_same], hlow, hhigh, ?_⟩
  intro hsorted a b ha hab hb
  rw [hfs, h3, hn] at hb
  have hbelow : ∀ k : Int, 0 ≤ k → k < f.2 → v.m_data.index k ≤ i := by
    intro k hk0 hk
    have h50 := h5 (by omega)
    have := hsorted k r.2 hk0 (by omega) (by omega)
    omega
  rcases lt_trichotomy a f.2 with ca | ca | ca
  · rw [(hlow a ha ca).1]
    rcases lt_trichotomy b f.2 with cb | cb | cb
    · rw [(hlow b (by omega) cb).1]
      exact hsorted a b ha hab (by omega)
    · rw [cb, hat]
      exact hbelow a ha ca
    · have e := hhigh (b - 1) (by omega) (by omega)
      rw [sub_add_cancel] at e
      rw [e.1]
      have := hbelow a ha ca
      omega
  · rw [ca, hat]
    rcases lt_or_eq_of_le hab with cb | cb
    · have e := hhigh (b - 1) (by omega) (by omega)
      rw [sub_add_cancel] at e
      rw [e.1]
      omega
    · rw [← cb, ca, hat]
  · have ea := hhigh (a - 1) (by omega) (by omega)
    rw [sub_add_cancel] at ea
    have eb := hhigh (b - 1) (by omega) (by omega)
    rw [sub_add_cancel] at eb
    rw [ea.1, eb.1]
    exact hsorted (a - 1) (b - 1) (by omega) (by omega) (by omega)

theorem sparse_fillrand_sorted_witness :
    (⟨⟨fun k => 10 * k + 3, fun k => 100 + k, 4⟩, 50⟩ : SparseVector Int).m_data.size = ((4 : Nat) : Int) ∧
    ((⟨⟨fun k => 10 * k + 3, fun k => 100 + k, 4⟩, 50⟩ : SparseVector Int).fillrand 17).2 = 2 ∧
    ((⟨⟨fun k => 10 * k + 3, fun k => 100 + k, 4⟩, 50⟩ : SparseVector Int).fillrand 17).1.nonZeros = 5 ∧
    (List.range 5).map (fun (k : Nat) =>
      (((⟨⟨fun k => 10 * k + 3, fun k => 100 + k, 4⟩, 50⟩ : SparseVector Int).fillrand 17).1.m_data.index k,
       ((⟨⟨fun k => 10 * k + 3, fun k => 100 + k, 4⟩, 50⟩ : SparseVector Int).fillrand 17).1.m_data.value k))
      = [(3, 100), (13, 101), (17, 0), (23, 102), (33, 103)] :=
  ⟨rfl, by decide,
    (sparse_fillrand_sorted (⟨⟨fun k => 10 * k + 3, fun k => 100 + k, 4⟩, 50⟩ : SparseVector Int) 4 rfl
      17).1.trans (by decide),
    by decide⟩

end EigenSparse
